import Mathlib

/-!
The history store of clink (`clink/app/src/history/history_db.cpp`)

A shallow embedding of the bank files, the sliding-window file iterator, the line
iterator, the read and write views and the store facade, followed by theorems about
them.

Conventions of the embedding.

* A byte is a natural number (`Nat`); a bank file is the list of its bytes together
  with the file pointer of the handle. The tests `unsigned(c) > 0x1f` of the source become
  `0x1f < c` (a `char` of value `0x80` or more converts to a large unsigned number).
* A C string (`const char*`) is the list of its bytes; reading at or past the end of
  the list reads the terminating NUL.
* 32-bit unsigned arithmetic that can wrap is written with an explicit `% 2 ^ 32`, the
  29-bit `offset` field of a line id with `% 2 ^ 29`.
* A pointer into the scan buffer is the index of the byte it points at.
* Loops whose trip count is not structurally bounded take a fuel argument and return
  `none` when it runs out; the theorems show that the fuel supplied by the callers is
  enough.
* Locking (`LockFileEx`/`UnlockFileEx`) has no effect inside one process and is left
  out; a lock is the handle it guards.
-/

namespace Clink

/-! ## Win32 file primitives -/

/-- An open file handle: the bytes of the file and the handle's file pointer. -/
structure File where
  data : List Nat
  ptr : Nat
  deriving DecidableEq, Repr

/-- `GetFileSize(handle, nullptr)`: the low 32 bits of the file size. -/
def GetFileSize (h : File) : Nat := h.data.length % 2 ^ 32

/-- `SetFilePointer(handle, pos, nullptr, FILE_BEGIN)`: the distance is a signed 32-bit
`LONG`; a negative one makes the call fail and leaves the pointer where it was. -/
def SetFilePointerBegin (h : File) (pos : Nat) : File :=
  if pos % 2 ^ 32 < 2 ^ 31 then { h with ptr := pos % 2 ^ 32 } else h

/-- `SetFilePointer(handle, 0, nullptr, FILE_CURRENT)`: the low 32 bits of the file
pointer. -/
def SetFilePointerCurrent (h : File) : Nat := h.ptr % 2 ^ 32

/-- `SetFilePointer(handle, 0, nullptr, FILE_END)`. -/
def SetFilePointerEnd (h : File) : File := { h with ptr := h.data.length }

/-- `SetEndOfFile(handle)`: the file ends at the file pointer (zero filled when the
pointer is past the old end). -/
def SetEndOfFile (h : File) : File :=
  { h with data := h.data.take h.ptr ++ List.replicate (h.ptr - h.data.length) 0 }

/-- `ReadFile(handle, target, needed, &read, nullptr)`: the bytes read, and the handle
with its pointer advanced. -/
def ReadFile (h : File) (needed : Nat) : List Nat × File :=
  let bytes := (h.data.drop h.ptr).take needed
  (bytes, { h with ptr := h.ptr + bytes.length })

/-- `WriteFile(handle, bytes, n, &written, nullptr)`: overwrite at the file pointer,
growing the file when the write reaches past its end (a gap is zero filled). -/
def WriteFile (h : File) (bytes : List Nat) : File :=
  { data := h.data.take h.ptr ++ List.replicate (h.ptr - h.data.length) 0 ++ bytes
              ++ h.data.drop (h.ptr + bytes.length)
    ptr := h.ptr + bytes.length }

/-! ## C string helpers -/

/-- The byte `line[i]` of a NUL-terminated string. -/
def cstr_at (line : List Nat) (i : Nat) : Nat := line.getD i 0

/-- The function `strlen`. -/
def strlen (line : List Nat) : Nat := (line.takeWhile (fun c => c != 0)).length

/-- The call `strncmp(line, read, n) != 0` where `read` holds at least `n` bytes: the
comparison stops at the first difference, at a NUL, or after `n` bytes. -/
def strncmp_ne : List Nat → List Nat → Nat → Bool
  | _, _, 0 => false
  | line, read, n + 1 =>
    if cstr_at line 0 ≠ cstr_at read 0 then true
    else if cstr_at line 0 = 0 then false
    else strncmp_ne line.tail read.tail n

/-! ## `LineIdImpl` -/

/-- The bit-field union `LineIdImpl`: `offset : 29`, `bank_index : 2`, `active : 1`. -/
structure LineIdImpl where
  offset : Nat
  bank_index : Nat
  active : Nat
  deriving DecidableEq, Repr

/-- The member `outer`: the 32-bit value that the three bit-fields overlay. -/
def LineIdImpl.outer (id : LineIdImpl) : Nat :=
  id.offset % 2 ^ 29 + 2 ^ 29 * (id.bank_index % 4) + 2 ^ 31 * (id.active % 2)

/-- Assigning `outer`: the three fields read back from a 32-bit value. -/
def LineIdImpl.of_outer (v : Nat) : LineIdImpl :=
  { offset := v % 2 ^ 29, bank_index := v / 2 ^ 29 % 4, active := v / 2 ^ 31 % 2 }

/-- The constructor `LineIdImpl()`: `outer = 0`. -/
def LineIdImpl.null : LineIdImpl := { offset := 0, bank_index := 0, active := 0 }

/-- The constructor `LineIdImpl(unsigned int o)`: `offset = o; active = 1`. The
constructor leaves `bank_index` unset; every path that hands the id out stamps it
first, and it is taken as 0 here. -/
def LineIdImpl.of_offset (o : Nat) : LineIdImpl :=
  { offset := o % 2 ^ 29, bank_index := 0, active := 1 }

/-- The conversion `operator bool`: `!!outer`. -/
def LineIdImpl.to_bool (id : LineIdImpl) : Bool := id.outer != 0

/-! ## `ReadLock::FileIter` -/

/-- The state of a `FileIter`; `m_buffer` is the caller's buffer, whose capacity is the
length of the list. The handle is passed to each operation. -/
structure FileIter where
  m_buffer : List Nat
  m_buffer_size : Nat
  m_buffer_offset : Nat
  m_remaining : Nat
  deriving DecidableEq, Repr

/-- `memmove(buffer, buffer + src, n)`. -/
def memmove_front (buffer : List Nat) (src n : Nat) : List Nat :=
  (buffer.drop src).take n ++ buffer.drop n

/-- The bytes `bytes` stored at `buffer + at_`. -/
def store_at (buffer : List Nat) (at_ : Nat) (bytes : List Nat) : List Nat :=
  buffer.take at_ ++ bytes ++ buffer.drop (at_ + bytes.length)

/-- The constructor `FileIter(lock, buffer, buffer_size)`, with `buffer_size` the
capacity of `buffer`. -/
def FileIter.init (h : File) (buffer : List Nat) : FileIter × File :=
  ({ m_buffer := buffer.set 0 0
     m_buffer_size := buffer.length
     m_buffer_offset := (2 ^ 32 - buffer.length % 2 ^ 32) % 2 ^ 32
     m_remaining := GetFileSize h },
   SetFilePointerBegin h 0)

/-- The method `FileIter::next(rollback)`. -/
def FileIter.next (fi : FileIter) (h : File) (rollback : Nat) : Nat × FileIter × File :=
  if fi.m_remaining = 0 then
    (0, { fi with m_buffer := fi.m_buffer.set 0 0 }, h)
  else
    let rollback := min rollback fi.m_buffer_size
    let moved :=
      if rollback ≠ 0 then memmove_front fi.m_buffer (fi.m_buffer_size - rollback) rollback
      else fi.m_buffer
    let offset := (fi.m_buffer_offset + (fi.m_buffer_size - rollback)) % 2 ^ 32
    let needed := min fi.m_remaining (fi.m_buffer_size - rollback)
    let (bytes, h1) := ReadFile h needed
    let read := bytes.length
    (read + rollback,
     { m_buffer := store_at moved rollback bytes
       m_buffer_size := read + rollback
       m_buffer_offset := offset
       m_remaining := fi.m_remaining - read },
     h1)

/-! ## `ReadLock::LineIter` -/

/-- The state of a `LineIter`. -/
structure LineIter where
  m_file_iter : FileIter
  m_remaining : Nat
  deriving DecidableEq, Repr

/-- The constructor `LineIter(lock, buffer, buffer_size)`. -/
def LineIter.init (h : File) (buffer : List Nat) : LineIter × File :=
  let (fi, h1) := FileIter.init h buffer
  ({ m_file_iter := fi, m_remaining := 0 }, h1)

/-- The method `LineIter::provision`. -/
def LineIter.provision (it : LineIter) (h : File) : Bool × LineIter × File :=
  let r := it.m_file_iter.next h it.m_remaining
  (r.1 != 0, { m_file_iter := r.2.1, m_remaining := r.1 }, r.2.2)

/-- The loop `for (; start != last; ++start, --m_remaining) if (unsigned(*start) > 0x1f)
break;` over the bytes of `[start, last)`; returns `start` and `m_remaining`. -/
def skip_loop : List Nat → Nat → Nat → Nat × Nat
  | [], start, m_remaining => (start, m_remaining)
  | c :: rest, start, m_remaining =>
    if 0x1f < c then (start, m_remaining) else skip_loop rest (start + 1) (m_remaining - 1)

/-- The loop `for (; end != last; ++end) if (unsigned(*end) <= 0x1f) break;` over the
bytes of `[end, last)`; returns `end`. -/
def scan_loop : List Nat → Nat → Nat
  | [], e => e
  | c :: rest, e => if c ≤ 0x1f then e else scan_loop rest (e + 1)

/-- The `while` loop of `LineIter::next`, one iteration per unit of fuel. The result is
the id, the value of `out`, the iterator and the handle. -/
def LineIter.next_loop : Nat → LineIter → File → List Nat →
    Option (LineIdImpl × List Nat × LineIter × File)
  | 0, _, _, _ => none
  | fuel + 1, it0, h0, out =>
    -- while (m_remaining || provision())
    let cond := if it0.m_remaining ≠ 0 then (true, it0, h0) else it0.provision h0
    let it := cond.2.1
    let h := cond.2.2
    if cond.1 = false then some (LineIdImpl.null, out, it, h)
    else
      let fi := it.m_file_iter
      let last := fi.m_buffer_size
      let start0 := last - it.m_remaining
      let skipped := skip_loop ((fi.m_buffer.take last).drop start0) start0 it.m_remaining
      let start := skipped.1
      let rem := skipped.2
      let e := scan_loop ((fi.m_buffer.take last).drop start) start
      if e = last ∧ start ≠ 0 then
        let again := ({ it with m_remaining := rem } : LineIter).provision h
        LineIter.next_loop fuel again.2.1 again.2.2 out
      else
        let bytes := e - start
        let it1 : LineIter := { it with m_remaining := rem - bytes }
        if fi.m_buffer.getD start 0 = 0x7C then LineIter.next_loop fuel it1 h out
        else
          some (LineIdImpl.of_offset ((fi.m_buffer_offset + start) % 2 ^ 32),
                (fi.m_buffer.take e).drop start, it1, h)

/-- The method `LineIter::next(out)`. Every iteration of its loop lowers
`2 * (bytes left in the file) + (bytes left in the buffer)`, which bounds the fuel. -/
def LineIter.next (it : LineIter) (h : File) (out : List Nat) :
    Option (LineIdImpl × List Nat × LineIter × File) :=
  LineIter.next_loop (2 * it.m_file_iter.m_remaining + it.m_remaining + 2) it h out

/-! ## `ReadLock` and `WriteLock` -/

/-- The loop of `ReadLock::find(line, callback)`, one call of `LineIter::next` per unit
of fuel. The callback receives the id, the state it captures and the handle, and
returns its result (true to go on), the state and the handle. -/
def ReadLock.find_loop {σ : Type} (line : List Nat)
    (callback : LineIdImpl → σ → File → Bool × σ × File) :
    Nat → LineIter → σ → File → List Nat → Option (σ × File)
  | 0, _, _, _, _ => none
  | fuel + 1, iter, s, h, read =>
    match iter.next h read with
    | none => none
    | some (id, read, iter, h) =>
      if id.to_bool = false then some (s, h)
      else if strncmp_ne line read read.length then
        ReadLock.find_loop line callback fuel iter s h read
      else if cstr_at line read.length ≠ 0 then
        ReadLock.find_loop line callback fuel iter s h read
      else
        let file_ptr := SetFilePointerCurrent h
        let abort := callback id s h
        let h := SetFilePointerBegin abort.2.2 file_ptr
        if abort.1 = false then some (abort.2.1, h)
        else ReadLock.find_loop line callback fuel iter abort.2.1 h read

/-- The method `ReadLock::find(line, callback)`. Its buffer is the local array
`char buffer[HistoryDb::max_line_length]`, which is never read before it is written
and is taken as zero filled. Each record that `LineIter::next` yields uses at least one
byte of the file, which bounds the fuel. -/
def ReadLock.find_cb {σ : Type} (max_line_length : Nat) (h : File) (line : List Nat)
    (callback : LineIdImpl → σ → File → Bool × σ × File) (s : σ) : Option (σ × File) :=
  let (iter, h) := LineIter.init h (List.replicate max_line_length 0)
  ReadLock.find_loop line callback (h.data.length + 1) iter s h []

/-- The method `ReadLock::find(line)`: the first matching id, or the null id. -/
def ReadLock.find (max_line_length : Nat) (h : File) (line : List Nat) :
    Option (LineIdImpl × File) :=
  ReadLock.find_cb max_line_length h line (fun inner_id _ h => (false, inner_id, h))
    LineIdImpl.null

/-- The method `WriteLock::clear`. -/
def WriteLock.clear (h : File) : File := SetEndOfFile (SetFilePointerBegin h 0)

/-- The method `WriteLock::add(line)`; the byte count `int(strlen(line))` reaches
`WriteFile` as a 32-bit number. -/
def WriteLock.add (h : File) (line : List Nat) : File :=
  WriteFile (WriteFile (SetFilePointerEnd h) (line.take (strlen line % 2 ^ 32))) [0x0A]

/-- The method `WriteLock::remove(id)`. -/
def WriteLock.remove (h : File) (id : LineIdImpl) : File :=
  WriteFile (SetFilePointerBegin h id.offset) [0x7C]

/-! ## `HistoryDb` -/

/-- The settings read by the store. `g_dupe_mode` is 0 for `add`, 1 for `ignore` and 2
for `erase_prev`. -/
structure Settings where
  g_shared : Bool
  g_ignore_space : Bool
  g_dupe_mode : Nat
  deriving DecidableEq, Repr

/-- Modelled from the spec: the handle table `m_bank_handles` of `history_db.h` (not
among the sources), with its two slots `bank_master` = 0 and `bank_session` = 1. A
null handle is `none`; an open handle is the file it refers to. -/
structure HistoryDb where
  bank_master : Option File
  bank_session : Option File
  deriving DecidableEq, Repr

/-- The array access `m_bank_handles[index]`. -/
def HistoryDb.m_bank_handles (db : HistoryDb) (index : Nat) : Option File :=
  match index with
  | 0 => db.bank_master
  | 1 => db.bank_session
  | _ => none

/-- The effect on the store of an operation on the file behind `m_bank_handles[index]`. -/
def HistoryDb.set_bank (db : HistoryDb) (index : Nat) (h : File) : HistoryDb :=
  match index with
  | 0 => { db with bank_master := db.bank_master.map (fun _ => h) }
  | 1 => { db with bank_session := db.bank_session.map (fun _ => h) }
  | _ => db

/-- The method `HistoryDb::get_bank_count`. -/
def HistoryDb.get_bank_count (db : HistoryDb) : Nat :=
  (if db.bank_master.isSome then 1 else 0) + (if db.bank_session.isSome then 1 else 0)

/-- The method `HistoryDb::get_bank(index)`. -/
def HistoryDb.get_bank (db : HistoryDb) (index : Nat) : Option File :=
  if index ≥ db.get_bank_count then none else db.m_bank_handles index

/-- The loop of `HistoryDb::for_each_bank(callback)`; the first argument counts the
iterations left, `n - i`. The callback receives the index, the locked handle and the
state it captures. -/
def HistoryDb.for_each_bank_loop {σ : Type}
    (callback : Nat → File → σ → Option (Bool × σ × File)) :
    Nat → Nat → HistoryDb → σ → Option (σ × HistoryDb)
  | 0, _, db, s => some (s, db)
  | k + 1, i, db, s =>
    match db.get_bank i with
    | none => HistoryDb.for_each_bank_loop callback k (i + 1) db s
    | some h =>
      match callback i h s with
      | none => none
      | some (go, s1, h1) =>
        if go = false then some (s1, db.set_bank i h1)
        else HistoryDb.for_each_bank_loop callback k (i + 1) (db.set_bank i h1) s1

/-- The method `HistoryDb::for_each_bank(callback)`, const or not. -/
def HistoryDb.for_each_bank {σ : Type} (db : HistoryDb)
    (callback : Nat → File → σ → Option (Bool × σ × File)) (s : σ) :
    Option (σ × HistoryDb) :=
  HistoryDb.for_each_bank_loop callback db.get_bank_count 0 db s

/-- The method `HistoryDb::clear`. -/
def HistoryDb.clear (db : HistoryDb) : Option HistoryDb :=
  (db.for_each_bank (fun _ lock (_ : Unit) => some (true, (), WriteLock.clear lock)) ()).map
    (fun r => r.2)

/-- The method `HistoryDb::find(line)`; the result is the 32-bit `LineId`. -/
def HistoryDb.find (max_line_length : Nat) (db : HistoryDb) (line : List Nat) :
    Option (Nat × HistoryDb) :=
  (db.for_each_bank
    (fun index lock (_ : LineIdImpl) =>
      match ReadLock.find max_line_length lock line with
      | none => none
      | some (ret, lock) =>
        if ret.to_bool then some (false, { ret with bank_index := index % 4 }, lock)
        else some (true, ret, lock))
    LineIdImpl.null).map (fun r => (r.1.outer, r.2))

/-- The method `HistoryDb::remove(const char* line)`; it returns `count`, which nothing
increments. -/
def HistoryDb.remove_line (max_line_length : Nat) (db : HistoryDb) (line : List Nat) :
    Option (Nat × HistoryDb) :=
  (db.for_each_bank
    (fun _ lock (count : Nat) =>
      match ReadLock.find_cb max_line_length lock line
              (fun id (_ : Unit) h => (true, (), WriteLock.remove h id)) () with
      | none => none
      | some (_, lock) => some (true, count, lock))
    0)

/-- The method `HistoryDb::remove(LineId id)`. -/
def HistoryDb.remove_id (db : HistoryDb) (id : Nat) : Bool × HistoryDb :=
  if id = 0 then (false, db)
  else
    let id_impl := LineIdImpl.of_outer id
    match db.get_bank id_impl.bank_index with
    | none => (false, db)
    | some lock => (true, db.set_bank id_impl.bank_index (WriteLock.remove lock id_impl))

/-- The tail of `HistoryDb::add` after the duplicate handling: append to the bank
`get_bank(get_bank_count() - 1)`, the subtraction being unsigned. -/
def HistoryDb.add_line (db : HistoryDb) (line : List Nat) : Bool × HistoryDb :=
  let index := (db.get_bank_count + 2 ^ 32 - 1) % 2 ^ 32
  match db.get_bank index with
  | none => (false, db)
  | some lock => (true, db.set_bank index (WriteLock.add lock line))

/-- The method `HistoryDb::add(line)`. -/
def HistoryDb.add (max_line_length : Nat) (cfg : Settings) (db : HistoryDb)
    (line : List Nat) : Option (Bool × HistoryDb) :=
  if cstr_at line 0 = 0 ∨
      (cfg.g_ignore_space = true ∧ (cstr_at line 0 = 0x20 ∨ cstr_at line 0 = 0x09)) then
    some (false, db)
  else if cfg.g_dupe_mode = 1 then
    match db.find max_line_length line with
    | none => none
    | some (find_result, db1) =>
      if find_result ≠ 0 then some (true, db1) else some (db1.add_line line)
  else if cfg.g_dupe_mode = 2 then
    match db.remove_line max_line_length line with
    | none => none
    | some (_, db1) => some (db1.add_line line)
  else some (db.add_line line)

/-! ## `ReadLineIter` and `HistoryDb::read_lines` -/

/-- The state of a `ReadLineIter`. `m_lock` is the index of the bank whose handle the
lock holds, and `m_line_iter` the iterator that `next_bank` has constructed on it. Both
are `none` as long as `next_bank` has opened no bank: the default-constructed lock holds
no handle, and the members of the default-constructed `LineIter` are uninitialised
(`FileIter() = default`), so that it has no value. `buffer` is the content of the scan
buffer `(char*)(this + 1)`, the memory behind the object, which the `FileIter` of
`m_line_iter` reads into. -/
structure ReadLineIter where
  m_lock : Option Nat
  m_line_iter : Option LineIter
  buffer : List Nat
  m_buffer_size : Nat
  m_bank_index : Nat
  deriving DecidableEq, Repr

/-- The loop of `ReadLineIter::next_bank`; the first argument counts the iterations
left, `get_bank_count() - m_bank_index`. -/
def ReadLineIter.next_bank_loop :
    Nat → ReadLineIter → HistoryDb → Bool × ReadLineIter × HistoryDb
  | 0, rli, db => (false, rli, db)
  | k + 1, rli, db =>
    let index := rli.m_bank_index
    let rli := { rli with m_bank_index := index + 1 }
    match db.m_bank_handles index with
    | some bank_handle =>
      -- new (&m_line_iter) LineIter(m_lock, buffer, m_buffer_size)
      let (li, h1) := LineIter.init bank_handle (rli.buffer.take rli.m_buffer_size)
      (true,
       { rli with m_lock := some index, m_line_iter := some li,
                  buffer := li.m_file_iter.m_buffer },
       db.set_bank index h1)
    | none => ReadLineIter.next_bank_loop k rli db

/-- The method `ReadLineIter::next_bank`. -/
def ReadLineIter.next_bank (rli : ReadLineIter) (db : HistoryDb) :
    Bool × ReadLineIter × HistoryDb :=
  ReadLineIter.next_bank_loop (db.get_bank_count - rli.m_bank_index) rli db

/-- The constructor `ReadLineIter(db, this_size)`; `sizeof_this` is `sizeof(*this)` and
`memory` the bytes that follow the object in the caller's buffer. The initialiser list
sets `m_db`, `m_buffer_size` and `m_bank_index`; `m_lock` and `m_line_iter` are default
constructed, and `next_bank` constructs them anew when it opens a bank. -/
def ReadLineIter.init (db : HistoryDb) (this_size sizeof_this : Nat)
    (memory : List Nat) : ReadLineIter × HistoryDb :=
  let rli : ReadLineIter :=
    { m_lock := none
      m_line_iter := none
      buffer := memory
      m_buffer_size := this_size - sizeof_this
      m_bank_index := 0 }
  let r := rli.next_bank db
  (r.2.1, r.2.2)

/-- The call `m_line_iter.next(out)` of `ReadLineIter::next`, on the file behind
`m_lock`. While no bank has been opened the call runs `FileIter::next` on the
uninitialised members of the default-constructed iterator (it tests `m_remaining` and
writes through `m_buffer`): the behaviour is undefined and the call has no result. -/
def ReadLineIter.line_next (rli : ReadLineIter) (db : HistoryDb) (out : List Nat) :
    Option (LineIdImpl × List Nat × ReadLineIter × HistoryDb) :=
  match rli.m_lock, rli.m_line_iter with
  | some index, some li =>
    match db.m_bank_handles index with
    | none => none
    | some h =>
      (li.next h out).map
        (fun r =>
          (r.1, r.2.1,
           { rli with m_line_iter := some r.2.2.1, buffer := r.2.2.1.m_file_iter.m_buffer },
           db.set_bank index r.2.2.2))
  | _, _ => none

/-- The `do ... while (next_bank())` loop of `ReadLineIter::next`; every further
iteration has opened one more bank, which bounds the fuel. -/
def ReadLineIter.next_loop : Nat → ReadLineIter → HistoryDb → List Nat →
    Option (Nat × List Nat × ReadLineIter × HistoryDb)
  | 0, _, _, _ => none
  | k + 1, rli, db, out =>
    match rli.line_next db out with
    | none => none
    | some (ret, out, rli, db) =>
      if ret.to_bool then
        some (({ ret with bank_index := (rli.m_bank_index + 2 ^ 32 - 1) % 2 ^ 32 % 4 }
                : LineIdImpl).outer, out, rli, db)
      else
        let r := rli.next_bank db
        if r.1 = false then some (0, out, r.2.1, r.2.2)
        else ReadLineIter.next_loop k r.2.1 r.2.2 out

/-- The method `ReadLineIter::next(out)`. -/
def ReadLineIter.next (rli : ReadLineIter) (db : HistoryDb) (out : List Nat) :
    Option (Nat × List Nat × ReadLineIter × HistoryDb) :=
  if rli.m_bank_index > db.get_bank_count then some (0, out, rli, db)
  else ReadLineIter.next_loop (db.get_bank_count - rli.m_bank_index + 1) rli db out

/-- The class `HistoryDb::Iter`: `impl` is null or points at a `ReadLineIter`. -/
structure Iter where
  impl : Option ReadLineIter
  deriving DecidableEq, Repr

/-- The method `HistoryDb::read_lines(buffer, size)`, with `size` the length of `buffer`
and `sizeof_ReadLineIter` the value of `sizeof(ReadLineIter)`. -/
def HistoryDb.read_lines (db : HistoryDb) (sizeof_ReadLineIter : Nat)
    (buffer : List Nat) : Iter × HistoryDb :=
  if buffer.length > sizeof_ReadLineIter then
    let r := ReadLineIter.init db buffer.length sizeof_ReadLineIter
      (buffer.drop sizeof_ReadLineIter)
    ({ impl := some r.1 }, r.2)
  else ({ impl := none }, db)

/-- The method `HistoryDb::Iter::next(out)`. -/
def Iter.next (it : Iter) (db : HistoryDb) (out : List Nat) :
    Option (Nat × List Nat × Iter × HistoryDb) :=
  match it.impl with
  | none => some (0, out, it, db)
  | some rli => (rli.next db out).map (fun r => (r.1, r.2.1, { impl := some r.2.2.1 }, r.2.2.2))

/-! ## Specification vocabulary -/

/-- A record byte: a byte above `0x1f`. -/
def is_rec (c : Nat) : Bool := decide (0x1f < c)

/-- The maximal runs of record bytes of `s`, each with the offset of its first byte,
`p` being the offset of the head of `s`; `in_run` tells that the byte before `s` was a
record byte, so that a run is listed where it starts and only there. -/
def runs_aux : Bool → Nat → List Nat → List (Nat × List Nat)
  | _, _, [] => []
  | in_run, p, c :: t =>
    if is_rec c = true then
      if in_run = true then runs_aux true (p + 1) t
      else (p, (c :: t).takeWhile is_rec) :: runs_aux true (p + 1) t
    else runs_aux false (p + 1) t

/-- The records of a bank content `s` whose first byte has offset `p`: its maximal runs
of bytes above `0x1f`, in file order, each with the offset of its first byte. -/
def runs (p : Nat) (s : List Nat) : List (Nat × List Nat) := runs_aux false p s

/-- A record is live when its first byte is not the tombstone mark `|`. -/
def live (x : Nat × List Nat) : Bool := x.2.head? != some 0x7C

/-- The live records of a bank content, with their offsets. -/
def records (s : List Nat) : List (Nat × List Nat) := (runs 0 s).filter live

/-- A content that is empty or ends with a byte of at most `0x1f`. -/
def ends_ok (s : List Nat) : Prop := ∀ b, s.getLast? = some b → b ≤ 0x1f

/-- A well-formed continuation of a bank with scan buffers of `B` bytes: the content of
`f` from offset `p` on is empty or ends with a byte of at most `0x1f`, and no record
from offset `p` on is longer than `B`. -/
def wf_from (B : Nat) (f : List Nat) (p : Nat) : Prop :=
  ends_ok (f.drop p) ∧ ∀ x ∈ runs p (f.drop p), x.2.length ≤ B

/-- A well-formed bank: empty or ending with a byte of at most `0x1f`, no record longer
than `B`, and shorter than `2 ^ 29` bytes. -/
def bank_ok (B : Nat) (f : List Nat) : Prop :=
  ends_ok f ∧ (∀ x ∈ runs 0 f, x.2.length ≤ B) ∧ f.length < 2 ^ 29

/-- The invariant that ties a `LineIter` to the handle it reads: the unparsed tail of the
buffer mirrors the file just before the file pointer, the file iterator knows how much
of the file is left, and its buffer is full (`B` bytes) unless the file is exhausted. -/
structure LineIter.Inv (B : Nat) (it : LineIter) (h : File) : Prop where
  size_le : it.m_file_iter.m_buffer_size ≤ it.m_file_iter.m_buffer.length
  rem_le : it.m_remaining ≤ it.m_file_iter.m_buffer_size
  rem_le_ptr : it.m_remaining ≤ h.ptr
  ptr_le : h.ptr ≤ h.data.length
  frem : it.m_file_iter.m_remaining = h.data.length - h.ptr
  window : (it.m_file_iter.m_buffer.take it.m_file_iter.m_buffer_size).drop
      (it.m_file_iter.m_buffer_size - it.m_remaining)
    = (h.data.drop (h.ptr - it.m_remaining)).take it.m_remaining
  off : (it.m_file_iter.m_buffer_offset + it.m_file_iter.m_buffer_size) % 2 ^ 32
    = h.ptr % 2 ^ 32
  cap : it.m_file_iter.m_remaining = 0 ∨ it.m_file_iter.m_buffer_size = B
  buf_len : it.m_file_iter.m_buffer.length = B

/-- The absolute file offset a `LineIter` has parsed up to. -/
def LineIter.pos (it : LineIter) (h : File) : Nat := h.ptr - it.m_remaining

/-- What one call of `LineIter::next` delivers, in terms of the records of the file from
the position the iterator has reached: either the null id, `out` untouched, and no live
record left; or the first live record with its offset, the iterator standing right
behind it. -/
def LineIter.next_post (B : Nat) (it : LineIter) (h : File) (out : List Nat)
    (res : LineIdImpl × List Nat × LineIter × File) : Prop :=
  res.2.2.2.data = h.data ∧ res.2.2.1.m_file_iter.m_buffer.length = B ∧
  ((res.1 = LineIdImpl.null ∧ res.2.1 = out ∧
      ∀ x ∈ runs (it.pos h) (h.data.drop (it.pos h)), live x = false) ∨
   (∃ pre q r,
      runs (it.pos h) (h.data.drop (it.pos h))
        = pre ++ (q, r) :: runs (q + r.length) (h.data.drop (q + r.length)) ∧
      (∀ x ∈ pre, live x = false) ∧ live (q, r) = true ∧
      res.1 = LineIdImpl.of_offset q ∧ res.2.1 = r ∧
      LineIter.Inv B res.2.2.1 res.2.2.2 ∧ res.2.2.1.pos res.2.2.2 = q + r.length))

/-- Repeated calls of `LineIter::next` up to the first null id: the ids and records they
yield, in order (one call per unit of fuel). -/
def LineIter.drain : Nat → LineIter → File → List Nat → Option (List (LineIdImpl × List Nat))
  | 0, _, _, _ => none
  | fuel + 1, it, h, out =>
    match it.next h out with
    | none => none
    | some (id, out, it, h) =>
      if id.to_bool = false then some []
      else (LineIter.drain fuel it h out).map (fun l => (id, out) :: l)

/-- The id that `LineIter::next` gives to a record: its offset, `active` set. -/
def line_id (x : Nat × List Nat) : LineIdImpl × List Nat :=
  ({ offset := x.1, bank_index := 0, active := 1 }, x.2)

/-- What `ReadLock::find(line, callback)` does, told over the live records of the bank in
file order: at each record equal to `line` the callback runs; `go_f`, `st_f` and
`data_f` give, from the offset of the record, the callback's result, its captured state
and the bytes of the file afterwards. -/
def find_fold {σ : Type} (line : List Nat) (go_f : Nat → σ → Bool) (st_f : Nat → σ → σ)
    (data_f : Nat → List Nat → List Nat) : List (Nat × List Nat) → σ → List Nat → σ × List Nat
  | [], s, d => (s, d)
  | x :: rest, s, d =>
    if x.2 = line then
      if go_f x.1 s = false then (st_f x.1 s, data_f x.1 d)
      else find_fold line go_f st_f data_f rest (st_f x.1 s) (data_f x.1 d)
    else find_fold line go_f st_f data_f rest s d

/-- The tombstone mark `|` written at each of the offsets `qs` of `d`. -/
def write_bars (qs : List Nat) (d : List Nat) : List Nat :=
  qs.foldl (fun d q => d.set q 0x7C) d

/-- The offsets of the live records of a bank content that equal `line`. -/
def match_offsets (line f : List Nat) : List Nat :=
  ((records f).filter (fun x => decide (x.2 = line))).map (fun x => x.1)

/-- The id of the first live record of a bank content that equals `line`, or the null
id. -/
def first_match (line f : List Nat) : LineIdImpl :=
  match (records f).find? (fun x => decide (x.2 = line)) with
  | some x => { offset := x.1, bank_index := 0, active := 1 }
  | none => LineIdImpl.null

/-- The bytes of the two banks of a store (`none` for a bank that is not open). -/
def HistoryDb.contents (db : HistoryDb) : Option (List Nat) × Option (List Nat) :=
  (db.bank_master.map File.data, db.bank_session.map File.data)

/-- A well-formed store: the master bank is open and every open bank is well formed for
scan buffers of `B` bytes. -/
def store_ok (B : Nat) (db : HistoryDb) : Prop :=
  db.bank_master.isSome = true ∧
    ∀ i h, db.m_bank_handles i = some h → bank_ok B h.data

/-- The index of the current write bank: the session bank when it is open, the master
bank otherwise. -/
def HistoryDb.write_index (db : HistoryDb) : Nat :=
  if db.bank_session.isSome then 1 else 0

/-- A line that `HistoryDb::add` accepts: not empty and, when `ignore_space` is on, not
starting with a space or a tab. -/
def accepted (cfg : Settings) (line : List Nat) : Prop :=
  line ≠ [] ∧ (cfg.g_ignore_space = true → line.head? ≠ some 0x20 ∧ line.head? ≠ some 0x09)

/-- A C string: no byte of the line is NUL. -/
def c_string (line : List Nat) : Prop := ∀ c ∈ line, c ≠ 0

/-- The id under which the store hands out a record of bank `bank`: the record's offset
with the bank index stamped, as the 32-bit `LineId`. -/
def stamp (bank : Nat) (x : Nat × List Nat) : Nat × List Nat :=
  (LineIdImpl.outer { offset := x.1, bank_index := bank, active := 1 }, x.2)

/-- The live records of a store in bank order: those of the master bank in file order,
then those of the session bank, each with its stamped id. -/
def store_lines (db : HistoryDb) : List (Nat × List Nat) :=
  match db.bank_master with
  | none => []
  | some m =>
    (records m.data).map (stamp 0) ++
      (match db.bank_session with
       | none => []
       | some s => (records s.data).map (stamp 1))

/-- The id of the first element of a list of `(id, bytes)` pairs whose bytes equal `line`,
or the null id 0. -/
def first_id (line : List Nat) (ys : List (Nat × List Nat)) : Nat :=
  match ys.find? (fun y => decide (y.2 = line)) with
  | some y => y.1
  | none => 0

/-- Repeated calls of `HistoryDb::Iter::next` up to the first null id: the ids and
records they yield, in order (one call per unit of fuel). -/
def Iter.drain : Nat → Iter → HistoryDb → List Nat → Option (List (Nat × List Nat))
  | 0, _, _, _ => none
  | fuel + 1, it, db, out =>
    match it.next db out with
    | none => none
    | some (id, out, it, db) =>
      if id = 0 then some []
      else (Iter.drain fuel it db out).map (fun l => (id, out) :: l)

/-- The invariant of a `ReadLineIter` that is reading bank `i`, whose handle is `h`,
through its iterator `li`. -/
structure ReadLineIter.Inv (B : Nat) (rli : ReadLineIter) (db : HistoryDb) (i : Nat)
    (h : File) (li : LineIter) : Prop where
  lock : rli.m_lock = some i
  iter : rli.m_line_iter = some li
  index : rli.m_bank_index = i + 1
  handle : db.m_bank_handles i = some h
  inv : LineIter.Inv B li h
  wf : wf_from B h.data (li.pos h)
  len : h.data.length < 2 ^ 29
  size : rli.m_buffer_size = B

/-- The live records of the banks after bank `i`, stamped. -/
def later_lines (i : Nat) (db : HistoryDb) : List (Nat × List Nat) :=
  if i = 0 then
    match db.bank_session with
    | none => []
    | some s => (records s.data).map (stamp 1)
  else []

/-- The records a `ReadLineIter` reading bank `i` through the iterator `li` has still to
yield. -/
def LineIter.pending (li : LineIter) (db : HistoryDb) (i : Nat) (h : File) :
    List (Nat × List Nat) :=
  ((runs (li.pos h) (h.data.drop (li.pos h))).filter live).map (stamp i) ++ later_lines i db

/-- The bank content `s` with the tombstone mark written over the first byte of every
record equal to `line`; `in_run` tells that the byte before `s` was a record byte. -/
def tomb_aux (line : List Nat) : Bool → List Nat → List Nat
  | _, [] => []
  | in_run, c :: t =>
    if is_rec c = true then
      if in_run = true then c :: tomb_aux line true t
      else (if (c :: t).takeWhile is_rec = line then 0x7C else c) :: tomb_aux line true t
    else c :: tomb_aux line false t

/-- The bank content `f` after every record equal to `line` has been tombstoned. -/
def tombstoned (line f : List Nat) : List Nat := tomb_aux line false f

/-- A record after the records equal to `line` have been tombstoned. -/
def retag (line : List Nat) (x : Nat × List Nat) : Nat × List Nat :=
  if x.2 = line then (x.1, 0x7C :: x.2.tail) else x

/-- The length of the current write bank of a store (0 when the slot is null). -/
def HistoryDb.write_len (db : HistoryDb) : Nat :=
  match db.m_bank_handles db.write_index with
  | some h => h.data.length
  | none => 0

/-- The element that a line appended to the write bank adds to the lines of the store:
none when the line starts with the tombstone mark. -/
def appended (db : HistoryDb) (line : List Nat) : List (Nat × List Nat) :=
  if live (db.write_len, line) = true then [stamp db.write_index (db.write_len, line)]
  else []

/-! ## Call sequences -/

/-- A call of `add(line)`, `remove(line)` or `clear()`. -/
inductive Op where
  | add (line : List Nat)
  | remove (line : List Nat)
  | clear
  deriving DecidableEq, Repr

/-- One call on the store: what it returns (true for the two calls that return nothing
a caller tests) and the store afterwards. -/
def HistoryDb.call (max_line_length : Nat) (cfg : Settings) (db : HistoryDb) :
    Op → Option (Bool × HistoryDb)
  | Op.add line => db.add max_line_length cfg line
  | Op.remove line => (db.remove_line max_line_length line).map (fun r => (true, r.2))
  | Op.clear => db.clear.map (fun d => (true, d))

/-- A sequence of calls, in order: each call with what it returned, and the store at the
end. -/
def HistoryDb.run (max_line_length : Nat) (cfg : Settings) :
    List Op → HistoryDb → Option (List (Op × Bool) × HistoryDb)
  | [], db => some ([], db)
  | op :: ops, db =>
    match db.call max_line_length cfg op with
    | none => none
    | some (r, db1) =>
      (HistoryDb.run max_line_length cfg ops db1).map (fun t => ((op, r) :: t.1, t.2))

/-- Over the calls made, latest first: `add(line)` succeeded at least once since the last
`clear()`. -/
def added_since_clear (line : List Nat) : List (Op × Bool) → Bool
  | [] => false
  | (Op.clear, _) :: _ => false
  | (Op.add l, r) :: t => (decide (l = line) && r) || added_since_clear line t
  | (Op.remove _, _) :: t => added_since_clear line t

/-- Over the calls made, latest first: no `remove(line)` came after the latest
`add(line)`. -/
def not_removed_since_add (line : List Nat) : List (Op × Bool) → Bool
  | [] => true
  | (Op.clear, _) :: t => not_removed_since_add line t
  | (Op.add l, _) :: t => if l = line then true else not_removed_since_add line t
  | (Op.remove l, _) :: t => if l = line then false else not_removed_since_add line t

/-- The condition under which a line is to be found after a sequence of calls: `add(line)`
succeeded at least once since the last `clear()` and no `remove(line)` came after the
latest `add(line)`. -/
def expect_found (line : List Nat) (trace : List (Op × Bool)) : Bool :=
  added_since_clear line trace.reverse && not_removed_since_add line trace.reverse

/-- The bytes a call appends at most. -/
def Op.cost : Op → Nat
  | Op.add line => line.length + 1
  | _ => 0

/-- The line of a call (`clear()` has none). -/
def Op.line? : Op → Option (List Nat)
  | Op.add line => some line
  | Op.remove line => some line
  | Op.clear => none

/-- The loop `for L in Ls: add(L)`: the store after the calls. -/
def HistoryDb.add_all (max_line_length : Nat) (cfg : Settings) :
    List (List Nat) → HistoryDb → Option HistoryDb
  | [], db => some db
  | line :: rest, db =>
    match db.add max_line_length cfg line with
    | none => none
    | some (_, db1) => HistoryDb.add_all max_line_length cfg rest db1

/-- A line as the round-trip and call-sequence properties take it: not empty, of record
bytes only, at most `max_line_length` bytes long and not rejected by `ignore_space`. -/
def valid_line (max_line_length : Nat) (cfg : Settings) (line : List Nat) : Prop :=
  accepted cfg line ∧ (∀ c ∈ line, is_rec c = true) ∧ line.length ≤ max_line_length

/-! ## `history_expand_control` -/

/-- The loop `for (int i = 0; i < marker_pos && *line; ++i, ++line)` of
`history_expand_control`; the second argument counts the iterations left,
`marker_pos - i`, and the result is `in_quote`. The end of the list is the terminating
NUL of the line. -/
def history_expand_control_loop : List Nat → Nat → Nat → Nat
  | [], _, in_quote => in_quote
  | _ :: _, 0, in_quote => in_quote
  | c :: rest, n + 1, in_quote =>
    if c = 0 then in_quote
    else if c = 0x27 ∨ c = 0x22 then
      history_expand_control_loop rest n (if c = in_quote then 0 else c)
    else history_expand_control_loop rest n in_quote

/-- The function `history_expand_control(line, marker_pos)`, with `setting` the value of
`g_expand_mode.get()`: 0 `off`, 1 `on`, 2 `not_squoted`, 3 `not_dquoted`, 4 `not_quoted`. -/
def history_expand_control (setting : Int) (line : List Nat) (marker_pos : Int) : Int :=
  if setting ≤ 1 then (if setting ≤ 0 then 1 else 0)
  else
    let in_quote := history_expand_control_loop line marker_pos.toNat 0
    if setting = 2 then (if in_quote = 0x27 then 1 else 0)
    else if setting = 3 then (if in_quote = 0x22 then 1 else 0)
    else if setting = 4 then (if in_quote = 0x22 ∨ in_quote = 0x27 then 1 else 0)
    else 0

/-- The quoted region that offset `n` of a line lies in, in the words of the
specification: a quote character seen outside any quote opens a region of its kind, and
the next quote character of the same kind closes it; a quote character of the other
kind inside a region is an ordinary character. The result is the kind of the region by
its quote character (`0x27` single, `0x22` double), or 0 outside any region; the third
argument is the region the scan starts in. -/
def quote_region : List Nat → Nat → Nat → Nat
  | [], _, q => q
  | _ :: _, 0, q => q
  | c :: rest, n + 1, q =>
    if c = 0 then q
    else if c = 0x27 ∨ c = 0x22 then
      quote_region rest n (if q = 0 then c else if c = q then 0 else q)
    else quote_region rest n q

/-- No quote character of the other kind occurs inside a quoted region before offset `n`
of the line. -/
def plain_regions : List Nat → Nat → Nat → Bool
  | [], _, _ => true
  | _ :: _, 0, _ => true
  | c :: rest, n + 1, q =>
    if c = 0 then true
    else if c = 0x27 ∨ c = 0x22 then
      if q ≠ 0 ∧ c ≠ q then false
      else plain_regions rest n (if q = 0 then c else if c = q then 0 else q)
    else plain_regions rest n q

/-! ## Records longer than the scan buffer -/

/-- The consecutive pieces of `B` bytes, the last one possibly shorter, of a run `r` whose
first byte has offset `q`, each with its offset; `fuel` bounds their number. -/
def chunks (B : Nat) : Nat → Nat → List Nat → List (Nat × List Nat)
  | 0, _, _ => []
  | fuel + 1, q, r =>
    if r.length ≤ B then (if r = [] then [] else [(q, r)])
    else (q, r.take B) :: chunks B fuel (q + B) (r.drop B)

/-- The pieces of a bank content for a scan buffer of `B` bytes: every maximal run of
record bytes cut, from its first byte on, into consecutive pieces of `B` bytes, the last
one possibly shorter; in file order, each with the offset of its first byte. -/
def pieces (B : Nat) (p : Nat) (s : List Nat) : List (Nat × List Nat) :=
  (runs p s).flatMap (fun x => chunks B x.2.length x.1 x.2)

/-- What one call of `LineIter::next` delivers, in terms of the pieces of the file from
the position the iterator has reached: either the null id, `out` untouched, and no live
piece left; or the first live piece with its offset, the iterator standing right behind
it. -/
def LineIter.pieces_post (B : Nat) (it : LineIter) (h : File) (out : List Nat)
    (res : LineIdImpl × List Nat × LineIter × File) : Prop :=
  res.2.2.2.data = h.data ∧ res.2.2.1.m_file_iter.m_buffer.length = B ∧
  ((res.1 = LineIdImpl.null ∧ res.2.1 = out ∧
      ∀ x ∈ pieces B (it.pos h) (h.data.drop (it.pos h)), live x = false) ∨
   (∃ pre q r,
      pieces B (it.pos h) (h.data.drop (it.pos h))
        = pre ++ (q, r) :: pieces B (q + r.length) (h.data.drop (q + r.length)) ∧
      (∀ x ∈ pre, live x = false) ∧ live (q, r) = true ∧
      res.1 = LineIdImpl.of_offset q ∧ res.2.1 = r ∧
      LineIter.Inv B res.2.2.1 res.2.2.2 ∧ res.2.2.1.pos res.2.2.2 = q + r.length))

/-! ## `WriteLock::append` -/

/-- The loop `while (int bytes_read = src_iter.next()) WriteFile(m_handle, buffer,
bytes_read, &written, nullptr);` of `WriteLock::append`, one iteration per unit of fuel;
`next()` is `next(0)`. The result is the destination handle and the source handle. -/
def WriteLock.append_loop : Nat → FileIter → File → File → Option (File × File)
  | 0, _, _, _ => none
  | fuel + 1, src_iter, h, src =>
    let r := src_iter.next src 0
    let bytes_read := r.1
    if bytes_read = 0 then some (h, r.2.2)
    else
      WriteLock.append_loop fuel r.2.1 (WriteFile h (r.2.1.m_buffer.take bytes_read)) r.2.2

/-- The method `WriteLock::append(src)`. Its buffer is the local array
`char buffer[HistoryDb::max_line_length]`, which is never read before it is written
and is taken as zero filled. Each iteration of the loop reads at least one byte of the
source, which bounds the fuel. -/
def WriteLock.append (max_line_length : Nat) (h src : File) : Option (File × File) :=
  let h := SetFilePointerEnd h
  let (src_iter, src) := FileIter.init src (List.replicate max_line_length 0)
  WriteLock.append_loop (src.data.length + 1) src_iter h src

/-! ## `HistoryDb::reap` and `HistoryDb::initialise` -/

/-- Modelled from the spec: a file `P` that the glob `<history>_*` of `reap` yields, as
`reap` sees it through `Globber`, `os::get_path_type`, `os::unlink` and
`os::get_file_size` (none of them among the sources) and through `open_file`. `data` is
the content of `P`; `marker` says that the aliveness marker `P~` exists as a file and
`marker_unlinks` that `os::unlink(P~)` succeeds, which it does not while the owner holds
the marker open; `file_size` is the value of `os::get_file_size(P)`; `opens` says that
`open_file(P)` returns a handle and `unlinks` that `os::unlink(P)` succeeds. -/
structure PeerFile where
  data : List Nat
  marker : Bool
  marker_unlinks : Bool
  file_size : Int
  opens : Bool
  unlinks : Bool
  deriving DecidableEq, Repr

/-- The constructor `HistoryDb()`: `memset(m_bank_handles, 0, sizeof(m_bank_handles))`. -/
def HistoryDb.ctor : HistoryDb := { bank_master := none, bank_session := none }

/-- The body of the loop of `HistoryDb::reap` for one path that the glob yields. The
result is the store and what is left of the file and its marker: `none` when the file
has been unlinked. -/
def HistoryDb.reap_body (max_line_length : Nat) (db : HistoryDb) (p : PeerFile) :
    Option (HistoryDb × Option PeerFile) :=
  -- if (os::get_path_type(path~) == os::path_type_file) if (!os::unlink(path~)) continue;
  if p.marker = true ∧ p.marker_unlinks = false then some (db, some p)
  else
    let p1 : PeerFile := { p with marker := false }
    let folded : Option HistoryDb :=
      if 0 < p.file_size then
        let src_handle : Option File :=
          if p.opens = true then some { data := p.data, ptr := 0 } else none
        -- ReadLock src(src_handle); WriteLock dest(m_bank_handles[bank_master]);
        match src_handle, db.m_bank_handles 0 with
        | some src, some dest =>
          (WriteLock.append max_line_length dest src).map (fun r => db.set_bank 0 r.1)
        | _, _ => some db
      else some db
    -- os::unlink(path)
    folded.map (fun db1 => (db1, if p.unlinks = true then none else some p1))

/-- The method `HistoryDb::reap`, over the files that the glob yields, in its order. -/
def HistoryDb.reap (max_line_length : Nat) :
    HistoryDb → List PeerFile → Option (HistoryDb × List (Option PeerFile))
  | db, [] => some (db, [])
  | db, p :: ps =>
    match HistoryDb.reap_body max_line_length db p with
    | none => none
    | some (db1, q) => (HistoryDb.reap max_line_length db1 ps).map (fun r => (r.1, q :: r.2))

/-- The method `HistoryDb::initialise`. `open_master` and `open_session` are what
`open_file` returns for the master path and for the session path (`none` for the null
handle), and `peers` are the files that the glob of `reap` yields. -/
def HistoryDb.initialise (max_line_length : Nat) (cfg : Settings) (db : HistoryDb)
    (open_master open_session : Option File) (peers : List PeerFile) :
    Option (HistoryDb × List (Option PeerFile)) :=
  if db.bank_master.isSome then some (db, peers.map some)
  else
    let db1 : HistoryDb := { db with bank_master := open_master }
    if cfg.g_shared = true then some (db1, peers.map some)
    else
      let db2 : HistoryDb := { db1 with bank_session := open_session }
      HistoryDb.reap max_line_length db2 peers

/-! ## Sequences of calls of `FileIter::next` -/

/-- The successive calls `next(r)` of a `FileIter`, one for each rollback of the list:
each entry holds the iterator and the handle before the call, the rollback, and the
result of the call. -/
def FileIter.calls : List Nat → FileIter → File →
    List (FileIter × File × Nat × (Nat × FileIter × File))
  | [], _, _ => []
  | r :: rs, fi, h =>
    (fi, h, r, fi.next h r) :: FileIter.calls rs (fi.next h r).2.1 (fi.next h r).2.2

/-- Every call of the sequence passes a rollback that is at most the fill
`get_buffer_size()` at the time of the call. -/
def FileIter.rollbacks_ok : List Nat → FileIter → File → Prop
  | [], _, _ => True
  | r :: rs, fi, h =>
    r ≤ fi.m_buffer_size ∧ FileIter.rollbacks_ok rs (fi.next h r).2.1 (fi.next h r).2.2

/-- A peer that `reap` skips as live: its aliveness marker exists and cannot be
unlinked. -/
def PeerFile.live (p : PeerFile) : Bool := p.marker && !p.marker_unlinks

/-- What `reap` leaves of a peer file and its marker: a live peer is left as it is; of
any other the marker is gone, and the file is gone (`none`) when its unlink succeeds. -/
def PeerFile.left (p : PeerFile) : Option PeerFile :=
  if p.live = true then some p
  else if p.unlinks = true then none
  else some { p with marker := false }

/-- What the window invariant says of one call `next(r)` on a file of content `file`
through a buffer of `B` bytes; the entry holds the iterator and the handle before the
call, the rollback `r` and the result. The call returns 0 exactly when the file pointer
is at the end of the file; when it returns a non-zero fill `n`, then `n <= B`,
`get_buffer_size()` is `n`, `buffer[i]` is `file[get_buffer_offset() + i]` for every
`i < n`, and the buffer offset is the previous one advanced, in 32-bit arithmetic, by
the previous fill minus `r`. -/
def FileIter.call_ok (B : Nat) (file : List Nat)
    (c : FileIter × File × Nat × (Nat × FileIter × File)) : Prop :=
  (c.2.2.2.1 = 0 ↔ file.length ≤ c.2.1.ptr) ∧
  (c.2.2.2.1 ≠ 0 →
    c.2.2.2.1 ≤ B ∧ c.2.2.2.2.1.m_buffer_size = c.2.2.2.1 ∧
    (∀ i, i < c.2.2.2.1 →
      c.2.2.2.2.1.m_buffer.getD i 0 = file.getD (c.2.2.2.2.1.m_buffer_offset + i) 0) ∧
    c.2.2.2.2.1.m_buffer_offset
      = (c.1.m_buffer_offset + (c.1.m_buffer_size - c.2.2.1)) % 2 ^ 32)

/-- What holds of a `LineIter` on every file, whatever its content and length: the fill
fits the buffer, the unparsed bytes lie inside the fill, and the file has at least the
bytes that the iterator counts as unread behind its file pointer. -/
structure LineIter.Weak (it : LineIter) (h : File) : Prop where
  size_le : it.m_file_iter.m_buffer_size ≤ it.m_file_iter.m_buffer.length
  rem_le : it.m_remaining ≤ it.m_file_iter.m_buffer_size
  frem_le : it.m_file_iter.m_remaining ≤ h.data.length - h.ptr

/-- What a call of `LineIter::next` gives on any file, from the iterator `it`: the weak
invariant holds on, the count of bytes not yet parsed (the unread ones and those left
in the buffer) has not grown, and the call returns the null id or an id made from an
offset, the count having fallen in that case. -/
def LineIter.weak_post (it : LineIter) (res : LineIdImpl × List Nat × LineIter × File) :
    Prop :=
  LineIter.Weak res.2.2.1 res.2.2.2 ∧
  res.2.2.1.m_file_iter.m_remaining + res.2.2.1.m_remaining
    ≤ it.m_file_iter.m_remaining + it.m_remaining ∧
  (res.1 = LineIdImpl.null ∨
    ((∃ q, res.1 = LineIdImpl.of_offset q) ∧
      res.2.2.1.m_file_iter.m_remaining + res.2.2.1.m_remaining
        < it.m_file_iter.m_remaining + it.m_remaining))

/-! ## `LinearAllocator` -/

/-- The value of an `int` expression whose mathematical value is `x`: the 32-bit two's
complement wrap. -/
def to_int (x : Int) : Int := (x + 2 ^ 31) % 2 ^ 32 - 2 ^ 31

/-- The state of a `LinearAllocator`: the members `m_used` and `m_max`. The buffer
`m_buffer` is taken as allocated, and a pointer into it is its offset from `m_buffer`. -/
structure LinearAllocator where
  m_used : Int
  m_max : Int
  deriving DecidableEq, Repr

/-- The constructors `LinearAllocator(int size)` and `LinearAllocator(void* buffer,
int size)`: `m_used(0)`, `m_max(size)`. -/
def LinearAllocator.ctor (size : Int) : LinearAllocator := { m_used := 0, m_max := size }

/-- The method `LinearAllocator::alloc(size)`: the pointer returned (`none` for
`nullptr`, `some o` for `m_buffer + o`) and the state afterwards. -/
def LinearAllocator.alloc (a : LinearAllocator) (size : Int) : Option Int × LinearAllocator :=
  if size = 0 then (none, a)
  else
    let used := to_int (a.m_used + size)
    if used > a.m_max then (none, a)
    else (some a.m_used, { a with m_used := used })

/-- The successive calls `alloc(size)` for the sizes of the list: each entry holds the
state before the call, the size, the pointer returned and the state after the call. -/
def LinearAllocator.calls : List Int → LinearAllocator →
    List (LinearAllocator × Int × Option Int × LinearAllocator)
  | [], _ => []
  | size :: rest, a =>
    (a, size, (a.alloc size).1, (a.alloc size).2) :: LinearAllocator.calls rest (a.alloc size).2

/-- Every call of the sequence passes a size that is not negative, and `m_used + size`
does not overflow an `int`. -/
def LinearAllocator.sizes_ok : List Int → LinearAllocator → Prop
  | [], _ => True
  | size :: rest, a =>
    0 ≤ size ∧ a.m_used + size < 2 ^ 31 ∧ LinearAllocator.sizes_ok rest (a.alloc size).2

/-- The ranges `(offset, size)` that the successful calls of a sequence have returned, in
the order of the calls. -/
def LinearAllocator.ranges (cs : List (LinearAllocator × Int × Option Int × LinearAllocator)) :
    List (Int × Int) :=
  cs.filterMap (fun c => c.2.2.1.map (fun p => (p, c.2.1)))

/-! ## `Ecma48TerminalOut::set_attributes` -/

/-- The methods of the class `Attributes` (declared in `attributes.h`, which is not among
the sources) that `set_attributes` calls, and the constant `Attributes::defaults`, over
an arbitrary type of attribute values. -/
structure AttributesOps (α : Type) where
  defaults : α
  reset_fg : α → α
  reset_bg : α → α
  set_bold : α → Bool → α
  set_underline : α → Bool → α
  set_fg : α → Nat → α
  set_bg : α → Nat → α

/-- The body of the loop of `Ecma48TerminalOut::set_attributes` for one parameter
`csi.params[i]`, converted to `unsigned int param`; the subtractions and additions are
those of 32-bit unsigned arithmetic. -/
def set_attributes_body {α : Type} (ops : AttributesOps α) (attr : α) (p : Nat) : α :=
  let param := p % 2 ^ 32
  if param = 0 then ops.defaults
  else if param = 49 then ops.reset_bg attr
  else if param = 39 then ops.reset_fg attr
  else if param = 1 ∨ param = 2 ∨ param = 22 then ops.set_bold attr (decide (param = 1))
  else if param = 4 ∨ param = 24 then ops.set_underline attr (decide (param = 4))
  else if (param + 2 ^ 32 - 30) % 2 ^ 32 < 8 ∨ (param + 2 ^ 32 - 90) % 2 ^ 32 < 8 then
    let param := (param + (if param ≥ 90 then 14 else 2)) % 2 ^ 32
    ops.set_fg attr (param &&& 0x0f)
  else if (param + 2 ^ 32 - 40) % 2 ^ 32 < 8 ∨ (param + 2 ^ 32 - 100) % 2 ^ 32 < 8 then
    let param := (param + (if param ≥ 100 then 4 else 8)) % 2 ^ 32
    ops.set_bg attr (param &&& 0x0f)
  else attr

/-- The method `Ecma48TerminalOut::set_attributes(csi)`: the attributes that it passes to
`m_screen.set_attributes`; `params` are the `csi.param_count` parameters and `init` is
the default-constructed `Attributes attr`. -/
def set_attributes {α : Type} (ops : AttributesOps α) (init : α) (params : List Nat) : α :=
  if params.length = 0 then ops.defaults
  else params.foldl (set_attributes_body ops) init

/-- The calls that `set_attributes` can make on an `Attributes` value, as values: the
instance of `AttributesOps` that records the last call. -/
inductive AttrCall where
  | untouched
  | defaults
  | reset_fg
  | reset_bg
  | set_bold (b : Bool)
  | set_underline (b : Bool)
  | set_fg (value : Nat)
  | set_bg (value : Nat)
  deriving DecidableEq, Repr

/-- The operations of `Attributes` that record the call made. -/
def AttrCall.ops : AttributesOps AttrCall :=
  { defaults := AttrCall.defaults
    reset_fg := fun _ => AttrCall.reset_fg
    reset_bg := fun _ => AttrCall.reset_bg
    set_bold := fun _ b => AttrCall.set_bold b
    set_underline := fun _ b => AttrCall.set_underline b
    set_fg := fun _ v => AttrCall.set_fg v
    set_bg := fun _ v => AttrCall.set_bg v }

/-! ## A bank that fits the buffer and does not end with a separator -/

/-- A `LineIter` that has read the whole file into its buffer: the invariant holds,
nothing is left to read, the buffer starts at offset 0 of the file and its fill is the
file. -/
structure LineIter.Whole (B : Nat) (it : LineIter) (h : File) : Prop where
  inv : LineIter.Inv B it h
  eof : it.m_file_iter.m_remaining = 0
  size_eq : it.m_file_iter.m_buffer_size = h.ptr
  off_zero : it.m_file_iter.m_buffer_offset = 0

/-- What one call of `LineIter::next` delivers on a file `front ++ last_run` held whole in
the buffer, from the offset `p` inside `front`, in terms of the records of `front`:
either the null id, no live record of `front` being left from `p` on; or the first live
record of `front` from `p` on, with its offset, the iterator standing right behind it. -/
def LineIter.front_post (B : Nat) (front : List Nat) (p : Nat) (h : File)
    (res : LineIdImpl × List Nat × LineIter × File) : Prop :=
  (res.1 = LineIdImpl.null ∧ ∀ x ∈ runs p (front.drop p), live x = false) ∨
  (∃ dead q r,
    runs p (front.drop p)
      = dead ++ (q, r) :: runs (q + r.length) (front.drop (q + r.length)) ∧
    (∀ x ∈ dead, live x = false) ∧ live (q, r) = true ∧
    res.1 = LineIdImpl.of_offset q ∧ res.2.1 = r ∧
    LineIter.Whole B res.2.2.1 res.2.2.2 ∧ res.2.2.2.data = h.data ∧
    res.2.2.1.pos res.2.2.2 = q + r.length ∧ q + r.length ≤ front.length)

/-! # Theorems -/

/-! ## Runs of record bytes -/

theorem takeWhile_rec_append (r rest : List Nat) (hr : ∀ c ∈ r, is_rec c = true)
    (hrest : ∀ c, rest.head? = some c → is_rec c = false) :
    (r ++ rest).takeWhile is_rec = r := by
  induction r with
  | nil =>
    cases rest with
    | nil => rfl
    | cons c t => simp [List.takeWhile, hrest c]
  | cons a r ih =>
    have ha : is_rec a = true := hr a (List.mem_cons_self _ _)
    simp only [List.cons_append, List.takeWhile_cons, ha, if_true]
    rw [ih (fun c hc => hr c (List.mem_cons_of_mem _ hc))]

theorem runs_aux_cons (b : Bool) (p c : Nat) (t : List Nat) :
    runs_aux b p (c :: t) =
      if is_rec c = true then
        if b = true then runs_aux true (p + 1) t
        else (p, (c :: t).takeWhile is_rec) :: runs_aux true (p + 1) t
      else runs_aux false (p + 1) t := rfl

theorem runs_aux_true_eq (p : Nat) (rest : List Nat)
    (hrest : ∀ c, rest.head? = some c → is_rec c = false) :
    runs_aux true p rest = runs_aux false p rest := by
  cases rest with
  | nil => rfl
  | cons c t => simp [runs_aux_cons, hrest c]

theorem runs_aux_true_append (r rest : List Nat) (p : Nat) (hr : ∀ c ∈ r, is_rec c = true)
    (hrest : ∀ c, rest.head? = some c → is_rec c = false) :
    runs_aux true p (r ++ rest) = runs (p + r.length) rest := by
  induction r generalizing p with
  | nil => simpa [runs] using runs_aux_true_eq p rest hrest
  | cons a r ih =>
    have ha : is_rec a = true := hr a (List.mem_cons_self _ _)
    rw [List.cons_append, runs_aux_cons, if_pos ha, if_pos rfl,
      ih (p + 1) (fun c hc => hr c (List.mem_cons_of_mem _ hc)), List.length_cons]
    congr 1; omega

/-- Leading separator bytes carry no record. -/
theorem runs_ctl_append (cs s : List Nat) (p : Nat) (hcs : ∀ c ∈ cs, is_rec c = false) :
    runs p (cs ++ s) = runs (p + cs.length) s := by
  induction cs generalizing p with
  | nil => simp
  | cons a cs ih =>
    have ha : is_rec a = false := hcs a (List.mem_cons_self _ _)
    have := ih (p + 1) (fun c hc => hcs c (List.mem_cons_of_mem _ hc))
    simp only [runs] at this ⊢
    rw [List.cons_append, runs_aux_cons, if_neg (by simp [ha]), this, List.length_cons]
    congr 1; omega

/-- A non-empty run of record bytes followed by a separator or by the end of the
content is the first record. -/
theorem runs_run_append (r rest : List Nat) (p : Nat) (hne : r ≠ [])
    (hr : ∀ c ∈ r, is_rec c = true)
    (hrest : ∀ c, rest.head? = some c → is_rec c = false) :
    runs p (r ++ rest) = (p, r) :: runs (p + r.length) rest := by
  cases r with
  | nil => exact absurd rfl hne
  | cons a r =>
    have ha : is_rec a = true := hr a (List.mem_cons_self _ _)
    have htw := takeWhile_rec_append (a :: r) rest hr hrest
    simp only [List.cons_append] at htw
    rw [runs, List.cons_append, runs_aux_cons, if_pos ha, if_neg (by simp), htw,
      runs_aux_true_append r rest (p + 1) (fun c hc => hr c (List.mem_cons_of_mem _ hc)) hrest,
      List.length_cons]
    congr 2; omega

theorem runs_nil (p : Nat) : runs p [] = [] := rfl

/-! ## The two scanning loops -/

theorem skip_loop_eq (w : List Nat) (start rem : Nat) :
    skip_loop w start rem =
      (start + (w.takeWhile (fun c => !is_rec c)).length,
       rem - (w.takeWhile (fun c => !is_rec c)).length) := by
  induction w generalizing start rem with
  | nil => simp [skip_loop]
  | cons c w ih =>
    by_cases hc : 0x1f < c
    · simp [skip_loop, hc, is_rec]
    · simp only [skip_loop, hc, if_false, ih]
      simp [is_rec, hc]
      omega

theorem scan_loop_eq (w : List Nat) (e : Nat) :
    scan_loop w e = e + (w.takeWhile is_rec).length := by
  induction w generalizing e with
  | nil => simp [scan_loop]
  | cons c w ih =>
    by_cases hc : c ≤ 0x1f
    · have : ¬ (0x1f < c) := by omega
      simp [scan_loop, hc, is_rec, this]
    · have : 0x1f < c := by omega
      simp only [scan_loop, hc, if_false, ih]
      simp [is_rec, this]
      omega

/-! ## The file iterator under the invariant -/

theorem take_store_at (buf bytes : List Nat) (r : Nat) (hr : r ≤ buf.length) :
    (store_at buf r bytes).take (bytes.length + r) = buf.take r ++ bytes := by
  unfold store_at
  apply List.take_left'
  rw [List.length_append, List.length_take, Nat.min_eq_left hr]; omega

theorem length_store_at (buf bytes : List Nat) (r : Nat) (hr : r + bytes.length ≤ buf.length) :
    (store_at buf r bytes).length = buf.length := by
  unfold store_at
  simp only [List.length_append, List.length_take, List.length_drop]
  omega

theorem take_memmove_front (buf : List Nat) (size r : Nat) (h1 : size ≤ buf.length)
    (h2 : r ≤ size) :
    ((if r ≠ 0 then memmove_front buf (size - r) r else buf).take r)
      = (buf.take size).drop (size - r) := by
  rw [List.drop_take]
  have e : size - (size - r) = r := by omega
  rw [e]
  by_cases hr0 : r = 0
  · simp [hr0]
  · rw [if_pos hr0]
    unfold memmove_front
    apply List.take_left'
    rw [List.length_take, List.length_drop]; omega

theorem length_memmove_front (buf : List Nat) (size r : Nat) (h1 : size ≤ buf.length)
    (h2 : r ≤ size) :
    (if r ≠ 0 then memmove_front buf (size - r) r else buf).length = buf.length := by
  by_cases hr0 : r = 0
  · simp [hr0]
  · rw [if_pos hr0]
    unfold memmove_front
    rw [List.length_append, List.length_take, List.length_drop, List.length_drop]; omega

theorem LineIter.Inv.advance {B : Nat} {it : LineIter} {h : File} (hI : LineIter.Inv B it h)
    (k : Nat) (hk : k ≤ it.m_remaining) :
    LineIter.Inv B { it with m_remaining := it.m_remaining - k } h := by
  obtain ⟨h1, h2, h3, h4, h5, h6, h7, h8, h9⟩ := hI
  refine ⟨h1, ?_, ?_, h4, h5, ?_, h7, h8, h9⟩
  · dsimp only
    omega
  · dsimp only
    omega
  · dsimp only
    have e1 : it.m_file_iter.m_buffer_size - (it.m_remaining - k)
        = (it.m_file_iter.m_buffer_size - it.m_remaining) + k := by omega
    have e2 : h.ptr - (it.m_remaining - k) = (h.ptr - it.m_remaining) + k := by omega
    rw [e1, e2, ← List.drop_drop, h6, ← List.drop_drop, List.drop_take]

theorem LineIter.provision_eof (it : LineIter) (h : File)
    (hf : it.m_file_iter.m_remaining = 0) :
    it.provision h =
      (false,
       { m_file_iter := { it.m_file_iter with m_buffer := it.m_file_iter.m_buffer.set 0 0 }
         m_remaining := 0 }, h) := by
  simp [LineIter.provision, FileIter.next, hf]

theorem LineIter.provision_read {B : Nat} {it : LineIter} {h : File}
    (hI : LineIter.Inv B it h) (hf : it.m_file_iter.m_remaining ≠ 0) :
    (it.provision h).1
        = (min it.m_file_iter.m_remaining
            (it.m_file_iter.m_buffer_size - it.m_remaining) + it.m_remaining != 0) ∧
      (it.provision h).2.1.m_remaining
        = min it.m_file_iter.m_remaining (it.m_file_iter.m_buffer_size - it.m_remaining)
            + it.m_remaining ∧
      (it.provision h).2.1.m_file_iter.m_remaining
        = it.m_file_iter.m_remaining
            - min it.m_file_iter.m_remaining (it.m_file_iter.m_buffer_size - it.m_remaining) ∧
      (it.provision h).2.2.data = h.data ∧
      (it.provision h).2.2.ptr
        = h.ptr + min it.m_file_iter.m_remaining
            (it.m_file_iter.m_buffer_size - it.m_remaining) ∧
      LineIter.Inv B (it.provision h).2.1 (it.provision h).2.2 := by
  obtain ⟨h1, h2, h3, h4, h5, h6, h7, h8, h9⟩ := hI
  set fi := it.m_file_iter with hfi
  set r := it.m_remaining with hr
  set size := fi.m_buffer_size with hsize
  set needed := min fi.m_remaining (size - r) with hneeded
  have hmin : min r size = r := Nat.min_eq_left h2
  have hbytes : ((h.data.drop h.ptr).take needed).length = needed := by
    rw [List.length_take, List.length_drop]; omega
  have hprov : it.provision h =
      ((needed + r != 0),
       { m_file_iter :=
          { m_buffer := store_at
              (if r ≠ 0 then memmove_front fi.m_buffer (size - r) r else fi.m_buffer) r
              ((h.data.drop h.ptr).take needed)
            m_buffer_size := needed + r
            m_buffer_offset := (fi.m_buffer_offset + (size - r)) % 2 ^ 32
            m_remaining := fi.m_remaining - needed }
         m_remaining := needed + r },
       { data := h.data, ptr := h.ptr + needed }) := by
    simp only [LineIter.provision, FileIter.next, ← hfi, ← hr, ← hsize, hf, if_false, ReadFile,
      hmin, ← hneeded, hbytes]
  rw [hprov]
  refine ⟨rfl, rfl, rfl, rfl, rfl, ?_⟩
  have hmoved := take_memmove_front fi.m_buffer size r h1 h2
  have hmlen := length_memmove_front fi.m_buffer size r h1 h2
  have hts := take_store_at (if r ≠ 0 then memmove_front fi.m_buffer (size - r) r else fi.m_buffer)
    ((h.data.drop h.ptr).take needed) r (by omega)
  rw [hbytes] at hts
  refine ⟨?_, ?_, ?_, ?_, ?_, ?_, ?_, ?_, ?_⟩
  · dsimp only
    rw [length_store_at _ _ _ (by rw [hbytes]; omega), hmlen]
    omega
  · dsimp only
    exact Nat.le_refl _
  · dsimp only
    omega
  · dsimp only
    omega
  · dsimp only
    omega
  · dsimp only
    rw [Nat.sub_self, List.drop_zero, hts, hmoved, h6]
    have e2 : h.ptr + needed - (needed + r) = h.ptr - r := by omega
    have e3 : needed + r = r + needed := by omega
    have e4 : h.ptr - r + r = h.ptr := by omega
    rw [e2, e3, List.take_add, List.drop_drop, e4]
  · dsimp only
    have e : (fi.m_buffer_offset + (size - r)) + (needed + r)
        = (fi.m_buffer_offset + size) + needed := by omega
    rw [Nat.add_mod, Nat.mod_mod, ← Nat.add_mod, e, Nat.add_mod, h7, ← Nat.add_mod]
  · dsimp only
    rcases h8 with h8 | h8
    · exact absurd h8 hf
    · by_cases hc : fi.m_remaining ≤ size - r
      · left; omega
      · right; omega
  · dsimp only
    rw [length_store_at _ _ _ (by rw [hbytes]; omega), hmlen]
    exact h9

/-! ## Splitting a window into separators, a run and the rest -/

theorem window_split (W : List Nat) :
    ∃ cs r W2 : List Nat,
      W = cs ++ (r ++ W2) ∧
      cs = W.takeWhile (fun c => !is_rec c) ∧
      r = (W.drop cs.length).takeWhile is_rec ∧
      (∀ c ∈ cs, is_rec c = false) ∧
      (∀ c ∈ r, is_rec c = true) ∧
      (∀ c, W2.head? = some c → is_rec c = false) ∧
      (cs.length < W.length → r ≠ []) := by
  refine ⟨W.takeWhile (fun c => !is_rec c),
    (W.dropWhile (fun c => !is_rec c)).takeWhile is_rec,
    (W.dropWhile (fun c => !is_rec c)).dropWhile is_rec, ?_, rfl, ?_, ?_, ?_, ?_, ?_⟩
  · rw [List.takeWhile_append_dropWhile, List.takeWhile_append_dropWhile]
  · congr 1
    have h := List.takeWhile_append_dropWhile (fun c => !is_rec c) W
    conv_lhs => rw [← List.drop_left (W.takeWhile (fun c => !is_rec c))
      (W.dropWhile (fun c => !is_rec c)), h]
  · intro c hc
    have := List.mem_takeWhile_imp hc
    simpa using this
  · intro c hc
    exact List.mem_takeWhile_imp hc
  · intro c hc
    have := List.head?_dropWhile_not is_rec (W.dropWhile (fun c => !is_rec c))
    rw [hc] at this
    simpa using this
  · intro hlt
    have hne : W.dropWhile (fun c => !is_rec c) ≠ [] := by
      intro h0
      have h := List.takeWhile_append_dropWhile (fun c => !is_rec c) W
      rw [h0, List.append_nil] at h
      rw [h] at hlt
      exact Nat.lt_irrefl _ hlt
    obtain ⟨a, t, hat⟩ := List.exists_cons_of_ne_nil hne
    have := List.head?_dropWhile_not (fun c => !is_rec c) W
    rw [hat] at this ⊢
    simp at this
    simp [List.takeWhile_cons, this]

/-! ## One iteration of the loop of `LineIter::next` -/

theorem LineIter.next_loop_body_eq (fuel : Nat) (it : LineIter) (h : File) (out : List Nat)
    (hrem : it.m_remaining ≠ 0) (W : List Nat) (k n : Nat)
    (hW : W = (it.m_file_iter.m_buffer.take it.m_file_iter.m_buffer_size).drop
      (it.m_file_iter.m_buffer_size - it.m_remaining))
    (hk : k = (W.takeWhile (fun c => !is_rec c)).length)
    (hn : n = ((W.drop k).takeWhile is_rec).length) :
    LineIter.next_loop (fuel + 1) it h out =
      if it.m_file_iter.m_buffer_size - it.m_remaining + k + n = it.m_file_iter.m_buffer_size ∧
          it.m_file_iter.m_buffer_size - it.m_remaining + k ≠ 0 then
        LineIter.next_loop fuel
          (({ it with m_remaining := it.m_remaining - k } : LineIter).provision h).2.1
          (({ it with m_remaining := it.m_remaining - k } : LineIter).provision h).2.2 out
      else if it.m_file_iter.m_buffer.getD
          (it.m_file_iter.m_buffer_size - it.m_remaining + k) 0 = 0x7C then
        LineIter.next_loop fuel { it with m_remaining := it.m_remaining - k - n } h out
      else
        some (LineIdImpl.of_offset ((it.m_file_iter.m_buffer_offset +
                (it.m_file_iter.m_buffer_size - it.m_remaining + k)) % 2 ^ 32),
              (it.m_file_iter.m_buffer.take
                (it.m_file_iter.m_buffer_size - it.m_remaining + k + n)).drop
                (it.m_file_iter.m_buffer_size - it.m_remaining + k),
              { it with m_remaining := it.m_remaining - k - n }, h) := by
  have hd : (it.m_file_iter.m_buffer.take it.m_file_iter.m_buffer_size).drop
      (it.m_file_iter.m_buffer_size - it.m_remaining + k) = W.drop k := by
    rw [hW, List.drop_drop]
  rw [LineIter.next_loop]
  simp only [hrem, ne_eq, not_false_eq_true, if_true, skip_loop_eq, scan_loop_eq, ← hW, ← hk,
    hd, ← hn, Nat.add_sub_cancel_left]
  simp

/-- The loop head when the buffer is used up and the file is not: the iteration goes on
with the refilled buffer. -/
theorem LineIter.next_loop_refill (fuel : Nat) (it : LineIter) (h : File) (out : List Nat)
    (hrem : it.m_remaining = 0) (hgo : (it.provision h).1 = true)
    (hrem1 : (it.provision h).2.1.m_remaining ≠ 0) :
    LineIter.next_loop (fuel + 1) it h out
      = LineIter.next_loop (fuel + 1) (it.provision h).2.1 (it.provision h).2.2 out := by
  rw [LineIter.next_loop, LineIter.next_loop]
  simp only [hrem, hrem1, ne_eq, not_true_eq_false, not_false_eq_true, if_true, if_false, hgo]

/-- The loop head when the buffer is used up and nothing more can be read. -/
theorem LineIter.next_loop_stop (fuel : Nat) (it : LineIter) (h : File) (out : List Nat)
    (hrem : it.m_remaining = 0) (hgo : (it.provision h).1 = false) :
    LineIter.next_loop (fuel + 1) it h out
      = some (LineIdImpl.null, out, (it.provision h).2.1, (it.provision h).2.2) := by
  rw [LineIter.next_loop]
  simp only [hrem, ne_eq, not_true_eq_false, if_false, hgo, if_true]

/-! ## Facts about records -/

theorem runs_aux_ne_nil (b : Bool) (p : Nat) (s : List Nat) :
    ∀ x ∈ runs_aux b p s, x.2 ≠ [] := by
  induction s generalizing b p with
  | nil => intro x hx; simp [runs_aux] at hx
  | cons c t ih =>
    intro x hx
    rw [runs_aux_cons] at hx
    by_cases hc : is_rec c = true
    · rw [if_pos hc] at hx
      by_cases hb : b = true
      · rw [if_pos hb] at hx
        exact ih _ _ x hx
      · rw [if_neg hb] at hx
        rcases List.mem_cons.1 hx with hx | hx
        · subst hx
          simp [List.takeWhile_cons, hc]
        · exact ih _ _ x hx
    · rw [if_neg hc] at hx
      exact ih _ _ x hx

/-- Every record is non-empty. -/
theorem runs_ne_nil (p : Nat) (s : List Nat) : ∀ x ∈ runs p s, x.2 ≠ [] :=
  runs_aux_ne_nil false p s

/-- A content that starts with a record byte has the run of its leading record bytes as
its first record. -/
theorem runs_head_mem (p a : Nat) (t : List Nat) (ha : is_rec a = true) :
    (p, (a :: t).takeWhile is_rec) ∈ runs p (a :: t) := by
  rw [runs, runs_aux_cons, if_pos ha, if_neg (by simp)]
  exact List.mem_cons_self _ _

/-- Moving the result of `LineIter::next` from a later state of the same call back to
the state the call started in, `pre0` being the dead records passed in between. -/
theorem LineIter.next_post_transfer {B : Nat} {it it1 : LineIter} {h h1 : File}
    {out : List Nat} {res : LineIdImpl × List Nat × LineIter × File}
    (pre0 : List (Nat × List Nat)) (hd : h1.data = h.data)
    (hruns : runs (it.pos h) (h.data.drop (it.pos h))
      = pre0 ++ runs (it1.pos h1) (h.data.drop (it1.pos h1)))
    (hdead : ∀ x ∈ pre0, live x = false)
    (hpost : LineIter.next_post B it1 h1 out res) : LineIter.next_post B it h out res := by
  obtain ⟨hdata, hbl, hcase⟩ := hpost
  refine ⟨hdata.trans hd, hbl, ?_⟩
  rw [hd] at hcase
  rcases hcase with ⟨hnull, hout, hall⟩ | ⟨pre, q, r, hr, hpre, hlive, hid, hout, hinv, hpos⟩
  · left
    refine ⟨hnull, hout, ?_⟩
    intro x hx
    rw [hruns] at hx
    rcases List.mem_append.1 hx with hx | hx
    · exact hdead x hx
    · exact hall x hx
  · right
    refine ⟨pre0 ++ pre, q, r, ?_, ?_, hlive, hid, hout, hinv, hpos⟩
    · rw [hruns, hr, List.append_assoc]
    · intro x hx
      rcases List.mem_append.1 hx with hx | hx
      · exact hdead x hx
      · exact hpre x hx

theorem LineIter.Inv.eof_reset {B : Nat} {it : LineIter} {h : File}
    (hI : LineIter.Inv B it h) :
    LineIter.Inv B
      { m_file_iter := { it.m_file_iter with m_buffer := it.m_file_iter.m_buffer.set 0 0 }
        m_remaining := 0 } h := by
  obtain ⟨h1, h2, h3, h4, h5, h6, h7, h8, h9⟩ := hI
  refine ⟨?_, ?_, ?_, h4, h5, ?_, h7, h8, ?_⟩
  · dsimp only
    rw [List.length_set]; exact h1
  · dsimp only; omega
  · dsimp only; omega
  · dsimp only
    rw [Nat.sub_zero, List.take_zero]
    apply List.drop_eq_nil_of_le
    rw [List.length_take]; omega
  · dsimp only
    rw [List.length_set]; exact h9

/-- The unread part of the file, split at the file pointer. -/
theorem LineIter.Inv.drop_pos {B : Nat} {it : LineIter} {h : File}
    (hI : LineIter.Inv B it h) :
    h.data.drop (it.pos h)
      = (it.m_file_iter.m_buffer.take it.m_file_iter.m_buffer_size).drop
          (it.m_file_iter.m_buffer_size - it.m_remaining) ++ h.data.drop h.ptr := by
  rw [hI.window]
  have e : h.data.drop h.ptr = (h.data.drop (h.ptr - it.m_remaining)).drop it.m_remaining := by
    rw [List.drop_drop]
    congr 1
    have := hI.rem_le_ptr
    omega
  rw [e, List.take_append_drop]
  rfl

theorem LineIter.Inv.window_length {B : Nat} {it : LineIter} {h : File}
    (hI : LineIter.Inv B it h) :
    ((it.m_file_iter.m_buffer.take it.m_file_iter.m_buffer_size).drop
          (it.m_file_iter.m_buffer_size - it.m_remaining)).length = it.m_remaining := by
  rw [List.length_drop, List.length_take]
  have := hI.size_le
  have := hI.rem_le
  omega

theorem of_offset_congr (a b : Nat) (h : a % 2 ^ 32 = b % 2 ^ 32) :
    LineIdImpl.of_offset (a % 2 ^ 32) = LineIdImpl.of_offset b := by
  unfold LineIdImpl.of_offset
  congr 1
  omega

theorem getLast?_drop_of_ne_nil (f : List Nat) (p : Nat) (hne : f.drop p ≠ []) :
    (f.drop p).getLast? = f.getLast? := by
  conv_rhs => rw [← List.take_append_drop p f]
  rw [List.getLast?_append_of_ne_nil _ hne]

theorem ends_ok_drop_mono (f : List Nat) (p q : Nat) (h : ends_ok (f.drop p)) (hpq : p ≤ q) :
    ends_ok (f.drop q) := by
  intro b hb
  have hne : f.drop q ≠ [] := by
    intro h0; rw [h0] at hb; simp at hb
  have hne1 : f.drop p ≠ [] := by
    intro h0
    apply hne
    have : f.length ≤ p := by
      have := congrArg List.length h0
      rw [List.length_drop, List.length_nil] at this
      omega
    apply List.drop_eq_nil_of_le
    omega
  apply h
  rw [getLast?_drop_of_ne_nil f p hne1, ← getLast?_drop_of_ne_nil f q hne]
  exact hb

theorem LineIter.provision_eof_spec {B : Nat} {it : LineIter} {h : File}
    (hI : LineIter.Inv B it h) (hf : it.m_file_iter.m_remaining = 0) :
    (it.provision h).1 = false ∧ (it.provision h).2.2 = h ∧
      (it.provision h).2.1.m_remaining = 0 ∧
      (it.provision h).2.1.m_file_iter.m_remaining = 0 ∧
      LineIter.Inv B (it.provision h).2.1 h := by
  rw [LineIter.provision_eof it h hf]
  exact ⟨rfl, rfl, rfl, hf, hI.eof_reset⟩

theorem LineIter.next_loop_body_spec (B fuel : Nat)
    (ih : ∀ (it : LineIter) (h : File) (out : List Nat), LineIter.Inv B it h →
        wf_from B h.data (it.pos h) →
        2 * it.m_file_iter.m_remaining + it.m_remaining < fuel →
        ∃ res, LineIter.next_loop fuel it h out = some res ∧ LineIter.next_post B it h out res)
    (it : LineIter) (h : File) (out : List Nat) (hI : LineIter.Inv B it h)
    (hwf : wf_from B h.data (it.pos h)) (hrem : it.m_remaining ≠ 0)
    (hfuel : 2 * it.m_file_iter.m_remaining + it.m_remaining < fuel + 1) :
    ∃ res, LineIter.next_loop (fuel + 1) it h out = some res ∧
      LineIter.next_post B it h out res := by
  obtain ⟨W, hWdef⟩ : ∃ W, W = (it.m_file_iter.m_buffer.take it.m_file_iter.m_buffer_size).drop
      (it.m_file_iter.m_buffer_size - it.m_remaining) := ⟨_, rfl⟩
  obtain ⟨cs, r, W2, hW, hcs, hr, hcs_ctl, hr_rec, hW2, hrne⟩ := window_split W
  have hWlen : W.length = it.m_remaining := by rw [hWdef]; exact hI.window_length
  have hdrop : h.data.drop (it.pos h) = W ++ h.data.drop h.ptr := by
    rw [hWdef]; exact hI.drop_pos
  have hlen : cs.length + r.length + W2.length = it.m_remaining := by
    rw [← hWlen, hW]; simp only [List.length_append]; omega
  have hsz := hI.size_le
  have hrl := hI.rem_le
  have hrp := hI.rem_le_ptr
  have hpl := hI.ptr_le
  have hfr := hI.frem
  have hpos : it.pos h = h.ptr - it.m_remaining := rfl
  rw [LineIter.next_loop_body_eq fuel it h out hrem W cs.length r.length hWdef
    (by rw [← hcs]) (by rw [← hr])]
  by_cases hstr : it.m_file_iter.m_buffer_size - it.m_remaining + cs.length + r.length
      = it.m_file_iter.m_buffer_size ∧
      it.m_file_iter.m_buffer_size - it.m_remaining + cs.length ≠ 0
  · -- the record may go on past the end of the buffer: refetch with rollback
    rw [if_pos hstr]
    have hW2nil : W2 = [] := by
      apply List.eq_nil_of_length_eq_zero; omega
    subst hW2nil
    rw [List.append_nil] at hW
    have hImid := hI.advance cs.length (by omega)
    have hruns_skip : runs (it.pos h) (h.data.drop (it.pos h))
        = runs (it.pos h + cs.length) (h.data.drop (it.pos h + cs.length)) := by
      have e : h.data.drop (it.pos h + cs.length) = r ++ h.data.drop h.ptr := by
        rw [← List.drop_drop, hdrop, hW, List.append_assoc, List.drop_left]
      rw [e, hdrop, hW, List.append_assoc, runs_ctl_append cs _ _ hcs_ctl]
    by_cases hf0 : it.m_file_iter.m_remaining = 0
    · -- nothing left in the file
      obtain ⟨-, hh1, hrem1, hfrem1, hIe⟩ := LineIter.provision_eof_spec hImid hf0
      rw [hh1]
      set it1 := (LineIter.provision { it with m_remaining := it.m_remaining - cs.length } h).2.1
      have hptr : h.ptr = h.data.length := by omega
      have hpos1 : it1.pos h = h.data.length := by
        show h.ptr - it1.m_remaining = _
        rw [hrem1]; omega
      have hnil : h.data.drop (h.data.length) = [] := List.drop_length _
      obtain ⟨res, hres, hpost⟩ := ih it1 h out hIe
        (by rw [hpos1]
            exact ⟨by rw [hnil]; intro b hb; simp at hb,
              by rw [hnil]; intro x hx; simp [runs, runs_aux] at hx⟩)
        (by rw [hrem1, hfrem1]; omega)
      refine ⟨res, hres, ?_⟩
      have hfnil : h.data.drop h.ptr = [] := by rw [hptr]; exact hnil
      have hrnil : r = [] := by
        by_contra hne
        have h1 : h.data.drop (it.pos h) ≠ [] := by
          rw [hdrop, hW, hfnil]; simp [hne]
        have h2 : (h.data.drop (it.pos h)).getLast? = some (r.getLast hne) := by
          rw [hdrop, hW, hfnil, List.append_nil, List.getLast?_append_of_ne_nil _ hne,
            List.getLast?_eq_getLast _ hne]
        have h3 := hwf.1 _ h2
        have h4 := hr_rec _ (List.getLast_mem hne)
        simp only [is_rec, decide_eq_true_eq] at h4
        omega
      have hall : runs (it.pos h) (h.data.drop (it.pos h)) = [] := by
        rw [hdrop, hW, hrnil, hfnil, List.append_nil, List.append_nil]
        have := runs_ctl_append cs [] (it.pos h) hcs_ctl
        rw [List.append_nil] at this
        rw [this]; rfl
      refine LineIter.next_post_transfer [] rfl ?_ (by simp) hpost
      rw [hall, hpos1, hnil]; rfl
    · -- read on, keeping the partial record
      obtain ⟨hgo, hrem1, hfrem1, hdata1, hptr1, hI1⟩ := LineIter.provision_read hImid hf0
      dsimp only at hgo hrem1 hfrem1 hptr1
      set it1 := (LineIter.provision { it with m_remaining := it.m_remaining - cs.length } h).2.1
      set h1 := (LineIter.provision { it with m_remaining := it.m_remaining - cs.length } h).2.2
      have hpos1 : it1.pos h1 = it.pos h + cs.length := by
        show h1.ptr - it1.m_remaining = _
        rw [hptr1, hrem1, hpos]; omega
      obtain ⟨res, hres, hpost⟩ := ih it1 h1 out hI1
        (by rw [hdata1, hpos1]
            exact ⟨ends_ok_drop_mono _ _ _ hwf.1 (by omega), by rw [← hruns_skip]; exact hwf.2⟩)
        (by rw [hfrem1, hrem1]; omega)
      refine ⟨res, hres, ?_⟩
      refine LineIter.next_post_transfer [] hdata1 ?_ (by simp) hpost
      rw [hpos1, List.nil_append]; exact hruns_skip
  · -- the record ends inside the buffer, or fills it from its first byte
    rw [if_neg hstr]
    have hklt : cs.length < W.length := by
      by_contra hge
      apply hstr
      constructor <;> omega
    have hrne1 : r ≠ [] := hrne hklt
    obtain ⟨a, r1, har⟩ := List.exists_cons_of_ne_nil hrne1
    have ha : is_rec a = true := hr_rec a (by rw [har]; exact List.mem_cons_self _ _)
    have hrest : ∀ c, (W2 ++ h.data.drop h.ptr).head? = some c → is_rec c = false := by
      intro c hc
      cases hW2c : W2 with
      | cons w W3 =>
        rw [hW2c] at hc
        apply hW2 c
        rw [hW2c]; simpa using hc
      | nil =>
        rw [hW2c, List.nil_append] at hc
        rw [hW2c] at hlen hW
        simp only [List.length_nil, Nat.add_zero] at hlen
        have hk0 : cs.length = 0 := by
          by_contra hk
          apply hstr
          constructor <;> omega
        have hsize : it.m_file_iter.m_buffer_size = it.m_remaining := by
          by_contra hk
          apply hstr
          constructor <;> omega
        have hcsnil : cs = [] := List.eq_nil_of_length_eq_zero hk0
        rw [hcsnil, List.nil_append, List.append_nil] at hW
        by_contra hcrec
        have hcrec1 : is_rec c = true := by simpa using hcrec
        obtain ⟨t, ht⟩ : ∃ t, h.data.drop h.ptr = c :: t := by
          cases hq : h.data.drop h.ptr with
          | nil => rw [hq] at hc; simp at hc
          | cons c1 t => rw [hq] at hc; simp at hc; exact ⟨t, by rw [hc]⟩
        have hfne : it.m_file_iter.m_remaining ≠ 0 := by
          have : (h.data.drop h.ptr).length = h.data.length - h.ptr := List.length_drop _ _
          rw [ht] at this
          simp only [List.length_cons] at this
          omega
        have hB : it.m_file_iter.m_buffer_size = B := by
          rcases hI.cap with hc0 | hc0
          · exact absurd hc0 hfne
          · exact hc0
        have hmem := runs_head_mem (it.pos h) a (r1 ++ c :: t) ha
        have htw : ((a :: (r1 ++ c :: t)).takeWhile is_rec).length ≥ r.length + 1 := by
          have e : a :: (r1 ++ c :: t) = r ++ c :: t := by rw [har]; rfl
          rw [e, List.takeWhile_append_of_pos hr_rec, List.takeWhile_cons, if_pos hcrec1]
          simp only [List.length_append, List.length_cons]
          omega
        have hdr : h.data.drop (it.pos h) = a :: (r1 ++ c :: t) := by
          rw [hdrop, hW, ht, har]; rfl
        rw [← hdr] at hmem
        have := hwf.2 _ hmem
        dsimp only at this
        rw [hdr] at this
        omega
    have hdrop2 : h.data.drop (it.pos h + cs.length + r.length) = W2 ++ h.data.drop h.ptr := by
      rw [Nat.add_assoc, ← List.drop_drop, hdrop, hW]
      have e : cs ++ (r ++ W2) ++ h.data.drop h.ptr
          = (cs ++ r) ++ (W2 ++ h.data.drop h.ptr) := by simp
      rw [e, ← List.length_append, List.drop_left]
    have hruns : runs (it.pos h) (h.data.drop (it.pos h))
        = (it.pos h + cs.length, r)
          :: runs (it.pos h + cs.length + r.length)
               (h.data.drop (it.pos h + cs.length + r.length)) := by
      rw [hdrop2, hdrop, hW]
      have e : cs ++ (r ++ W2) ++ h.data.drop h.ptr
          = cs ++ (r ++ (W2 ++ h.data.drop h.ptr)) := by simp
      rw [e, runs_ctl_append cs _ _ hcs_ctl, runs_run_append r _ _ hrne1 hr_rec hrest]
    have hI2 : LineIter.Inv B { it with m_remaining := it.m_remaining - cs.length - r.length } h := by
      have := hI.advance (cs.length + r.length) (by omega)
      rw [Nat.sub_add_eq] at this
      exact this
    have hpos2 : LineIter.pos { it with m_remaining := it.m_remaining - cs.length - r.length } h
        = it.pos h + cs.length + r.length := by
      show h.ptr - (it.m_remaining - cs.length - r.length) = _
      rw [hpos]; omega
    have hWdrop : W.drop cs.length = r ++ W2 := by
      rw [hW, List.drop_left]
    have hbufdrop : (it.m_file_iter.m_buffer.drop
        (it.m_file_iter.m_buffer_size - it.m_remaining + cs.length)).take
          (it.m_remaining - cs.length) = r ++ W2 := by
      rw [← hWdrop, hWdef, List.drop_drop, List.drop_take]
      congr 1
      omega
    have hslice : (it.m_file_iter.m_buffer.take
          (it.m_file_iter.m_buffer_size - it.m_remaining + cs.length + r.length)).drop
          (it.m_file_iter.m_buffer_size - it.m_remaining + cs.length) = r := by
      rw [List.drop_take, Nat.add_sub_cancel_left]
      have : (r ++ W2).take r.length = r := List.take_left _ _
      rw [← hbufdrop, List.take_take, Nat.min_eq_left (by omega)] at this
      exact this
    have hget : it.m_file_iter.m_buffer.getD
        (it.m_file_iter.m_buffer_size - it.m_remaining + cs.length) 0 = a := by
      have h1 : (it.m_file_iter.m_buffer.drop
          (it.m_file_iter.m_buffer_size - it.m_remaining + cs.length)).head? = some a := by
        have := congrArg List.head? hbufdrop
        rw [har] at this
        simp only [List.cons_append, List.head?_cons] at this
        rw [List.head?_take, if_neg (by omega)] at this
        exact this
      rw [List.head?_drop] at h1
      rw [List.getD_eq_getElem?_getD, h1]; rfl
    rw [hget, hslice]
    by_cases htomb : a = 0x7C
    · -- a tombstone: go on behind it
      rw [if_pos htomb]
      obtain ⟨res, hres, hpost⟩ := ih _ h out hI2
        (by
          rw [hpos2]
          refine ⟨ends_ok_drop_mono _ _ _ hwf.1 (by omega), ?_⟩
          intro x hx
          apply hwf.2
          rw [hruns]
          exact List.mem_cons_of_mem _ hx)
        (by dsimp only; have : r.length ≠ 0 := by rw [har]; simp
            omega)
      refine ⟨res, hres, ?_⟩
      refine LineIter.next_post_transfer [(it.pos h + cs.length, r)] rfl ?_ ?_ hpost
      · rw [hpos2, hruns]; rfl
      · intro x hx
        simp only [List.mem_singleton] at hx
        subst hx
        simp [live, har, htomb]
    · -- a live record
      rw [if_neg htomb]
      refine ⟨_, rfl, ?_⟩
      refine ⟨rfl, hI2.buf_len,
        Or.inr ⟨[], it.pos h + cs.length, r, ?_, by simp, ?_, ?_, rfl, hI2, ?_⟩⟩
      · rw [List.nil_append, hruns]
      · simp [live, har, htomb]
      · apply of_offset_congr
        have hoff := hI.off
        have e1 : it.m_file_iter.m_buffer_offset
            + (it.m_file_iter.m_buffer_size - it.m_remaining + cs.length) + it.m_remaining
            = (it.m_file_iter.m_buffer_offset + it.m_file_iter.m_buffer_size) + cs.length := by
          omega
        have e2 : it.pos h + cs.length + it.m_remaining = h.ptr + cs.length := by
          rw [hpos]; omega
        have e3 : (it.m_file_iter.m_buffer_offset
            + (it.m_file_iter.m_buffer_size - it.m_remaining + cs.length) + it.m_remaining)
              % 2 ^ 32 = (it.pos h + cs.length + it.m_remaining) % 2 ^ 32 := by
          rw [e1, e2, Nat.add_mod, hoff, ← Nat.add_mod]
        exact Nat.ModEq.add_right_cancel' _ e3
      · exact hpos2

/-- The loop of `LineIter::next` ends within its fuel and delivers the next live record
of the file, or the null id when there is none. -/
theorem LineIter.next_loop_spec (B : Nat) : ∀ (fuel : Nat) (it : LineIter) (h : File)
    (out : List Nat), LineIter.Inv B it h → wf_from B h.data (it.pos h) →
    2 * it.m_file_iter.m_remaining + it.m_remaining < fuel →
    ∃ res, LineIter.next_loop fuel it h out = some res ∧ LineIter.next_post B it h out res := by
  intro fuel
  induction fuel with
  | zero => intro it h out _ _ hf; omega
  | succ fuel ih =>
    intro it h out hI hwf hfuel
    by_cases hrem : it.m_remaining = 0
    · have hpos : it.pos h = h.ptr := by
        show h.ptr - it.m_remaining = _
        omega
      by_cases hf0 : it.m_file_iter.m_remaining = 0
      · obtain ⟨hgo, hh1, -, -, hIe⟩ := LineIter.provision_eof_spec hI hf0
        rw [LineIter.next_loop_stop fuel it h out hrem hgo]
        refine ⟨_, rfl, ?_, hIe.buf_len, Or.inl ⟨rfl, rfl, ?_⟩⟩
        · show (it.provision h).2.2.data = h.data
          rw [hh1]
        · have hfr := hI.frem
          have hpl := hI.ptr_le
          have : h.data.drop (it.pos h) = [] := by
            apply List.drop_eq_nil_of_le
            rw [hpos]; omega
          rw [this]
          intro x hx
          simp [runs, runs_aux] at hx
      · obtain ⟨hgo, hrem1, hfrem1, hdata1, hptr1, hI1⟩ := LineIter.provision_read hI hf0
        simp only [hrem, Nat.sub_zero, Nat.add_zero] at hgo hrem1 hfrem1 hptr1
        by_cases hn : min it.m_file_iter.m_remaining it.m_file_iter.m_buffer_size = 0
        · -- a buffer of no bytes
          rw [hn] at hgo
          rw [LineIter.next_loop_stop fuel it h out hrem (by rw [hgo]; rfl)]
          refine ⟨_, rfl, hdata1, hI1.buf_len, Or.inl ⟨rfl, rfl, ?_⟩⟩
          intro x hx
          have h1 := hwf.2 x hx
          have h2 := runs_ne_nil _ _ x hx
          have hB : B = 0 := by
            rcases hI.cap with hc | hc
            · exact absurd hc hf0
            · omega
          have : x.2.length ≠ 0 := fun h0 => h2 (List.eq_nil_of_length_eq_zero h0)
          omega
        · have hgo1 : (it.provision h).1 = true := by
            rw [hgo]; simpa using hn
          have hrem1ne : (it.provision h).2.1.m_remaining ≠ 0 := by rw [hrem1]; exact hn
          rw [LineIter.next_loop_refill fuel it h out hrem hgo1 hrem1ne]
          have hpos1 : (it.provision h).2.1.pos (it.provision h).2.2 = it.pos h := by
            show (it.provision h).2.2.ptr - (it.provision h).2.1.m_remaining = _
            rw [hptr1, hrem1, hpos]; omega
          obtain ⟨res, hres, hpost⟩ := LineIter.next_loop_body_spec B fuel ih
            (it.provision h).2.1 (it.provision h).2.2 out hI1
            (by rw [hdata1, hpos1]; exact hwf) hrem1ne
            (by rw [hfrem1, hrem1]; omega)
          refine ⟨res, hres, ?_⟩
          refine LineIter.next_post_transfer [] hdata1 ?_ (by simp) hpost
          rw [hpos1]; rfl
    · exact LineIter.next_loop_body_spec B fuel ih it h out hI hwf hrem hfuel

/-- The method `LineIter::next` returns, with the next live record or the null id. -/
theorem LineIter.next_spec (B : Nat) (it : LineIter) (h : File) (out : List Nat)
    (hI : LineIter.Inv B it h) (hwf : wf_from B h.data (it.pos h)) :
    ∃ res, it.next h out = some res ∧ LineIter.next_post B it h out res :=
  LineIter.next_loop_spec B _ it h out hI hwf (by omega)

/-- The constructor `LineIter` establishes the invariant, at offset 0 of the file. -/
theorem LineIter.init_spec (h : File) (buffer : List Nat) (hlen : h.data.length < 2 ^ 32) :
    LineIter.Inv buffer.length (LineIter.init h buffer).1 (LineIter.init h buffer).2 ∧
      (LineIter.init h buffer).2.data = h.data ∧
      (LineIter.init h buffer).1.pos (LineIter.init h buffer).2 = 0 := by
  have hinit : LineIter.init h buffer =
      ({ m_file_iter :=
          { m_buffer := buffer.set 0 0
            m_buffer_size := buffer.length
            m_buffer_offset := (2 ^ 32 - buffer.length % 2 ^ 32) % 2 ^ 32
            m_remaining := h.data.length % 2 ^ 32 }
         m_remaining := 0 }, { data := h.data, ptr := 0 }) := by
    simp [LineIter.init, FileIter.init, GetFileSize, SetFilePointerBegin]
  rw [hinit]
  refine ⟨⟨?_, ?_, ?_, ?_, ?_, ?_, ?_, ?_, ?_⟩, rfl, rfl⟩
  · dsimp only; rw [List.length_set]
  · dsimp only; omega
  · dsimp only; omega
  · dsimp only; omega
  · dsimp only; omega
  · dsimp only
    rw [Nat.sub_zero, List.take_zero]
    apply List.drop_eq_nil_of_le
    rw [List.length_take]; omega
  · dsimp only; omega
  · dsimp only; right; trivial
  · dsimp only; rw [List.length_set]

/-! ## Positions of records, ids -/

theorem runs_aux_bounds (b : Bool) (p : Nat) (s : List Nat) :
    ∀ x ∈ runs_aux b p s, p ≤ x.1 ∧ x.1 + x.2.length ≤ p + s.length ∧
      ∀ c ∈ x.2, is_rec c = true := by
  induction s generalizing b p with
  | nil => intro x hx; simp [runs_aux] at hx
  | cons c t ih =>
    intro x hx
    rw [runs_aux_cons] at hx
    have step : ∀ b1, x ∈ runs_aux b1 (p + 1) t →
        p ≤ x.1 ∧ x.1 + x.2.length ≤ p + (c :: t).length ∧ ∀ c ∈ x.2, is_rec c = true := by
      intro b1 hx1
      have := ih b1 (p + 1) x hx1
      simp only [List.length_cons]
      exact ⟨by omega, by omega, this.2.2⟩
    by_cases hc : is_rec c = true
    · rw [if_pos hc] at hx
      by_cases hb : b = true
      · rw [if_pos hb] at hx
        exact step _ hx
      · rw [if_neg hb] at hx
        rcases List.mem_cons.1 hx with hx | hx
        · subst hx
          have := (List.takeWhile_sublist is_rec (l := c :: t)).length_le
          dsimp only
          exact ⟨Nat.le_refl _, by omega, fun d hd => List.mem_takeWhile_imp hd⟩
        · exact step _ hx
    · rw [if_neg hc] at hx
      exact step _ hx

/-- A record lies inside the content, at or after its start, and is made of record
bytes. -/
theorem runs_bounds (p : Nat) (s : List Nat) :
    ∀ x ∈ runs p s, p ≤ x.1 ∧ x.1 + x.2.length ≤ p + s.length ∧
      ∀ c ∈ x.2, is_rec c = true :=
  runs_aux_bounds false p s

theorem to_bool_of_offset (q : Nat) : (LineIdImpl.of_offset q).to_bool = true := by
  simp only [LineIdImpl.to_bool, LineIdImpl.of_offset, LineIdImpl.outer]
  simp only [bne_iff_ne, ne_eq]
  omega

theorem to_bool_null : LineIdImpl.null.to_bool = false := by
  simp [LineIdImpl.to_bool, LineIdImpl.null, LineIdImpl.outer]

theorem of_offset_eq (q : Nat) (hq : q < 2 ^ 29) :
    LineIdImpl.of_offset q = { offset := q, bank_index := 0, active := 1 } := by
  simp only [LineIdImpl.of_offset, Nat.mod_eq_of_lt hq]

/-- The consequences of `next_post` in the shape the callers of `LineIter::next` use:
either no live record is left, or the first live record is delivered and the iterator
stands behind it, closer to the end of the file. -/
theorem LineIter.next_post_cases {B : Nat} {it : LineIter} {h : File} {out : List Nat}
    {res : LineIdImpl × List Nat × LineIter × File}
    (hI : LineIter.Inv B it h)
    (hwf : wf_from B h.data (it.pos h)) (hpost : LineIter.next_post B it h out res) :
    res.2.2.2.data = h.data ∧ res.2.2.1.m_file_iter.m_buffer.length = B ∧
    ((res.1 = LineIdImpl.null ∧ res.2.1 = out ∧
        (runs (it.pos h) (h.data.drop (it.pos h))).filter live = []) ∨
     (∃ q r,
        (runs (it.pos h) (h.data.drop (it.pos h))).filter live
          = (q, r) :: (runs (res.2.2.1.pos res.2.2.2)
              (h.data.drop (res.2.2.1.pos res.2.2.2))).filter live ∧
        res.1 = LineIdImpl.of_offset q ∧ res.2.1 = r ∧
        LineIter.Inv B res.2.2.1 res.2.2.2 ∧
        wf_from B h.data (res.2.2.1.pos res.2.2.2) ∧
        res.2.2.1.pos res.2.2.2 = q + r.length ∧
        it.pos h ≤ q ∧ q + r.length ≤ h.data.length ∧ r ≠ [] ∧ r.length ≤ B ∧
        (∀ c ∈ r, is_rec c = true) ∧ live (q, r) = true)) := by
  obtain ⟨hdata, hbl, hcase⟩ := hpost
  refine ⟨hdata, hbl, ?_⟩
  rcases hcase with ⟨hnull, hout, hall⟩ | ⟨pre, q, r, hr, hpre, hlive, hid, hout, hinv, hpos⟩
  · left
    refine ⟨hnull, hout, ?_⟩
    rw [List.filter_eq_nil_iff]
    intro x hx
    rw [hall x hx]; simp
  · right
    have hmem : (q, r) ∈ runs (it.pos h) (h.data.drop (it.pos h)) := by
      rw [hr]; exact List.mem_append_right _ (List.mem_cons_self _ _)
    obtain ⟨hb1, hb2, hb3⟩ := runs_bounds _ _ _ hmem
    have hne := runs_ne_nil _ _ _ hmem
    dsimp only at hb1 hb2 hb3 hne
    have hpp := hI.rem_le_ptr
    have hpl := hI.ptr_le
    have hposle : it.pos h ≤ h.data.length := by
      show h.ptr - it.m_remaining ≤ _
      omega
    rw [List.length_drop] at hb2
    refine ⟨q, r, ?_, hid, hout, hinv, ?_, hpos, hb1, by omega, hne, hwf.2 _ hmem, hb3, hlive⟩
    · rw [hr, List.filter_append, List.filter_cons, if_pos hlive, hpos]
      have : pre.filter live = [] := by
        rw [List.filter_eq_nil_iff]
        intro x hx
        rw [hpre x hx]; simp
      rw [this, List.nil_append]
    · rw [hpos]
      refine ⟨ends_ok_drop_mono _ _ _ hwf.1 (by omega), ?_⟩
      intro x hx
      apply hwf.2
      rw [hr]
      exact List.mem_append_right _ (List.mem_cons_of_mem _ hx)

/-! ## Draining a line iterator -/

theorem LineIter.drain_spec (B : Nat) : ∀ (fuel : Nat) (it : LineIter) (h : File)
    (out : List Nat), LineIter.Inv B it h → wf_from B h.data (it.pos h) →
    h.data.length < 2 ^ 29 → h.data.length - it.pos h < fuel →
    LineIter.drain fuel it h out
      = some (((runs (it.pos h) (h.data.drop (it.pos h))).filter live).map line_id) := by
  intro fuel
  induction fuel with
  | zero => intro it h out _ _ _ hf; omega
  | succ fuel ih =>
    intro it h out hI hwf hlen hfuel
    obtain ⟨res, hres, hpost⟩ := LineIter.next_spec B it h out hI hwf
    obtain ⟨hdata, -, hcase⟩ := LineIter.next_post_cases hI hwf hpost
    obtain ⟨id, out1, it1, h1⟩ := res
    dsimp only at hdata hcase
    rw [LineIter.drain, hres]
    dsimp only
    rcases hcase with ⟨hnull, -, hnone⟩ | ⟨q, r, hsplit, hid, hout, hI1, hwf1, hpos1, hq1, hq2, hne, -, -, -⟩
    · rw [hnull, to_bool_null, hnone]
      rfl
    · have hrl : r.length ≠ 0 := fun h0 => hne (List.eq_nil_of_length_eq_zero h0)
      rw [hid, to_bool_of_offset, if_neg (by simp)]
      rw [ih it1 h1 out1 hI1 (by rw [hdata]; exact hwf1) (by rw [hdata]; exact hlen)
        (by rw [hdata, hpos1]; omega)]
      rw [hsplit, hdata, hout, of_offset_eq q (by omega)]
      rfl

/-- C3: for every bank content that is empty or ends with a byte of at most `0x1f`, whose
records are at most as long as the scan buffer and whose length is below `2 ^ 29`,
repeated `LineIter::next` returns, and yields in file order exactly the records whose
first byte is not the tombstone mark, each with the id whose offset is the position of
its first byte in the file, and then the null id, whatever the size of the buffer is
relative to the file. -/
theorem C3_line_iter_yields_live_records (buffer f out : List Nat) (ptr : Nat)
    (hend : ends_ok f)
    (hruns : ∀ x ∈ runs 0 f, x.2.length ≤ buffer.length)
    (hlen : f.length < 2 ^ 29) :
    LineIter.drain (f.length + 1) (LineIter.init { data := f, ptr := ptr } buffer).1
        (LineIter.init { data := f, ptr := ptr } buffer).2 out
      = some ((records f).map line_id) := by
  obtain ⟨hI, hdata, hpos⟩ := LineIter.init_spec { data := f, ptr := ptr } buffer
    (by show f.length < 2 ^ 32; omega)
  have hd : (LineIter.init { data := f, ptr := ptr } buffer).2.data = f := hdata
  rw [LineIter.drain_spec buffer.length _ _ _ out hI
    (by rw [hpos, hd, wf_from, List.drop_zero]; exact ⟨hend, hruns⟩)
    (by rw [hd]; exact hlen) (by rw [hd, hpos]; omega)]
  rw [hpos, hd, List.drop_zero]
  rfl

/-- C3 on the bank `a\nbcde\n|x\nyz\n` read through a buffer of four bytes: the records
`a`, `bcde` and `yz` at offsets 0, 2 and 10. -/
theorem C3_line_iter_yields_live_records_witness :
    LineIter.drain 14
        (LineIter.init { data := [97, 10, 98, 99, 100, 101, 10, 124, 120, 10, 121, 122, 10],
                         ptr := 0 } [0, 0, 0, 0]).1
        (LineIter.init { data := [97, 10, 98, 99, 100, 101, 10, 124, 120, 10, 121, 122, 10],
                         ptr := 0 } [0, 0, 0, 0]).2 []
      = some [({ offset := 0, bank_index := 0, active := 1 }, [97]),
              ({ offset := 2, bank_index := 0, active := 1 }, [98, 99, 100, 101]),
              ({ offset := 10, bank_index := 0, active := 1 }, [121, 122])] :=
  C3_line_iter_yields_live_records [0, 0, 0, 0]
    [97, 10, 98, 99, 100, 101, 10, 124, 120, 10, 121, 122, 10] [] 0
    (by intro b hb; simp at hb; omega) (by decide) (by decide)

/-! ## The comparison of `ReadLock::find` -/

theorem strncmp_ne_eq_false_iff (r : List Nat) (hr : ∀ c ∈ r, c ≠ 0) :
    ∀ line : List Nat, strncmp_ne line r r.length = false ↔ line.take r.length = r := by
  induction r with
  | nil => intro line; simp [strncmp_ne]
  | cons a r ih =>
    intro line
    have ha : a ≠ 0 := hr a (List.mem_cons_self _ _)
    have ih1 := ih (fun c hc => hr c (List.mem_cons_of_mem _ hc))
    cases line with
    | nil =>
      simp only [List.length_cons, strncmp_ne, cstr_at, List.getD_nil, List.getD_cons_zero]
      simp [Ne.symm ha]
    | cons b l =>
      simp only [List.length_cons, strncmp_ne, cstr_at, List.getD_cons_zero, List.tail_cons,
        List.take_succ_cons]
      by_cases hba : b = a
      · subst hba
        simp [ha, ih1 l]
      · simp [hba]

theorem cstr_at_eq_zero_iff (line : List Nat) (hl : ∀ c ∈ line, c ≠ 0) (n : Nat) :
    cstr_at line n = 0 ↔ line.length ≤ n := by
  unfold cstr_at
  constructor
  · intro h0
    by_contra hlt
    have hlt1 : n < line.length := by omega
    rw [List.getD_eq_getElem _ _ hlt1] at h0
    exact hl _ (List.getElem_mem _) h0
  · intro hle
    rw [List.getD_eq_default _ _ hle]

/-- The two tests of `ReadLock::find` together say that the record equals the line. -/
theorem find_match_iff (line r : List Nat) (hl : ∀ c ∈ line, c ≠ 0) (hr : ∀ c ∈ r, c ≠ 0) :
    (strncmp_ne line r r.length = false ∧ cstr_at line r.length = 0) ↔ r = line := by
  rw [strncmp_ne_eq_false_iff r hr line, cstr_at_eq_zero_iff line hl]
  constructor
  · rintro ⟨h1, h2⟩
    rw [← h1, List.take_of_length_le h2]
  · intro h
    subst h
    exact ⟨List.take_length _, Nat.le_refl _⟩

theorem is_rec_ne_zero (c : Nat) (h : is_rec c = true) : c ≠ 0 := by
  simp only [is_rec, decide_eq_true_eq] at h
  omega

/-- The invariant survives a change of the file before the parse position. -/
theorem LineIter.Inv.of_data_change {B : Nat} {it : LineIter} {h : File} (hI : LineIter.Inv B it h)
    (d : List Nat) (hlen : d.length = h.data.length)
    (hdrop : d.drop (it.pos h) = h.data.drop (it.pos h)) :
    LineIter.Inv B it { data := d, ptr := h.ptr } := by
  obtain ⟨h1, h2, h3, h4, h5, h6, h7, h8, h9⟩ := hI
  refine ⟨h1, h2, h3, ?_, ?_, ?_, h7, h8, h9⟩
  · dsimp only; omega
  · dsimp only; omega
  · dsimp only
    rw [h6]
    have : d.drop (h.ptr - it.m_remaining) = h.data.drop (h.ptr - it.m_remaining) := hdrop
    rw [this]

/-! ## `ReadLock::find` over a well-formed bank -/

theorem ReadLock.find_loop_spec {σ : Type} (B : Nat) (line : List Nat)
    (callback : LineIdImpl → σ → File → Bool × σ × File)
    (go_f : Nat → σ → Bool) (st_f : Nat → σ → σ) (data_f : Nat → List Nat → List Nat)
    (hl : ∀ c ∈ line, c ≠ 0)
    (hcb : ∀ (q : Nat) (s : σ) (h : File), q < h.data.length → h.data.length < 2 ^ 29 →
        (callback { offset := q, bank_index := 0, active := 1 } s h).1 = go_f q s ∧
        (callback { offset := q, bank_index := 0, active := 1 } s h).2.1 = st_f q s ∧
        (callback { offset := q, bank_index := 0, active := 1 } s h).2.2.data
          = data_f q h.data)
    (hdf_len : ∀ q d, q < d.length → (data_f q d).length = d.length)
    (hdf_drop : ∀ q d, q < d.length → (data_f q d).drop (q + 1) = d.drop (q + 1)) :
    ∀ (fuel : Nat) (it : LineIter) (h : File) (s : σ) (out : List Nat),
      LineIter.Inv B it h → wf_from B h.data (it.pos h) → h.data.length < 2 ^ 29 →
      h.data.length - it.pos h < fuel →
      ∃ h1, ReadLock.find_loop line callback fuel it s h out
          = some ((find_fold line go_f st_f data_f
              ((runs (it.pos h) (h.data.drop (it.pos h))).filter live) s h.data).1, h1) ∧
        h1.data = (find_fold line go_f st_f data_f
              ((runs (it.pos h) (h.data.drop (it.pos h))).filter live) s h.data).2 := by
  intro fuel
  induction fuel with
  | zero => intro it h s out _ _ _ hf; omega
  | succ fuel ih =>
    intro it h s out hI hwf hlen hfuel
    obtain ⟨res, hres, hpost⟩ := LineIter.next_spec B it h out hI hwf
    obtain ⟨hdata, -, hcase⟩ := LineIter.next_post_cases hI hwf hpost
    obtain ⟨id, out1, it1, h1⟩ := res
    dsimp only at hdata hcase
    rw [ReadLock.find_loop, hres]
    dsimp only
    rcases hcase with ⟨hnull, -, hnone⟩ |
      ⟨q, r, hsplit, hid, hout, hI1, hwf1, hpos1, hq1, hq2, hne, -, hrec, -⟩
    · rw [hnull, to_bool_null, hnone, if_pos rfl]
      exact ⟨h1, rfl, hdata⟩
    · have hrl : r.length ≠ 0 := fun h0 => hne (List.eq_nil_of_length_eq_zero h0)
      have hq29 : q < 2 ^ 29 := by omega
      rw [hid, to_bool_of_offset, if_neg (by simp), hsplit, of_offset_eq q hq29, hout]
      have hmatch := find_match_iff line r hl (fun c hc => is_rec_ne_zero c (hrec c hc))
      have hfuel1 : h1.data.length - it1.pos h1 < fuel := by rw [hdata, hpos1]; omega
      have hwf1a : wf_from B h1.data (it1.pos h1) := by rw [hdata]; exact hwf1
      have hlen1 : h1.data.length < 2 ^ 29 := by rw [hdata]; exact hlen
      by_cases hs : strncmp_ne line r r.length = true
      · rw [if_pos hs]
        have hne1 : ¬ (r = line) := fun he => by
          have := (hmatch.2 he).1
          rw [hs] at this; exact Bool.noConfusion this
        obtain ⟨h2, hres2, hd2⟩ := ih it1 h1 s r hI1 hwf1a hlen1 hfuel1
        rw [hdata] at hres2 hd2
        refine ⟨h2, ?_, ?_⟩
        · rw [hres2, find_fold, if_neg hne1]
        · rw [hd2, find_fold, if_neg hne1]
      · rw [if_neg hs]
        have hs1 : strncmp_ne line r r.length = false := by simpa using hs
        by_cases hz : cstr_at line r.length ≠ 0
        · rw [if_pos hz]
          have hne1 : ¬ (r = line) := fun he => hz (hmatch.2 he).2
          obtain ⟨h2, hres2, hd2⟩ := ih it1 h1 s r hI1 hwf1a hlen1 hfuel1
          rw [hdata] at hres2 hd2
          refine ⟨h2, ?_, ?_⟩
          · rw [hres2, find_fold, if_neg hne1]
          · rw [hd2, find_fold, if_neg hne1]
        · rw [if_neg hz]
          have heq : r = line := hmatch.1 ⟨hs1, by simpa using hz⟩
          have hqlt : q < h1.data.length := by rw [hdata]; omega
          obtain ⟨hc1, hc2, hc3⟩ := hcb q s h1 hqlt hlen1
          rw [hdata] at hc3
          have hp1 := hI1.ptr_le
          have hfp : SetFilePointerCurrent h1 = h1.ptr := by
            unfold SetFilePointerCurrent
            apply Nat.mod_eq_of_lt
            omega
          have hset : SetFilePointerBegin
              (callback { offset := q, bank_index := 0, active := 1 } s h1).2.2 h1.ptr
              = { data := data_f q h.data, ptr := h1.ptr } := by
            unfold SetFilePointerBegin
            have e1 : h1.ptr % 2 ^ 32 = h1.ptr := Nat.mod_eq_of_lt (by omega)
            rw [e1, if_pos (by omega), ← hc3]
          rw [hfp, hset, hc1, hc2]
          rw [find_fold, if_pos heq]
          by_cases hgo : go_f q s = false
          · rw [if_pos hgo, if_pos hgo]
            exact ⟨_, rfl, rfl⟩
          · rw [if_neg hgo, if_neg hgo]
            have hqd : q < h.data.length := by omega
            have hdl := hdf_len q h.data hqd
            have hdd : (data_f q h.data).drop (it1.pos h1) = h1.data.drop (it1.pos h1) := by
              have e : it1.pos h1 = (q + 1) + (r.length - 1) := by rw [hpos1]; omega
              have step : ∀ l : List Nat, List.drop (q + 1 + (r.length - 1)) l
                  = List.drop (r.length - 1) (List.drop (q + 1) l) :=
                fun l => (List.drop_drop _ _ l).symm
              rw [e, step, step, hdf_drop q h.data hqd, hdata]
            have hI2 := hI1.of_data_change (data_f q h.data) (by rw [hdl, hdata]) hdd
            have hpos2 : LineIter.pos it1 { data := data_f q h.data, ptr := h1.ptr }
                = it1.pos h1 := rfl
            rw [hdata] at hdd
            obtain ⟨h2, hres2, hd2⟩ := ih it1 { data := data_f q h.data, ptr := h1.ptr }
              (st_f q s) r hI2
              (by rw [hpos2]; dsimp only
                  rw [wf_from, hdd]; exact hwf1)
              (by dsimp only; omega)
              (by rw [hpos2]; dsimp only; omega)
            rw [hpos2] at hres2 hd2
            dsimp only at hres2 hd2
            rw [hdd] at hres2 hd2
            exact ⟨h2, hres2, hd2⟩

theorem bank_ok_wf_from {B : Nat} {f : List Nat} (h : bank_ok B f) : wf_from B f 0 := by
  rw [wf_from, List.drop_zero]
  exact ⟨h.1, h.2.1⟩

/-- The method `ReadLock::find(line, callback)` on a well-formed bank returns, having run
the callback at the live records equal to `line`, in file order. -/
theorem ReadLock.find_cb_spec {σ : Type} (max_line_length : Nat) (line : List Nat)
    (callback : LineIdImpl → σ → File → Bool × σ × File)
    (go_f : Nat → σ → Bool) (st_f : Nat → σ → σ) (data_f : Nat → List Nat → List Nat)
    (hl : ∀ c ∈ line, c ≠ 0)
    (hcb : ∀ (q : Nat) (s : σ) (h : File), q < h.data.length → h.data.length < 2 ^ 29 →
        (callback { offset := q, bank_index := 0, active := 1 } s h).1 = go_f q s ∧
        (callback { offset := q, bank_index := 0, active := 1 } s h).2.1 = st_f q s ∧
        (callback { offset := q, bank_index := 0, active := 1 } s h).2.2.data
          = data_f q h.data)
    (hdf_len : ∀ q d, q < d.length → (data_f q d).length = d.length)
    (hdf_drop : ∀ q d, q < d.length → (data_f q d).drop (q + 1) = d.drop (q + 1))
    (h : File) (s : σ) (hok : bank_ok max_line_length h.data) :
    ∃ h1, ReadLock.find_cb max_line_length h line callback s
        = some ((find_fold line go_f st_f data_f (records h.data) s h.data).1, h1) ∧
      h1.data = (find_fold line go_f st_f data_f (records h.data) s h.data).2 := by
  obtain ⟨hI, hdata, hpos⟩ := LineIter.init_spec h (List.replicate max_line_length 0)
    (by have := hok.2.2; omega)
  rw [List.length_replicate] at hI
  have := ReadLock.find_loop_spec max_line_length line callback go_f st_f data_f hl hcb
    hdf_len hdf_drop ((LineIter.init h (List.replicate max_line_length 0)).2.data.length + 1)
    _ _ s [] hI (by rw [hpos, hdata]; exact bank_ok_wf_from hok)
    (by rw [hdata]; exact hok.2.2) (by omega)
  rw [hpos, hdata, List.drop_zero] at this
  exact this

theorem find_fold_first (line : List Nat) (recs : List (Nat × List Nat)) (s : LineIdImpl)
    (d : List Nat) :
    find_fold line (fun _ _ => false)
        (fun q _ => ({ offset := q, bank_index := 0, active := 1 } : LineIdImpl))
        (fun _ d => d) recs s d
      = (match recs.find? (fun x => decide (x.2 = line)) with
          | some x => { offset := x.1, bank_index := 0, active := 1 }
          | none => s, d) := by
  induction recs with
  | nil => rfl
  | cons x rest ih =>
    by_cases hx : x.2 = line
    · simp [find_fold, hx]
    · simp [find_fold, hx, ih]

theorem find_fold_remove (line : List Nat) (recs : List (Nat × List Nat)) (d : List Nat) :
    find_fold line (fun _ (_ : Unit) => true) (fun _ s => s) (fun q d => d.set q 0x7C) recs () d
      = ((), write_bars ((recs.filter (fun x => decide (x.2 = line))).map (fun x => x.1)) d) := by
  induction recs generalizing d with
  | nil => rfl
  | cons x rest ih =>
    by_cases hx : x.2 = line
    · simp [find_fold, hx, ih, write_bars]
    · simp [find_fold, hx, ih]

/-- The method `ReadLock::find(line)` on a well-formed bank returns the id of the first
live record equal to `line`, or the null id, and leaves the bytes of the file alone. -/
theorem ReadLock.find_spec (max_line_length : Nat) (line : List Nat) (h : File)
    (hl : ∀ c ∈ line, c ≠ 0) (hok : bank_ok max_line_length h.data) :
    ∃ h1, ReadLock.find max_line_length h line = some (first_match line h.data, h1) ∧
      h1.data = h.data := by
  obtain ⟨h1, hres, hd⟩ := ReadLock.find_cb_spec max_line_length line
    (fun inner_id _ h => (false, inner_id, h)) (fun _ _ => false)
    (fun q _ => ({ offset := q, bank_index := 0, active := 1 } : LineIdImpl))
    (fun _ d => d) hl (fun q s h _ _ => ⟨rfl, rfl, rfl⟩) (fun _ _ _ => rfl) (fun _ _ _ => rfl)
    h LineIdImpl.null hok
  rw [find_fold_first] at hres hd
  exact ⟨h1, hres, hd⟩

theorem remove_data (d : List Nat) (p q : Nat) (hq : q < d.length) (hq31 : q < 2 ^ 29) :
    (WriteLock.remove { data := d, ptr := p } { offset := q, bank_index := 0, active := 1 }).data
      = d.set q 0x7C := by
  have e1 : q % 2 ^ 32 = q := Nat.mod_eq_of_lt (by omega)
  simp only [WriteLock.remove, SetFilePointerBegin, e1, WriteFile]
  rw [if_pos (by omega)]
  dsimp only
  have e2 : q - d.length = 0 := by omega
  rw [e2, List.set_eq_take_append_cons_drop, if_pos hq]
  simp

/-- The callback of `HistoryDb::remove(line)` run by `ReadLock::find` on a well-formed
bank: the tombstone mark is written at the first byte of every live record equal to
`line`, and nowhere else. -/
theorem ReadLock.find_cb_remove_spec (max_line_length : Nat) (line : List Nat) (h : File)
    (hl : ∀ c ∈ line, c ≠ 0) (hok : bank_ok max_line_length h.data) :
    ∃ h1, ReadLock.find_cb max_line_length h line
        (fun id (_ : Unit) h => (true, (), WriteLock.remove h id)) () = some ((), h1) ∧
      h1.data = write_bars (match_offsets line h.data) h.data := by
  obtain ⟨h1, hres, hd⟩ := ReadLock.find_cb_spec max_line_length line
    (fun id (_ : Unit) h => (true, (), WriteLock.remove h id)) (fun _ _ => true)
    (fun _ s => s) (fun q d => d.set q 0x7C) hl
    (fun q s h hq hlen => ⟨rfl, rfl, remove_data h.data h.ptr q hq (by omega)⟩)
    (fun q d _ => List.length_set _ _ _)
    (fun q d _ => by rw [List.drop_set, if_pos (by omega)])
    h () hok
  rw [find_fold_remove] at hres hd
  exact ⟨h1, hres, hd⟩

/-! ## `HistoryDb::add`: rejections and the plain append -/

theorem strlen_c_string (line : List Nat) (hl : c_string line) : strlen line = line.length := by
  unfold strlen
  rw [List.takeWhile_eq_self_iff.2]
  intro c hc
  simpa using hl c hc

theorem WriteFile_at_end (h : File) (bytes : List Nat) (hp : h.ptr = h.data.length) :
    WriteFile h bytes = { data := h.data ++ bytes, ptr := h.data.length + bytes.length } := by
  unfold WriteFile
  rw [hp, List.take_length, Nat.sub_self, List.replicate_zero, List.append_nil,
    List.drop_eq_nil_of_le (by omega), List.append_nil]

theorem WriteLock.add_data (h : File) (line : List Nat) (hl : c_string line)
    (hlen : line.length < 2 ^ 32) :
    (WriteLock.add h line).data = h.data ++ line ++ [0x0A] := by
  have e1 : strlen line % 2 ^ 32 = line.length := by
    rw [strlen_c_string line hl]; exact Nat.mod_eq_of_lt hlen
  unfold WriteLock.add
  rw [e1, List.take_length, WriteFile_at_end (SetFilePointerEnd h) line rfl]
  rw [WriteFile_at_end _ _ (by simp [SetFilePointerEnd])]
  rfl

theorem cstr_at_zero_accepted (cfg : Settings) (line : List Nat) (hl : c_string line)
    (ha : accepted cfg line) :
    ¬ (cstr_at line 0 = 0 ∨
      (cfg.g_ignore_space = true ∧ (cstr_at line 0 = 0x20 ∨ cstr_at line 0 = 0x09))) := by
  obtain ⟨hne, hsp⟩ := ha
  obtain ⟨a, t, rfl⟩ := List.exists_cons_of_ne_nil hne
  have ha0 : a ≠ 0 := hl a (List.mem_cons_self _ _)
  simp only [cstr_at, List.getD_cons_zero]
  rintro (h0 | ⟨hi, h1⟩)
  · exact ha0 h0
  · have := hsp hi
    simp only [List.head?_cons, ne_eq, Option.some.injEq] at this
    rcases h1 with h1 | h1
    · exact this.1 h1
    · exact this.2 h1

theorem HistoryDb.write_index_eq (db : HistoryDb) (hm : db.bank_master.isSome = true) :
    (db.get_bank_count + 2 ^ 32 - 1) % 2 ^ 32 = db.write_index ∧
      db.write_index < db.get_bank_count := by
  unfold HistoryDb.get_bank_count HistoryDb.write_index
  rw [hm, if_pos rfl]
  cases db.bank_session.isSome
  · exact ⟨by norm_num, by norm_num⟩
  · exact ⟨by norm_num, by norm_num⟩

/-- The tail of `HistoryDb::add` on a store whose master bank is open: the line and a
newline are appended to the write bank and the other bank is left alone. -/
theorem HistoryDb.add_line_spec (db : HistoryDb) (line : List Nat)
    (hm : db.bank_master.isSome = true) (hl : c_string line) (hlen : line.length < 2 ^ 32) :
    (db.add_line line).1 = true ∧
      ∀ i h, db.m_bank_handles i = some h →
        ∃ h1, (db.add_line line).2.m_bank_handles i = some h1 ∧
          h1.data = if i = db.write_index then h.data ++ line ++ [0x0A] else h.data := by
  obtain ⟨hidx, hlt⟩ := HistoryDb.write_index_eq db hm
  unfold HistoryDb.add_line
  dsimp only
  rw [hidx]
  unfold HistoryDb.get_bank
  rw [if_neg (by omega)]
  obtain ⟨m, s⟩ := db
  cases m with
  | none => simp at hm
  | some m =>
    cases s with
    | none =>
      have hw : HistoryDb.write_index { bank_master := some m, bank_session := none } = 0 := rfl
      rw [hw]
      refine ⟨rfl, ?_⟩
      intro i h hi
      match i with
      | 0 =>
        simp only [HistoryDb.m_bank_handles, Option.some.injEq] at hi
        subst hi
        refine ⟨WriteLock.add m line, rfl, ?_⟩
        rw [WriteLock.add_data m line hl hlen, if_pos rfl]
      | 1 => simp [HistoryDb.m_bank_handles] at hi
      | n + 2 => simp [HistoryDb.m_bank_handles] at hi
    | some s =>
      have hw : HistoryDb.write_index { bank_master := some m, bank_session := some s } = 1 := rfl
      rw [hw]
      refine ⟨rfl, ?_⟩
      intro i h hi
      match i with
      | 0 =>
        simp only [HistoryDb.m_bank_handles, Option.some.injEq] at hi
        subst hi
        exact ⟨m, rfl, by rw [if_neg (by decide)]⟩
      | 1 =>
        simp only [HistoryDb.m_bank_handles, Option.some.injEq] at hi
        subst hi
        refine ⟨WriteLock.add s line, rfl, ?_⟩
        rw [WriteLock.add_data s line hl hlen, if_pos rfl]
      | n + 2 => simp [HistoryDb.m_bank_handles] at hi

/-- C6, amended: in dupe mode `add`, on a store whose master bank is open, `add` returns
true for every accepted line, and the current write bank - the session bank when it is
open, the master bank otherwise - becomes its previous content followed by the bytes of
the line and one newline, while the other bank keeps its content. -/
theorem C6_add_appends_to_write_bank (max_line_length : Nat) (cfg : Settings)
    (db : HistoryDb) (line : List Nat) (hmode : cfg.g_dupe_mode = 0)
    (hm : db.bank_master.isSome = true) (hl : c_string line) (hlen : line.length < 2 ^ 32)
    (ha : accepted cfg line) :
    ∃ db1, db.add max_line_length cfg line = some (true, db1) ∧
      ∀ i h, db.m_bank_handles i = some h →
        ∃ h1, db1.m_bank_handles i = some h1 ∧
          h1.data = if i = db.write_index then h.data ++ line ++ [0x0A] else h.data := by
  have hrej := cstr_at_zero_accepted cfg line hl ha
  obtain ⟨hr, hb⟩ := HistoryDb.add_line_spec db line hm hl hlen
  refine ⟨(db.add_line line).2, ?_, hb⟩
  rw [HistoryDb.add, if_neg hrej, if_neg (by rw [hmode]; decide), if_neg (by rw [hmode]; decide),
    ← hr]

/-- C9: `add("")` returns false under every configuration, and with `ignore_space` on
`add` returns false for every line whose first byte is a space or a tab; in both cases
the store is left exactly as it was, whatever the dupe mode. -/
theorem C9_policy_rejections (max_line_length : Nat) (cfg : Settings) (db : HistoryDb) :
    db.add max_line_length cfg [] = some (false, db) ∧
      ∀ (c : Nat) (rest : List Nat), cfg.g_ignore_space = true → (c = 0x20 ∨ c = 0x09) →
        db.add max_line_length cfg (c :: rest) = some (false, db) := by
  constructor
  · rw [HistoryDb.add, if_pos]
    left; rfl
  · intro c rest hi hc
    rw [HistoryDb.add, if_pos]
    right
    exact ⟨hi, hc⟩

/-- C6 on a store with the master bank `a\n` and the session bank `b\n`, adding `ls`. -/
theorem C6_add_appends_to_write_bank_witness :
    ∃ db1, HistoryDb.add 8192 { g_shared := false, g_ignore_space := true, g_dupe_mode := 0 }
        { bank_master := some { data := [97, 10], ptr := 0 }
          bank_session := some { data := [98, 10], ptr := 0 } } [108, 115] = some (true, db1) ∧
      ∀ i h, HistoryDb.m_bank_handles
          { bank_master := some { data := [97, 10], ptr := 0 }
            bank_session := some { data := [98, 10], ptr := 0 } } i = some h →
        ∃ h1, db1.m_bank_handles i = some h1 ∧
          h1.data = if i = HistoryDb.write_index
              { bank_master := some { data := [97, 10], ptr := 0 }
                bank_session := some { data := [98, 10], ptr := 0 } }
            then h.data ++ [108, 115] ++ [0x0A] else h.data :=
  C6_add_appends_to_write_bank 8192
    { g_shared := false, g_ignore_space := true, g_dupe_mode := 0 }
    { bank_master := some { data := [97, 10], ptr := 0 }
      bank_session := some { data := [98, 10], ptr := 0 } } [108, 115] rfl rfl
    (by intro c hc; simp at hc; omega)
    (by norm_num) ⟨by simp, fun _ => by simp⟩

/-- C9 under `erase_prev` on a store that already holds the line ` x`: neither the empty
line nor ` x` is added, and the store is untouched. -/
theorem C9_policy_rejections_witness :
    HistoryDb.add 8192 { g_shared := false, g_ignore_space := true, g_dupe_mode := 2 }
        { bank_master := some { data := [32, 120, 10], ptr := 0 }, bank_session := none } []
      = some (false,
          { bank_master := some { data := [32, 120, 10], ptr := 0 }, bank_session := none }) ∧
    HistoryDb.add 8192 { g_shared := false, g_ignore_space := true, g_dupe_mode := 2 }
        { bank_master := some { data := [32, 120, 10], ptr := 0 }, bank_session := none }
        [32, 120]
      = some (false,
          { bank_master := some { data := [32, 120, 10], ptr := 0 }, bank_session := none }) :=
  ⟨(C9_policy_rejections 8192 _ _).1,
   (C9_policy_rejections 8192 _ _).2 32 [120] rfl (Or.inl rfl)⟩

/-! ## Reading never changes the bytes of a bank -/

theorem FileIter.next_keeps_data (fi : FileIter) (h : File) (rollback : Nat) :
    (fi.next h rollback).2.2.data = h.data := by
  unfold FileIter.next
  split
  · rfl
  · rfl

theorem LineIter.provision_data (it : LineIter) (h : File) :
    (it.provision h).2.2.data = h.data := by
  unfold LineIter.provision
  exact FileIter.next_keeps_data _ _ _

theorem LineIter.next_loop_data : ∀ (fuel : Nat) (it : LineIter) (h : File) (out : List Nat)
    (res : LineIdImpl × List Nat × LineIter × File),
    LineIter.next_loop fuel it h out = some res → res.2.2.2.data = h.data := by
  intro fuel
  induction fuel with
  | zero => intro it h out res hres; simp [LineIter.next_loop] at hres
  | succ fuel ih =>
    intro it h out res hres
    rw [LineIter.next_loop] at hres
    dsimp only at hres
    have hcond : (if it.m_remaining ≠ 0 then (true, it, h) else it.provision h).2.2.data
        = h.data := by
      split
      · rfl
      · exact LineIter.provision_data it h
    generalize (if it.m_remaining ≠ 0 then (true, it, h) else it.provision h) = cond at hres hcond
    split at hres
    · cases hres
      exact hcond
    · split at hres
      · rw [ih _ _ _ _ hres, LineIter.provision_data]
        exact hcond
      · split at hres
        · rw [ih _ _ _ _ hres]
          exact hcond
        · cases hres
          exact hcond

theorem LineIter.next_data (it : LineIter) (h : File) (out : List Nat)
    (res : LineIdImpl × List Nat × LineIter × File) (hres : it.next h out = some res) :
    res.2.2.2.data = h.data :=
  LineIter.next_loop_data _ it h out res hres

theorem SetFilePointerBegin_data (h : File) (pos : Nat) :
    (SetFilePointerBegin h pos).data = h.data := by
  unfold SetFilePointerBegin
  split <;> rfl

theorem ReadLock.find_loop_data {σ : Type} (line : List Nat)
    (callback : LineIdImpl → σ → File → Bool × σ × File)
    (hcb : ∀ id s h, (callback id s h).2.2.data = h.data) :
    ∀ (fuel : Nat) (it : LineIter) (s : σ) (h : File) (out : List Nat) (r : σ × File),
      ReadLock.find_loop line callback fuel it s h out = some r → r.2.data = h.data := by
  intro fuel
  induction fuel with
  | zero => intro it s h out r hr; simp [ReadLock.find_loop] at hr
  | succ fuel ih =>
    intro it s h out r hr
    rw [ReadLock.find_loop] at hr
    cases hn : it.next h out with
    | none => rw [hn] at hr; simp at hr
    | some res =>
      obtain ⟨id, out1, it1, h1⟩ := res
      have hd := LineIter.next_data it h out _ hn
      dsimp only at hd
      rw [hn] at hr
      dsimp only at hr
      split at hr
      · cases hr; exact hd
      · split at hr
        · rw [ih _ _ _ _ _ hr, hd]
        · split at hr
          · rw [ih _ _ _ _ _ hr, hd]
          · split at hr
            · cases hr
              dsimp only
              rw [SetFilePointerBegin_data, hcb, hd]
            · rw [ih _ _ _ _ _ hr, SetFilePointerBegin_data, hcb, hd]

theorem ReadLock.find_data (max_line_length : Nat) (h : File) (line : List Nat)
    (r : LineIdImpl × File) (hr : ReadLock.find max_line_length h line = some r) :
    r.2.data = h.data := by
  unfold ReadLock.find ReadLock.find_cb at hr
  have := ReadLock.find_loop_data line (fun inner_id _ h => (false, inner_id, h))
    (fun _ _ _ => rfl) _ _ _ _ _ _ hr
  rw [this]
  exact (SetFilePointerBegin_data h 0)

theorem HistoryDb.m_bank_handles_of_get_bank (db : HistoryDb) (i : Nat) (h : File)
    (hi : db.get_bank i = some h) : db.m_bank_handles i = some h := by
  unfold HistoryDb.get_bank at hi
  split at hi
  · cases hi
  · exact hi

theorem HistoryDb.contents_set_bank (db : HistoryDb) (i : Nat) (h h1 : File)
    (hi : db.get_bank i = some h) (hd : h1.data = h.data) :
    (db.set_bank i h1).contents = db.contents := by
  have hm := HistoryDb.m_bank_handles_of_get_bank db i h hi
  obtain ⟨m, s⟩ := db
  match i with
  | 0 =>
    simp only [HistoryDb.m_bank_handles] at hm
    subst hm
    simp only [HistoryDb.set_bank, HistoryDb.contents, Option.map_some', hd]
  | 1 =>
    simp only [HistoryDb.m_bank_handles] at hm
    subst hm
    simp only [HistoryDb.set_bank, HistoryDb.contents, Option.map_some', hd]
  | n + 2 => simp [HistoryDb.m_bank_handles] at hm

theorem HistoryDb.for_each_bank_loop_contents {σ : Type}
    (callback : Nat → File → σ → Option (Bool × σ × File))
    (hcb : ∀ i h s r, callback i h s = some r → r.2.2.data = h.data) :
    ∀ (k i : Nat) (db : HistoryDb) (s : σ) (r : σ × HistoryDb),
      HistoryDb.for_each_bank_loop callback k i db s = some r → r.2.contents = db.contents := by
  intro k
  induction k with
  | zero => intro i db s r hr; simp only [HistoryDb.for_each_bank_loop] at hr; cases hr; rfl
  | succ k ih =>
    intro i db s r hr
    rw [HistoryDb.for_each_bank_loop] at hr
    cases hb : db.get_bank i with
    | none => rw [hb] at hr; exact ih _ _ _ _ hr
    | some h =>
      rw [hb] at hr
      dsimp only at hr
      cases hc : callback i h s with
      | none => rw [hc] at hr; simp at hr
      | some r1 =>
        obtain ⟨go, s1, h1⟩ := r1
        have hd := hcb i h s _ hc
        dsimp only at hd
        rw [hc] at hr
        dsimp only at hr
        split at hr
        · cases hr
          exact HistoryDb.contents_set_bank db i h h1 hb hd
        · rw [ih _ _ _ _ hr]
          exact HistoryDb.contents_set_bank db i h h1 hb hd

/-- The method `HistoryDb::find` changes no byte of any bank, on any store. -/
theorem HistoryDb.find_contents (max_line_length : Nat) (db : HistoryDb) (line : List Nat)
    (r : Nat × HistoryDb) (hr : db.find max_line_length line = some r) :
    r.2.contents = db.contents := by
  unfold HistoryDb.find HistoryDb.for_each_bank at hr
  rw [Option.map_eq_some'] at hr
  obtain ⟨r1, hr1, hr2⟩ := hr
  subst hr2
  show r1.2.contents = db.contents
  refine HistoryDb.for_each_bank_loop_contents _ ?_ _ _ _ _ r1 hr1
  intro i h s r hcb
  cases hf : ReadLock.find max_line_length h line with
  | none => rw [hf] at hcb; simp at hcb
  | some rf =>
    have hd := ReadLock.find_data max_line_length h line rf hf
    obtain ⟨ret, lock⟩ := rf
    rw [hf] at hcb
    dsimp only at hcb hd
    split at hcb
    · cases hcb; exact hd
    · cases hcb; exact hd

/-- C8: in dupe mode `ignore`, on every store and for every accepted line for which
`find` returns a non-null id, `add` returns true and every bank keeps its bytes: nothing
is appended and nothing is tombstoned. -/
theorem C8_ignore_keeps_banks (max_line_length : Nat) (cfg : Settings) (db : HistoryDb)
    (line : List Nat) (hmode : cfg.g_dupe_mode = 1) (hl : c_string line)
    (ha : accepted cfg line) (id : Nat) (db1 : HistoryDb)
    (hfind : db.find max_line_length line = some (id, db1)) (hid : id ≠ 0) :
    ∃ db2, db.add max_line_length cfg line = some (true, db2) ∧ db2.contents = db.contents := by
  have hrej := cstr_at_zero_accepted cfg line hl ha
  refine ⟨db1, ?_, HistoryDb.find_contents max_line_length db line _ hfind⟩
  rw [HistoryDb.add, if_neg hrej, if_pos hmode, hfind]
  dsimp only
  rw [if_pos hid]

/-! ## `HistoryDb::find` on a well-formed store -/

theorem first_match_cases (line f : List Nat) :
    ((first_match line f).to_bool = false ∧ first_match line f = LineIdImpl.null ∧
        (records f).find? (fun x => decide (x.2 = line)) = none) ∨
    (∃ x, (records f).find? (fun x => decide (x.2 = line)) = some x ∧
        first_match line f = { offset := x.1, bank_index := 0, active := 1 } ∧
        (first_match line f).to_bool = true) := by
  unfold first_match
  cases hfind : (records f).find? (fun x => decide (x.2 = line)) with
  | none => left; exact ⟨to_bool_null, rfl, rfl⟩
  | some x =>
    right
    refine ⟨x, rfl, rfl, ?_⟩
    simp only [LineIdImpl.to_bool, LineIdImpl.outer, bne_iff_ne, ne_eq]
    omega

theorem first_id_map_stamp (line : List Nat) (bank : Nat) (recs : List (Nat × List Nat))
    (rest : List (Nat × List Nat)) :
    first_id line (recs.map (stamp bank) ++ rest)
      = match recs.find? (fun x => decide (x.2 = line)) with
        | some x => (stamp bank x).1
        | none => first_id line rest := by
  induction recs with
  | nil => rfl
  | cons x recs ih =>
    unfold first_id at ih ⊢
    by_cases hx : x.2 = line
    · simp [List.find?, stamp, hx]
    · simp only [List.map_cons, List.cons_append, List.find?, stamp, hx, decide_False]
      exact ih

theorem HistoryDb.get_bank_master (m : File) (s : Option File) :
    HistoryDb.get_bank { bank_master := some m, bank_session := s } 0 = some m := by
  unfold HistoryDb.get_bank HistoryDb.get_bank_count
  cases s <;> simp [HistoryDb.m_bank_handles]

theorem HistoryDb.get_bank_session (m s : File) :
    HistoryDb.get_bank { bank_master := some m, bank_session := some s } 1 = some s := by
  unfold HistoryDb.get_bank HistoryDb.get_bank_count
  simp [HistoryDb.m_bank_handles]

theorem HistoryDb.get_bank_count_one (m : File) :
    HistoryDb.get_bank_count { bank_master := some m, bank_session := none } = 1 := rfl

theorem HistoryDb.get_bank_count_two (m s : File) :
    HistoryDb.get_bank_count { bank_master := some m, bank_session := some s } = 2 := rfl

/-- The method `HistoryDb::find` on a well-formed store returns the stamped id of the
first live record equal to the line, in bank order, or the null id. -/
theorem HistoryDb.find_store_spec (max_line_length : Nat) (db : HistoryDb) (line : List Nat)
    (hok : store_ok max_line_length db) (hl : c_string line) :
    ∃ db1, db.find max_line_length line = some (first_id line (store_lines db), db1) ∧
      db1.contents = db.contents := by
  suffices hs : ∃ db1, db.find max_line_length line = some (first_id line (store_lines db), db1) by
    obtain ⟨db1, h1⟩ := hs
    exact ⟨db1, h1, HistoryDb.find_contents max_line_length db line _ h1⟩
  obtain ⟨hm, hbanks⟩ := hok
  obtain ⟨m, s⟩ := db
  cases m with
  | none => simp at hm
  | some m =>
    have hokm : bank_ok max_line_length m.data := hbanks 0 m rfl
    obtain ⟨m1, hfm, hdm⟩ := ReadLock.find_spec max_line_length line m hl hokm
    cases s with
    | none =>
      unfold HistoryDb.find HistoryDb.for_each_bank
      rw [HistoryDb.get_bank_count_one, HistoryDb.for_each_bank_loop,
        HistoryDb.get_bank_master]
      dsimp only
      rw [hfm]
      dsimp only
      unfold store_lines
      dsimp only
      rw [first_id_map_stamp]
      rcases first_match_cases line m.data with ⟨hb, hnull, hnone⟩ | ⟨x, hsome, hfx, hb⟩
      · rw [hb, hnone, hnull]
        simp only [Bool.false_eq_true, if_false, HistoryDb.for_each_bank_loop, Option.map_some']
        exact ⟨_, rfl⟩
      · rw [hb, hsome, hfx]
        simp only [if_true, Option.map_some']
        exact ⟨_, rfl⟩
    | some s =>
      have hoks : bank_ok max_line_length s.data := hbanks 1 s rfl
      obtain ⟨s1, hfs, hds⟩ := ReadLock.find_spec max_line_length line s hl hoks
      unfold HistoryDb.find HistoryDb.for_each_bank
      rw [HistoryDb.get_bank_count_two, HistoryDb.for_each_bank_loop,
        HistoryDb.get_bank_master]
      dsimp only
      rw [hfm]
      dsimp only
      unfold store_lines
      dsimp only
      rw [first_id_map_stamp]
      rcases first_match_cases line m.data with ⟨hb, hnull, hnone⟩ | ⟨x, hsome, hfx, hb⟩
      · rw [hb, hnone, hnull]
        simp only [Bool.false_eq_true, if_false]
        have hset : HistoryDb.set_bank { bank_master := some m, bank_session := some s } 0 m1
            = { bank_master := some m1, bank_session := some s } := rfl
        rw [hset, HistoryDb.for_each_bank_loop, HistoryDb.get_bank_session]
        dsimp only
        rw [hfs]
        dsimp only
        have h0 := first_id_map_stamp line 1 (records s.data) []
        rw [List.append_nil] at h0
        rw [h0]
        rcases first_match_cases line s.data with ⟨hb2, hnull2, hnone2⟩ | ⟨y, hsome2, hfy, hb2⟩
        · rw [hb2, hnone2, hnull2]
          simp only [Bool.false_eq_true, if_false, HistoryDb.for_each_bank_loop,
            Option.map_some']
          exact ⟨_, rfl⟩
        · rw [hb2, hsome2, hfy]
          simp only [if_true, Option.map_some']
          exact ⟨_, rfl⟩
      · rw [hb, hsome, hfx]
        simp only [if_true, Option.map_some']
        exact ⟨_, rfl⟩

/-! ## `ReadLineIter` -/

theorem HistoryDb.m_bank_handles_set_bank_same (db : HistoryDb) (i : Nat) (h h1 : File)
    (hi : db.m_bank_handles i = some h) : (db.set_bank i h1).m_bank_handles i = some h1 := by
  obtain ⟨m, s⟩ := db
  match i with
  | 0 =>
    simp only [HistoryDb.m_bank_handles] at hi
    subst hi
    rfl
  | 1 =>
    simp only [HistoryDb.m_bank_handles] at hi
    subst hi
    rfl
  | n + 2 => simp [HistoryDb.m_bank_handles] at hi

theorem HistoryDb.contents_set_bank_of_handle (db : HistoryDb) (i : Nat) (h h1 : File)
    (hi : db.m_bank_handles i = some h) (hd : h1.data = h.data) :
    (db.set_bank i h1).contents = db.contents := by
  obtain ⟨m, s⟩ := db
  match i with
  | 0 =>
    simp only [HistoryDb.m_bank_handles] at hi
    subst hi
    simp only [HistoryDb.set_bank, HistoryDb.contents, Option.map_some', hd]
  | 1 =>
    simp only [HistoryDb.m_bank_handles] at hi
    subst hi
    simp only [HistoryDb.set_bank, HistoryDb.contents, Option.map_some', hd]
  | n + 2 => simp [HistoryDb.m_bank_handles] at hi

theorem HistoryDb.contents_eq_iff (db db1 : HistoryDb) :
    db1.contents = db.contents ↔
      db1.bank_master.map File.data = db.bank_master.map File.data ∧
      db1.bank_session.map File.data = db.bank_session.map File.data := by
  unfold HistoryDb.contents
  exact Prod.mk.injEq _ _ _ _ ▸ Iff.rfl

theorem store_lines_congr (db db1 : HistoryDb) (hc : db1.contents = db.contents) :
    store_lines db1 = store_lines db := by
  obtain ⟨hm, hs⟩ := (HistoryDb.contents_eq_iff db db1).1 hc
  obtain ⟨m, s⟩ := db
  obtain ⟨m1, s1⟩ := db1
  dsimp only at hm hs
  unfold store_lines
  dsimp only
  cases m with
  | none =>
    cases m1 with
    | none => rfl
    | some m1 => simp at hm
  | some m =>
    cases m1 with
    | none => simp at hm
    | some m1 =>
      simp only [Option.map_some', Option.some.injEq] at hm
      cases s with
      | none =>
        cases s1 with
        | none => dsimp only; rw [hm]
        | some s1 => simp at hs
      | some s =>
        cases s1 with
        | none => simp at hs
        | some s1 =>
          simp only [Option.map_some', Option.some.injEq] at hs
          dsimp only
          rw [hm, hs]

theorem later_lines_congr (i : Nat) (db db1 : HistoryDb) (hc : db1.contents = db.contents) :
    later_lines i db1 = later_lines i db := by
  obtain ⟨hm, hs⟩ := (HistoryDb.contents_eq_iff db db1).1 hc
  obtain ⟨m, s⟩ := db
  obtain ⟨m1, s1⟩ := db1
  dsimp only at hm hs
  unfold later_lines
  dsimp only
  cases s with
  | none =>
    cases s1 with
    | none => rfl
    | some s1 => simp at hs
  | some s =>
    cases s1 with
    | none => simp at hs
    | some s1 =>
      simp only [Option.map_some', Option.some.injEq] at hs
      dsimp only
      rw [hs]

theorem HistoryDb.get_bank_count_set_bank (db : HistoryDb) (i : Nat) (h1 : File) :
    (db.set_bank i h1).get_bank_count = db.get_bank_count := by
  obtain ⟨m, s⟩ := db
  match i with
  | 0 => cases m <;> rfl
  | 1 => cases s <;> rfl
  | n + 2 => rfl

theorem HistoryDb.bank_session_set_bank_zero (db : HistoryDb) (h1 : File) :
    (db.set_bank 0 h1).bank_session = db.bank_session := rfl

theorem stamp_of_offset (i q : Nat) (r : List Nat) (hq : q < 2 ^ 29) (hi : i ≤ 1) :
    (({ LineIdImpl.of_offset q with bank_index := (i + 1 + 2 ^ 32 - 1) % 2 ^ 32 % 4 }
        : LineIdImpl).outer, r) = stamp i (q, r) := by
  have e : (i + 1 + 2 ^ 32 - 1) % 2 ^ 32 % 4 = i := by omega
  rw [of_offset_eq q hq, e]
  rfl

theorem stamp_fst_ne_zero (i : Nat) (x : Nat × List Nat) : (stamp i x).1 ≠ 0 := by
  simp only [stamp, LineIdImpl.outer]
  omega

theorem store_ok_congr (B : Nat) (db db1 : HistoryDb) (hc : db1.contents = db.contents)
    (hok : store_ok B db) : store_ok B db1 := by
  obtain ⟨hm, hs⟩ := (HistoryDb.contents_eq_iff db db1).1 hc
  obtain ⟨hmaster, hbanks⟩ := hok
  obtain ⟨m, s⟩ := db
  obtain ⟨m1, s1⟩ := db1
  dsimp only at hm hs hmaster
  constructor
  · dsimp only
    cases m1 with
    | none =>
      cases m with
      | none => simp at hmaster
      | some m => simp at hm
    | some m1 => rfl
  · intro i h hi
    match i with
    | 0 =>
      simp only [HistoryDb.m_bank_handles] at hi
      subst hi
      cases m with
      | none => simp at hm
      | some m =>
        simp only [Option.map_some', Option.some.injEq] at hm
        rw [hm]
        exact hbanks 0 m rfl
    | 1 =>
      simp only [HistoryDb.m_bank_handles] at hi
      subst hi
      cases s with
      | none => simp at hs
      | some s =>
        simp only [Option.map_some', Option.some.injEq] at hs
        rw [hs]
        exact hbanks 1 s rfl
    | n + 2 => simp [HistoryDb.m_bank_handles] at hi

theorem ReadLineIter.line_next_eq (rli : ReadLineIter) (db : HistoryDb) (i : Nat) (h : File)
    (li : LineIter) (out : List Nat) (hlock : rli.m_lock = some i)
    (hiter : rli.m_line_iter = some li) (hh : db.m_bank_handles i = some h) :
    rli.line_next db out
      = (li.next h out).map
          (fun r =>
            (r.1, r.2.1,
             { rli with m_line_iter := some r.2.2.1, buffer := r.2.2.1.m_file_iter.m_buffer },
             db.set_bank i r.2.2.2)) := by
  unfold ReadLineIter.line_next
  rw [hlock, hiter]
  dsimp only
  rw [hh]

/-- One turn of the loop of `ReadLineIter::next` while bank `i` is being read: either the
next live record of the bank is returned, stamped, or the bank is exhausted and the loop
goes to the next bank. -/
theorem ReadLineIter.next_loop_step (B k : Nat) (rli : ReadLineIter) (db : HistoryDb)
    (i : Nat) (h : File) (li : LineIter) (out : List Nat)
    (hR : ReadLineIter.Inv B rli db i h li) (hi : i ≤ 1) :
    (∃ (q : Nat) (r : List Nat) (rli1 : ReadLineIter) (db1 : HistoryDb) (h1 : File)
        (li1 : LineIter),
        rli.next_loop (k + 1) db out = some ((stamp i (q, r)).1, r, rli1, db1) ∧
        ReadLineIter.Inv B rli1 db1 i h1 li1 ∧ db1.contents = db.contents ∧
        db1.get_bank_count = db.get_bank_count ∧
        li.pending db i h = stamp i (q, r) :: li1.pending db1 i h1) ∨
    (∃ (rli1 : ReadLineIter) (db1 : HistoryDb),
        li.pending db i h = later_lines i db ∧ db1.contents = db.contents ∧
        db1.get_bank_count = db.get_bank_count ∧
        rli1.m_bank_index = i + 1 ∧ rli1.m_buffer_size = B ∧
        rli1.buffer.length = B ∧
        rli.next_loop (k + 1) db out
          = if (rli1.next_bank db1).1 = false then
              some (0, out, (rli1.next_bank db1).2.1, (rli1.next_bank db1).2.2)
            else ReadLineIter.next_loop k (rli1.next_bank db1).2.1 (rli1.next_bank db1).2.2 out) := by
  obtain ⟨hlock, hiter, hindex, hhandle, hI, hwf, hlen, hsize⟩ := hR
  obtain ⟨res, hres, hpost⟩ := LineIter.next_spec B li h out hI hwf
  obtain ⟨hdata, hbl, hcase⟩ := LineIter.next_post_cases hI hwf hpost
  obtain ⟨id, out1, it1, h1⟩ := res
  dsimp only at hdata hbl hcase
  have hstep : rli.next_loop (k + 1) db out
      = if id.to_bool = true then
          some (({ id with bank_index := (rli.m_bank_index + 2 ^ 32 - 1) % 2 ^ 32 % 4 }
                  : LineIdImpl).outer, out1, { rli with m_line_iter := some it1, buffer := it1.m_file_iter.m_buffer }, db.set_bank i h1)
        else
          if (ReadLineIter.next_bank { rli with m_line_iter := some it1, buffer := it1.m_file_iter.m_buffer } (db.set_bank i h1)).1 = false
          then some (0, out1,
            (ReadLineIter.next_bank { rli with m_line_iter := some it1, buffer := it1.m_file_iter.m_buffer } (db.set_bank i h1)).2.1,
            (ReadLineIter.next_bank { rli with m_line_iter := some it1, buffer := it1.m_file_iter.m_buffer } (db.set_bank i h1)).2.2)
          else ReadLineIter.next_loop k
            (ReadLineIter.next_bank { rli with m_line_iter := some it1, buffer := it1.m_file_iter.m_buffer } (db.set_bank i h1)).2.1
            (ReadLineIter.next_bank { rli with m_line_iter := some it1, buffer := it1.m_file_iter.m_buffer } (db.set_bank i h1)).2.2
            out1 := by
    rw [ReadLineIter.next_loop, ReadLineIter.line_next_eq rli db i h li out hlock hiter hhandle,
      hres]
    rfl
  have hcont : (db.set_bank i h1).contents = db.contents :=
    HistoryDb.contents_set_bank_of_handle db i h h1 hhandle hdata
  have hcount := HistoryDb.get_bank_count_set_bank db i h1
  rcases hcase with ⟨hnull, hout, hnone⟩ |
    ⟨q, r, hsplit, hid, hout, hI1, hwf1, hpos1, hq1, hq2, hne, -, hrec, -⟩
  · right
    refine ⟨{ rli with m_line_iter := some it1, buffer := it1.m_file_iter.m_buffer },
      db.set_bank i h1, ?_, hcont, hcount, hindex, hsize, hbl, ?_⟩
    · unfold LineIter.pending
      rw [hnone]
      rfl
    · rw [hstep, hnull, to_bool_null, if_neg (by simp), hout]
  · left
    have hrl : r.length ≠ 0 := fun h0 => hne (List.eq_nil_of_length_eq_zero h0)
    have hq29 : q < 2 ^ 29 := by omega
    refine ⟨q, r, { rli with m_line_iter := some it1, buffer := it1.m_file_iter.m_buffer },
      db.set_bank i h1, h1, it1, ?_, ?_, hcont, hcount, ?_⟩
    · rw [hstep, hid, to_bool_of_offset, if_pos rfl, hindex, hout]
      have := congrArg Prod.fst (stamp_of_offset i q r hq29 hi)
      dsimp only at this
      rw [this]
    · exact ⟨hlock, rfl, hindex, HistoryDb.m_bank_handles_set_bank_same db i h h1 hhandle, hI1,
        by rw [hdata]; exact hwf1, by rw [hdata]; exact hlen, hsize⟩
    · unfold LineIter.pending
      rw [hsplit, List.map_cons, List.cons_append, later_lines_congr i db _ hcont, hdata]

theorem ReadLineIter.next_bank_none (rli : ReadLineIter) (db : HistoryDb)
    (h : db.get_bank_count ≤ rli.m_bank_index) : rli.next_bank db = (false, rli, db) := by
  unfold ReadLineIter.next_bank
  rw [Nat.sub_eq_zero_of_le h]
  rfl

theorem HistoryDb.get_bank_count_le (db : HistoryDb) : db.get_bank_count ≤ 2 := by
  unfold HistoryDb.get_bank_count
  split <;> split <;> omega

theorem HistoryDb.session_of_count_two (db : HistoryDb) (h : db.get_bank_count = 2) :
    ∃ m s, db = { bank_master := some m, bank_session := some s } := by
  obtain ⟨m, s⟩ := db
  cases m <;> cases s <;> simp [HistoryDb.get_bank_count] at h
  exact ⟨_, _, rfl⟩

theorem HistoryDb.no_session_of_count_one (db : HistoryDb) (hm : db.bank_master.isSome = true)
    (h : db.get_bank_count = 1) : db.bank_session = none := by
  obtain ⟨m, s⟩ := db
  cases m <;> cases s <;> simp [HistoryDb.get_bank_count] at h hm ⊢

/-- Opening the session bank after the master bank is exhausted. -/
theorem ReadLineIter.next_bank_session (B : Nat) (rli1 : ReadLineIter) (db1 : HistoryDb)
    (hidx : rli1.m_bank_index = 1) (hcount : db1.get_bank_count = 2)
    (hsz : rli1.m_buffer_size = B) (hbl : rli1.buffer.length = B)
    (hok : store_ok B db1) :
    ∃ (rli2 : ReadLineIter) (db2 : HistoryDb) (s2 : File) (li2 : LineIter),
      rli1.next_bank db1 = (true, rli2, db2) ∧ ReadLineIter.Inv B rli2 db2 1 s2 li2 ∧
      db2.contents = db1.contents ∧ db2.get_bank_count = 2 ∧
      li2.pending db2 1 s2 = later_lines 0 db1 := by
  obtain ⟨m, s, rfl⟩ := HistoryDb.session_of_count_two db1 hcount
  have hoks : bank_ok B s.data := hok.2 1 s rfl
  have hlen : (rli1.buffer.take rli1.m_buffer_size).length = B := by
    rw [List.length_take, hsz, hbl]; exact Nat.min_self B
  obtain ⟨hI, hdata, hpos⟩ := LineIter.init_spec s
    (rli1.buffer.take rli1.m_buffer_size) (by have := hoks.2.2; omega)
  rw [hlen] at hI
  have hnb : rli1.next_bank { bank_master := some m, bank_session := some s }
      = (true,
         { rli1 with
           m_bank_index := 1 + 1
           m_lock := some 1
           m_line_iter := some (LineIter.init s
             (rli1.buffer.take rli1.m_buffer_size)).1
           buffer := (LineIter.init s
             (rli1.buffer.take rli1.m_buffer_size)).1.m_file_iter.m_buffer },
         { bank_master := some m
           bank_session := some (LineIter.init s
             (rli1.buffer.take rli1.m_buffer_size)).2 }) := by
    unfold ReadLineIter.next_bank
    rw [hcount, hidx]
    show ReadLineIter.next_bank_loop (0 + 1) rli1 _ = _
    rw [ReadLineIter.next_bank_loop]
    dsimp only
    rw [hidx]
    rfl
  generalize LineIter.init s
    (rli1.buffer.take rli1.m_buffer_size) = li at hI hdata hpos hnb
  refine ⟨_, _, li.2, li.1, hnb, ?_, ?_, rfl, ?_⟩
  · exact ⟨rfl, rfl, rfl, rfl, hI, by rw [hpos, hdata]; exact bank_ok_wf_from hoks,
      by rw [hdata]; exact hoks.2.2, hsz⟩
  · simp only [HistoryDb.contents, Option.map_some', hdata]
  · unfold LineIter.pending later_lines
    dsimp only
    rw [hpos, hdata, List.drop_zero, if_neg (by decide), List.append_nil, if_pos rfl]
    rfl

theorem later_lines_nil_of_no_session (i : Nat) (db : HistoryDb)
    (h : i = 1 ∨ db.bank_session = none) : later_lines i db = [] := by
  unfold later_lines
  rcases h with h | h
  · rw [if_neg (by omega)]
  · rw [h]; split <;> rfl

/-- One call of `ReadLineIter::next` on a well-formed store: it returns the next pending
record, stamped with its bank, or the null id when nothing is pending. -/
theorem ReadLineIter.next_bank_spec (B : Nat) (rli : ReadLineIter) (db : HistoryDb) (i : Nat)
    (h : File) (li : LineIter) (out : List Nat) (hR : ReadLineIter.Inv B rli db i h li)
    (hok : store_ok B db) (hi : i + 1 ≤ db.get_bank_count) :
    (li.pending db i h = [] ∧
      ∃ (rli1 : ReadLineIter) (db1 : HistoryDb), rli.next db out = some (0, out, rli1, db1)) ∨
    (∃ (y : Nat × List Nat) (ys : List (Nat × List Nat)) (rli1 : ReadLineIter)
        (db1 : HistoryDb) (i1 : Nat) (h1 : File) (li1 : LineIter),
      li.pending db i h = y :: ys ∧ rli.next db out = some (y.1, y.2, rli1, db1) ∧
      ReadLineIter.Inv B rli1 db1 i1 h1 li1 ∧ store_ok B db1 ∧ i1 + 1 ≤ db1.get_bank_count ∧
      li1.pending db1 i1 h1 = ys) := by
  have hc2 := HistoryDb.get_bank_count_le db
  have hi1 : i ≤ 1 := by omega
  have hnext : rli.next db out
      = rli.next_loop (db.get_bank_count - (i + 1) + 1) db out := by
    unfold ReadLineIter.next
    rw [hR.index, if_neg (by omega)]
  rw [hnext]
  rcases ReadLineIter.next_loop_step B (db.get_bank_count - (i + 1)) rli db i h li out hR
      hi1 with
    ⟨q, r, rli1, db1, h1, li1, hres, hR1, hcont, hcount, hpend⟩ |
    ⟨rli1, db1, hpend, hcont, hcount, hidx, hsz, hbl, hres⟩
  · right
    exact ⟨stamp i (q, r), _, rli1, db1, i, h1, li1, hpend, hres, hR1,
      store_ok_congr B db db1 hcont hok, by omega, rfl⟩
  · by_cases hlast : db.get_bank_count = i + 1
    · -- no further bank
      left
      have hnb := ReadLineIter.next_bank_none rli1 db1 (by omega)
      rw [hnb] at hres
      refine ⟨?_, _, _, hres⟩
      rw [hpend]
      apply later_lines_nil_of_no_session
      by_cases h0 : i = 0
      · right
        subst h0
        exact HistoryDb.no_session_of_count_one db hok.1 hlast
      · left; omega
    · -- the session bank is next
      have hi0 : i = 0 := by omega
      have hcnt : db.get_bank_count = 2 := by omega
      subst hi0
      have hok1 := store_ok_congr B db db1 hcont hok
      obtain ⟨rli2, db2, s2, li2, hnb, hR2, hcont2, hcount2, hpend2⟩ :=
        ReadLineIter.next_bank_session B rli1 db1 hidx (by omega) hsz hbl hok1
      rw [hnb] at hres
      dsimp only at hres
      rw [if_neg (by simp)] at hres
      have hk : db.get_bank_count - (0 + 1) = 0 + 1 := by omega
      rw [hk] at hres
      have hpend' : li.pending db 0 h = li2.pending db2 1 s2 := by
        rw [hpend, hpend2, later_lines_congr 0 db db1 hcont]
      have hok2 := store_ok_congr B db1 db2 hcont2 hok1
      rcases ReadLineIter.next_loop_step B 0 rli2 db2 1 s2 li2 out hR2 (by omega) with
        ⟨q, r, rli3, db3, h3, li3, hres3, hR3, hcont3, hcount3, hpend3⟩ |
        ⟨rli3, db3, hpend3, hcont3, hcount3, hidx3, hsz3, hbl3, hres3⟩
      · right
        refine ⟨stamp 1 (q, r), _, rli3, db3, 1, h3, li3, ?_, ?_, hR3,
          store_ok_congr B db2 db3 hcont3 hok2, by omega, rfl⟩
        · rw [hpend', hpend3]
        · rw [hk, hres, hres3]
          rfl
      · left
        have hnb3 := ReadLineIter.next_bank_none rli3 db3 (by omega)
        rw [hnb3] at hres3
        refine ⟨?_, _, _, by rw [hk, hres, hres3]; rfl⟩
        rw [hpend', hpend3]
        exact later_lines_nil_of_no_session 1 db2 (Or.inl rfl)

/-! ## Draining `read_lines` -/

theorem Iter.drain_all_spec (B : Nat) : ∀ (fuel : Nat) (rli : ReadLineIter) (db : HistoryDb)
    (i : Nat) (h : File) (li : LineIter) (out : List Nat), ReadLineIter.Inv B rli db i h li →
    store_ok B db → i + 1 ≤ db.get_bank_count → (li.pending db i h).length < fuel →
    Iter.drain fuel { impl := some rli } db out = some (li.pending db i h) := by
  intro fuel
  induction fuel with
  | zero => intro rli db i h li out _ _ _ hf; omega
  | succ fuel ih =>
    intro rli db i h li out hR hok hi hfuel
    rw [Iter.drain]
    unfold Iter.next
    dsimp only
    rcases ReadLineIter.next_bank_spec B rli db i h li out hR hok hi with
      ⟨hnil, rli1, db1, hres⟩ |
      ⟨y, ys, rli1, db1, i1, h1, li1, hpend, hres, hR1, hok1, hi1, hys⟩
    · rw [hres, hnil]
      rfl
    · rw [hres, hpend]
      dsimp only [Option.map_some']
      have hy : y.1 ≠ 0 := by
        have hmem : y ∈ li.pending db i h := by rw [hpend]; exact List.mem_cons_self _ _
        unfold LineIter.pending later_lines at hmem
        rcases List.mem_append.1 hmem with hm | hm
        · obtain ⟨x, -, hx⟩ := List.mem_map.1 hm
          rw [← hx]; exact stamp_fst_ne_zero i x
        · split at hm
          · split at hm
            · simp at hm
            · obtain ⟨x, -, hx⟩ := List.mem_map.1 hm
              rw [← hx]; exact stamp_fst_ne_zero 1 x
          · simp at hm
      rw [if_neg hy, ih rli1 db1 i1 h1 li1 y.2 hR1 hok1 hi1
        (by rw [hys]; rw [hpend] at hfuel; simp only [List.length_cons] at hfuel; omega), hys]
      rfl

/-- The method `HistoryDb::read_lines` on a well-formed store, given a buffer larger than
the iterator object: the iterator starts on the master bank with every live record of
the store pending. -/
theorem HistoryDb.read_lines_spec (sz : Nat) (buffer : List Nat) (db : HistoryDb)
    (hsz : sz < buffer.length) (hok : store_ok (buffer.length - sz) db) :
    ∃ (rli : ReadLineIter) (db1 : HistoryDb) (h1 : File) (li : LineIter),
      db.read_lines sz buffer = ({ impl := some rli }, db1) ∧
      ReadLineIter.Inv (buffer.length - sz) rli db1 0 h1 li ∧ db1.contents = db.contents ∧
      li.pending db1 0 h1 = store_lines db := by
  obtain ⟨hm, hbanks⟩ := hok
  obtain ⟨m, s⟩ := db
  cases m with
  | none => simp at hm
  | some m =>
    have hokm : bank_ok (buffer.length - sz) m.data := hbanks 0 m rfl
    have hlen : ((buffer.drop sz).take (buffer.length - sz)).length = buffer.length - sz := by
      rw [List.length_take, List.length_drop]; exact Nat.min_self _
    obtain ⟨hI, hdata, hpos⟩ := LineIter.init_spec m
      ((buffer.drop sz).take (buffer.length - sz)) (by have := hokm.2.2; omega)
    rw [hlen] at hI
    have hcnt : ∃ k, HistoryDb.get_bank_count { bank_master := some m, bank_session := s } - 0
        = k + 1 := by
      cases s
      · exact ⟨0, rfl⟩
      · exact ⟨1, rfl⟩
    obtain ⟨k, hk⟩ := hcnt
    have hrl : HistoryDb.read_lines { bank_master := some m, bank_session := s } sz buffer
        = ({ impl := some
              { m_lock := some 0
                m_line_iter :=
                  some (LineIter.init m ((buffer.drop sz).take (buffer.length - sz))).1
                buffer :=
                  (LineIter.init m
                    ((buffer.drop sz).take (buffer.length - sz))).1.m_file_iter.m_buffer
                m_buffer_size := buffer.length - sz
                m_bank_index := 0 + 1 } },
           { bank_master := some
               (LineIter.init m ((buffer.drop sz).take (buffer.length - sz))).2
             bank_session := s }) := by
      unfold HistoryDb.read_lines
      rw [if_pos hsz]
      unfold ReadLineIter.init ReadLineIter.next_bank
      dsimp only
      rw [hk, ReadLineIter.next_bank_loop]
      rfl
    generalize LineIter.init m ((buffer.drop sz).take (buffer.length - sz)) = li
      at hI hdata hpos hrl
    refine ⟨_, _, li.2, li.1, hrl, ?_, ?_, ?_⟩
    · exact ⟨rfl, rfl, rfl, rfl, hI, by rw [hpos, hdata]; exact bank_ok_wf_from hokm,
        by rw [hdata]; exact hokm.2.2, rfl⟩
    · simp only [HistoryDb.contents, Option.map_some', hdata]
    · unfold LineIter.pending later_lines store_lines
      dsimp only
      rw [hpos, hdata, List.drop_zero, if_pos rfl]
      rfl

/-- Draining `read_lines` on a well-formed store yields the live records of the store in
bank order. -/
theorem HistoryDb.read_lines_drain (sz : Nat) (buffer : List Nat) (db : HistoryDb)
    (out : List Nat) (fuel : Nat) (hsz : sz < buffer.length)
    (hok : store_ok (buffer.length - sz) db) (hfuel : (store_lines db).length < fuel) :
    Iter.drain fuel (db.read_lines sz buffer).1 (db.read_lines sz buffer).2 out
      = some (store_lines db) := by
  obtain ⟨rli, db1, h1, li, hrl, hR, hcont, hpend⟩ :=
    HistoryDb.read_lines_spec sz buffer db hsz hok
  rw [hrl]
  dsimp only
  have hok1 := store_ok_congr _ db db1 hcont hok
  have hcount : 0 + 1 ≤ db1.get_bank_count := by
    have := hok1.1
    unfold HistoryDb.get_bank_count
    rw [this]
    simp
  rw [Iter.drain_all_spec _ fuel rli db1 0 h1 li out hR hok1 hcount
    (by rw [hpend]; exact hfuel), hpend]

/-- C4: on a well-formed store read through a buffer larger than the iterator object,
`read_lines` iterated to exhaustion yields every live record of the master bank in file
order, then every live record of the session bank in file order, each with the id made
of its byte offset in its bank and of the bank index (0 for master, 1 for session). -/
theorem C4_read_lines_bank_order (sz : Nat) (buffer : List Nat) (db : HistoryDb)
    (out : List Nat) (fuel : Nat) (hsz : sz < buffer.length)
    (hok : store_ok (buffer.length - sz) db) (hfuel : (store_lines db).length < fuel) :
    Iter.drain fuel (db.read_lines sz buffer).1 (db.read_lines sz buffer).2 out
      = some (store_lines db) :=
  HistoryDb.read_lines_drain sz buffer db out fuel hsz hok hfuel

theorem bank_ok_mono {B B1 : Nat} {f : List Nat} (h : bank_ok B f) (hB : B ≤ B1) :
    bank_ok B1 f :=
  ⟨h.1, fun x hx => Nat.le_trans (h.2.1 x hx) hB, h.2.2⟩

theorem store_ok_mono {B B1 : Nat} {db : HistoryDb} (h : store_ok B db) (hB : B ≤ B1) :
    store_ok B1 db :=
  ⟨h.1, fun i f hi => bank_ok_mono (h.2 i f hi) hB⟩

theorem store_ok_two (B : Nat) (m s : File) (hm : bank_ok B m.data) (hs : bank_ok B s.data) :
    store_ok B { bank_master := some m, bank_session := some s } := by
  refine ⟨rfl, ?_⟩
  intro i h hi
  match i with
  | 0 =>
    simp only [HistoryDb.m_bank_handles, Option.some.injEq] at hi
    subst hi; exact hm
  | 1 =>
    simp only [HistoryDb.m_bank_handles, Option.some.injEq] at hi
    subst hi; exact hs
  | n + 2 => simp [HistoryDb.m_bank_handles] at hi

theorem store_ok_one (B : Nat) (m : File) (hm : bank_ok B m.data) :
    store_ok B { bank_master := some m, bank_session := none } := by
  refine ⟨rfl, ?_⟩
  intro i h hi
  match i with
  | 0 =>
    simp only [HistoryDb.m_bank_handles, Option.some.injEq] at hi
    subst hi; exact hm
  | 1 => simp [HistoryDb.m_bank_handles] at hi
  | n + 2 => simp [HistoryDb.m_bank_handles] at hi

/-- C4 on the store with master bank `echo one\necho two\n` and session bank
`echo three\n`: the ids are offset 0 and 9 of bank 0 and offset 0 of bank 1. -/
theorem C4_read_lines_bank_order_witness :
    Iter.drain 4
        (HistoryDb.read_lines
          { bank_master := some { data := [101, 99, 104, 111, 32, 111, 110, 101, 10,
                                           101, 99, 104, 111, 32, 116, 119, 111, 10], ptr := 0 }
            bank_session := some { data := [101, 99, 104, 111, 32, 116, 104, 114, 101, 101, 10],
                                   ptr := 0 } } 64 (List.replicate 8300 0)).1
        (HistoryDb.read_lines
          { bank_master := some { data := [101, 99, 104, 111, 32, 111, 110, 101, 10,
                                           101, 99, 104, 111, 32, 116, 119, 111, 10], ptr := 0 }
            bank_session := some { data := [101, 99, 104, 111, 32, 116, 104, 114, 101, 101, 10],
                                   ptr := 0 } } 64 (List.replicate 8300 0)).2 []
      = some [(LineIdImpl.outer { offset := 0, bank_index := 0, active := 1 },
                [101, 99, 104, 111, 32, 111, 110, 101]),
              (LineIdImpl.outer { offset := 9, bank_index := 0, active := 1 },
                [101, 99, 104, 111, 32, 116, 119, 111]),
              (LineIdImpl.outer { offset := 0, bank_index := 1, active := 1 },
                [101, 99, 104, 111, 32, 116, 104, 114, 101, 101])] :=
  C4_read_lines_bank_order 64 (List.replicate 8300 0) _ [] 4
    (by rw [List.length_replicate]; norm_num)
    (store_ok_two _ _ _
      ⟨by intro b hb; simp at hb; omega,
       by rw [List.length_replicate]; decide, by norm_num⟩
      ⟨by intro b hb; simp at hb; omega,
       by rw [List.length_replicate]; decide, by norm_num⟩)
    (by decide)

/-- C5 (amended): on a well-formed store (master bank open; every open bank empty or
ending with a byte of at most `0x1f`, with no record longer than `max_line_length` and
shorter than `2 ^ 29` bytes), read through a scan buffer of at least `max_line_length`
bytes, `find` returns the id - offset and bank index - of the first element in
`read_lines` order whose bytes equal the line, and the null id when no element does. -/
theorem C5_find_first_in_read_lines_order (max_line_length sz : Nat) (buffer : List Nat)
    (db : HistoryDb) (line out : List Nat) (fuel : Nat)
    (hok : store_ok max_line_length db) (hl : c_string line) (hsz : sz < buffer.length)
    (hB : max_line_length ≤ buffer.length - sz) (hfuel : (store_lines db).length < fuel) :
    ∃ ys db1,
      Iter.drain fuel (db.read_lines sz buffer).1 (db.read_lines sz buffer).2 out = some ys ∧
      db.find max_line_length line = some (first_id line ys, db1) := by
  obtain ⟨db1, hfind, -⟩ := HistoryDb.find_store_spec max_line_length db line hok hl
  exact ⟨store_lines db, db1,
    HistoryDb.read_lines_drain sz buffer db out fuel hsz (store_ok_mono hok hB) hfuel, hfind⟩

/-- C5 on the store with an empty master bank and the session bank `|s\nls\n`: `find`
of `ls` returns offset 3 of bank 1. -/
theorem C5_find_first_in_read_lines_order_witness :
    ∃ ys db1,
      Iter.drain 2
          (HistoryDb.read_lines
            { bank_master := some { data := [], ptr := 0 }
              bank_session := some { data := [124, 115, 10, 108, 115, 10], ptr := 0 } }
            64 (List.replicate 8300 0)).1
          (HistoryDb.read_lines
            { bank_master := some { data := [], ptr := 0 }
              bank_session := some { data := [124, 115, 10, 108, 115, 10], ptr := 0 } }
            64 (List.replicate 8300 0)).2 [] = some ys ∧
      HistoryDb.find 8192
          { bank_master := some { data := [], ptr := 0 }
            bank_session := some { data := [124, 115, 10, 108, 115, 10], ptr := 0 } }
          [108, 115] = some (first_id [108, 115] ys, db1) ∧
      first_id [108, 115] ys = LineIdImpl.outer { offset := 3, bank_index := 1, active := 1 } := by
  obtain ⟨ys, db1, h1, h2⟩ := C5_find_first_in_read_lines_order 8192 64 (List.replicate 8300 0)
    { bank_master := some { data := [], ptr := 0 }
      bank_session := some { data := [124, 115, 10, 108, 115, 10], ptr := 0 } }
    [108, 115] [] 2
    (store_ok_two _ _ _
      ⟨by intro b hb; simp at hb, by decide, by norm_num⟩
      ⟨by intro b hb; simp at hb; omega, by decide, by norm_num⟩)
    (by intro c hc; simp at hc; omega)
    (by rw [List.length_replicate]; norm_num)
    (by rw [List.length_replicate]; norm_num)
    (by decide)
  refine ⟨ys, db1, h1, h2, ?_⟩
  have h3 := HistoryDb.read_lines_drain 64 (List.replicate 8300 0)
    { bank_master := some { data := [], ptr := 0 }
      bank_session := some { data := [124, 115, 10, 108, 115, 10], ptr := 0 } } [] 2
    (by rw [List.length_replicate]; norm_num)
    (store_ok_two _ _ _
      ⟨by intro b hb; simp at hb, by rw [List.length_replicate]; decide, by norm_num⟩
      ⟨by intro b hb; simp at hb; omega, by rw [List.length_replicate]; decide, by norm_num⟩)
    (by decide)
  rw [h1] at h3
  cases h3
  decide

/-- C8 on a store whose master bank is `ls\n`: adding `ls` again under `ignore` returns
true and leaves the bank as it is. -/
theorem C8_ignore_keeps_banks_witness :
    ∃ db2, HistoryDb.add 8192 { g_shared := true, g_ignore_space := true, g_dupe_mode := 1 }
        { bank_master := some { data := [108, 115, 10], ptr := 0 }, bank_session := none }
        [108, 115] = some (true, db2) ∧
      db2.contents = HistoryDb.contents
        { bank_master := some { data := [108, 115, 10], ptr := 0 }, bank_session := none } := by
  obtain ⟨db1, hfind, -⟩ := HistoryDb.find_store_spec 8192
    { bank_master := some { data := [108, 115, 10], ptr := 0 }, bank_session := none }
    [108, 115]
    (store_ok_one _ _ ⟨by intro b hb; simp at hb; omega, by decide, by norm_num⟩)
    (by intro c hc; simp at hc; omega)
  exact C8_ignore_keeps_banks 8192 _ _ [108, 115] rfl (by intro c hc; simp at hc; omega)
    ⟨by simp, fun _ => by simp⟩ _ db1 hfind (by decide)

/-! ## Tombstoning the records equal to a line -/

theorem tomb_aux_cons (line : List Nat) (b : Bool) (c : Nat) (t : List Nat) :
    tomb_aux line b (c :: t) =
      if is_rec c = true then
        if b = true then c :: tomb_aux line true t
        else (if (c :: t).takeWhile is_rec = line then 0x7C else c) :: tomb_aux line true t
      else c :: tomb_aux line false t := rfl

theorem is_rec_bar : is_rec 0x7C = true := by decide

theorem length_tomb_aux (line : List Nat) (b : Bool) (s : List Nat) :
    (tomb_aux line b s).length = s.length := by
  induction s generalizing b with
  | nil => rfl
  | cons c t ih =>
    rw [tomb_aux_cons]
    split
    · split
      · simp [ih]
      · simp [ih]
    · simp [ih]

theorem takeWhile_tomb_aux_true (line : List Nat) (t : List Nat) :
    (tomb_aux line true t).takeWhile is_rec = t.takeWhile is_rec := by
  induction t with
  | nil => rfl
  | cons c t ih =>
    rw [tomb_aux_cons]
    by_cases hc : is_rec c = true
    · rw [if_pos hc, if_pos rfl, List.takeWhile_cons, if_pos hc, List.takeWhile_cons, if_pos hc, ih]
    · rw [if_neg hc, List.takeWhile_cons, if_neg hc, List.takeWhile_cons, if_neg hc]

/-- The records of a tombstoned content are the records of the content, those equal to
the line having got the tombstone mark as first byte. -/
theorem runs_aux_tomb_aux (line : List Nat) (b : Bool) (p : Nat) (s : List Nat) :
    runs_aux b p (tomb_aux line b s) = (runs_aux b p s).map (retag line) := by
  induction s generalizing b p with
  | nil => rfl
  | cons c t ih =>
    rw [tomb_aux_cons, runs_aux_cons]
    by_cases hc : is_rec c = true
    · rw [if_pos hc, if_pos hc]
      by_cases hb : b = true
      · rw [if_pos hb, if_pos hb, runs_aux_cons, if_pos hc, if_pos hb, ih]
      · rw [if_neg hb, if_neg hb, List.map_cons, ← ih, List.takeWhile_cons, if_pos hc]
        by_cases hl : c :: List.takeWhile is_rec t = line
        · rw [if_pos hl, runs_aux_cons, if_pos is_rec_bar, if_neg hb, List.takeWhile_cons,
            if_pos is_rec_bar, takeWhile_tomb_aux_true]
          unfold retag
          rw [if_pos hl]
          rfl
        · rw [if_neg hl, runs_aux_cons, if_pos hc, if_neg hb, List.takeWhile_cons,
            if_pos hc, takeWhile_tomb_aux_true]
          unfold retag
          rw [if_neg hl]
    · rw [if_neg hc, if_neg hc, runs_aux_cons, if_neg hc, ih]

theorem tomb_aux_ne_nil (line : List Nat) (b : Bool) (c : Nat) (t : List Nat) :
    tomb_aux line b (c :: t) ≠ [] := by
  intro h
  have := congrArg List.length h
  rw [length_tomb_aux] at this
  simp at this

theorem ends_ok_tomb_aux (line : List Nat) (b : Bool) (s : List Nat) (h : ends_ok s) :
    ends_ok (tomb_aux line b s) := by
  induction s generalizing b with
  | nil => exact h
  | cons c t ih =>
    cases t with
    | nil =>
      have hc : ¬ is_rec c = true := by
        have := h c rfl
        simp only [is_rec, decide_eq_true_eq]
        omega
      rw [tomb_aux_cons, if_neg hc]
      exact h
    | cons d t =>
      have ht : ends_ok (d :: t) := by
        intro x hx
        apply h
        rw [List.getLast?_cons_cons]
        exact hx
      have key : ∀ (c1 : Nat) (b1 : Bool), ends_ok (c1 :: tomb_aux line b1 (d :: t)) := by
        intro c1 b1 x hx
        apply ih b1 ht
        obtain ⟨e, l, hel⟩ := List.exists_cons_of_ne_nil (tomb_aux_ne_nil line b1 d t)
        rw [hel] at hx ⊢
        rw [List.getLast?_cons_cons] at hx
        exact hx
      rw [tomb_aux_cons]
      split
      · split
        · exact key _ _
        · exact key _ _
      · exact key _ _

theorem set_length_append (A : List Nat) (c x : Nat) (t : List Nat) :
    (A ++ c :: t).set A.length x = A ++ x :: t := by
  induction A with
  | nil => rfl
  | cons a A ih => simp only [List.cons_append, List.length_cons, List.set_cons_succ, ih]

theorem write_bars_cons (q : Nat) (qs : List Nat) (d : List Nat) :
    write_bars (q :: qs) d = write_bars qs (d.set q 0x7C) := rfl

theorem live_iff (x : Nat × List Nat) : live x = true ↔ x.2.head? ≠ some 0x7C := by
  unfold live
  simp

/-- Writing the tombstone mark at the offsets of the live records equal to the line
gives the tombstoned content. -/
theorem write_bars_eq_tomb_aux (line : List Nat) : ∀ (s : List Nat) (b : Bool) (p : Nat)
    (A : List Nat), A.length = p →
    write_bars ((((runs_aux b p s).filter live).filter (fun x => decide (x.2 = line))).map
      (fun x => x.1)) (A ++ s) = A ++ tomb_aux line b s := by
  intro s
  induction s with
  | nil => intro b p A _; rfl
  | cons c t ih =>
    intro b p A hA
    have step : ∀ (b1 : Bool) (c1 : Nat),
        write_bars ((((runs_aux b1 (p + 1) t).filter live).filter
          (fun x => decide (x.2 = line))).map (fun x => x.1)) (A ++ c1 :: t)
          = A ++ c1 :: tomb_aux line b1 t := by
      intro b1 c1
      have := ih b1 (p + 1) (A ++ [c1]) (by rw [List.length_append, hA]; rfl)
      rw [List.append_assoc, List.append_assoc] at this
      exact this
    rw [runs_aux_cons, tomb_aux_cons]
    by_cases hc : is_rec c = true
    · rw [if_pos hc, if_pos hc]
      by_cases hb : b = true
      · rw [if_pos hb, if_pos hb]
        exact step true c
      · rw [if_neg hb, if_neg hb]
        by_cases hl : (c :: t).takeWhile is_rec = line
        · rw [if_pos hl]
          by_cases hlive : live (p, (c :: t).takeWhile is_rec) = true
          · rw [List.filter_cons, if_pos hlive, List.filter_cons,
              if_pos (by simpa using hl), List.map_cons, write_bars_cons]
            dsimp only
            rw [← hA, set_length_append, hA]
            exact step true 0x7C
          · rw [List.filter_cons, if_neg hlive]
            have hc7 : c = 0x7C := by
              rw [live_iff] at hlive
              simp only [List.takeWhile_cons, hc, if_true, List.head?_cons, ne_eq,
                Option.some.injEq, not_not] at hlive
              exact hlive
            rw [hc7]
            exact step true 0x7C
        · rw [if_neg hl]
          by_cases hlive : live (p, (c :: t).takeWhile is_rec) = true
          · rw [List.filter_cons, if_pos hlive, List.filter_cons,
              if_neg (by simpa using hl)]
            exact step true c
          · rw [List.filter_cons, if_neg hlive]
            exact step true c
    · rw [if_neg hc, if_neg hc]
      exact step false c

/-- The effect of `HistoryDb::remove(line)` on the bytes of a bank, as a function of its
content. -/
theorem write_bars_match_offsets (line f : List Nat) :
    write_bars (match_offsets line f) f = tombstoned line f := by
  have := write_bars_eq_tomb_aux line f false 0 [] rfl
  exact this

/-- In a tombstoned content every record that was equal to the line starts with the
tombstone mark. -/
theorem tomb_aux_getD_match (line : List Nat) : ∀ (s : List Nat) (b : Bool) (p : Nat),
    ∀ x ∈ runs_aux b p s, x.2 = line → (tomb_aux line b s).getD (x.1 - p) 0 = 0x7C := by
  intro s
  induction s with
  | nil => intro b p x hx; simp [runs_aux] at hx
  | cons c t ih =>
    intro b p x hx hxl
    have step : ∀ (b1 : Bool) (c1 : Nat), x ∈ runs_aux b1 (p + 1) t →
        (c1 :: tomb_aux line b1 t).getD (x.1 - p) 0 = 0x7C := by
      intro b1 c1 hx1
      have h1 := (runs_aux_bounds b1 (p + 1) t x hx1).1
      have h2 := ih b1 (p + 1) x hx1 hxl
      have e : x.1 - p = (x.1 - (p + 1)) + 1 := by omega
      rw [e, List.getD_cons_succ]
      exact h2
    rw [runs_aux_cons] at hx
    rw [tomb_aux_cons]
    by_cases hc : is_rec c = true
    · rw [if_pos hc] at hx ⊢
      by_cases hb : b = true
      · rw [if_pos hb] at hx ⊢
        exact step true c hx
      · rw [if_neg hb] at hx ⊢
        rcases List.mem_cons.1 hx with hx | hx
        · subst hx
          dsimp only at hxl ⊢
          rw [if_pos hxl, Nat.sub_self]
          rfl
        · exact step true _ hx
    · rw [if_neg hc] at hx ⊢
      exact step false c hx

/-- In a tombstoned content every byte that is not the first byte of a record equal to
the line is as it was. -/
theorem tomb_aux_getD_other (line : List Nat) : ∀ (s : List Nat) (b : Bool) (p j : Nat),
    (∀ x ∈ runs_aux b p s, x.2 = line → x.1 ≠ p + j) →
    (tomb_aux line b s).getD j 0 = s.getD j 0 := by
  intro s
  induction s with
  | nil => intro b p j _; rfl
  | cons c t ih =>
    intro b p j hno
    rw [tomb_aux_cons]
    rw [runs_aux_cons] at hno
    have tail : ∀ (b1 : Bool) (c1 : Nat) (k : Nat),
        (∀ x ∈ runs_aux b1 (p + 1) t, x.2 = line → x.1 ≠ p + (k + 1)) →
        (c1 :: tomb_aux line b1 t).getD (k + 1) 0 = (c :: t).getD (k + 1) 0 := by
      intro b1 c1 k hk
      rw [List.getD_cons_succ, List.getD_cons_succ]
      apply ih b1 (p + 1) k
      intro x hx hxl
      have := hk x hx hxl
      omega
    by_cases hc : is_rec c = true
    · rw [if_pos hc] at hno ⊢
      by_cases hb : b = true
      · rw [if_pos hb] at hno ⊢
        cases j with
        | zero => rfl
        | succ k => exact tail true c k hno
      · rw [if_neg hb] at hno ⊢
        cases j with
        | zero =>
          have : ¬ ((c :: t).takeWhile is_rec = line) := by
            intro hl
            exact hno _ (List.mem_cons_self _ _) hl rfl
          rw [if_neg this]
          rfl
        | succ k =>
          exact tail true _ k (fun x hx => hno x (List.mem_cons_of_mem _ hx))
    · rw [if_neg hc] at hno ⊢
      cases j with
      | zero => rfl
      | succ k => exact tail false c k hno

/-! ## Traversals of the bank table -/

/-- With the master slot null the traversal `for_each_bank` calls nothing. -/
theorem HistoryDb.for_each_bank_null {σ : Type} (db : HistoryDb)
    (callback : Nat → File → σ → Option (Bool × σ × File)) (s : σ)
    (hm : db.bank_master = none) : db.for_each_bank callback s = some (s, db) := by
  obtain ⟨m, se⟩ := db
  dsimp only at hm
  subst hm
  cases se with
  | none => rfl
  | some se => rfl

/-- A traversal whose callback always asks to go on and keeps its state visits every
open bank of a store whose master bank is open. -/
theorem HistoryDb.for_each_bank_all {σ : Type} (db : HistoryDb)
    (callback : Nat → File → σ → Option (Bool × σ × File)) (s : σ)
    (P : Nat → File → File → Prop)
    (hm : db.bank_master.isSome = true)
    (hcb : ∀ i h, db.m_bank_handles i = some h →
      ∃ h1, callback i h s = some (true, s, h1) ∧ P i h h1) :
    ∃ db1, db.for_each_bank callback s = some (s, db1) ∧
      db1.get_bank_count = db.get_bank_count ∧
      (∀ i, db1.m_bank_handles i = none ↔ db.m_bank_handles i = none) ∧
      ∀ i h, db.m_bank_handles i = some h →
        ∃ h1, db1.m_bank_handles i = some h1 ∧ P i h h1 := by
  obtain ⟨m, se⟩ := db
  cases m with
  | none => simp at hm
  | some m =>
    obtain ⟨m1, hcm, hPm⟩ := hcb 0 m rfl
    cases se with
    | none =>
      refine ⟨{ bank_master := some m1, bank_session := none }, ?_, rfl, ?_, ?_⟩
      · unfold HistoryDb.for_each_bank
        rw [HistoryDb.get_bank_count_one, HistoryDb.for_each_bank_loop,
          HistoryDb.get_bank_master]
        dsimp only
        rw [hcm]
        rfl
      · intro i
        match i with
        | 0 => simp [HistoryDb.m_bank_handles]
        | 1 => simp [HistoryDb.m_bank_handles]
        | _ + 2 => simp [HistoryDb.m_bank_handles]
      · intro i h hi
        match i with
        | 0 =>
          have : m = h := by simpa [HistoryDb.m_bank_handles] using hi
          subst this
          exact ⟨m1, rfl, hPm⟩
        | 1 => simp [HistoryDb.m_bank_handles] at hi
        | _ + 2 => simp [HistoryDb.m_bank_handles] at hi
    | some se =>
      obtain ⟨s1, hcs, hPs⟩ := hcb 1 se rfl
      refine ⟨{ bank_master := some m1, bank_session := some s1 }, ?_, rfl, ?_, ?_⟩
      · unfold HistoryDb.for_each_bank
        rw [HistoryDb.get_bank_count_two, HistoryDb.for_each_bank_loop,
          HistoryDb.get_bank_master]
        dsimp only
        rw [hcm]
        dsimp only
        have hset : HistoryDb.set_bank { bank_master := some m, bank_session := some se } 0 m1
            = { bank_master := some m1, bank_session := some se } := rfl
        rw [if_neg (by simp), hset, HistoryDb.for_each_bank_loop, HistoryDb.get_bank_session]
        dsimp only
        rw [hcs]
        rfl
      · intro i
        match i with
        | 0 => simp [HistoryDb.m_bank_handles]
        | 1 => simp [HistoryDb.m_bank_handles]
        | _ + 2 => simp [HistoryDb.m_bank_handles]
      · intro i h hi
        match i with
        | 0 =>
          have : m = h := by simpa [HistoryDb.m_bank_handles] using hi
          subst this
          exact ⟨m1, rfl, hPm⟩
        | 1 =>
          have : se = h := by simpa [HistoryDb.m_bank_handles] using hi
          subst this
          exact ⟨s1, rfl, hPs⟩
        | _ + 2 => simp [HistoryDb.m_bank_handles] at hi

/-! ## Tombstoned contents -/

theorem live_retag (line : List Nat) (x : Nat × List Nat) :
    live (retag line x) = (live x && !decide (x.2 = line)) := by
  unfold retag
  by_cases h : x.2 = line
  · rw [if_pos h]
    simp [live, h]
  · rw [if_neg h]
    simp [h]

theorem filter_live_map_retag (line : List Nat) (xs : List (Nat × List Nat)) :
    (xs.map (retag line)).filter live
      = (xs.filter live).filter (fun x => !decide (x.2 = line)) := by
  induction xs with
  | nil => rfl
  | cons x xs ih =>
    have ih1 := ih
    have hx := live_retag line x
    rw [List.map_cons, List.filter_cons, hx]
    by_cases hl : live x = true
    · rw [List.filter_cons, if_pos hl, List.filter_cons]
      by_cases he : x.2 = line
      · have e1 : (live x && !decide (x.2 = line)) = false := by simp [he]
        have e2 : (!decide (x.2 = line)) = false := by simp [he]
        rw [e1, e2]
        simpa using ih1
      · have e1 : (live x && !decide (x.2 = line)) = true := by simp [he, hl]
        have e2 : (!decide (x.2 = line)) = true := by simp [he]
        rw [e1, e2, if_pos rfl, if_pos rfl, ih1]
        unfold retag
        rw [if_neg he]
    · have e1 : (live x && !decide (x.2 = line)) = false := by simp [hl]
      rw [e1, List.filter_cons, if_neg hl]
      simpa using ih1

/-- The live records of a tombstoned content are the live records that differ from the
line, at their offsets. -/
theorem records_tombstoned (line f : List Nat) :
    records (tombstoned line f) = (records f).filter (fun x => !decide (x.2 = line)) := by
  unfold records tombstoned runs
  rw [runs_aux_tomb_aux]
  exact filter_live_map_retag line _

theorem length_retag (line : List Nat) (x : Nat × List Nat) (hx : x.2 ≠ []) :
    (retag line x).2.length = x.2.length := by
  unfold retag
  by_cases h : x.2 = line
  · rw [if_pos h]
    cases hx2 : x.2 with
    | nil => exact absurd hx2 hx
    | cons a t => rfl
  · rw [if_neg h]

/-- Tombstoning keeps a bank well formed. -/
theorem bank_ok_tombstoned {B : Nat} {f : List Nat} (line : List Nat) (h : bank_ok B f) :
    bank_ok B (tombstoned line f) := by
  obtain ⟨he, hr, hl⟩ := h
  refine ⟨ends_ok_tomb_aux line false f he, ?_, ?_⟩
  · intro x hx
    unfold tombstoned runs at hx
    rw [runs_aux_tomb_aux] at hx
    obtain ⟨y, hy, rfl⟩ := List.mem_map.1 hx
    rw [length_retag line y (runs_aux_ne_nil false 0 f y hy)]
    exact hr y hy
  · unfold tombstoned
    rw [length_tomb_aux]
    exact hl

/-- The method `HistoryDb::remove(line)` on a well-formed store: it returns 0 and leaves
every open bank with the content tombstoned for the line. -/
theorem HistoryDb.remove_line_spec (max_line_length : Nat) (db : HistoryDb)
    (line : List Nat) (hok : store_ok max_line_length db) (hl : c_string line) :
    ∃ db1, db.remove_line max_line_length line = some (0, db1) ∧
      db1.get_bank_count = db.get_bank_count ∧
      (∀ i, db1.m_bank_handles i = none ↔ db.m_bank_handles i = none) ∧
      ∀ i h, db.m_bank_handles i = some h →
        ∃ h1, db1.m_bank_handles i = some h1 ∧ h1.data = tombstoned line h.data := by
  unfold HistoryDb.remove_line
  apply HistoryDb.for_each_bank_all db _ 0 (fun _ h h1 => h1.data = tombstoned line h.data)
    hok.1
  intro i h hi
  obtain ⟨h1, hf, hd⟩ := ReadLock.find_cb_remove_spec max_line_length line h hl (hok.2 i h hi)
  refine ⟨h1, ?_, ?_⟩
  · dsimp only
    rw [hf]
  · rw [hd]
    exact write_bars_match_offsets line h.data

/-! ## Stores related bank by bank -/

/-- Two stores with the same open slots, the master bank open, whose banks are related by
`P`, have one of two shapes. -/
theorem HistoryDb.banks_cases (db db1 : HistoryDb) (P : Nat → File → File → Prop)
    (hm : db.bank_master.isSome = true)
    (hnone : ∀ i, db1.m_bank_handles i = none ↔ db.m_bank_handles i = none)
    (hd : ∀ i h, db.m_bank_handles i = some h →
      ∃ h1, db1.m_bank_handles i = some h1 ∧ P i h h1) :
    ∃ m m1, P 0 m m1 ∧
      ((db = { bank_master := some m, bank_session := none } ∧
        db1 = { bank_master := some m1, bank_session := none }) ∨
       ∃ s s1, P 1 s s1 ∧ db = { bank_master := some m, bank_session := some s } ∧
        db1 = { bank_master := some m1, bank_session := some s1 }) := by
  obtain ⟨m, s⟩ := db
  obtain ⟨m1, s1⟩ := db1
  cases m with
  | none => simp at hm
  | some m =>
    obtain ⟨m1', hm1, hPm⟩ := hd 0 m rfl
    have hm1e : m1 = some m1' := hm1
    subst hm1e
    refine ⟨m, m1', hPm, ?_⟩
    cases s with
    | none =>
      have : s1 = none := (hnone 1).2 rfl
      subst this
      exact Or.inl ⟨rfl, rfl⟩
    | some s =>
      obtain ⟨s1', hs1, hPs⟩ := hd 1 s rfl
      have hs1e : s1 = some s1' := hs1
      subst hs1e
      exact Or.inr ⟨s, s1', hPs, rfl, rfl⟩

theorem store_ok_of_handles (B : Nat) (db db1 : HistoryDb)
    (hm : db.bank_master.isSome = true)
    (hnone : ∀ i, db1.m_bank_handles i = none ↔ db.m_bank_handles i = none)
    (hd : ∀ i h, db.m_bank_handles i = some h →
      ∃ h1, db1.m_bank_handles i = some h1 ∧ bank_ok B h1.data) :
    store_ok B db1 := by
  obtain ⟨m, m1, hP, hc⟩ :=
    HistoryDb.banks_cases db db1 (fun _ _ h1 => bank_ok B h1.data) hm hnone hd
  rcases hc with ⟨_, rfl⟩ | ⟨s, s1, hPs, _, rfl⟩
  · exact store_ok_one B m1 hP
  · exact store_ok_two B m1 s1 hP hPs

theorem map_stamp_filter (i : Nat) (p : List Nat → Bool) (recs : List (Nat × List Nat)) :
    (recs.filter (fun x => p x.2)).map (stamp i)
      = (recs.map (stamp i)).filter (fun y => p y.2) := by
  induction recs with
  | nil => rfl
  | cons x xs ih =>
    rw [List.filter_cons, List.map_cons, List.filter_cons]
    have : (stamp i x).2 = x.2 := rfl
    rw [this]
    by_cases hp : p x.2 = true
    · rw [if_pos hp, if_pos hp, List.map_cons, ih]
    · rw [if_neg hp, if_neg hp, ih]

/-- Filtering the live records of every bank by their bytes filters the lines of the
store. -/
theorem store_lines_filter (db db1 : HistoryDb) (p : List Nat → Bool)
    (hm : db.bank_master.isSome = true)
    (hnone : ∀ i, db1.m_bank_handles i = none ↔ db.m_bank_handles i = none)
    (hd : ∀ i h, db.m_bank_handles i = some h →
      ∃ h1, db1.m_bank_handles i = some h1 ∧
        records h1.data = (records h.data).filter (fun x => p x.2)) :
    store_lines db1 = (store_lines db).filter (fun y => p y.2) := by
  obtain ⟨m, m1, hP, hc⟩ := HistoryDb.banks_cases db db1
    (fun _ h h1 => records h1.data = (records h.data).filter (fun x => p x.2)) hm hnone hd
  rcases hc with ⟨rfl, rfl⟩ | ⟨s, s1, hPs, rfl, rfl⟩
  · unfold store_lines
    dsimp only
    rw [hP, List.append_nil, List.append_nil, map_stamp_filter]
  · unfold store_lines
    dsimp only
    rw [hP, hPs, List.filter_append, map_stamp_filter, map_stamp_filter]

theorem first_id_filter_ne (line : List Nat) (ys : List (Nat × List Nat)) :
    first_id line (ys.filter (fun y => !decide (y.2 = line))) = 0 := by
  unfold first_id
  have : (ys.filter (fun y => !decide (y.2 = line))).find? (fun y => decide (y.2 = line))
      = none := by
    rw [List.find?_eq_none]
    intro y hy
    have := (List.mem_filter.1 hy).2
    simpa using this
  rw [this]

theorem first_id_filter_other (line other : List Nat) (hne : line ≠ other)
    (ys : List (Nat × List Nat)) :
    first_id line (ys.filter (fun y => !decide (y.2 = other))) = first_id line ys := by
  unfold first_id
  have : (ys.filter (fun y => !decide (y.2 = other))).find? (fun y => decide (y.2 = line))
      = ys.find? (fun y => decide (y.2 = line)) := by
    induction ys with
    | nil => rfl
    | cons y ys ih =>
      rw [List.filter_cons]
      by_cases hy : y.2 = other
      · have e : (!decide (y.2 = other)) = false := by simp [hy]
        have e2 : decide (y.2 = line) = false := by
          simp only [decide_eq_false_iff_not]
          intro h
          exact hne (h.symm.trans hy)
        rw [e, if_neg (by simp), List.find?_cons, e2, ih]
      · have e : (!decide (y.2 = other)) = true := by simp [hy]
        rw [e, if_pos rfl, List.find?_cons, List.find?_cons, ih]
  rw [this]

/-- The store after `HistoryDb::remove(line)`: well formed, and its lines are the lines
that differ from the line removed. -/
theorem HistoryDb.remove_line_lines (max_line_length : Nat) (db : HistoryDb)
    (line : List Nat) (hok : store_ok max_line_length db) (hl : c_string line) :
    ∃ db1, db.remove_line max_line_length line = some (0, db1) ∧
      store_ok max_line_length db1 ∧
      store_lines db1 = (store_lines db).filter (fun y => !decide (y.2 = line)) ∧
      db1.write_index = db.write_index ∧
      (∀ i, db1.m_bank_handles i = none ↔ db.m_bank_handles i = none) ∧
      ∀ i h, db.m_bank_handles i = some h →
        ∃ h1, db1.m_bank_handles i = some h1 ∧ h1.data = tombstoned line h.data := by
  obtain ⟨db1, hr, _, hnone, hd⟩ := HistoryDb.remove_line_spec max_line_length db line hok hl
  refine ⟨db1, hr, ?_, ?_, ?_, hnone, hd⟩
  · apply store_ok_of_handles max_line_length db db1 hok.1 hnone
    intro i h hi
    obtain ⟨h1, h1e, h1d⟩ := hd i h hi
    refine ⟨h1, h1e, ?_⟩
    rw [h1d]
    exact bank_ok_tombstoned line (hok.2 i h hi)
  · apply store_lines_filter db db1 (fun b => !decide (b = line)) hok.1 hnone
    intro i h hi
    obtain ⟨h1, h1e, h1d⟩ := hd i h hi
    refine ⟨h1, h1e, ?_⟩
    rw [h1d]
    exact records_tombstoned line h.data
  · unfold HistoryDb.write_index
    have h1 := hnone 1
    have e : db1.bank_session.isSome = db.bank_session.isSome := by
      have a : db1.m_bank_handles 1 = db1.bank_session := rfl
      have b : db.m_bank_handles 1 = db.bank_session := rfl
      rw [a, b] at h1
      cases h1s : db1.bank_session <;> cases hs : db.bank_session <;> simp_all
    rw [e]

/-- C10: on a well-formed store `remove(line)` returns, every open bank keeps its length,
the first byte of every record that was equal to the line is the tombstone mark, every
other byte is as before, and `find(line)` then returns the null id. -/
theorem C10_remove_line_tombstones_all (max_line_length : Nat) (db : HistoryDb)
    (line : List Nat) (hok : store_ok max_line_length db) (hl : c_string line) :
    ∃ n db1 db2, db.remove_line max_line_length line = some (n, db1) ∧
      (∀ i, db1.m_bank_handles i = none ↔ db.m_bank_handles i = none) ∧
      (∀ i h, db.m_bank_handles i = some h →
        ∃ h1, db1.m_bank_handles i = some h1 ∧
          h1.data.length = h.data.length ∧
          (∀ x ∈ runs 0 h.data, x.2 = line → h1.data.getD x.1 0 = 0x7C) ∧
          (∀ j, (∀ x ∈ runs 0 h.data, x.2 = line → x.1 ≠ j) →
            h1.data.getD j 0 = h.data.getD j 0)) ∧
      db1.find max_line_length line = some (0, db2) := by
  obtain ⟨db1, hr, hok1, hlines, _, hnone, hd⟩ :=
    HistoryDb.remove_line_lines max_line_length db line hok hl
  obtain ⟨db2, hf, _⟩ := HistoryDb.find_store_spec max_line_length db1 line hok1 hl
  rw [hlines, first_id_filter_ne] at hf
  refine ⟨0, db1, db2, hr, hnone, ?_, hf⟩
  intro i h hi
  obtain ⟨h1, h1e, h1d⟩ := hd i h hi
  refine ⟨h1, h1e, ?_, ?_, ?_⟩
  · rw [h1d]
    exact length_tomb_aux line false h.data
  · intro x hx hxl
    rw [h1d]
    have := tomb_aux_getD_match line h.data false 0 x hx hxl
    rwa [Nat.sub_zero] at this
  · intro j hj
    rw [h1d]
    apply tomb_aux_getD_other line h.data false 0 j
    intro x hx hxl
    rw [Nat.zero_add]
    exact hj x hx hxl

/-- C10 on the store with master bank `ls\nx\nls\n` and session bank `ls\n`, for the
line `ls`. -/
theorem C10_remove_line_tombstones_all_witness :
    ∃ n db1 db2,
      HistoryDb.remove_line 8192
        { bank_master := some { data := [108, 115, 10, 120, 10, 108, 115, 10], ptr := 0 }
          bank_session := some { data := [108, 115, 10], ptr := 0 } } [108, 115]
        = some (n, db1) ∧
      (∀ i, db1.m_bank_handles i = none ↔
        HistoryDb.m_bank_handles
          { bank_master := some { data := [108, 115, 10, 120, 10, 108, 115, 10], ptr := 0 }
            bank_session := some { data := [108, 115, 10], ptr := 0 } } i = none) ∧
      (∀ i h, HistoryDb.m_bank_handles
          { bank_master := some { data := [108, 115, 10, 120, 10, 108, 115, 10], ptr := 0 }
            bank_session := some { data := [108, 115, 10], ptr := 0 } } i = some h →
        ∃ h1, db1.m_bank_handles i = some h1 ∧
          h1.data.length = h.data.length ∧
          (∀ x ∈ runs 0 h.data, x.2 = [108, 115] → h1.data.getD x.1 0 = 0x7C) ∧
          (∀ j, (∀ x ∈ runs 0 h.data, x.2 = [108, 115] → x.1 ≠ j) →
            h1.data.getD j 0 = h.data.getD j 0)) ∧
      db1.find 8192 [108, 115] = some (0, db2) :=
  C10_remove_line_tombstones_all 8192 _ [108, 115]
    (store_ok_two _ _ _
      ⟨by intro b hb; simp at hb; omega, by decide, by norm_num⟩
      ⟨by intro b hb; simp at hb; omega, by decide, by norm_num⟩)
    (by intro c hc; simp at hc; omega)

/-! ## Appending a line to a bank -/

theorem takeWhile_append_of_ends_ok (w t : List Nat) (hw : ends_ok w) (hne : w ≠ []) :
    (w ++ t).takeWhile is_rec = w.takeWhile is_rec := by
  induction w with
  | nil => exact absurd rfl hne
  | cons c w ih =>
    by_cases hc : is_rec c = true
    · rw [List.cons_append, List.takeWhile_cons, List.takeWhile_cons, if_pos hc, if_pos hc]
      cases w with
      | nil =>
        exfalso
        have := hw c rfl
        simp only [is_rec, decide_eq_true_eq] at hc
        omega
      | cons d w =>
        have hw1 : ends_ok (d :: w) := by
          intro b hb
          apply hw b
          rw [List.getLast?_cons_cons]
          exact hb
        rw [ih hw1 (List.cons_ne_nil _ _)]
    · rw [List.cons_append, List.takeWhile_cons, List.takeWhile_cons, if_neg hc, if_neg hc]

theorem ends_ok_tail (c d : Nat) (w : List Nat) (hw : ends_ok (c :: d :: w)) :
    ends_ok (d :: w) := by
  intro b hb
  apply hw b
  rw [List.getLast?_cons_cons]
  exact hb

/-- The runs of a content that ends at a record boundary followed by more bytes. -/
theorem runs_aux_append_boundary (t : List Nat) : ∀ (w : List Nat) (b : Bool) (p : Nat),
    ends_ok w → w ≠ [] →
    runs_aux b p (w ++ t) = runs_aux b p w ++ runs (p + w.length) t := by
  intro w
  induction w with
  | nil => intro b p _ hne; exact absurd rfl hne
  | cons c w ih =>
    intro b p hw _
    cases w with
    | nil =>
      have hc : ¬ is_rec c = true := by
        have := hw c rfl
        simp only [is_rec, decide_eq_true_eq]
        omega
      rw [List.cons_append, List.nil_append, runs_aux_cons, runs_aux_cons, if_neg hc,
        if_neg hc]
      rfl
    | cons d w =>
      have hw1 := ends_ok_tail c d w hw
      have ih1 := fun b1 => ih b1 (p + 1) hw1 (List.cons_ne_nil _ _)
      have hlen : p + 1 + (d :: w).length = p + (c :: d :: w).length := by
        simp only [List.length_cons]; omega
      rw [List.cons_append, runs_aux_cons, runs_aux_cons]
      by_cases hc : is_rec c = true
      · rw [if_pos hc, if_pos hc]
        by_cases hb : b = true
        · rw [if_pos hb, if_pos hb, ih1 true, hlen]
        · rw [if_neg hb, if_neg hb, ih1 true, hlen]
          have := takeWhile_append_of_ends_ok (c :: d :: w) t hw (List.cons_ne_nil _ _)
          rw [List.cons_append] at this
          rw [this]
          rfl
      · rw [if_neg hc, if_neg hc, ih1 false, hlen]

theorem runs_append_boundary (w t : List Nat) (hw : ends_ok w) :
    runs 0 (w ++ t) = runs 0 w ++ runs w.length t := by
  cases w with
  | nil => rfl
  | cons c w =>
    have := runs_aux_append_boundary t (c :: w) false 0 hw (List.cons_ne_nil _ _)
    rw [Nat.zero_add] at this
    exact this

theorem runs_line (p : Nat) (line : List Nat) (hne : line ≠ [])
    (hr : ∀ c ∈ line, is_rec c = true) : runs p (line ++ [0x0A]) = [(p, line)] := by
  rw [runs_run_append line [0x0A] p hne hr (by intro c hc; simp at hc; subst hc; decide)]
  rfl

/-- The runs of a bank after a line has been appended to it. -/
theorem runs_append_line (f line : List Nat) (hf : ends_ok f) (hne : line ≠ [])
    (hr : ∀ c ∈ line, is_rec c = true) :
    runs 0 (f ++ line ++ [0x0A]) = runs 0 f ++ [(f.length, line)] := by
  rw [List.append_assoc, runs_append_boundary f _ hf, runs_line f.length line hne hr]

theorem records_append_line (f line : List Nat) (hf : ends_ok f) (hne : line ≠ [])
    (hr : ∀ c ∈ line, is_rec c = true) :
    records (f ++ line ++ [0x0A])
      = records f ++ (if live (f.length, line) = true then [(f.length, line)] else []) := by
  unfold records
  rw [runs_append_line f line hf hne hr, List.filter_append]
  by_cases hl : live (f.length, line) = true
  · rw [if_pos hl, List.filter_cons, if_pos hl]
    rfl
  · rw [if_neg hl, List.filter_cons, if_neg hl]
    rfl

theorem bank_ok_append_line {B : Nat} (f line : List Nat) (hf : bank_ok B f) (hne : line ≠ [])
    (hr : ∀ c ∈ line, is_rec c = true) (hB : line.length ≤ B)
    (hlen : f.length + line.length + 1 < 2 ^ 29) :
    bank_ok B (f ++ line ++ [0x0A]) := by
  refine ⟨?_, ?_, ?_⟩
  · intro b hb
    rw [List.getLast?_append] at hb
    simp at hb
    omega
  · intro x hx
    rw [runs_append_line f line hf.1 hne hr] at hx
    rcases List.mem_append.1 hx with hx | hx
    · exact hf.2.1 x hx
    · simp only [List.mem_singleton] at hx
      subst hx
      exact hB
  · simp only [List.length_append, List.length_singleton]
    exact hlen

theorem live_snd (p q : Nat) (line : List Nat) : live (p, line) = live (q, line) := rfl

theorem HistoryDb.add_line_eq (db : HistoryDb) (line : List Nat)
    (hm : db.bank_master.isSome = true) :
    db.add_line line =
      match db.m_bank_handles db.write_index with
      | none => (false, db)
      | some lock => (true, db.set_bank db.write_index (WriteLock.add lock line)) := by
  obtain ⟨hidx, hlt⟩ := HistoryDb.write_index_eq db hm
  unfold HistoryDb.add_line
  dsimp only
  rw [hidx]
  unfold HistoryDb.get_bank
  rw [if_neg (by omega)]

theorem HistoryDb.add_line_one (m : File) (line : List Nat) :
    HistoryDb.add_line { bank_master := some m, bank_session := none } line
      = (true, { bank_master := some (WriteLock.add m line), bank_session := none }) := by
  rw [HistoryDb.add_line_eq { bank_master := some m, bank_session := none } line rfl]
  rfl

theorem HistoryDb.add_line_two (m s : File) (line : List Nat) :
    HistoryDb.add_line { bank_master := some m, bank_session := some s } line
      = (true, { bank_master := some m, bank_session := some (WriteLock.add s line) }) := by
  rw [HistoryDb.add_line_eq { bank_master := some m, bank_session := some s } line rfl]
  rfl
/-- The tail of `HistoryDb::add` on a well-formed store, for a line of record bytes that
fits the scan buffer and the bank: the store stays well formed and the line comes last
in its lines. -/
theorem HistoryDb.add_line_lines (B : Nat) (db : HistoryDb) (line : List Nat)
    (hok : store_ok B db) (hne : line ≠ []) (hr : ∀ c ∈ line, is_rec c = true)
    (hB : line.length ≤ B) (hlen : db.write_len + line.length + 1 < 2 ^ 29) :
    ∃ db1, db.add_line line = (true, db1) ∧ store_ok B db1 ∧
      store_lines db1 = store_lines db ++ appended db line ∧
      db1.write_index = db.write_index ∧
      db1.write_len = db.write_len + line.length + 1 ∧
      (∀ i, db1.m_bank_handles i = none ↔ db.m_bank_handles i = none) ∧
      ∀ i h, db.m_bank_handles i = some h →
        ∃ h1, db1.m_bank_handles i = some h1 ∧
          h1.data = if i = db.write_index then h.data ++ line ++ [0x0A] else h.data := by
  have hl : c_string line := fun c hc => is_rec_ne_zero c (hr c hc)
  have hlen32 : line.length < 2 ^ 32 := by omega
  obtain ⟨hm, hbanks⟩ := hok
  obtain ⟨m, s⟩ := db
  cases m with
  | none => simp at hm
  | some m =>
    have hokm : bank_ok B m.data := hbanks 0 m rfl
    cases s with
    | none =>
      have hwl : HistoryDb.write_len { bank_master := some m, bank_session := none }
          = m.data.length := rfl
      rw [hwl] at hlen
      have hd := WriteLock.add_data m line hl hlen32
      have hok1 := bank_ok_append_line m.data line hokm hne hr hB hlen
      refine ⟨_, HistoryDb.add_line_one m line, ?_, ?_, rfl, ?_, ?_, ?_⟩
      · apply store_ok_one
        rw [hd]
        exact hok1
      · unfold store_lines appended
        dsimp only
        rw [hd, records_append_line m.data line hokm.1 hne hr, hwl, List.append_nil,
          List.append_nil, List.map_append]
        have hw : HistoryDb.write_index { bank_master := some m, bank_session := none } = 0 :=
          rfl
        rw [hw]
        by_cases hlv : live (m.data.length, line) = true
        · rw [if_pos hlv, if_pos hlv]
          rfl
        · rw [if_neg hlv, if_neg hlv]
          rfl
      · show (WriteLock.add m line).data.length = _
        rw [hd, hwl]
        simp only [List.length_append, List.length_singleton]
      · intro i
        match i with
        | 0 => simp [HistoryDb.m_bank_handles]
        | 1 => simp [HistoryDb.m_bank_handles]
        | _ + 2 => simp [HistoryDb.m_bank_handles]
      · intro i h hi
        match i with
        | 0 =>
          have : m = h := by simpa [HistoryDb.m_bank_handles] using hi
          subst this
          exact ⟨_, rfl, by rw [hd]; rfl⟩
        | 1 => simp [HistoryDb.m_bank_handles] at hi
        | _ + 2 => simp [HistoryDb.m_bank_handles] at hi
    | some s =>
      have hoks : bank_ok B s.data := hbanks 1 s rfl
      have hwl : HistoryDb.write_len { bank_master := some m, bank_session := some s }
          = s.data.length := rfl
      rw [hwl] at hlen
      have hd := WriteLock.add_data s line hl hlen32
      have hok1 := bank_ok_append_line s.data line hoks hne hr hB hlen
      refine ⟨_, HistoryDb.add_line_two m s line, ?_, ?_, rfl, ?_, ?_, ?_⟩
      · apply store_ok_two _ _ _ hokm
        rw [hd]
        exact hok1
      · unfold store_lines appended
        dsimp only
        rw [hd, records_append_line s.data line hoks.1 hne hr, hwl, List.map_append,
          List.append_assoc]
        have hw : HistoryDb.write_index { bank_master := some m, bank_session := some s } = 1 :=
          rfl
        rw [hw]
        by_cases hlv : live (s.data.length, line) = true
        · rw [if_pos hlv, if_pos hlv]
          rfl
        · rw [if_neg hlv, if_neg hlv]
          rfl
      · show (WriteLock.add s line).data.length = _
        rw [hd, hwl]
        simp only [List.length_append, List.length_singleton]
      · intro i
        match i with
        | 0 => simp [HistoryDb.m_bank_handles]
        | 1 => simp [HistoryDb.m_bank_handles]
        | _ + 2 => simp [HistoryDb.m_bank_handles]
      · intro i h hi
        match i with
        | 0 =>
          have : m = h := by simpa [HistoryDb.m_bank_handles] using hi
          subst this
          exact ⟨_, rfl, rfl⟩
        | 1 =>
          have : s = h := by simpa [HistoryDb.m_bank_handles] using hi
          subst this
          exact ⟨_, rfl, by rw [hd]; rfl⟩
        | _ + 2 => simp [HistoryDb.m_bank_handles] at hi

/-- C7: in dupe mode `erase_prev`, on a well-formed store, `add` of an accepted line
returns true; afterwards every open bank is its previous content with the tombstone mark
over the first byte of every record that was equal to the line - no other byte of the
previous content differs - followed, in the write bank only, by the line and a newline. -/
theorem C7_erase_prev_tombstones_then_appends (max_line_length : Nat) (cfg : Settings)
    (db : HistoryDb) (line : List Nat) (hmode : cfg.g_dupe_mode = 2)
    (hok : store_ok max_line_length db) (hl : c_string line) (hlen : line.length < 2 ^ 32)
    (ha : accepted cfg line) :
    ∃ db1, db.add max_line_length cfg line = some (true, db1) ∧
      ∀ i h, db.m_bank_handles i = some h →
        ∃ h1, db1.m_bank_handles i = some h1 ∧
          h1.data = tombstoned line h.data ++
            (if i = db.write_index then line ++ [0x0A] else []) ∧
          (∀ x ∈ runs 0 h.data, x.2 = line → h1.data.getD x.1 0 = 0x7C) ∧
          (∀ j, j < h.data.length → (∀ x ∈ runs 0 h.data, x.2 = line → x.1 ≠ j) →
            h1.data.getD j 0 = h.data.getD j 0) := by
  have hrej := cstr_at_zero_accepted cfg line hl ha
  obtain ⟨db1, hr, hok1, _, hw, _, hd⟩ :=
    HistoryDb.remove_line_lines max_line_length db line hok hl
  obtain ⟨hr2, hb⟩ := HistoryDb.add_line_spec db1 line hok1.1 hl hlen
  refine ⟨(db1.add_line line).2, ?_, ?_⟩
  · rw [HistoryDb.add, if_neg hrej, if_neg (by rw [hmode]; decide), if_pos hmode, hr]
    dsimp only
    rw [← hr2]
  · intro i h hi
    obtain ⟨h1, h1e, h1d⟩ := hd i h hi
    obtain ⟨h2, h2e, h2d⟩ := hb i h1 h1e
    have hdata : h2.data = tombstoned line h.data ++
        (if i = db.write_index then line ++ [0x0A] else []) := by
      rw [h2d, hw, h1d]
      by_cases hi : i = db.write_index
      · rw [if_pos hi, if_pos hi, List.append_assoc]
      · rw [if_neg hi, if_neg hi, List.append_nil]
    have hlt : (tombstoned line h.data).length = h.data.length :=
      length_tomb_aux line false h.data
    refine ⟨h2, h2e, hdata, ?_, ?_⟩
    · intro x hx hxl
      have hb := (runs_bounds 0 h.data x hx).2.1
      have hne := runs_ne_nil 0 h.data x hx
      have hpos : 0 < x.2.length := List.length_pos.2 hne
      rw [hdata, List.getD_append _ _ _ _ (by rw [hlt]; omega)]
      have := tomb_aux_getD_match line h.data false 0 x hx hxl
      rwa [Nat.sub_zero] at this
    · intro j hj hno
      rw [hdata, List.getD_append _ _ _ _ (by rw [hlt]; exact hj)]
      apply tomb_aux_getD_other line h.data false 0 j
      intro x hx hxl
      rw [Nat.zero_add]
      exact hno x hx hxl

/-- C7 on the store with an empty master bank and the session bank `ls\n`, for the line
`ls`: the session bank becomes `|s\nls\n`. -/
theorem C7_erase_prev_tombstones_then_appends_witness :
    ∃ db1, HistoryDb.add 8192 { g_shared := false, g_ignore_space := true, g_dupe_mode := 2 }
        { bank_master := some { data := [], ptr := 0 }
          bank_session := some { data := [108, 115, 10], ptr := 0 } } [108, 115]
        = some (true, db1) ∧
      ∀ i h, HistoryDb.m_bank_handles
          { bank_master := some { data := [], ptr := 0 }
            bank_session := some { data := [108, 115, 10], ptr := 0 } } i = some h →
        ∃ h1, db1.m_bank_handles i = some h1 ∧
          h1.data = tombstoned [108, 115] h.data ++
            (if i = HistoryDb.write_index
                { bank_master := some { data := [], ptr := 0 }
                  bank_session := some { data := [108, 115, 10], ptr := 0 } }
              then [108, 115] ++ [0x0A] else []) ∧
          (∀ x ∈ runs 0 h.data, x.2 = [108, 115] → h1.data.getD x.1 0 = 0x7C) ∧
          (∀ j, j < h.data.length → (∀ x ∈ runs 0 h.data, x.2 = [108, 115] → x.1 ≠ j) →
            h1.data.getD j 0 = h.data.getD j 0) :=
  C7_erase_prev_tombstones_then_appends 8192 _ _ [108, 115] rfl
    (store_ok_two _ _ _
      ⟨by intro b hb; simp at hb, by decide, by norm_num⟩
      ⟨by intro b hb; simp at hb; omega, by decide, by norm_num⟩)
    (by intro c hc; simp at hc; omega) (by norm_num)
    ⟨by decide, fun _ => by decide⟩

theorem tombstoned_example :
    tombstoned [108, 115] [108, 115, 10] ++ ([108, 115] ++ [0x0A])
      = [0x7C, 115, 10, 108, 115, 10] := by decide

/-! ## Stores with the same contents -/

theorem HistoryDb.none_iff_of_contents (db db1 : HistoryDb) (hc : db1.contents = db.contents)
    (i : Nat) : db1.m_bank_handles i = none ↔ db.m_bank_handles i = none := by
  obtain ⟨hm, hs⟩ := (HistoryDb.contents_eq_iff db db1).1 hc
  match i with
  | 0 =>
    show db1.bank_master = none ↔ db.bank_master = none
    cases h1 : db1.bank_master <;> cases h : db.bank_master <;> simp_all
  | 1 =>
    show db1.bank_session = none ↔ db.bank_session = none
    cases h1 : db1.bank_session <;> cases h : db.bank_session <;> simp_all
  | _ + 2 => exact Iff.rfl

theorem HistoryDb.data_of_contents (db db1 : HistoryDb) (hc : db1.contents = db.contents)
    (i : Nat) (h : File) (hi : db.m_bank_handles i = some h) :
    ∃ h1, db1.m_bank_handles i = some h1 ∧ h1.data = h.data := by
  obtain ⟨hm, hs⟩ := (HistoryDb.contents_eq_iff db db1).1 hc
  match i with
  | 0 =>
    have hi0 : db.bank_master = some h := hi
    rw [hi0] at hm
    cases h1 : db1.bank_master with
    | none => rw [h1] at hm; simp at hm
    | some x =>
      rw [h1] at hm
      simp only [Option.map_some', Option.some.injEq] at hm
      exact ⟨x, h1, hm⟩
  | 1 =>
    have hi0 : db.bank_session = some h := hi
    rw [hi0] at hs
    cases h1 : db1.bank_session with
    | none => rw [h1] at hs; simp at hs
    | some x =>
      rw [h1] at hs
      simp only [Option.map_some', Option.some.injEq] at hs
      exact ⟨x, h1, hs⟩
  | _ + 2 => simp [HistoryDb.m_bank_handles] at hi

theorem HistoryDb.write_index_of_none_iff (db db1 : HistoryDb)
    (hnone : ∀ i, db1.m_bank_handles i = none ↔ db.m_bank_handles i = none) :
    db1.write_index = db.write_index := by
  unfold HistoryDb.write_index
  have h1 := hnone 1
  have e : db1.bank_session.isSome = db.bank_session.isSome := by
    have a : db1.m_bank_handles 1 = db1.bank_session := rfl
    have b : db.m_bank_handles 1 = db.bank_session := rfl
    rw [a, b] at h1
    cases h1s : db1.bank_session <;> cases hs : db.bank_session <;> simp_all
  rw [e]

theorem HistoryDb.write_handle (db : HistoryDb) (hm : db.bank_master.isSome = true) :
    ∃ h, db.m_bank_handles db.write_index = some h := by
  obtain ⟨m, s⟩ := db
  cases m with
  | none => simp at hm
  | some m =>
    cases s with
    | none => exact ⟨m, rfl⟩
    | some s => exact ⟨s, rfl⟩

/-- The length of the write bank of a store whose banks are those of another with their
lengths unchanged. -/
theorem HistoryDb.write_len_of_handles (db db1 : HistoryDb)
    (hm : db.bank_master.isSome = true)
    (hnone : ∀ i, db1.m_bank_handles i = none ↔ db.m_bank_handles i = none)
    (hd : ∀ i h, db.m_bank_handles i = some h →
      ∃ h1, db1.m_bank_handles i = some h1 ∧ h1.data.length = h.data.length) :
    db1.write_len = db.write_len := by
  have hw := HistoryDb.write_index_of_none_iff db db1 hnone
  obtain ⟨h, hh⟩ := HistoryDb.write_handle db hm
  obtain ⟨h1, hh1, hl⟩ := hd _ h hh
  unfold HistoryDb.write_len
  rw [hw, hh, hh1]
  exact hl

theorem HistoryDb.write_len_congr (db db1 : HistoryDb) (hm : db.bank_master.isSome = true)
    (hc : db1.contents = db.contents) : db1.write_len = db.write_len := by
  apply HistoryDb.write_len_of_handles db db1 hm (HistoryDb.none_iff_of_contents db db1 hc)
  intro i h hi
  obtain ⟨h1, h1e, h1d⟩ := HistoryDb.data_of_contents db db1 hc i h hi
  exact ⟨h1, h1e, by rw [h1d]⟩

/-! ## Lines found in a store -/

theorem first_id_append_other (line : List Nat) (ys extra : List (Nat × List Nat))
    (hx : ∀ y ∈ extra, y.2 ≠ line) : first_id line (ys ++ extra) = first_id line ys := by
  unfold first_id
  rw [List.find?_append]
  have : extra.find? (fun y => decide (y.2 = line)) = none := by
    rw [List.find?_eq_none]
    intro y hy
    simpa using hx y hy
  rw [this, Option.or_none]

theorem first_id_ne_zero_iff (line : List Nat) (ys : List (Nat × List Nat))
    (hys : ∀ y ∈ ys, y.1 ≠ 0) : first_id line ys ≠ 0 ↔ ∃ y ∈ ys, y.2 = line := by
  unfold first_id
  cases hf : ys.find? (fun y => decide (y.2 = line)) with
  | none =>
    rw [List.find?_eq_none] at hf
    constructor
    · intro h; exact absurd rfl h
    · rintro ⟨y, hy, hyl⟩
      exact absurd (by simpa using hyl) (hf y hy)
  | some y =>
    have hmem := List.mem_of_find?_eq_some hf
    have hp := List.find?_some hf
    constructor
    · intro _
      exact ⟨y, hmem, by simpa using hp⟩
    · intro _
      exact hys y hmem

theorem store_lines_id_ne_zero (db : HistoryDb) : ∀ y ∈ store_lines db, y.1 ≠ 0 := by
  intro y hy
  unfold store_lines at hy
  cases hm : db.bank_master with
  | none => rw [hm] at hy; simp at hy
  | some m =>
    rw [hm] at hy
    dsimp only at hy
    rcases List.mem_append.1 hy with h | h
    · obtain ⟨x, _, rfl⟩ := List.mem_map.1 h
      exact stamp_fst_ne_zero 0 x
    · cases hs : db.bank_session with
      | none => rw [hs] at h; simp at h
      | some s =>
        rw [hs] at h
        obtain ⟨x, _, rfl⟩ := List.mem_map.1 h
        exact stamp_fst_ne_zero 1 x

theorem appended_snd (db : HistoryDb) (line : List Nat) :
    ∀ y ∈ appended db line, y.2 = line ∧ y.1 ≠ 0 := by
  intro y hy
  unfold appended at hy
  by_cases hl : live (db.write_len, line) = true
  · rw [if_pos hl] at hy
    simp only [List.mem_singleton] at hy
    subst hy
    exact ⟨rfl, stamp_fst_ne_zero _ _⟩
  · rw [if_neg hl] at hy
    simp at hy

theorem appended_live (db : HistoryDb) (line : List Nat) (hl : live (0, line) = true) :
    appended db line = [stamp db.write_index (db.write_len, line)] := by
  unfold appended
  rw [if_pos (by rw [← hl]; rfl)]

/-- A line that starts with the tombstone mark is not among the lines of a store. -/
theorem first_id_not_live (db : HistoryDb) (line : List Nat) (hl : live (0, line) = false) :
    first_id line (store_lines db) = 0 := by
  by_contra hne
  obtain ⟨y, hy, hyl⟩ := (first_id_ne_zero_iff line _ (store_lines_id_ne_zero db)).1 hne
  have hlive : ∀ y ∈ store_lines db, live y = true := by
    intro y hy
    unfold store_lines at hy
    cases hm : db.bank_master with
    | none => rw [hm] at hy; simp at hy
    | some m =>
      rw [hm] at hy
      dsimp only at hy
      rcases List.mem_append.1 hy with h | h
      · obtain ⟨x, hx, rfl⟩ := List.mem_map.1 h
        exact (List.mem_filter.1 hx).2
      · cases hs : db.bank_session with
        | none => rw [hs] at h; simp at h
        | some s =>
          rw [hs] at h
          obtain ⟨x, hx, rfl⟩ := List.mem_map.1 h
          exact (List.mem_filter.1 hx).2
  have := hlive y hy
  have e : live y = live (0, line) := by
    unfold live
    rw [hyl]
  rw [e, hl] at this
  exact absurd this (by decide)

/-- What every dupe mode of `HistoryDb::add` does to the lines of a well-formed store, for
an accepted line of record bytes that fits the scan buffer and the write bank: `add`
returns true, the store stays well formed, the write bank grows by at most the line and
a newline, the line is found afterwards unless it starts with the tombstone mark, and
the first match of every other line is what it was. -/
theorem HistoryDb.add_spec (B : Nat) (cfg : Settings) (db : HistoryDb) (line : List Nat)
    (hok : store_ok B db) (ha : accepted cfg line) (hr : ∀ c ∈ line, is_rec c = true)
    (hB : line.length ≤ B) (hlen : db.write_len + line.length + 1 < 2 ^ 29) :
    ∃ db1, db.add B cfg line = some (true, db1) ∧ store_ok B db1 ∧
      db1.write_len ≤ db.write_len + line.length + 1 ∧
      (∀ i, db1.m_bank_handles i = none ↔ db.m_bank_handles i = none) ∧
      (live (0, line) = true → first_id line (store_lines db1) ≠ 0) ∧
      (∀ other, other ≠ line →
        first_id other (store_lines db1) = first_id other (store_lines db)) := by
  have hl : c_string line := fun c hc => is_rec_ne_zero c (hr c hc)
  have hrej := cstr_at_zero_accepted cfg line hl ha
  -- the append step, from any well-formed store `d` whose lines are those of `db`
  -- filtered by `keep`
  have happ : ∀ (d : HistoryDb) (keep : List Nat → Bool), store_ok B d →
      d.write_len = db.write_len →
      (∀ i, d.m_bank_handles i = none ↔ db.m_bank_handles i = none) →
      store_lines d = (store_lines db).filter (fun y => keep y.2) →
      (∀ other, other ≠ line → keep other = true) →
      ∃ db1, d.add_line line = (true, db1) ∧ store_ok B db1 ∧
        db1.write_len ≤ db.write_len + line.length + 1 ∧
        (∀ i, db1.m_bank_handles i = none ↔ db.m_bank_handles i = none) ∧
        (live (0, line) = true → first_id line (store_lines db1) ≠ 0) ∧
        (∀ other, other ≠ line →
          first_id other (store_lines db1) = first_id other (store_lines db)) := by
    intro d keep hokd hwl hnone hlines hkeep
    obtain ⟨db1, hadd, hok1, hl1, _, hwl1, hnone1, _⟩ :=
      HistoryDb.add_line_lines B d line hokd ha.1 hr hB (by rw [hwl]; exact hlen)
    refine ⟨db1, hadd, hok1, by rw [hwl1, hwl], fun i => (hnone1 i).trans (hnone i), ?_, ?_⟩
    · intro hlive
      rw [first_id_ne_zero_iff line _ (store_lines_id_ne_zero db1), hl1,
        appended_live d line hlive]
      exact ⟨_, List.mem_append_right _ (List.mem_singleton_self _), rfl⟩
    · intro other hne
      rw [hl1, first_id_append_other other _ _
        (fun y hy => by rw [(appended_snd d line y hy).1]; exact fun h => hne h.symm), hlines]
      unfold first_id
      have : ((store_lines db).filter (fun y => keep y.2)).find?
            (fun y => decide (y.2 = other))
          = (store_lines db).find? (fun y => decide (y.2 = other)) := by
        generalize store_lines db = ys
        induction ys with
        | nil => rfl
        | cons y ys ih =>
          rw [List.filter_cons]
          by_cases hk : keep y.2 = true
          · rw [if_pos hk, List.find?_cons, List.find?_cons, ih]
          · rw [if_neg hk, List.find?_cons, ih]
            have : decide (y.2 = other) = false := by
              simp only [decide_eq_false_iff_not]
              intro h
              by_cases ho : other = line
              · exact hne ho
              · exact hk (by rw [h]; exact hkeep other ho)
            rw [this]
      rw [this]
  by_cases h1 : cfg.g_dupe_mode = 1
  · obtain ⟨d, hfind, hc⟩ := HistoryDb.find_store_spec B db line hok hl
    by_cases hid : first_id line (store_lines db) ≠ 0
    · refine ⟨d, ?_, store_ok_congr B db d hc hok, ?_,
        HistoryDb.none_iff_of_contents db d hc, ?_, ?_⟩
      · rw [HistoryDb.add, if_neg hrej, if_pos h1, hfind]
        dsimp only
        rw [if_pos hid]
      · rw [HistoryDb.write_len_congr db d hok.1 hc]
        omega
      · intro _
        rw [store_lines_congr db d hc]
        exact hid
      · intro other _
        rw [store_lines_congr db d hc]
    · obtain ⟨db1, hadd, hrest⟩ := happ d (fun _ => true) (store_ok_congr B db d hc hok)
        (HistoryDb.write_len_congr db d hok.1 hc) (HistoryDb.none_iff_of_contents db d hc)
        (by rw [store_lines_congr db d hc, List.filter_true]) (fun _ _ => rfl)
      refine ⟨db1, ?_, hrest⟩
      rw [HistoryDb.add, if_neg hrej, if_pos h1, hfind]
      dsimp only
      rw [if_neg hid, hadd]
  · by_cases h2 : cfg.g_dupe_mode = 2
    · obtain ⟨d, hrem, hokd, hlines, _, hnone, hd⟩ :=
        HistoryDb.remove_line_lines B db line hok hl
      have hwl : d.write_len = db.write_len := by
        apply HistoryDb.write_len_of_handles db d hok.1 hnone
        intro i h hi
        obtain ⟨x, hx, hxd⟩ := hd i h hi
        exact ⟨x, hx, by rw [hxd]; exact length_tomb_aux line false h.data⟩
      obtain ⟨db1, hadd, hrest⟩ := happ d (fun b => !decide (b = line)) hokd hwl hnone hlines
        (fun other ho => by simp [ho])
      refine ⟨db1, ?_, hrest⟩
      rw [HistoryDb.add, if_neg hrej, if_neg h1, if_pos h2, hrem]
      dsimp only
      rw [hadd]
    · obtain ⟨db1, hadd, hrest⟩ := happ db (fun _ => true) hok rfl (fun _ => Iff.rfl)
        (by rw [List.filter_true]) (fun _ _ => rfl)
      refine ⟨db1, ?_, hrest⟩
      rw [HistoryDb.add, if_neg hrej, if_neg h1, if_neg h2, hadd]

/-- C14: on a well-formed store whose write bank has room for the two lines, under every
dupe mode, for accepted lines `a` and `b` of record bytes no longer than
`max_line_length` and a line `c`, both different from `a`: all five calls return, and
`find(a)` after `add(a); add(b); remove(c)` is the id that `find(a)` returned right
after `add(a)`. -/
theorem C14_offset_stability (max_line_length : Nat) (cfg : Settings) (db : HistoryDb)
    (a b c : List Nat) (hok : store_ok max_line_length db)
    (haa : accepted cfg a) (hab : accepted cfg b)
    (hra : ∀ x ∈ a, is_rec x = true) (hrb : ∀ x ∈ b, is_rec x = true) (hc : c_string c)
    (hla : a.length ≤ max_line_length) (hlb : b.length ≤ max_line_length)
    (hne_ab : a ≠ b) (hne_ac : a ≠ c)
    (hroom : db.write_len + a.length + b.length + 2 < 2 ^ 29) :
    ∃ db1 id db2 db3 n db4 db5,
      db.add max_line_length cfg a = some (true, db1) ∧
      db1.find max_line_length a = some (id, db2) ∧
      db2.add max_line_length cfg b = some (true, db3) ∧
      db3.remove_line max_line_length c = some (n, db4) ∧
      db4.find max_line_length a = some (id, db5) := by
  have hca : c_string a := fun x hx => is_rec_ne_zero x (hra x hx)
  obtain ⟨db1, hadd1, hok1, hwl1, _, _, _⟩ :=
    HistoryDb.add_spec max_line_length cfg db a hok haa hra hla (by omega)
  obtain ⟨db2, hfind1, hc2⟩ := HistoryDb.find_store_spec max_line_length db1 a hok1 hca
  have hok2 := store_ok_congr max_line_length db1 db2 hc2 hok1
  have hwl2 := HistoryDb.write_len_congr db1 db2 hok1.1 hc2
  obtain ⟨db3, hadd2, hok3, _, _, _, hother⟩ :=
    HistoryDb.add_spec max_line_length cfg db2 b hok2 hab hrb hlb (by omega)
  obtain ⟨db4, hrem, hok4, hlines4, _⟩ :=
    HistoryDb.remove_line_lines max_line_length db3 c hok3 hc
  obtain ⟨db5, hfind2, _⟩ := HistoryDb.find_store_spec max_line_length db4 a hok4 hca
  refine ⟨db1, _, db2, db3, 0, db4, db5, hadd1, hfind1, hadd2, hrem, ?_⟩
  rw [hfind2, hlines4, first_id_filter_other a c hne_ac, hother a hne_ab,
    store_lines_congr db1 db2 hc2]

/-- C14 on the store with master bank `x\n` and an empty session bank, in dupe mode
`erase_prev`, for the lines `a`, `b` and `x`. -/
theorem C14_offset_stability_witness :
    ∃ db1 id db2 db3 n db4 db5,
      HistoryDb.add 8192 { g_shared := false, g_ignore_space := true, g_dupe_mode := 2 }
        { bank_master := some { data := [120, 10], ptr := 0 }
          bank_session := some { data := [], ptr := 0 } } [97] = some (true, db1) ∧
      db1.find 8192 [97] = some (id, db2) ∧
      db2.add 8192 { g_shared := false, g_ignore_space := true, g_dupe_mode := 2 } [98]
        = some (true, db3) ∧
      db3.remove_line 8192 [120] = some (n, db4) ∧
      db4.find 8192 [97] = some (id, db5) :=
  C14_offset_stability 8192 _ _ [97] [98] [120]
    (store_ok_two _ _ _
      ⟨by intro b hb; simp at hb; omega, by decide, by norm_num⟩
      ⟨by intro b hb; simp at hb, by decide, by norm_num⟩)
    ⟨by decide, fun _ => by decide⟩ ⟨by decide, fun _ => by decide⟩
    (by decide) (by decide) (by intro c hc; simp at hc; omega)
    (by norm_num) (by norm_num) (by decide) (by decide)
    (by show 0 + 1 + 1 + 2 < 2 ^ 29; norm_num)

/-! ## `clear` -/

theorem WriteLock.clear_data (h : File) : (WriteLock.clear h).data = [] := by
  unfold WriteLock.clear SetFilePointerBegin
  rw [if_pos (by norm_num)]
  unfold SetEndOfFile
  simp

theorem bank_ok_nil (B : Nat) : bank_ok B [] :=
  ⟨by intro b hb; simp at hb, by intro x hx; simp [runs, runs_aux] at hx, by norm_num⟩

/-- The method `HistoryDb::clear` on a store whose master bank is open truncates every
open bank. -/
theorem HistoryDb.clear_spec (db : HistoryDb) (hm : db.bank_master.isSome = true) :
    ∃ db1, db.clear = some db1 ∧
      (∀ i, db1.m_bank_handles i = none ↔ db.m_bank_handles i = none) ∧
      ∀ i h, db.m_bank_handles i = some h →
        ∃ h1, db1.m_bank_handles i = some h1 ∧ h1.data = [] := by
  obtain ⟨db1, hrun, _, hnone, hd⟩ := HistoryDb.for_each_bank_all db
    (fun _ lock (_ : Unit) => some (true, (), WriteLock.clear lock)) ()
    (fun _ _ h1 => h1.data = []) hm
    (fun i h _ => ⟨WriteLock.clear h, rfl, WriteLock.clear_data h⟩)
  refine ⟨db1, ?_, hnone, hd⟩
  unfold HistoryDb.clear
  rw [hrun]
  rfl

/-- With the master slot null `HistoryDb::clear` visits no bank. -/
theorem HistoryDb.clear_null (db : HistoryDb) (hm : db.bank_master = none) :
    db.clear = some db := by
  unfold HistoryDb.clear
  rw [HistoryDb.for_each_bank_null db _ () hm]
  rfl

theorem HistoryDb.get_bank_null (db : HistoryDb) (hm : db.bank_master = none) (i : Nat) :
    db.get_bank i = none := by
  obtain ⟨m, s⟩ := db
  dsimp only at hm
  subst hm
  unfold HistoryDb.get_bank HistoryDb.get_bank_count
  cases s with
  | none => simp
  | some s =>
    match i with
    | 0 => simp [HistoryDb.m_bank_handles]
    | _ + 1 => simp

theorem records_nil : records [] = [] := rfl

/-- A store whose banks are all empty: well formed, with no line. -/
theorem store_empty (B : Nat) (db : HistoryDb) (hm : db.bank_master.isSome = true)
    (he : ∀ i h, db.m_bank_handles i = some h → h.data = []) :
    store_ok B db ∧ store_lines db = [] ∧ db.write_len = 0 := by
  refine ⟨⟨hm, fun i h hi => by rw [he i h hi]; exact bank_ok_nil B⟩, ?_, ?_⟩
  · obtain ⟨m, s⟩ := db
    cases m with
    | none => simp at hm
    | some m =>
      have h0 : m.data = [] := he 0 m rfl
      cases s with
      | none =>
        unfold store_lines
        dsimp only
        rw [h0]
        rfl
      | some s =>
        have h1 : s.data = [] := he 1 s rfl
        unfold store_lines
        dsimp only
        rw [h0, h1]
        rfl
  · obtain ⟨h, hh⟩ := HistoryDb.write_handle db hm
    unfold HistoryDb.write_len
    rw [hh]
    dsimp only
    rw [he _ h hh]
    rfl

theorem HistoryDb.clear_empty (B : Nat) (db : HistoryDb) (hm : db.bank_master.isSome = true) :
    ∃ db1, db.clear = some db1 ∧ store_ok B db1 ∧ store_lines db1 = [] ∧
      db1.write_len = 0 ∧
      (∀ i, db1.m_bank_handles i = none ↔ db.m_bank_handles i = none) ∧
      ∀ i h, db1.m_bank_handles i = some h → h.data = [] := by
  obtain ⟨db1, hc, hnone, hd⟩ := HistoryDb.clear_spec db hm
  have hm1 : db1.bank_master.isSome = true := by
    have := hnone 0
    have a : db1.m_bank_handles 0 = db1.bank_master := rfl
    have b : db.m_bank_handles 0 = db.bank_master := rfl
    rw [a, b] at this
    cases h1 : db1.bank_master with
    | none =>
      rw [h1] at this
      have := this.1 rfl
      rw [this] at hm
      simp at hm
    | some x => rfl
  have he : ∀ i h, db1.m_bank_handles i = some h → h.data = [] := by
    intro i h hi
    cases hdb : db.m_bank_handles i with
    | none =>
      have := (hnone i).2 hdb
      rw [this] at hi
      simp at hi
    | some x =>
      obtain ⟨h1, h1e, h1d⟩ := hd i x hdb
      rw [hi] at h1e
      simp only [Option.some.injEq] at h1e
      subst h1e
      exact h1d
  obtain ⟨hok, hl, hw⟩ := store_empty B db1 hm1 he
  exact ⟨db1, hc, hok, hl, hw, hnone, he⟩

/-- With the master slot null `read_lines` opens no bank, whatever the session slot holds,
and the first `next` of its iterator runs on the uninitialised line iterator: it has no
result. -/
theorem HistoryDb.read_lines_no_bank (sz : Nat) (buffer : List Nat) (db : HistoryDb)
    (out : List Nat) (hm : db.bank_master = none) (hb : buffer.length > sz) :
    Iter.next (db.read_lines sz buffer).1 (db.read_lines sz buffer).2 out = none := by
  obtain ⟨m, s⟩ := db
  dsimp only at hm
  subst hm
  unfold HistoryDb.read_lines
  rw [if_pos hb]
  cases s with
  | none => rfl
  | some s => rfl

/-- A buffer too small for the iterator's own state gives an iterator that yields
nothing. -/
theorem HistoryDb.read_lines_small (sz : Nat) (buffer : List Nat) (db : HistoryDb)
    (out : List Nat) (fuel : Nat) (hb : ¬ buffer.length > sz) :
    Iter.drain (fuel + 1) (db.read_lines sz buffer).1 (db.read_lines sz buffer).2 out
      = some [] := by
  unfold HistoryDb.read_lines
  rw [if_neg hb]
  rfl

theorem HistoryDb.find_null (max_line_length : Nat) (db : HistoryDb) (line : List Nat)
    (hm : db.bank_master = none) : db.find max_line_length line = some (0, db) := by
  unfold HistoryDb.find
  rw [HistoryDb.for_each_bank_null db _ _ hm]
  rfl

/-- C16, amended: on a store whose master bank is open `clear()` returns, the slots that
are open afterwards are those that were open before, and every open bank has length 0;
`read_lines` then yields no record and `find` returns the null id for every line. -/
theorem C16_clear_empties_store (max_line_length sz : Nat) (db : HistoryDb)
    (buffer out line : List Nat) (fuel : Nat) (hm : db.bank_master.isSome = true)
    (hl : c_string line) :
    ∃ db1, db.clear = some db1 ∧
      (∀ i, db1.m_bank_handles i = none ↔ db.m_bank_handles i = none) ∧
      (∀ i h, db1.m_bank_handles i = some h → h.data.length = 0) ∧
      Iter.drain (fuel + 1) (db1.read_lines sz buffer).1 (db1.read_lines sz buffer).2 out
        = some [] ∧
      ∃ db2, db1.find max_line_length line = some (0, db2) := by
  obtain ⟨db1, hc, hok, hlines, _, hnone, he⟩ :=
    HistoryDb.clear_empty max_line_length db hm
  obtain ⟨db2, hf, _⟩ := HistoryDb.find_store_spec max_line_length db1 line hok hl
  rw [hlines] at hf
  refine ⟨db1, hc, hnone, ?_, ?_, db2, hf⟩
  · intro i h hi
    rw [he i h hi]
    rfl
  · by_cases hb : buffer.length > sz
    · have hok2 : store_ok (buffer.length - sz) db1 :=
        (store_empty _ db1 hok.1 he).1
      have := HistoryDb.read_lines_drain sz buffer db1 out (fuel + 1) hb hok2
        (by rw [hlines]; exact Nat.succ_pos _)
      rw [this, hlines]
    · exact HistoryDb.read_lines_small sz buffer db1 out fuel hb

/-- C16 on the store with master bank `ls\n` and session bank `x\n`, for the line `ls`. -/
theorem C16_clear_empties_store_witness :
    ∃ db1, HistoryDb.clear
        { bank_master := some { data := [108, 115, 10], ptr := 3 }
          bank_session := some { data := [120, 10], ptr := 0 } } = some db1 ∧
      (∀ i, db1.m_bank_handles i = none ↔
        HistoryDb.m_bank_handles
          { bank_master := some { data := [108, 115, 10], ptr := 3 }
            bank_session := some { data := [120, 10], ptr := 0 } } i = none) ∧
      (∀ i h, db1.m_bank_handles i = some h → h.data.length = 0) ∧
      Iter.drain (0 + 1) (db1.read_lines 64 (List.replicate 8300 0)).1
          (db1.read_lines 64 (List.replicate 8300 0)).2 [] = some [] ∧
      ∃ db2, db1.find 8192 [108, 115] = some (0, db2) :=
  C16_clear_empties_store 8192 64 _ (List.replicate 8300 0) [] [108, 115] 0 rfl
    (by intro c hc; simp at hc; omega)

/-- C16 as stated fails on the store whose master slot is null and whose session bank is
open: `clear()` visits no bank, so the open session bank keeps its three bytes `ls\n`. -/
theorem C16_counterexample :
    HistoryDb.clear
        { bank_master := none, bank_session := some { data := [108, 115, 10], ptr := 0 } }
      = some
          { bank_master := none, bank_session := some { data := [108, 115, 10], ptr := 0 } } ∧
    HistoryDb.m_bank_handles
        { bank_master := none, bank_session := some { data := [108, 115, 10], ptr := 0 } } 1
      = some { data := [108, 115, 10], ptr := 0 } ∧
    (File.data { data := [108, 115, 10], ptr := 0 }).length ≠ 0 := by
  decide

/-! ## Call sequences -/

theorem HistoryDb.run_append (B : Nat) (cfg : Settings) (op : Op) :
    ∀ (ops : List Op) (db : HistoryDb) (trace : List (Op × Bool)) (db1 : HistoryDb)
      (r : Bool) (db2 : HistoryDb),
      HistoryDb.run B cfg ops db = some (trace, db1) →
      db1.call B cfg op = some (r, db2) →
      HistoryDb.run B cfg (ops ++ [op]) db = some (trace ++ [(op, r)], db2) := by
  intro ops
  induction ops with
  | nil =>
    intro db trace db1 r db2 hrun hcall
    simp only [HistoryDb.run, Option.some.injEq, Prod.mk.injEq] at hrun
    obtain ⟨rfl, rfl⟩ := hrun
    simp only [List.nil_append, HistoryDb.run, hcall, Option.map_some']
  | cons o ops ih =>
    intro db trace db1 r db2 hrun hcall
    rw [List.cons_append, HistoryDb.run]
    rw [HistoryDb.run] at hrun
    cases hc : db.call B cfg o with
    | none => rw [hc] at hrun; simp at hrun
    | some x =>
      obtain ⟨r0, d0⟩ := x
      rw [hc] at hrun
      dsimp only at hrun ⊢
      cases hr : HistoryDb.run B cfg ops d0 with
      | none => rw [hr] at hrun; simp at hrun
      | some y =>
        obtain ⟨t0, d1⟩ := y
        rw [hr] at hrun
        simp only [Option.map_some', Option.some.injEq, Prod.mk.injEq] at hrun
        obtain ⟨rfl, rfl⟩ := hrun
        rw [ih d0 t0 d1 r db2 hr hcall]
        rfl

theorem expect_found_add (line l : List Nat) (trace : List (Op × Bool)) :
    expect_found line (trace ++ [(Op.add l, true)])
      = if l = line then true else expect_found line trace := by
  unfold expect_found
  rw [List.reverse_append, List.reverse_singleton, List.singleton_append,
    added_since_clear, not_removed_since_add]
  by_cases h : l = line
  · simp [h]
  · simp [h]

theorem expect_found_remove (line l : List Nat) (r : Bool) (trace : List (Op × Bool)) :
    expect_found line (trace ++ [(Op.remove l, r)])
      = if l = line then false else expect_found line trace := by
  unfold expect_found
  rw [List.reverse_append, List.reverse_singleton, List.singleton_append,
    added_since_clear, not_removed_since_add]
  by_cases h : l = line
  · simp [h]
  · simp [h]

theorem expect_found_clear (line : List Nat) (r : Bool) (trace : List (Op × Bool)) :
    expect_found line (trace ++ [(Op.clear, r)]) = false := by
  unfold expect_found
  rw [List.reverse_append, List.reverse_singleton, List.singleton_append,
    added_since_clear]
  rfl

/-- Every sequence of calls over valid lines whose `add`s fit the write bank, from an
empty store: the calls return, the store stays well formed, and a line that does not
start with the tombstone mark is among its lines exactly when `add` succeeded for it
since the last `clear()` with no `remove` of it after the latest `add`. -/
theorem HistoryDb.run_spec (B : Nat) (cfg : Settings) (db : HistoryDb)
    (hok : store_ok B db) (hempty : ∀ i h, db.m_bank_handles i = some h → h.data = []) :
    ∀ ops : List Op, (∀ op ∈ ops, ∀ l, op.line? = some l → valid_line B cfg l) →
      (ops.map Op.cost).sum < 2 ^ 29 →
      ∃ trace db1, HistoryDb.run B cfg ops db = some (trace, db1) ∧ store_ok B db1 ∧
        db1.write_len ≤ (ops.map Op.cost).sum ∧
        ∀ line, live (0, line) = true →
          (first_id line (store_lines db1) ≠ 0 ↔ expect_found line trace = true) := by
  intro ops
  induction ops using List.reverseRecOn with
  | nil =>
    intro _ _
    obtain ⟨_, hl, hw⟩ := store_empty B db hok.1 hempty
    refine ⟨[], db, rfl, hok, by rw [hw]; exact Nat.zero_le _, ?_⟩
    intro line _
    rw [hl]
    constructor
    · intro h; exact absurd rfl h
    · intro h
      have e : expect_found line [] = false := rfl
      rw [e] at h
      exact absurd h (by decide)
  | append_singleton ops op ih =>
    intro hvalid hroom
    rw [List.map_append, List.sum_append, List.map_singleton, List.sum_singleton] at hroom ⊢
    obtain ⟨trace, db1, hrun, hok1, hwl1, hiff⟩ :=
      ih (fun o ho => hvalid o (List.mem_append_left _ ho)) (by omega)
    have hop := hvalid op (List.mem_append_right _ (List.mem_singleton_self _))
    cases op with
    | add l =>
      obtain ⟨ha, hr, hB⟩ := hop l rfl
      have hcost : (Op.add l).cost = l.length + 1 := rfl
      rw [hcost] at hroom ⊢
      obtain ⟨db2, hadd, hok2, hwl2, _, hfound, hother⟩ :=
        HistoryDb.add_spec B cfg db1 l hok1 ha hr hB (by omega)
      refine ⟨_, db2, HistoryDb.run_append B cfg _ ops db trace db1 true db2 hrun hadd,
        hok2, by omega, ?_⟩
      intro line hlive
      rw [expect_found_add]
      by_cases h : l = line
      · subst h
        rw [if_pos rfl]
        exact ⟨fun _ => rfl, fun _ => hfound hlive⟩
      · rw [if_neg h, hother line (fun e => h e.symm)]
        exact hiff line hlive
    | remove l =>
      obtain ⟨_, hr, _⟩ := hop l rfl
      have hl : c_string l := fun c hc => is_rec_ne_zero c (hr c hc)
      have hcost : (Op.remove l).cost = 0 := rfl
      rw [hcost]
      obtain ⟨db2, hrem, hok2, hlines, _, hnone, hd⟩ :=
        HistoryDb.remove_line_lines B db1 l hok1 hl
      have hwl : db2.write_len = db1.write_len := by
        apply HistoryDb.write_len_of_handles db1 db2 hok1.1 hnone
        intro i h hi
        obtain ⟨x, hx, hxd⟩ := hd i h hi
        exact ⟨x, hx, by rw [hxd]; exact length_tomb_aux l false h.data⟩
      have hcall : db1.call B cfg (Op.remove l) = some (true, db2) := by
        show (db1.remove_line B l).map (fun r => (true, r.2)) = _
        rw [hrem]
        rfl
      refine ⟨_, db2, HistoryDb.run_append B cfg _ ops db trace db1 true db2 hrun hcall,
        hok2, by omega, ?_⟩
      intro line hlive
      rw [expect_found_remove, hlines]
      by_cases h : l = line
      · subst h
        rw [if_pos rfl, first_id_filter_ne]
        exact ⟨fun h => absurd rfl h, fun h => absurd h (by decide)⟩
      · rw [if_neg h, first_id_filter_other line l (fun e => h e.symm)]
        exact hiff line hlive
    | clear =>
      obtain ⟨db2, hc, hok2, hlines, hwl, _, _⟩ := HistoryDb.clear_empty B db1 hok1.1
      have hcall : db1.call B cfg Op.clear = some (true, db2) := by
        show db1.clear.map (fun d => (true, d)) = _
        rw [hc]
        rfl
      refine ⟨_, db2, HistoryDb.run_append B cfg _ ops db trace db1 true db2 hrun hcall,
        hok2, by omega, ?_⟩
      intro line _
      rw [expect_found_clear, hlines]
      exact ⟨fun h => absurd rfl h, fun h => absurd h (by decide)⟩

/-- C2 (amended): from an empty well-formed store, for every sequence of `add(line)`,
`remove(line)` and `clear()` calls over valid lines whose `add`s total less than `2 ^ 29`
bytes, and every valid line that does not start with `|`: the calls return, and
`find(line)` afterwards is non-null exactly when `add(line)` succeeded at least once
since the last `clear()` and no `remove(line)` came after the latest `add(line)`. -/
theorem C2_find_iff_added_not_removed (max_line_length : Nat) (cfg : Settings)
    (db : HistoryDb) (ops : List Op) (line : List Nat)
    (hok : store_ok max_line_length db)
    (hempty : ∀ i h, db.m_bank_handles i = some h → h.data = [])
    (hops : ∀ op ∈ ops, ∀ l, op.line? = some l → valid_line max_line_length cfg l)
    (hline : valid_line max_line_length cfg line) (hbar : line.head? ≠ some 0x7C)
    (hroom : (ops.map Op.cost).sum < 2 ^ 29) :
    ∃ trace db1 id db2,
      HistoryDb.run max_line_length cfg ops db = some (trace, db1) ∧
      db1.find max_line_length line = some (id, db2) ∧
      (id ≠ 0 ↔ expect_found line trace = true) := by
  obtain ⟨trace, db1, hrun, hok1, _, hiff⟩ :=
    HistoryDb.run_spec max_line_length cfg db hok hempty ops hops hroom
  have hl : c_string line := fun c hc => is_rec_ne_zero c (hline.2.1 c hc)
  obtain ⟨db2, hf, _⟩ := HistoryDb.find_store_spec max_line_length db1 line hok1 hl
  refine ⟨trace, db1, _, db2, hrun, hf, hiff line ?_⟩
  unfold live
  simpa using hbar

/-- C2 (amended) on the empty store with both banks open, in dupe mode `ignore`, for the
calls `add("ls"); add("cd"); remove("ls"); add("ls"); remove("cd")` and the line `ls`. -/
theorem C2_find_iff_added_not_removed_witness :
    ∃ trace db1 id db2,
      HistoryDb.run 8192 { g_shared := false, g_ignore_space := true, g_dupe_mode := 1 }
        [Op.add [108, 115], Op.add [99, 100], Op.remove [108, 115], Op.add [108, 115],
          Op.remove [99, 100]]
        { bank_master := some { data := [], ptr := 0 }
          bank_session := some { data := [], ptr := 0 } } = some (trace, db1) ∧
      db1.find 8192 [108, 115] = some (id, db2) ∧
      (id ≠ 0 ↔ expect_found [108, 115] trace = true) :=
  C2_find_iff_added_not_removed 8192 _ _ _ [108, 115]
    (store_ok_two _ _ _ (bank_ok_nil _) (bank_ok_nil _))
    (by
      intro i h hi
      match i with
      | 0 => simp [HistoryDb.m_bank_handles] at hi; rw [← hi]
      | 1 => simp [HistoryDb.m_bank_handles] at hi; rw [← hi]
      | _ + 2 => simp [HistoryDb.m_bank_handles] at hi)
    (by
      intro op hop l hl
      simp only [List.mem_cons, List.mem_singleton, List.not_mem_nil, or_false] at hop
      rcases hop with rfl | rfl | rfl | rfl | rfl <;>
        (simp only [Op.line?, Option.some.injEq] at hl; subst hl
         exact ⟨⟨by decide, fun _ => by decide⟩, by decide, by norm_num⟩))
    ⟨⟨by decide, fun _ => by decide⟩, by decide, by norm_num⟩
    (by decide) (by decide)

/-- C2 as stated fails for a line that starts with `|`: on the empty store `add("|a")`
succeeds - the bytes `|a\n` are appended - and yet `find("|a")` returns the null id,
because the record reads as a tombstone. -/
theorem C2_counterexample :
    ∃ trace db1 db2,
      valid_line 8192 { g_shared := false, g_ignore_space := true, g_dupe_mode := 0 }
        [0x7C, 97] ∧
      HistoryDb.run 8192 { g_shared := false, g_ignore_space := true, g_dupe_mode := 0 }
        [Op.add [0x7C, 97]]
        { bank_master := some { data := [], ptr := 0 }
          bank_session := some { data := [], ptr := 0 } } = some (trace, db1) ∧
      db1.find 8192 [0x7C, 97] = some (0, db2) ∧
      expect_found [0x7C, 97] trace = true := by
  have hv : valid_line 8192 { g_shared := false, g_ignore_space := true, g_dupe_mode := 0 }
      [0x7C, 97] := ⟨⟨by decide, fun _ => by decide⟩, by decide, by norm_num⟩
  have hok : store_ok 8192
      { bank_master := some { data := [], ptr := 0 },
        bank_session := some { data := [], ptr := 0 } } :=
    store_ok_two _ _ _ (bank_ok_nil _) (bank_ok_nil _)
  obtain ⟨db1, hadd, hok1, _⟩ := HistoryDb.add_spec 8192
    { g_shared := false, g_ignore_space := true, g_dupe_mode := 0 } _ [0x7C, 97] hok
    hv.1 hv.2.1 hv.2.2 (by show 0 + 2 + 1 < 2 ^ 29; norm_num)
  obtain ⟨db2, hf, _⟩ := HistoryDb.find_store_spec 8192 db1 [0x7C, 97] hok1
    (fun c hc => is_rec_ne_zero c (hv.2.1 c hc))
  rw [first_id_not_live db1 [0x7C, 97] (by decide)] at hf
  refine ⟨[(Op.add [0x7C, 97], true)], db1, db2, hv, ?_, hf, by decide⟩
  have := HistoryDb.run_append 8192
    { g_shared := false, g_ignore_space := true, g_dupe_mode := 0 } (Op.add [0x7C, 97]) []
    _ [] _ true db1 rfl hadd
  exact this

/-! ## The round trip -/

theorem valid_line_mono {B B1 : Nat} {cfg : Settings} {line : List Nat}
    (h : valid_line B cfg line) (hB : B ≤ B1) : valid_line B1 cfg line :=
  ⟨h.1, h.2.1, Nat.le_trans h.2.2 hB⟩

theorem HistoryDb.add_mode_add (max_line_length : Nat) (cfg : Settings) (db : HistoryDb)
    (line : List Nat) (hmode : cfg.g_dupe_mode = 0) (hl : c_string line)
    (ha : accepted cfg line) :
    db.add max_line_length cfg line = some (db.add_line line) := by
  have hrej := cstr_at_zero_accepted cfg line hl ha
  rw [HistoryDb.add, if_neg hrej, if_neg (by rw [hmode]; decide),
    if_neg (by rw [hmode]; decide)]

/-- The loop `for L in Ls: add(L)` in dupe mode `add` on a well-formed store, for valid
lines that fit the write bank: the store stays well formed and its lines are those it
had followed by the added lines that do not start with the tombstone mark. -/
theorem HistoryDb.add_all_spec (max_line_length B : Nat) (cfg : Settings)
    (hmode : cfg.g_dupe_mode = 0) :
    ∀ (ls : List (List Nat)) (db : HistoryDb), store_ok B db →
      (∀ l ∈ ls, valid_line B cfg l) →
      db.write_len + (ls.map (fun l => l.length + 1)).sum < 2 ^ 29 →
      ∃ db1, HistoryDb.add_all max_line_length cfg ls db = some db1 ∧ store_ok B db1 ∧
        (store_lines db1).map (fun y => y.2)
          = (store_lines db).map (fun y => y.2) ++ ls.filter (fun l => live (0, l)) := by
  intro ls
  induction ls with
  | nil =>
    intro db hok _ _
    exact ⟨db, rfl, hok, by rw [List.filter_nil, List.append_nil]⟩
  | cons l ls ih =>
    intro db hok hv hroom
    rw [List.map_cons, List.sum_cons] at hroom
    obtain ⟨ha, hr, hB⟩ := hv l (List.mem_cons_self _ _)
    have hl : c_string l := fun c hc => is_rec_ne_zero c (hr c hc)
    obtain ⟨db1, hadd, hok1, hlines, _, hwl, _, _⟩ :=
      HistoryDb.add_line_lines B db l hok ha.1 hr hB (by omega)
    obtain ⟨db2, hall, hok2, hlines2⟩ := ih db1 hok1
      (fun x hx => hv x (List.mem_cons_of_mem _ hx)) (by rw [hwl]; omega)
    refine ⟨db2, ?_, hok2, ?_⟩
    · rw [HistoryDb.add_all, HistoryDb.add_mode_add max_line_length cfg db l hmode hl ha, hadd]
      exact hall
    · rw [hlines2, hlines, List.map_append, List.append_assoc, List.filter_cons]
      congr 1
      unfold appended
      by_cases hlv : live (0, l) = true
      · rw [if_pos hlv, if_pos (by rw [← hlv]; rfl)]
        rfl
      · rw [if_neg hlv, if_neg (by rw [live_snd db.write_len 0]; exact hlv)]
        rfl

/-- C1 (amended): on a store whose master bank is open, in dupe mode `add`, for every
list of valid lines none of which starts with `|`, totalling less than `2 ^ 29` bytes
with their newlines, and a scan buffer of at least `max_line_length` bytes: `clear()`,
the `add`s and the iteration all return, and `read_lines` yields exactly the lines, in
order and with the same multiplicity. -/
theorem C1_round_trip (max_line_length sz : Nat) (cfg : Settings) (db : HistoryDb)
    (ls : List (List Nat)) (buffer out : List Nat) (fuel : Nat)
    (hmode : cfg.g_dupe_mode = 0) (hm : db.bank_master.isSome = true)
    (hv : ∀ l ∈ ls, valid_line max_line_length cfg l)
    (hbar : ∀ l ∈ ls, l.head? ≠ some 0x7C)
    (hroom : (ls.map (fun l => l.length + 1)).sum < 2 ^ 29)
    (hsz : sz < buffer.length) (hB : max_line_length ≤ buffer.length - sz)
    (hfuel : ls.length < fuel) :
    ∃ db1 db2 ys, db.clear = some db1 ∧
      HistoryDb.add_all max_line_length cfg ls db1 = some db2 ∧
      Iter.drain fuel (db2.read_lines sz buffer).1 (db2.read_lines sz buffer).2 out
        = some ys ∧
      ys.map (fun y => y.2) = ls := by
  obtain ⟨db1, hc, hok1, hlines1, hwl1, _, _⟩ :=
    HistoryDb.clear_empty (buffer.length - sz) db hm
  obtain ⟨db2, hall, hok2, hlines2⟩ :=
    HistoryDb.add_all_spec max_line_length (buffer.length - sz) cfg hmode ls db1 hok1
      (fun l hl => valid_line_mono (hv l hl) hB) (by rw [hwl1]; omega)
  have hfilter : ls.filter (fun l => live (0, l)) = ls := by
    rw [List.filter_eq_self]
    intro l hl
    unfold live
    simpa using hbar l hl
  rw [hlines1, List.map_nil, List.nil_append, hfilter] at hlines2
  have hlen : (store_lines db2).length = ls.length := by
    rw [← hlines2, List.length_map]
  refine ⟨db1, db2, store_lines db2, hc, hall, ?_, hlines2⟩
  exact HistoryDb.read_lines_drain sz buffer db2 out fuel hsz hok2 (by rw [hlen]; exact hfuel)

/-- C1 (amended) on the store with master bank `old\n`, for the lines `ls`, `cd`, `ls`. -/
theorem C1_round_trip_witness :
    ∃ db1 db2 ys,
      HistoryDb.clear
        { bank_master := some { data := [111, 108, 100, 10], ptr := 0 }
          bank_session := none } = some db1 ∧
      HistoryDb.add_all 8192 { g_shared := true, g_ignore_space := true, g_dupe_mode := 0 }
        [[108, 115], [99, 100], [108, 115]] db1 = some db2 ∧
      Iter.drain 4 (db2.read_lines 64 (List.replicate 8300 0)).1
          (db2.read_lines 64 (List.replicate 8300 0)).2 [] = some ys ∧
      ys.map (fun y => y.2) = [[108, 115], [99, 100], [108, 115]] :=
  C1_round_trip 8192 64 _ _ _ (List.replicate 8300 0) [] 4 rfl rfl
    (by
      intro l hl
      simp only [List.mem_cons, List.mem_singleton, List.not_mem_nil, or_false] at hl
      rcases hl with rfl | rfl | rfl <;>
        exact ⟨⟨by decide, fun _ => by decide⟩, by decide, by norm_num⟩)
    (by
      intro l hl
      simp only [List.mem_cons, List.mem_singleton, List.not_mem_nil, or_false] at hl
      rcases hl with rfl | rfl | rfl <;> decide)
    (by decide) (by rw [List.length_replicate]; norm_num)
    (by rw [List.length_replicate]; norm_num) (by decide)

/-- C1 as stated fails for a line that starts with `|`: after `clear(); add("|a")` the
master bank holds `|a\n` and `read_lines` yields nothing. -/
theorem C1_counterexample :
    valid_line 8192 { g_shared := true, g_ignore_space := true, g_dupe_mode := 0 }
      [0x7C, 97] ∧
    ∃ db1 db2,
      HistoryDb.clear { bank_master := some { data := [], ptr := 0 }, bank_session := none }
        = some db1 ∧
      HistoryDb.add_all 8192 { g_shared := true, g_ignore_space := true, g_dupe_mode := 0 }
        [[0x7C, 97]] db1 = some db2 ∧
      (∃ h, db2.m_bank_handles 0 = some h ∧ h.data = [0x7C, 97, 10]) ∧
      Iter.drain 2 (db2.read_lines 64 (List.replicate 8300 0)).1
          (db2.read_lines 64 (List.replicate 8300 0)).2 [] = some [] := by
  have hv : valid_line 8192 { g_shared := true, g_ignore_space := true, g_dupe_mode := 0 }
      [0x7C, 97] := ⟨⟨by decide, fun _ => by decide⟩, by decide, by norm_num⟩
  refine ⟨hv, ?_⟩
  have hB : (List.replicate 8300 0).length - 64 = 8236 := by
    rw [List.length_replicate]
  obtain ⟨db1, hc, hok1, hlines1, hwl1, hnone1, he1⟩ := HistoryDb.clear_empty 8236
    { bank_master := some { data := [], ptr := 0 }, bank_session := none } rfl
  have hl : c_string [0x7C, 97] := fun c hc => is_rec_ne_zero c (hv.2.1 c hc)
  obtain ⟨db2, hadd, hok2, hlines2, _, _, _, hd⟩ := HistoryDb.add_line_lines 8236 db1
    [0x7C, 97] hok1 hv.1.1 hv.2.1 (by norm_num) (by rw [hwl1]; norm_num)
  have happ : appended db1 [0x7C, 97] = [] := by
    unfold appended
    rw [if_neg (by rw [live_snd db1.write_len 0]; decide)]
  rw [hlines1, happ] at hlines2
  have hm1 : ∃ h, db1.m_bank_handles 0 = some h := by
    cases h0 : db1.m_bank_handles 0 with
    | none => exact absurd ((hnone1 0).1 h0) (by simp [HistoryDb.m_bank_handles])
    | some h => exact ⟨h, rfl⟩
  obtain ⟨h, hh⟩ := hm1
  have hw : db1.write_index = 0 :=
    HistoryDb.write_index_of_none_iff _ db1 hnone1
  obtain ⟨h2, hh2, hd2⟩ := hd 0 h hh
  rw [hw, if_pos rfl, he1 0 h hh] at hd2
  refine ⟨db1, db2, hc, ?_, ⟨h2, hh2, hd2⟩, ?_⟩
  · rw [HistoryDb.add_all, HistoryDb.add_mode_add 8192 _ db1 _ rfl hl hv.1, hadd]
    rfl
  · have := HistoryDb.read_lines_drain 64 (List.replicate 8300 0) db2 [] 2
      (by rw [List.length_replicate]; norm_num) (by rw [hB]; exact hok2)
      (by rw [hlines2]; decide)
    rw [this, hlines2]
    rfl

/-! ## `remove(id)` -/

theorem LineIdImpl.of_outer_offset_lt (v : Nat) : (LineIdImpl.of_outer v).offset < 2 ^ 29 := by
  show v % 2 ^ 29 < 2 ^ 29
  exact Nat.mod_lt _ (by norm_num)

/-- The bytes of a bank after `WriteLock::remove(id)`: the mark at offset `id.offset`,
behind a zero-filled gap when the offset lies past the end of the file. -/
theorem WriteLock.remove_bytes (h : File) (id : LineIdImpl) (hoff : id.offset < 2 ^ 29) :
    (WriteLock.remove h id).data
      = h.data.take id.offset ++ List.replicate (id.offset - h.data.length) 0 ++ [0x7C]
          ++ h.data.drop (id.offset + 1) := by
  have e1 : id.offset % 2 ^ 32 = id.offset := Nat.mod_eq_of_lt (by omega)
  simp only [WriteLock.remove, SetFilePointerBegin, e1, WriteFile]
  rw [if_pos (by omega)]
  rfl

theorem WriteLock.remove_data_inside (h : File) (id : LineIdImpl) (hoff : id.offset < 2 ^ 29)
    (hin : id.offset < h.data.length) :
    (WriteLock.remove h id).data = h.data.set id.offset 0x7C := by
  rw [WriteLock.remove_bytes h id hoff]
  have e2 : id.offset - h.data.length = 0 := by omega
  rw [e2, List.set_eq_take_append_cons_drop, if_pos hin]
  simp

theorem WriteLock.remove_length (h : File) (id : LineIdImpl) (hoff : id.offset < 2 ^ 29) :
    id.offset < (WriteLock.remove h id).data.length := by
  rw [WriteLock.remove_bytes h id hoff]
  simp only [List.length_append, List.length_take, List.length_replicate, List.length_singleton,
    List.length_drop]
  omega

theorem WriteLock.remove_getD (h : File) (id : LineIdImpl) (hoff : id.offset < 2 ^ 29) :
    (WriteLock.remove h id).data.getD id.offset 0 = 0x7C := by
  rw [WriteLock.remove_bytes h id hoff]
  have hl : (h.data.take id.offset ++ List.replicate (id.offset - h.data.length) 0).length
      = id.offset := by
    simp only [List.length_append, List.length_take, List.length_replicate]
    omega
  rw [List.append_assoc _ [0x7C] _, List.getD_append_right _ _ _ _ (by rw [hl]), hl,
    Nat.sub_self]
  rfl

/-- Writing the mark a second time changes nothing. -/
theorem WriteLock.remove_twice (h : File) (id : LineIdImpl) (hoff : id.offset < 2 ^ 29) :
    (WriteLock.remove (WriteLock.remove h id) id).data = (WriteLock.remove h id).data := by
  rw [WriteLock.remove_data_inside _ id hoff (WriteLock.remove_length h id hoff)]
  apply List.ext_getElem
  · rw [List.length_set]
  · intro j h1 h2
    rw [List.getElem_set]
    by_cases hj : id.offset = j
    · rw [if_pos hj]
      have := WriteLock.remove_getD h id hoff
      rw [List.getD_eq_getElem _ _ (WriteLock.remove_length h id hoff)] at this
      subst hj
      exact this.symm
    · rw [if_neg hj]

/-- C13 (amended): for every bank content and every id whose offset lies inside the
bank, `WriteLock::remove(id)` leaves the length of the bank unchanged, puts the mark at
position `id.offset` and changes no other byte. -/
theorem C13_tombstone_keeps_length (h : File) (v : Nat)
    (hin : (LineIdImpl.of_outer v).offset < h.data.length) :
    (WriteLock.remove h (LineIdImpl.of_outer v)).data.length = h.data.length ∧
      (WriteLock.remove h (LineIdImpl.of_outer v)).data.getD (LineIdImpl.of_outer v).offset 0
        = 0x7C ∧
      ∀ j, j ≠ (LineIdImpl.of_outer v).offset →
        (WriteLock.remove h (LineIdImpl.of_outer v)).data.getD j 0 = h.data.getD j 0 := by
  have hoff := LineIdImpl.of_outer_offset_lt v
  refine ⟨?_, WriteLock.remove_getD h _ hoff, ?_⟩
  · rw [WriteLock.remove_data_inside h _ hoff hin, List.length_set]
  · intro j hj
    rw [WriteLock.remove_data_inside h _ hoff hin, List.getD_eq_getElem?_getD,
      List.getD_eq_getElem?_getD, List.getElem?_set_ne (fun e => hj e.symm)]

/-- C13 (amended) on the bank `abc\ndef\n` for the id with offset 4, bank 0. -/
theorem C13_tombstone_keeps_length_witness :
    (WriteLock.remove { data := [97, 98, 99, 10, 100, 101, 102, 10], ptr := 8 }
        (LineIdImpl.of_outer 2147483652)).data.length
      = (File.data { data := [97, 98, 99, 10, 100, 101, 102, 10], ptr := 8 }).length ∧
    (WriteLock.remove { data := [97, 98, 99, 10, 100, 101, 102, 10], ptr := 8 }
        (LineIdImpl.of_outer 2147483652)).data.getD (LineIdImpl.of_outer 2147483652).offset 0
      = 0x7C ∧
    ∀ j, j ≠ (LineIdImpl.of_outer 2147483652).offset →
      (WriteLock.remove { data := [97, 98, 99, 10, 100, 101, 102, 10], ptr := 8 }
          (LineIdImpl.of_outer 2147483652)).data.getD j 0
        = (File.data { data := [97, 98, 99, 10, 100, 101, 102, 10], ptr := 8 }).getD j 0 :=
  C13_tombstone_keeps_length _ 2147483652 (by decide)

/-- C13 as stated fails for an id whose offset is not inside the bank: on the empty bank,
`WriteLock::remove` of the non-null id with offset 0 makes the bank one byte long. -/
theorem C13_counterexample :
    (LineIdImpl.of_outer 2147483648).to_bool = true ∧
    (WriteLock.remove { data := [], ptr := 0 } (LineIdImpl.of_outer 2147483648)).data
      = [0x7C] ∧
    (WriteLock.remove { data := [], ptr := 0 } (LineIdImpl.of_outer 2147483648)).data.length
      ≠ (File.data { data := [], ptr := 0 }).length := by
  decide

theorem HistoryDb.m_bank_handles_set_bank_other (db : HistoryDb) (i j : Nat) (h1 : File)
    (hij : j ≠ i) : (db.set_bank i h1).m_bank_handles j = db.m_bank_handles j := by
  obtain ⟨m, s⟩ := db
  match i, j with
  | 0, 0 => exact absurd rfl hij
  | 0, 1 => rfl
  | 0, _ + 2 => rfl
  | 1, 0 => rfl
  | 1, 1 => exact absurd rfl hij
  | 1, _ + 2 => rfl
  | _ + 2, _ => rfl

theorem HistoryDb.get_bank_set_bank (db : HistoryDb) (i : Nat) (h h1 : File)
    (hi : db.get_bank i = some h) : (db.set_bank i h1).get_bank i = some h1 := by
  unfold HistoryDb.get_bank at hi ⊢
  rw [HistoryDb.get_bank_count_set_bank]
  by_cases hc : i ≥ db.get_bank_count
  · rw [if_pos hc] at hi
    simp at hi
  · rw [if_neg hc] at hi ⊢
    exact HistoryDb.m_bank_handles_set_bank_same db i h h1 hi

/-- With the master bank open, the banks that `get_bank` reports are the open slots. -/
theorem HistoryDb.get_bank_eq_slot (db : HistoryDb) (hm : db.bank_master.isSome = true)
    (i : Nat) : db.get_bank i = db.m_bank_handles i := by
  obtain ⟨m, s⟩ := db
  cases m with
  | none => simp at hm
  | some m =>
    unfold HistoryDb.get_bank HistoryDb.get_bank_count
    cases s with
    | none =>
      match i with
      | 0 => simp
      | 1 => simp [HistoryDb.m_bank_handles]
      | _ + 2 => simp [HistoryDb.m_bank_handles]
    | some s =>
      match i with
      | 0 => simp
      | 1 => simp
      | _ + 2 => simp [HistoryDb.m_bank_handles]

/-- The method `HistoryDb::remove(LineId)` on an id that is not zero and names a bank that
`get_bank` reports. -/
theorem HistoryDb.remove_id_some (db : HistoryDb) (id : Nat) (h : File) (hid : id ≠ 0)
    (hb : db.get_bank (LineIdImpl.of_outer id).bank_index = some h) :
    db.remove_id id = (true, db.set_bank (LineIdImpl.of_outer id).bank_index
      (WriteLock.remove h (LineIdImpl.of_outer id))) := by
  unfold HistoryDb.remove_id
  rw [if_neg hid]
  dsimp only
  rw [hb]

theorem HistoryDb.remove_id_none (db : HistoryDb) (id : Nat)
    (hb : db.get_bank (LineIdImpl.of_outer id).bank_index = none) :
    db.remove_id id = (false, db) := by
  unfold HistoryDb.remove_id
  by_cases hid : id = 0
  · rw [if_pos hid]
  · rw [if_neg hid]
    dsimp only
    rw [hb]

/-- C11, amended: on a store whose master bank is open, `remove(id)` returns false and
leaves the store as it is when the id is zero or when the slot of its bank index is
null; otherwise it returns true, the bank named holds the mark at byte `id.offset`
(behind a zero-filled gap when the offset lies past the end of the bank) with its other
bytes unchanged, and the other bank is untouched. On a store whose master slot is null
`remove(id)` returns false and leaves the store as it is for every id, also for one that
names the open session bank. -/
theorem C11_remove_id (db : HistoryDb) (id : Nat) :
    (db.bank_master.isSome = true →
      ((id = 0 ∨ db.m_bank_handles (LineIdImpl.of_outer id).bank_index = none) →
        db.remove_id id = (false, db)) ∧
      (∀ h, id ≠ 0 → db.m_bank_handles (LineIdImpl.of_outer id).bank_index = some h →
        ∃ db1 h1, db.remove_id id = (true, db1) ∧
          db1.m_bank_handles (LineIdImpl.of_outer id).bank_index = some h1 ∧
          h1.data = h.data.take (LineIdImpl.of_outer id).offset
            ++ List.replicate ((LineIdImpl.of_outer id).offset - h.data.length) 0 ++ [0x7C]
            ++ h.data.drop ((LineIdImpl.of_outer id).offset + 1) ∧
          ∀ j, j ≠ (LineIdImpl.of_outer id).bank_index →
            db1.m_bank_handles j = db.m_bank_handles j)) ∧
    (db.bank_master = none → db.remove_id id = (false, db)) := by
  refine ⟨fun hm => ⟨?_, ?_⟩, fun hm => HistoryDb.remove_id_none db id
    (HistoryDb.get_bank_null db hm _)⟩
  · rintro (hid | hb)
    · unfold HistoryDb.remove_id
      rw [if_pos hid]
    · exact HistoryDb.remove_id_none db id
        ((HistoryDb.get_bank_eq_slot db hm _).trans hb)
  · intro h hid hb
    have hg : db.get_bank (LineIdImpl.of_outer id).bank_index = some h :=
      (HistoryDb.get_bank_eq_slot db hm _).trans hb
    refine ⟨_, _, HistoryDb.remove_id_some db id h hid hg,
      HistoryDb.m_bank_handles_set_bank_same db _ h _ hb,
      WriteLock.remove_bytes h _ (LineIdImpl.of_outer_offset_lt id), ?_⟩
    intro j hj
    exact HistoryDb.m_bank_handles_set_bank_other db _ j _ hj

/-- The witness of claim C11, on the store with master bank `ls\n` and no session bank:
the id with bank index 0 and offset 0 is removed, the id with bank index 1 names a null
slot and nothing is removed; and on the store with a null master slot and the session
bank `ab\n` nothing is removed under the id with bank index 1 and offset 0. -/
theorem C11_remove_id_witness :
    (∃ db1 h1,
      HistoryDb.remove_id
          { bank_master := some { data := [108, 115, 10], ptr := 3 }, bank_session := none }
          2147483648 = (true, db1) ∧
      db1.m_bank_handles (LineIdImpl.of_outer 2147483648).bank_index = some h1 ∧
      h1.data = [0x7C, 115, 10]) ∧
    HistoryDb.remove_id
        { bank_master := some { data := [108, 115, 10], ptr := 3 }, bank_session := none }
        2684354560
      = (false,
         { bank_master := some { data := [108, 115, 10], ptr := 3 }, bank_session := none }) ∧
    HistoryDb.remove_id
        { bank_master := none, bank_session := some { data := [97, 98, 10], ptr := 0 } }
        2684354560
      = (false,
         { bank_master := none, bank_session := some { data := [97, 98, 10], ptr := 0 } }) := by
  refine ⟨?_, ?_, ?_⟩
  · obtain ⟨db1, h1, e1, e2, e3, _⟩ :=
      ((C11_remove_id
        { bank_master := some { data := [108, 115, 10], ptr := 3 }, bank_session := none }
        2147483648).1 rfl).2 { data := [108, 115, 10], ptr := 3 } (by decide) (by decide)
    exact ⟨db1, h1, e1, e2, e3.trans (by decide)⟩
  · exact ((C11_remove_id
        { bank_master := some { data := [108, 115, 10], ptr := 3 }, bank_session := none }
        2684354560).1 rfl).1 (Or.inr (by decide))
  · exact (C11_remove_id
        { bank_master := none, bank_session := some { data := [97, 98, 10], ptr := 0 } }
        2684354560).2 rfl

/-- C11 as stated fails on the store whose master slot is null and whose session bank
`ab\n` is open: the id with bank index 1 and offset 0 is not the null id and names the
session slot, which is not null, and `remove(id)` returns false and writes nothing. -/
theorem C11_counterexample :
    (2684354560 : Nat) ≠ 0 ∧
    (LineIdImpl.of_outer 2684354560).bank_index = 1 ∧
    (LineIdImpl.of_outer 2684354560).offset = 0 ∧
    HistoryDb.m_bank_handles
        { bank_master := none, bank_session := some { data := [97, 98, 10], ptr := 0 } } 1
      = some { data := [97, 98, 10], ptr := 0 } ∧
    HistoryDb.remove_id
        { bank_master := none, bank_session := some { data := [97, 98, 10], ptr := 0 } }
        2684354560
      = (false,
         { bank_master := none, bank_session := some { data := [97, 98, 10], ptr := 0 } }) := by
  decide

/-- C15: for every store and every id, a second `remove(id)` returns what the first
returned and leaves the contents of both banks as the first left them. -/
theorem C15_tombstone_idempotent (db : HistoryDb) (id : Nat) :
    ((db.remove_id id).2.remove_id id).1 = (db.remove_id id).1 ∧
      ((db.remove_id id).2.remove_id id).2.contents = (db.remove_id id).2.contents := by
  by_cases hid : id = 0
  · have e : db.remove_id id = (false, db) := by
      unfold HistoryDb.remove_id
      rw [if_pos hid]
    rw [e]
    dsimp only
    rw [e]
    exact ⟨rfl, rfl⟩
  · cases hb : db.get_bank (LineIdImpl.of_outer id).bank_index with
    | none =>
      have e := HistoryDb.remove_id_none db id hb
      rw [e]
      dsimp only
      rw [e]
      exact ⟨rfl, rfl⟩
    | some h =>
      have e := HistoryDb.remove_id_some db id h hid hb
      have hb1 := HistoryDb.get_bank_set_bank db _ h
        (WriteLock.remove h (LineIdImpl.of_outer id)) hb
      have e1 := HistoryDb.remove_id_some _ id _ hid hb1
      rw [e]
      dsimp only
      rw [e1]
      refine ⟨rfl, ?_⟩
      dsimp only
      exact HistoryDb.contents_set_bank _ _ _ _ hb1
        (WriteLock.remove_twice h _ (LineIdImpl.of_outer_offset_lt id))

/-! ## Tombstoning one record -/

theorem ends_ok_cons_of_ne_nil (c : Nat) (A : List Nat) (hA : ends_ok A) (hne : A ≠ []) :
    ends_ok (c :: A) := by
  intro b hb
  apply hA b
  cases A with
  | nil => exact absurd rfl hne
  | cons d A =>
    rw [List.getLast?_cons_cons] at hb
    exact hb

theorem head_dropWhile_rec (t : List Nat) :
    ∀ c, (t.dropWhile is_rec).head? = some c → is_rec c = false := by
  intro c hc
  have := List.head?_dropWhile_not is_rec t
  rw [hc] at this
  simpa using this

/-- A record of a content splits the content: before it a content that ends at a record
boundary, behind it a content that does not start with a record byte. -/
theorem runs_aux_mem_split : ∀ (s : List Nat) (b : Bool) (p : Nat) (x : Nat × List Nat),
    x ∈ runs_aux b p s →
    ∃ A C, s = A ++ x.2 ++ C ∧ x.1 = p + A.length ∧ ends_ok A ∧ (A = [] → b = false) ∧
      ∀ c, C.head? = some c → is_rec c = false := by
  intro s
  induction s with
  | nil => intro b p x hx; simp [runs_aux] at hx
  | cons c t ih =>
    intro b p x hx
    rw [runs_aux_cons] at hx
    have tail : ∀ b1, (b1 = true → is_rec c = true) → (b1 = false → is_rec c = false) →
        x ∈ runs_aux b1 (p + 1) t →
        ∃ A C, c :: t = A ++ x.2 ++ C ∧ x.1 = p + A.length ∧ ends_ok A ∧ (A = [] → b = false) ∧
          ∀ c, C.head? = some c → is_rec c = false := by
      intro b1 hb1 hb0 hx1
      obtain ⟨A, C, hs, hq, hA, hAb, hC⟩ := ih b1 (p + 1) x hx1
      refine ⟨c :: A, C, by rw [hs]; rfl, by rw [hq, List.length_cons]; omega, ?_,
        fun h => absurd h (List.cons_ne_nil _ _), hC⟩
      by_cases hne : A = []
      · subst hne
        have hc := hb0 (hAb rfl)
        intro d hd
        simp only [List.getLast?_singleton, Option.some.injEq] at hd
        subst hd
        simp only [is_rec, decide_eq_false_iff_not] at hc
        omega
      · exact ends_ok_cons_of_ne_nil c A hA hne
    by_cases hc : is_rec c = true
    · rw [if_pos hc] at hx
      by_cases hb : b = true
      · rw [if_pos hb] at hx
        exact tail true (fun _ => hc) (fun h => absurd h (by decide)) hx
      · rw [if_neg hb] at hx
        rcases List.mem_cons.1 hx with hx | hx
        · subst hx
          refine ⟨[], (c :: t).dropWhile is_rec, ?_, rfl, by intro d hd; simp at hd,
            fun _ => by simpa using hb, head_dropWhile_rec (c :: t)⟩
          rw [List.nil_append, List.takeWhile_append_dropWhile]
        · exact tail true (fun _ => hc) (fun h => absurd h (by decide)) hx
    · rw [if_neg hc] at hx
      exact tail false (fun h => absurd h (by decide)) (fun _ => by simpa using hc) hx

theorem set_length_append_right (A r C : List Nat) (a : Nat) (r1 : List Nat) (v : Nat)
    (hr : r = a :: r1) : (A ++ r ++ C).set A.length v = A ++ (v :: r1) ++ C := by
  subst hr
  rw [List.append_assoc, List.cons_append, set_length_append, List.append_assoc,
    List.cons_append]

theorem runs_split (A r C : List Nat) (hA : ends_ok A) (hne : r ≠ [])
    (hr : ∀ c ∈ r, is_rec c = true) (hC : ∀ c, C.head? = some c → is_rec c = false) :
    runs 0 (A ++ r ++ C) = runs 0 A ++ (A.length, r) :: runs (A.length + r.length) C := by
  rw [List.append_assoc, runs_append_boundary A _ hA, runs_run_append r C _ hne hr hC]

/-- The live records of a bank after the first byte of one of its live records has been
overwritten with the tombstone mark: that record is gone, and the others stay, with
their offsets. -/
theorem records_set_bar (f : List Nat) (x : Nat × List Nat) (hx : x ∈ records f) :
    ∃ pre post, records f = pre ++ x :: post ∧
      records (f.set x.1 0x7C) = pre ++ post ∧
      (∀ B, bank_ok B f → bank_ok B (f.set x.1 0x7C)) ∧ x.1 < f.length := by
  obtain ⟨hxr, hlive⟩ := List.mem_filter.1 hx
  obtain ⟨A, C, hs, hq, hA, _, hC⟩ := runs_aux_mem_split f false 0 x hxr
  rw [Nat.zero_add] at hq
  have hne := runs_ne_nil 0 f x hxr
  have hrec := (runs_bounds 0 f x hxr).2.2
  obtain ⟨a, r1, har⟩ := List.exists_cons_of_ne_nil hne
  have hset : f.set x.1 0x7C = A ++ (0x7C :: r1) ++ C := by
    rw [hq]
    conv_lhs => rw [hs]
    exact set_length_append_right A x.2 C a r1 0x7C har
  have hrec1 : ∀ c ∈ (0x7C :: r1), is_rec c = true := by
    intro c hc
    rcases List.mem_cons.1 hc with h | h
    · rw [h]; exact is_rec_bar
    · exact hrec c (by rw [har]; exact List.mem_cons_of_mem _ h)
  have hlen1 : (0x7C :: r1).length = x.2.length := by rw [har]; rfl
  have hruns : runs 0 f = runs 0 A ++ (A.length, x.2) :: runs (A.length + x.2.length) C := by
    conv_lhs => rw [hs]
    exact runs_split A x.2 C hA hne hrec hC
  have hruns1 : runs 0 (f.set x.1 0x7C)
      = runs 0 A ++ (A.length, 0x7C :: r1) :: runs (A.length + x.2.length) C := by
    rw [hset, runs_split A _ C hA (List.cons_ne_nil _ _) hrec1 hC, hlen1]
  have hxe : x = (A.length, x.2) := by rw [← hq]
  refine ⟨(runs 0 A).filter live, (runs (A.length + x.2.length) C).filter live, ?_, ?_, ?_, ?_⟩
  · unfold records
    rw [hruns, List.filter_append, List.filter_cons, if_pos (by rw [← hxe]; exact hlive),
      ← hxe]
  · unfold records
    rw [hruns1, List.filter_append, List.filter_cons, if_neg (by simp [live])]
  · intro B hok
    refine ⟨?_, ?_, by rw [List.length_set]; exact hok.2.2⟩
    · intro b hb
      apply hok.1 b
      rw [hset] at hb
      conv_lhs => rw [hs]
      cases C with
      | nil =>
        rw [List.append_nil] at hb ⊢
        rw [List.getLast?_append_of_ne_nil _ (List.cons_ne_nil _ _)] at hb
        rw [List.getLast?_append_of_ne_nil _ hne, har]
        cases r1 with
        | nil =>
          exfalso
          simp only [List.getLast?_singleton, Option.some.injEq] at hb
          have h1 := hok.1
          have h2 : f.getLast? = some a := by
            rw [hs, List.append_nil, List.getLast?_append_of_ne_nil _ hne, har]
            rfl
          have h3 := h1 a h2
          have h4 := hrec a (by rw [har]; exact List.mem_cons_self _ _)
          simp only [is_rec, decide_eq_true_eq] at h4
          omega
        | cons d r2 =>
          rw [List.getLast?_cons_cons] at hb ⊢
          exact hb
      | cons d C =>
        rw [List.getLast?_append_of_ne_nil _ (List.cons_ne_nil _ _)] at hb ⊢
        exact hb
    · intro y hy
      rw [hruns1] at hy
      rcases List.mem_append.1 hy with h | h
      · exact hok.2.1 y (by rw [hruns]; exact List.mem_append_left _ h)
      · rcases List.mem_cons.1 h with h | h
        · subst h
          dsimp only
          rw [hlen1]
          exact hok.2.1 x hxr
        · exact hok.2.1 y
            (by rw [hruns]; exact List.mem_append_right _ (List.mem_cons_of_mem _ h))
  · have := (runs_bounds 0 f x hxr).2.1
    have hpos : 0 < x.2.length := List.length_pos.2 hne
    omega

theorem LineIdImpl.of_outer_outer (o b : Nat) (ho : o < 2 ^ 29) (hb : b < 4) :
    LineIdImpl.of_outer (LineIdImpl.outer { offset := o, bank_index := b, active := 1 })
      = { offset := o, bank_index := b, active := 1 } := by
  unfold LineIdImpl.of_outer LineIdImpl.outer
  dsimp only
  have e1 : (o % 2 ^ 29 + 2 ^ 29 * (b % 4) + 2 ^ 31 * (1 % 2)) % 2 ^ 29 = o := by omega
  have e2 : (o % 2 ^ 29 + 2 ^ 29 * (b % 4) + 2 ^ 31 * (1 % 2)) / 2 ^ 29 % 4 = b := by omega
  have e3 : (o % 2 ^ 29 + 2 ^ 29 * (b % 4) + 2 ^ 31 * (1 % 2)) / 2 ^ 31 % 2 = 1 := by omega
  rw [e1, e2, e3]

/-- The method `HistoryDb::remove(LineId)` called with the id of a line of a well-formed
store: it returns true, the store stays well formed, and its lines are those it had
without that one. -/
theorem HistoryDb.remove_id_lines (B : Nat) (db : HistoryDb) (y : Nat × List Nat)
    (hok : store_ok B db) (hy : y ∈ store_lines db) :
    ∃ db1 pre post, db.remove_id y.1 = (true, db1) ∧ store_ok B db1 ∧
      store_lines db = pre ++ y :: post ∧ store_lines db1 = pre ++ post := by
  obtain ⟨hm, hbanks⟩ := hok
  obtain ⟨m, s⟩ := db
  cases m with
  | none => simp at hm
  | some m =>
    have hokm : bank_ok B m.data := hbanks 0 m rfl
    have key : ∀ (i : Nat) (h : File) (x : Nat × List Nat), i < 4 →
        HistoryDb.get_bank { bank_master := some m, bank_session := s } i = some h →
        bank_ok B h.data → x ∈ records h.data → y = stamp i x →
        ∃ pre post, HistoryDb.remove_id { bank_master := some m, bank_session := s } y.1
            = (true, HistoryDb.set_bank { bank_master := some m, bank_session := s } i
                (WriteLock.remove h { offset := x.1, bank_index := i, active := 1 })) ∧
          (WriteLock.remove h { offset := x.1, bank_index := i, active := 1 }).data
            = h.data.set x.1 0x7C ∧
          records h.data = pre ++ x :: post ∧
          records (h.data.set x.1 0x7C) = pre ++ post ∧
          bank_ok B (h.data.set x.1 0x7C) := by
      intro i h x hi hget hokh hx hyx
      obtain ⟨pre, post, hsplit, hrec1, hbok, hlt⟩ := records_set_bar h.data x hx
      have hlt29 : x.1 < 2 ^ 29 := by have := hokh.2.2; omega
      have hof : LineIdImpl.of_outer y.1 = { offset := x.1, bank_index := i, active := 1 } := by
        rw [hyx]
        exact LineIdImpl.of_outer_outer x.1 i hlt29 hi
      have hne : y.1 ≠ 0 := by rw [hyx]; exact stamp_fst_ne_zero i x
      have hrem := HistoryDb.remove_id_some _ y.1 h hne (by rw [hof]; exact hget)
      rw [hof] at hrem
      exact ⟨pre, post, hrem, WriteLock.remove_data_inside h _ hlt29 hlt, hsplit, hrec1,
        hbok B hokh⟩
    cases s with
    | none =>
      have hy1 : y ∈ (records m.data).map (stamp 0) := by
        simpa [store_lines] using hy
      obtain ⟨x, hx, hyx⟩ := List.mem_map.1 hy1
      obtain ⟨pre, post, hrem, hdata, hsplit, hrec1, hbok⟩ :=
        key 0 m x (by norm_num) (HistoryDb.get_bank_master m none) hokm hx hyx.symm
      refine ⟨_, pre.map (stamp 0), post.map (stamp 0), hrem, ?_, ?_, ?_⟩
      · apply store_ok_one
        rw [hdata]
        exact hbok
      · unfold store_lines
        dsimp only
        rw [hsplit, List.append_nil, List.map_append, List.map_cons, hyx]
      · show store_lines { bank_master := some _, bank_session := none } = _
        unfold store_lines
        dsimp only
        rw [hdata, hrec1, List.append_nil, List.map_append]
    | some s =>
      have hoks : bank_ok B s.data := hbanks 1 s rfl
      have hy1 : y ∈ (records m.data).map (stamp 0) ++ (records s.data).map (stamp 1) := by
        simpa [store_lines] using hy
      rcases List.mem_append.1 hy1 with hy2 | hy2
      · obtain ⟨x, hx, hyx⟩ := List.mem_map.1 hy2
        obtain ⟨pre, post, hrem, hdata, hsplit, hrec1, hbok⟩ :=
          key 0 m x (by norm_num) (HistoryDb.get_bank_master m (some s)) hokm hx hyx.symm
        refine ⟨_, pre.map (stamp 0), post.map (stamp 0) ++ (records s.data).map (stamp 1),
          hrem, ?_, ?_, ?_⟩
        · apply store_ok_two _ _ _ _ hoks
          rw [hdata]
          exact hbok
        · unfold store_lines
          dsimp only
          rw [hsplit, List.map_append, List.map_cons, hyx, List.append_assoc]
          rfl
        · show store_lines { bank_master := some _, bank_session := some s } = _
          unfold store_lines
          dsimp only
          rw [hdata, hrec1, List.map_append, List.append_assoc]
      · obtain ⟨x, hx, hyx⟩ := List.mem_map.1 hy2
        obtain ⟨pre, post, hrem, hdata, hsplit, hrec1, hbok⟩ :=
          key 1 s x (by norm_num) (HistoryDb.get_bank_session m s) hoks hx hyx.symm
        refine ⟨_, (records m.data).map (stamp 0) ++ pre.map (stamp 1), post.map (stamp 1),
          hrem, ?_, ?_, ?_⟩
        · apply store_ok_two _ _ _ hokm
          rw [hdata]
          exact hbok
        · unfold store_lines
          dsimp only
          rw [hsplit, List.map_append, List.map_cons, hyx, List.append_assoc]
        · show store_lines { bank_master := some m, bank_session := some _ } = _
          unfold store_lines
          dsimp only
          rw [hdata, hrec1, List.map_append, List.append_assoc]

/-- C12: on a well-formed store read through a scan buffer that holds its longest record,
the iteration returns; and for every `(id, bytes)` pair it yields, `remove(id)` returns
true and a fresh iteration then yields the same sequence without that one element, the
other elements with their bytes and ids. -/
theorem C12_tombstone_then_iterate (sz : Nat) (buffer : List Nat) (db : HistoryDb)
    (out : List Nat) (fuel : Nat) (hsz : sz < buffer.length)
    (hok : store_ok (buffer.length - sz) db) (hfuel : (store_lines db).length < fuel) :
    ∃ ys, Iter.drain fuel (db.read_lines sz buffer).1 (db.read_lines sz buffer).2 out
        = some ys ∧
      ∀ y ∈ ys, ∃ db1 pre post, db.remove_id y.1 = (true, db1) ∧ ys = pre ++ y :: post ∧
        Iter.drain fuel (db1.read_lines sz buffer).1 (db1.read_lines sz buffer).2 out
          = some (pre ++ post) := by
  refine ⟨store_lines db, HistoryDb.read_lines_drain sz buffer db out fuel hsz hok hfuel, ?_⟩
  intro y hy
  obtain ⟨db1, pre, post, hrem, hok1, hsplit, hlines1⟩ :=
    HistoryDb.remove_id_lines _ db y hok hy
  refine ⟨db1, pre, post, hrem, hsplit, ?_⟩
  rw [← hlines1]
  apply HistoryDb.read_lines_drain sz buffer db1 out fuel hsz hok1
  rw [hlines1]
  have : (store_lines db).length = pre.length + (post.length + 1) := by
    rw [hsplit, List.length_append, List.length_cons]
  rw [List.length_append]
  omega

/-- C12 on the store whose master bank is `abc\ndef\n`. -/
theorem C12_tombstone_then_iterate_witness :
    ∃ ys, Iter.drain 3
        (HistoryDb.read_lines
          { bank_master := some { data := [97, 98, 99, 10, 100, 101, 102, 10], ptr := 0 },
            bank_session := none } 64 (List.replicate 8300 0)).1
        (HistoryDb.read_lines
          { bank_master := some { data := [97, 98, 99, 10, 100, 101, 102, 10], ptr := 0 },
            bank_session := none } 64 (List.replicate 8300 0)).2 [] = some ys ∧
      ∀ y ∈ ys, ∃ db1 pre post,
        HistoryDb.remove_id
          { bank_master := some { data := [97, 98, 99, 10, 100, 101, 102, 10], ptr := 0 },
            bank_session := none } y.1 = (true, db1) ∧
        ys = pre ++ y :: post ∧
        Iter.drain 3 (db1.read_lines 64 (List.replicate 8300 0)).1
            (db1.read_lines 64 (List.replicate 8300 0)).2 [] = some (pre ++ post) :=
  C12_tombstone_then_iterate 64 (List.replicate 8300 0) _ [] 3
    (by rw [List.length_replicate]; norm_num)
    (store_ok_one _ _
      ⟨by intro b hb; simp at hb; omega, by rw [List.length_replicate]; decide, by norm_num⟩)
    (by decide)

/-- The claim's example for C12: on the master bank `abc\ndef\n`, `remove` of the id of
`abc` (offset 0, bank 0) leaves `|bc\ndef\n`, whose only live record is `def`. -/
theorem remove_id_example :
    (HistoryDb.remove_id
        { bank_master := some { data := [97, 98, 99, 10, 100, 101, 102, 10], ptr := 0 },
          bank_session := none } 2147483648).2.contents
      = (some [0x7C, 98, 99, 10, 100, 101, 102, 10], none) ∧
    records [0x7C, 98, 99, 10, 100, 101, 102, 10] = [(4, [100, 101, 102])] := by
  decide

/-! ## The id encoding -/

/-- C18: for every offset below `2 ^ 29` and bank index below 4, the id built from the
offset with the bank index stamped has `active` 1, a non-zero 32-bit value, and the
offset and bank index it was built from, also when read back from the 32-bit value; the
default-constructed id is the 32-bit value 0. -/
theorem C18_line_id_round_trip (o b : Nat) (ho : o < 2 ^ 29) (hb : b < 4) :
    ({ LineIdImpl.of_offset o with bank_index := b % 4 } : LineIdImpl).active = 1 ∧
    ({ LineIdImpl.of_offset o with bank_index := b % 4 } : LineIdImpl).outer ≠ 0 ∧
    ({ LineIdImpl.of_offset o with bank_index := b % 4 } : LineIdImpl).to_bool = true ∧
    ({ LineIdImpl.of_offset o with bank_index := b % 4 } : LineIdImpl).offset = o ∧
    ({ LineIdImpl.of_offset o with bank_index := b % 4 } : LineIdImpl).bank_index = b ∧
    LineIdImpl.of_outer
        ({ LineIdImpl.of_offset o with bank_index := b % 4 } : LineIdImpl).outer
      = { offset := o, bank_index := b, active := 1 } ∧
    LineIdImpl.null.outer = 0 := by
  have e1 : o % 2 ^ 29 = o := Nat.mod_eq_of_lt ho
  have e2 : b % 4 = b := Nat.mod_eq_of_lt hb
  have hid : ({ LineIdImpl.of_offset o with bank_index := b % 4 } : LineIdImpl)
      = { offset := o, bank_index := b, active := 1 } := by
    unfold LineIdImpl.of_offset
    rw [e1, e2]
  rw [hid]
  have hne : LineIdImpl.outer { offset := o, bank_index := b, active := 1 } ≠ 0 := by
    unfold LineIdImpl.outer
    dsimp only
    omega
  refine ⟨rfl, hne, ?_, rfl, rfl, LineIdImpl.of_outer_outer o b ho hb, rfl⟩
  unfold LineIdImpl.to_bool
  simpa using hne

/-- C18 for offset 3 and bank index 1, the id of the specification's scenario. -/
theorem C18_line_id_round_trip_witness :
    ({ LineIdImpl.of_offset 3 with bank_index := 1 % 4 } : LineIdImpl).active = 1 ∧
    ({ LineIdImpl.of_offset 3 with bank_index := 1 % 4 } : LineIdImpl).outer ≠ 0 ∧
    ({ LineIdImpl.of_offset 3 with bank_index := 1 % 4 } : LineIdImpl).to_bool = true ∧
    ({ LineIdImpl.of_offset 3 with bank_index := 1 % 4 } : LineIdImpl).offset = 3 ∧
    ({ LineIdImpl.of_offset 3 with bank_index := 1 % 4 } : LineIdImpl).bank_index = 1 ∧
    LineIdImpl.of_outer
        ({ LineIdImpl.of_offset 3 with bank_index := 1 % 4 } : LineIdImpl).outer
      = { offset := 3, bank_index := 1, active := 1 } ∧
    LineIdImpl.null.outer = 0 :=
  C18_line_id_round_trip 3 1 (by norm_num) (by norm_num)

/-! ## `history_expand_control` -/

/-- C19: with `expand_mode` off (0) `history_expand_control` returns 1, and with
`expand_mode` on (1) it returns 0, for every line and every marker offset. -/
theorem C19_expand_off_on (line : List Nat) (marker_pos : Int) :
    history_expand_control 0 line marker_pos = 1 ∧
      history_expand_control 1 line marker_pos = 0 := by
  constructor <;> rfl

theorem history_expand_control_loop_eq_region : ∀ (line : List Nat) (n q : Nat),
    plain_regions line n q = true →
    history_expand_control_loop line n q = quote_region line n q := by
  intro line
  induction line with
  | nil => intro n q _; rfl
  | cons c rest ih =>
    intro n q hp
    cases n with
    | zero => rfl
    | succ n =>
      rw [history_expand_control_loop, quote_region]
      rw [plain_regions] at hp
      by_cases hc0 : c = 0
      · rw [if_pos hc0, if_pos hc0]
      · rw [if_neg hc0, if_neg hc0]
        rw [if_neg hc0] at hp
        by_cases hcq : c = 0x27 ∨ c = 0x22
        · rw [if_pos hcq, if_pos hcq]
          rw [if_pos hcq] at hp
          by_cases hbad : q ≠ 0 ∧ c ≠ q
          · rw [if_pos hbad] at hp
            exact absurd hp (by decide)
          · rw [if_neg hbad] at hp
            have hst : (if c = q then 0 else c) = (if q = 0 then c else if c = q then 0 else q) := by
              by_cases hq : q = 0
              · rw [if_pos hq, if_neg (by rw [hq]; exact hc0)]
              · rw [if_neg hq]
                have : c = q := by
                  by_contra hne
                  exact hbad ⟨hq, hne⟩
                rw [if_pos this, if_pos this]
            rw [hst]
            exact ih n _ hp
        · rw [if_neg hcq, if_neg hcq]
          rw [if_neg hcq] at hp
          exact ih n q hp

/-- On a line in which no quote character of the other kind occurs inside a quoted region
before the marker, `not_squoted` inhibits expansion exactly when the marker lies inside
a single-quoted region, `not_dquoted` exactly when it lies inside a double-quoted
region, and `not_quoted` exactly when it lies inside a region of either kind. -/
theorem history_expand_control_plain (line : List Nat) (m : Nat)
    (hplain : plain_regions line m 0 = true) :
    (history_expand_control 2 line m ≠ 0 ↔ quote_region line m 0 = 0x27) ∧
    (history_expand_control 3 line m ≠ 0 ↔ quote_region line m 0 = 0x22) ∧
    (history_expand_control 4 line m ≠ 0 ↔
      (quote_region line m 0 = 0x27 ∨ quote_region line m 0 = 0x22)) := by
  have h := history_expand_control_loop_eq_region line m 0 hplain
  unfold history_expand_control
  simp only [Int.toNat_ofNat, h]
  refine ⟨?_, ?_, ?_⟩
  · norm_num
  · norm_num
  · norm_num
    tauto

/-- The line `echo 'hi !x'` with the marker at the `!` (offset 9): `not_squoted` and
`not_quoted` inhibit, `not_dquoted` does not. -/
theorem history_expand_control_example :
    history_expand_control 2 [101, 99, 104, 111, 32, 39, 104, 105, 32, 33, 120, 39] 9 = 1 ∧
    history_expand_control 3 [101, 99, 104, 111, 32, 39, 104, 105, 32, 33, 120, 39] 9 = 0 ∧
    history_expand_control 4 [101, 99, 104, 111, 32, 39, 104, 105, 32, 33, 120, 39] 9 = 1 := by
  decide

/-- C20, the code at two lines with a quote character of the other kind between the
opening quote and the marker: on the line `'"!'` the `!` at offset 2 lies inside the
single-quoted region that spans the line, and `not_squoted` returns 0 (no inhibition);
on the line `'""!'` the `!` at offset 3 lies inside the single-quoted region that spans
the line, and both `not_squoted` and `not_quoted` return 0. -/
theorem C20_mixed_quotes_not_inhibited :
    quote_region [39, 34, 33, 39] 2 0 = 0x27 ∧
    history_expand_control 2 [39, 34, 33, 39] 2 = 0 ∧
    quote_region [39, 34, 34, 33, 39] 3 0 = 0x27 ∧
    history_expand_control 2 [39, 34, 34, 33, 39] 3 = 0 ∧
    history_expand_control 4 [39, 34, 34, 33, 39] 3 = 0 := by
  decide

/-! ## Pieces of records -/

theorem chunks_fuel (B : Nat) (hB : 0 < B) : ∀ (f1 f2 q : Nat) (r : List Nat),
    r.length ≤ f1 → r.length ≤ f2 → chunks B f1 q r = chunks B f2 q r := by
  intro f1
  induction f1 with
  | zero =>
    intro f2 q r h1 _
    have hr : r = [] := List.eq_nil_of_length_eq_zero (by omega)
    subst hr
    cases f2 with
    | zero => rfl
    | succ f2 => simp [chunks]
  | succ f1 ih =>
    intro f2 q r h1 h2
    cases f2 with
    | zero =>
      have hr : r = [] := List.eq_nil_of_length_eq_zero (by omega)
      subst hr
      simp [chunks]
    | succ f2 =>
      rw [chunks, chunks]
      by_cases hle : r.length ≤ B
      · rw [if_pos hle, if_pos hle]
      · rw [if_neg hle, if_neg hle]
        have hd : (r.drop B).length = r.length - B := List.length_drop _ _
        rw [ih f2 (q + B) (r.drop B) (by omega) (by omega)]

theorem chunks_short (B q : Nat) (r : List Nat) (hne : r ≠ []) (hle : r.length ≤ B) :
    chunks B r.length q r = [(q, r)] := by
  cases hl : r.length with
  | zero => exact absurd (List.eq_nil_of_length_eq_zero hl) hne
  | succ n =>
    rw [chunks, if_pos (by omega), if_neg hne]

theorem chunks_long (B q : Nat) (a r : List Nat) (ha : a.length = B) (hB : 0 < B)
    (hne : r ≠ []) :
    chunks B (a ++ r).length q (a ++ r) = (q, a) :: chunks B r.length (q + B) r := by
  have hpos : 0 < r.length := List.length_pos.2 hne
  have hl : (a ++ r).length = (B + r.length - 1) + 1 := by
    rw [List.length_append, ha]; omega
  rw [hl, chunks, if_neg (by rw [List.length_append, ha]; omega)]
  have e1 : (a ++ r).take B = a := by rw [← ha]; exact List.take_left _ _
  have e2 : (a ++ r).drop B = r := by rw [← ha]; exact List.drop_left _ _
  rw [e1, e2, chunks_fuel B hB (B + r.length - 1) r.length (q + B) r (by omega)
    (Nat.le_refl _)]

theorem pieces_nil (B p : Nat) : pieces B p [] = [] := rfl

theorem pieces_ctl_append (B : Nat) (cs s : List Nat) (p : Nat)
    (hcs : ∀ c ∈ cs, is_rec c = false) :
    pieces B p (cs ++ s) = pieces B (p + cs.length) s := by
  unfold pieces
  rw [runs_ctl_append cs s p hcs]

/-- A record that fits the buffer is one piece. -/
theorem pieces_run_append (B : Nat) (r rest : List Nat) (p : Nat) (hne : r ≠ [])
    (hr : ∀ c ∈ r, is_rec c = true) (hle : r.length ≤ B)
    (hrest : ∀ c, rest.head? = some c → is_rec c = false) :
    pieces B p (r ++ rest) = (p, r) :: pieces B (p + r.length) rest := by
  unfold pieces
  rw [runs_run_append r rest p hne hr hrest, List.flatMap_cons]
  dsimp only
  rw [chunks_short B p r hne hle]
  rfl

/-- The first `B` bytes of a longer record are one piece, and the pieces go on right
behind them. -/
theorem pieces_chunk (B : Nat) (a : List Nat) (c : Nat) (t : List Nat) (p : Nat)
    (ha : a.length = B) (hB : 0 < B) (hr : ∀ x ∈ a, is_rec x = true)
    (hc : is_rec c = true) :
    pieces B p (a ++ c :: t) = (p, a) :: pieces B (p + B) (c :: t) := by
  have hane : a ≠ [] := by
    intro h
    rw [h] at ha
    simp at ha
    omega
  obtain ⟨r, hrdef⟩ : ∃ r, r = (c :: t).takeWhile is_rec := ⟨_, rfl⟩
  obtain ⟨rest, hrestdef⟩ : ∃ rest, rest = (c :: t).dropWhile is_rec := ⟨_, rfl⟩
  have hsplit : c :: t = r ++ rest := by
    rw [hrdef, hrestdef, List.takeWhile_append_dropWhile]
  have hrne : r ≠ [] := by
    rw [hrdef, List.takeWhile_cons, if_pos hc]
    exact List.cons_ne_nil _ _
  have hrr : ∀ x ∈ r, is_rec x = true := by
    intro x hx
    rw [hrdef] at hx
    exact List.mem_takeWhile_imp hx
  have hrest : ∀ x, rest.head? = some x → is_rec x = false := by
    intro x hx
    have := List.head?_dropWhile_not is_rec (c :: t)
    rw [← hrestdef, hx] at this
    simpa using this
  have har : ∀ x ∈ a ++ r, is_rec x = true := by
    intro x hx
    rcases List.mem_append.1 hx with h | h
    · exact hr x h
    · exact hrr x h
  unfold pieces
  rw [hsplit, ← List.append_assoc,
    runs_run_append (a ++ r) rest p (by simp [hane]) har hrest,
    runs_run_append r rest (p + B) hrne hrr hrest, List.flatMap_cons, List.flatMap_cons]
  dsimp only
  rw [chunks_long B p a r ha hB hrne, List.cons_append, List.length_append, ha,
    Nat.add_assoc]

theorem chunks_mem (B : Nat) (hB : 0 < B) : ∀ (fuel q : Nat) (r : List Nat),
    ∀ y ∈ chunks B fuel q r, q ≤ y.1 ∧ y.2 ≠ [] ∧ y.2.length ≤ B := by
  intro fuel
  induction fuel with
  | zero => intro q r y hy; simp [chunks] at hy
  | succ fuel ih =>
    intro q r y hy
    rw [chunks] at hy
    by_cases hle : r.length ≤ B
    · rw [if_pos hle] at hy
      by_cases hr : r = []
      · rw [if_pos hr] at hy
        simp at hy
      · rw [if_neg hr] at hy
        simp only [List.mem_singleton] at hy
        subst hy
        exact ⟨Nat.le_refl _, hr, hle⟩
    · rw [if_neg hle] at hy
      rcases List.mem_cons.1 hy with h | h
      · subst h
        refine ⟨Nat.le_refl _, ?_, ?_⟩
        · intro h0
          have := congrArg List.length h0
          simp only [List.length_take, List.length_nil] at this
          omega
        · simp only [List.length_take]
          omega
      · have := ih (q + B) (r.drop B) y h
        exact ⟨by omega, this.2.1, this.2.2⟩

/-- A piece starts at or after the start of the content, is not empty and fits the
buffer. -/
theorem pieces_mem (B : Nat) (hB : 0 < B) (p : Nat) (s : List Nat) :
    ∀ y ∈ pieces B p s, p ≤ y.1 ∧ y.2 ≠ [] ∧ y.2.length ≤ B := by
  intro y hy
  unfold pieces at hy
  obtain ⟨x, hx, hyx⟩ := List.mem_flatMap.1 hy
  have h1 := (runs_bounds p s x hx).1
  have h2 := chunks_mem B hB _ _ _ y hyx
  exact ⟨by omega, h2.2.1, h2.2.2⟩

/-- When no record is longer than the buffer the pieces are the records. -/
theorem pieces_eq_runs (B : Nat) (p : Nat) (s : List Nat)
    (h : ∀ x ∈ runs p s, x.2.length ≤ B) : pieces B p s = runs p s := by
  unfold pieces
  generalize hxs : runs p s = xs at h
  have hne : ∀ x ∈ xs, x.2 ≠ [] := by
    intro x hx
    rw [← hxs] at hx
    exact runs_ne_nil p s x hx
  clear hxs
  induction xs with
  | nil => rfl
  | cons x xs ih =>
    rw [List.flatMap_cons, chunks_short B x.1 x.2 (hne x (List.mem_cons_self _ _))
      (h x (List.mem_cons_self _ _)),
      ih (fun y hy => h y (List.mem_cons_of_mem _ hy))
        (fun y hy => hne y (List.mem_cons_of_mem _ hy))]
    rfl

/-! ## `LineIter::next` on any bank that ends at a record boundary -/

theorem LineIter.pieces_post_transfer {B : Nat} {it it1 : LineIter} {h h1 : File}
    {out : List Nat} {res : LineIdImpl × List Nat × LineIter × File}
    (pre0 : List (Nat × List Nat)) (hd : h1.data = h.data)
    (hruns : pieces B (it.pos h) (h.data.drop (it.pos h))
      = pre0 ++ pieces B (it1.pos h1) (h.data.drop (it1.pos h1)))
    (hdead : ∀ x ∈ pre0, live x = false)
    (hpost : LineIter.pieces_post B it1 h1 out res) : LineIter.pieces_post B it h out res := by
  obtain ⟨hdata, hbl, hcase⟩ := hpost
  refine ⟨hdata.trans hd, hbl, ?_⟩
  rw [hd] at hcase
  rcases hcase with ⟨hnull, hout, hall⟩ | ⟨pre, q, r, hr, hpre, hlive, hid, hout, hinv, hpos⟩
  · left
    refine ⟨hnull, hout, ?_⟩
    intro x hx
    rw [hruns] at hx
    rcases List.mem_append.1 hx with hx | hx
    · exact hdead x hx
    · exact hall x hx
  · right
    refine ⟨pre0 ++ pre, q, r, ?_, ?_, hlive, hid, hout, hinv, hpos⟩
    · rw [hruns, hr, List.append_assoc]
    · intro x hx
      rcases List.mem_append.1 hx with hx | hx
      · exact hdead x hx
      · exact hpre x hx

theorem LineIter.next_loop_body_pieces (B fuel : Nat) (hB : 0 < B)
    (ih : ∀ (it : LineIter) (h : File) (out : List Nat), LineIter.Inv B it h →
        ends_ok (h.data.drop (it.pos h)) →
        2 * it.m_file_iter.m_remaining + it.m_remaining < fuel →
        ∃ res, LineIter.next_loop fuel it h out = some res ∧
          LineIter.pieces_post B it h out res)
    (it : LineIter) (h : File) (out : List Nat) (hI : LineIter.Inv B it h)
    (hwf : ends_ok (h.data.drop (it.pos h))) (hrem : it.m_remaining ≠ 0)
    (hfuel : 2 * it.m_file_iter.m_remaining + it.m_remaining < fuel + 1) :
    ∃ res, LineIter.next_loop (fuel + 1) it h out = some res ∧
      LineIter.pieces_post B it h out res := by
  obtain ⟨W, hWdef⟩ : ∃ W, W = (it.m_file_iter.m_buffer.take it.m_file_iter.m_buffer_size).drop
      (it.m_file_iter.m_buffer_size - it.m_remaining) := ⟨_, rfl⟩
  obtain ⟨cs, r, W2, hW, hcs, hr, hcs_ctl, hr_rec, hW2, hrne⟩ := window_split W
  have hWlen : W.length = it.m_remaining := by rw [hWdef]; exact hI.window_length
  have hdrop : h.data.drop (it.pos h) = W ++ h.data.drop h.ptr := by
    rw [hWdef]; exact hI.drop_pos
  have hlen : cs.length + r.length + W2.length = it.m_remaining := by
    rw [← hWlen, hW]; simp only [List.length_append]; omega
  have hsz := hI.size_le
  have hbl := hI.buf_len
  have hrl := hI.rem_le
  have hrp := hI.rem_le_ptr
  have hpl := hI.ptr_le
  have hfr := hI.frem
  have hpos : it.pos h = h.ptr - it.m_remaining := rfl
  rw [LineIter.next_loop_body_eq fuel it h out hrem W cs.length r.length hWdef
    (by rw [← hcs]) (by rw [← hr])]
  by_cases hstr : it.m_file_iter.m_buffer_size - it.m_remaining + cs.length + r.length
      = it.m_file_iter.m_buffer_size ∧
      it.m_file_iter.m_buffer_size - it.m_remaining + cs.length ≠ 0
  · -- the record may go on past the end of the buffer: refetch with rollback
    rw [if_pos hstr]
    have hW2nil : W2 = [] := by
      apply List.eq_nil_of_length_eq_zero; omega
    subst hW2nil
    rw [List.append_nil] at hW
    have hImid := hI.advance cs.length (by omega)
    have hruns_skip : pieces B (it.pos h) (h.data.drop (it.pos h))
        = pieces B (it.pos h + cs.length) (h.data.drop (it.pos h + cs.length)) := by
      have e : h.data.drop (it.pos h + cs.length) = r ++ h.data.drop h.ptr := by
        rw [← List.drop_drop, hdrop, hW, List.append_assoc, List.drop_left]
      rw [e, hdrop, hW, List.append_assoc, pieces_ctl_append B cs _ _ hcs_ctl]
    by_cases hf0 : it.m_file_iter.m_remaining = 0
    · -- nothing left in the file
      obtain ⟨-, hh1, hrem1, hfrem1, hIe⟩ := LineIter.provision_eof_spec hImid hf0
      rw [hh1]
      set it1 := (LineIter.provision { it with m_remaining := it.m_remaining - cs.length } h).2.1
      have hptr : h.ptr = h.data.length := by omega
      have hpos1 : it1.pos h = h.data.length := by
        show h.ptr - it1.m_remaining = _
        rw [hrem1]; omega
      have hnil : h.data.drop (h.data.length) = [] := List.drop_length _
      obtain ⟨res, hres, hpost⟩ := ih it1 h out hIe
        (by rw [hpos1, hnil]; intro b hb; simp at hb)
        (by rw [hrem1, hfrem1]; omega)
      refine ⟨res, hres, ?_⟩
      have hfnil : h.data.drop h.ptr = [] := by rw [hptr]; exact hnil
      have hrnil : r = [] := by
        by_contra hne
        have h2 : (h.data.drop (it.pos h)).getLast? = some (r.getLast hne) := by
          rw [hdrop, hW, hfnil, List.append_nil, List.getLast?_append_of_ne_nil _ hne,
            List.getLast?_eq_getLast _ hne]
        have h3 := hwf _ h2
        have h4 := hr_rec _ (List.getLast_mem hne)
        simp only [is_rec, decide_eq_true_eq] at h4
        omega
      have hall : pieces B (it.pos h) (h.data.drop (it.pos h)) = [] := by
        rw [hdrop, hW, hrnil, hfnil, List.append_nil, List.append_nil]
        have := pieces_ctl_append B cs [] (it.pos h) hcs_ctl
        rw [List.append_nil] at this
        rw [this]; rfl
      refine LineIter.pieces_post_transfer [] rfl ?_ (by simp) hpost
      rw [hall, hpos1, hnil]; rfl
    · -- read on, keeping the partial record
      obtain ⟨hgo, hrem1, hfrem1, hdata1, hptr1, hI1⟩ := LineIter.provision_read hImid hf0
      dsimp only at hgo hrem1 hfrem1 hptr1
      set it1 := (LineIter.provision { it with m_remaining := it.m_remaining - cs.length } h).2.1
      set h1 := (LineIter.provision { it with m_remaining := it.m_remaining - cs.length } h).2.2
      have hpos1 : it1.pos h1 = it.pos h + cs.length := by
        show h1.ptr - it1.m_remaining = _
        rw [hptr1, hrem1, hpos]; omega
      obtain ⟨res, hres, hpost⟩ := ih it1 h1 out hI1
        (by rw [hdata1, hpos1]
            exact ends_ok_drop_mono _ _ _ hwf (by omega))
        (by rw [hfrem1, hrem1]; omega)
      refine ⟨res, hres, ?_⟩
      refine LineIter.pieces_post_transfer [] hdata1 ?_ (by simp) hpost
      rw [hpos1, List.nil_append]; exact hruns_skip
  · -- the record ends inside the buffer, or fills it from its first byte
    rw [if_neg hstr]
    have hklt : cs.length < W.length := by
      by_contra hge
      apply hstr
      constructor <;> omega
    have hrne1 : r ≠ [] := hrne hklt
    obtain ⟨a, r1, har⟩ := List.exists_cons_of_ne_nil hrne1
    have ha : is_rec a = true := hr_rec a (by rw [har]; exact List.mem_cons_self _ _)
    have hrB : r.length ≤ B := by omega
    have hdrop2 : h.data.drop (it.pos h + cs.length + r.length) = W2 ++ h.data.drop h.ptr := by
      rw [Nat.add_assoc, ← List.drop_drop, hdrop, hW]
      have e : cs ++ (r ++ W2) ++ h.data.drop h.ptr
          = (cs ++ r) ++ (W2 ++ h.data.drop h.ptr) := by simp
      rw [e, ← List.length_append, List.drop_left]
    have hruns : pieces B (it.pos h) (h.data.drop (it.pos h))
        = (it.pos h + cs.length, r)
          :: pieces B (it.pos h + cs.length + r.length)
               (h.data.drop (it.pos h + cs.length + r.length)) := by
      rw [hdrop2, hdrop, hW]
      have e : cs ++ (r ++ W2) ++ h.data.drop h.ptr
          = cs ++ (r ++ (W2 ++ h.data.drop h.ptr)) := by simp
      rw [e, pieces_ctl_append B cs _ _ hcs_ctl]
      cases hrest : W2 ++ h.data.drop h.ptr with
      | nil =>
        exact pieces_run_append B r [] _ hrne1 hr_rec hrB (by intro c hc; simp at hc)
      | cons c t =>
        by_cases hc : is_rec c = true
        · -- the record goes on behind a full buffer: a piece of `B` bytes
          have hW2c : W2 = [] := by
            cases hW2c : W2 with
            | nil => rfl
            | cons w W3 =>
              exfalso
              rw [hW2c, List.cons_append] at hrest
              have hwc : w = c := (List.cons.inj hrest).1
              have := hW2 w (by rw [hW2c]; rfl)
              rw [hwc, hc] at this
              exact absurd this (by decide)
          rw [hW2c, List.nil_append] at hrest
          rw [hW2c] at hlen
          simp only [List.length_nil, Nat.add_zero] at hlen
          have hk0 : cs.length = 0 := by
            by_contra hk
            apply hstr
            constructor <;> omega
          have hsize : it.m_file_iter.m_buffer_size = it.m_remaining := by
            by_contra hk
            apply hstr
            constructor <;> omega
          have hfne : it.m_file_iter.m_remaining ≠ 0 := by
            have : (h.data.drop h.ptr).length = h.data.length - h.ptr := List.length_drop _ _
            rw [hrest] at this
            simp only [List.length_cons] at this
            omega
          have hBsz : it.m_file_iter.m_buffer_size = B := by
            rcases hI.cap with hc0 | hc0
            · exact absurd hc0 hfne
            · exact hc0
          have hrlen : r.length = B := by omega
          have := pieces_chunk B r c t (it.pos h + cs.length) hrlen hB hr_rec hc
          rw [this, hrlen]
        · exact pieces_run_append B r (c :: t) _ hrne1 hr_rec hrB
            (by intro d hd
                simp only [List.head?_cons, Option.some.injEq] at hd
                rw [← hd]
                simpa using hc)
    have hI2 : LineIter.Inv B { it with m_remaining := it.m_remaining - cs.length - r.length } h := by
      have := hI.advance (cs.length + r.length) (by omega)
      rw [Nat.sub_add_eq] at this
      exact this
    have hpos2 : LineIter.pos { it with m_remaining := it.m_remaining - cs.length - r.length } h
        = it.pos h + cs.length + r.length := by
      show h.ptr - (it.m_remaining - cs.length - r.length) = _
      rw [hpos]; omega
    have hWdrop : W.drop cs.length = r ++ W2 := by
      rw [hW, List.drop_left]
    have hbufdrop : (it.m_file_iter.m_buffer.drop
        (it.m_file_iter.m_buffer_size - it.m_remaining + cs.length)).take
          (it.m_remaining - cs.length) = r ++ W2 := by
      rw [← hWdrop, hWdef, List.drop_drop, List.drop_take]
      congr 1
      omega
    have hslice : (it.m_file_iter.m_buffer.take
          (it.m_file_iter.m_buffer_size - it.m_remaining + cs.length + r.length)).drop
          (it.m_file_iter.m_buffer_size - it.m_remaining + cs.length) = r := by
      rw [List.drop_take, Nat.add_sub_cancel_left]
      have : (r ++ W2).take r.length = r := List.take_left _ _
      rw [← hbufdrop, List.take_take, Nat.min_eq_left (by omega)] at this
      exact this
    have hget : it.m_file_iter.m_buffer.getD
        (it.m_file_iter.m_buffer_size - it.m_remaining + cs.length) 0 = a := by
      have h1 : (it.m_file_iter.m_buffer.drop
          (it.m_file_iter.m_buffer_size - it.m_remaining + cs.length)).head? = some a := by
        have := congrArg List.head? hbufdrop
        rw [har] at this
        simp only [List.cons_append, List.head?_cons] at this
        rw [List.head?_take, if_neg (by omega)] at this
        exact this
      rw [List.head?_drop] at h1
      rw [List.getD_eq_getElem?_getD, h1]; rfl
    rw [hget, hslice]
    by_cases htomb : a = 0x7C
    · -- a tombstone: go on behind it
      rw [if_pos htomb]
      obtain ⟨res, hres, hpost⟩ := ih _ h out hI2
        (by
          rw [hpos2]
          exact ends_ok_drop_mono _ _ _ hwf (by omega))
        (by dsimp only; have : r.length ≠ 0 := by rw [har]; simp
            omega)
      refine ⟨res, hres, ?_⟩
      refine LineIter.pieces_post_transfer [(it.pos h + cs.length, r)] rfl ?_ ?_ hpost
      · rw [hpos2, hruns]; rfl
      · intro x hx
        simp only [List.mem_singleton] at hx
        subst hx
        simp [live, har, htomb]
    · -- a live piece
      rw [if_neg htomb]
      refine ⟨_, rfl, ?_⟩
      refine ⟨rfl, hI2.buf_len,
        Or.inr ⟨[], it.pos h + cs.length, r, ?_, by simp, ?_, ?_, rfl, hI2, ?_⟩⟩
      · rw [List.nil_append, hruns]
      · simp [live, har, htomb]
      · apply of_offset_congr
        have hoff := hI.off
        have e1 : it.m_file_iter.m_buffer_offset
            + (it.m_file_iter.m_buffer_size - it.m_remaining + cs.length) + it.m_remaining
            = (it.m_file_iter.m_buffer_offset + it.m_file_iter.m_buffer_size) + cs.length := by
          omega
        have e2 : it.pos h + cs.length + it.m_remaining = h.ptr + cs.length := by
          rw [hpos]; omega
        have e3 : (it.m_file_iter.m_buffer_offset
            + (it.m_file_iter.m_buffer_size - it.m_remaining + cs.length) + it.m_remaining)
              % 2 ^ 32 = (it.pos h + cs.length + it.m_remaining) % 2 ^ 32 := by
          rw [e1, e2, Nat.add_mod, hoff, ← Nat.add_mod]
        exact Nat.ModEq.add_right_cancel' _ e3
      · exact hpos2

/-- The loop of `LineIter::next`, with a buffer of at least one byte on a file that ends
at a record boundary, ends within its fuel and delivers the next live piece of the file,
or the null id when there is none. -/
theorem LineIter.next_loop_pieces (B : Nat) (hB : 0 < B) : ∀ (fuel : Nat) (it : LineIter)
    (h : File) (out : List Nat), LineIter.Inv B it h → ends_ok (h.data.drop (it.pos h)) →
    2 * it.m_file_iter.m_remaining + it.m_remaining < fuel →
    ∃ res, LineIter.next_loop fuel it h out = some res ∧
      LineIter.pieces_post B it h out res := by
  intro fuel
  induction fuel with
  | zero => intro it h out _ _ hf; omega
  | succ fuel ih =>
    intro it h out hI hwf hfuel
    by_cases hrem : it.m_remaining = 0
    · have hpos : it.pos h = h.ptr := by
        show h.ptr - it.m_remaining = _
        omega
      by_cases hf0 : it.m_file_iter.m_remaining = 0
      · obtain ⟨hgo, hh1, -, -, hIe⟩ := LineIter.provision_eof_spec hI hf0
        rw [LineIter.next_loop_stop fuel it h out hrem hgo]
        refine ⟨_, rfl, ?_, hIe.buf_len, Or.inl ⟨rfl, rfl, ?_⟩⟩
        · show (it.provision h).2.2.data = h.data
          rw [hh1]
        · have hfr := hI.frem
          have hpl := hI.ptr_le
          have : h.data.drop (it.pos h) = [] := by
            apply List.drop_eq_nil_of_le
            rw [hpos]; omega
          rw [this]
          intro x hx
          simp [pieces_nil] at hx
      · obtain ⟨hgo, hrem1, hfrem1, hdata1, hptr1, hI1⟩ := LineIter.provision_read hI hf0
        simp only [hrem, Nat.sub_zero, Nat.add_zero] at hgo hrem1 hfrem1 hptr1
        have hn : min it.m_file_iter.m_remaining it.m_file_iter.m_buffer_size ≠ 0 := by
          have hBsz : it.m_file_iter.m_buffer_size = B := by
            rcases hI.cap with hc | hc
            · exact absurd hc hf0
            · exact hc
          rw [hBsz]
          omega
        have hgo1 : (it.provision h).1 = true := by
          rw [hgo]; simpa using hn
        have hrem1ne : (it.provision h).2.1.m_remaining ≠ 0 := by rw [hrem1]; exact hn
        rw [LineIter.next_loop_refill fuel it h out hrem hgo1 hrem1ne]
        have hpos1 : (it.provision h).2.1.pos (it.provision h).2.2 = it.pos h := by
          show (it.provision h).2.2.ptr - (it.provision h).2.1.m_remaining = _
          rw [hptr1, hrem1, hpos]; omega
        obtain ⟨res, hres, hpost⟩ := LineIter.next_loop_body_pieces B fuel hB ih
          (it.provision h).2.1 (it.provision h).2.2 out hI1
          (by rw [hdata1, hpos1]; exact hwf) hrem1ne
          (by rw [hfrem1, hrem1]; omega)
        refine ⟨res, hres, ?_⟩
        refine LineIter.pieces_post_transfer [] hdata1 ?_ (by simp) hpost
        rw [hpos1]; rfl
    · exact LineIter.next_loop_body_pieces B fuel hB ih it h out hI hwf hrem hfuel

/-- The method `LineIter::next` returns, with the next live piece or the null id. -/
theorem LineIter.next_pieces (B : Nat) (hB : 0 < B) (it : LineIter) (h : File)
    (out : List Nat) (hI : LineIter.Inv B it h) (hwf : ends_ok (h.data.drop (it.pos h))) :
    ∃ res, it.next h out = some res ∧ LineIter.pieces_post B it h out res :=
  LineIter.next_loop_pieces B hB _ it h out hI hwf (by omega)

/-- The consequences of `pieces_post` in the shape the callers of `LineIter::next` use. -/
theorem LineIter.pieces_post_cases {B : Nat} (hB : 0 < B) {it : LineIter} {h : File}
    {out : List Nat} {res : LineIdImpl × List Nat × LineIter × File}
    (hwf : ends_ok (h.data.drop (it.pos h))) (hpost : LineIter.pieces_post B it h out res) :
    res.2.2.2.data = h.data ∧ res.2.2.1.m_file_iter.m_buffer.length = B ∧
    ((res.1 = LineIdImpl.null ∧ res.2.1 = out ∧
        (pieces B (it.pos h) (h.data.drop (it.pos h))).filter live = []) ∨
     (∃ q r,
        (pieces B (it.pos h) (h.data.drop (it.pos h))).filter live
          = (q, r) :: (pieces B (res.2.2.1.pos res.2.2.2)
              (h.data.drop (res.2.2.1.pos res.2.2.2))).filter live ∧
        res.1 = LineIdImpl.of_offset q ∧ res.2.1 = r ∧
        LineIter.Inv B res.2.2.1 res.2.2.2 ∧
        ends_ok (h.data.drop (res.2.2.1.pos res.2.2.2)) ∧
        res.2.2.1.pos res.2.2.2 = q + r.length ∧
        it.pos h ≤ q ∧ q + r.length ≤ h.data.length ∧ r ≠ [] ∧ r.length ≤ B ∧
        live (q, r) = true)) := by
  obtain ⟨hdata, hbl, hcase⟩ := hpost
  refine ⟨hdata, hbl, ?_⟩
  rcases hcase with ⟨hnull, hout, hall⟩ | ⟨pre, q, r, hr, hpre, hlive, hid, hout, hinv, hpos⟩
  · left
    refine ⟨hnull, hout, ?_⟩
    rw [List.filter_eq_nil_iff]
    intro x hx
    rw [hall x hx]; simp
  · right
    have hmem : (q, r) ∈ pieces B (it.pos h) (h.data.drop (it.pos h)) := by
      rw [hr]; exact List.mem_append_right _ (List.mem_cons_self _ _)
    obtain ⟨hb1, hne, hle⟩ := pieces_mem B hB _ _ _ hmem
    dsimp only at hb1 hne hle
    have hq2 : q + r.length ≤ h.data.length := by
      have h1 := hinv.rem_le_ptr
      have h2 := hinv.ptr_le
      have h3 : res.2.2.1.pos res.2.2.2 = res.2.2.2.ptr - res.2.2.1.m_remaining := rfl
      rw [hdata] at h2
      omega
    refine ⟨q, r, ?_, hid, hout, hinv, ?_, hpos, hb1, hq2, hne, hle, hlive⟩
    · rw [hr, List.filter_append, List.filter_cons, if_pos hlive, hpos]
      have : pre.filter live = [] := by
        rw [List.filter_eq_nil_iff]
        intro x hx
        rw [hpre x hx]; simp
      rw [this, List.nil_append]
    · rw [hpos]
      exact ends_ok_drop_mono _ _ _ hwf (by omega)

/-- Draining a line iterator on a file that ends at a record boundary yields the live
pieces of the file, with their offsets. -/
theorem LineIter.drain_pieces (B : Nat) (hB : 0 < B) : ∀ (fuel : Nat) (it : LineIter)
    (h : File) (out : List Nat), LineIter.Inv B it h → ends_ok (h.data.drop (it.pos h)) →
    h.data.length < 2 ^ 29 → h.data.length - it.pos h < fuel →
    LineIter.drain fuel it h out
      = some (((pieces B (it.pos h) (h.data.drop (it.pos h))).filter live).map line_id) := by
  intro fuel
  induction fuel with
  | zero => intro it h out _ _ _ hf; omega
  | succ fuel ih =>
    intro it h out hI hwf hlen hfuel
    obtain ⟨res, hres, hpost⟩ := LineIter.next_pieces B hB it h out hI hwf
    obtain ⟨hdata, -, hcase⟩ := LineIter.pieces_post_cases hB hwf hpost
    obtain ⟨id, out1, it1, h1⟩ := res
    dsimp only at hdata hcase
    rw [LineIter.drain, hres]
    dsimp only
    rcases hcase with ⟨hnull, -, hnone⟩ | ⟨q, r, hsplit, hid, hout, hI1, hwf1, hpos1, hq1, hq2, hne, -, -⟩
    · rw [hnull, to_bool_null, hnone]
      rfl
    · have hrl : r.length ≠ 0 := fun h0 => hne (List.eq_nil_of_length_eq_zero h0)
      rw [hid, to_bool_of_offset, if_neg (by simp)]
      rw [ih it1 h1 out1 hI1 (by rw [hdata]; exact hwf1) (by rw [hdata]; exact hlen)
        (by rw [hdata, hpos1]; omega)]
      rw [hsplit, hdata, hout, of_offset_eq q (by omega)]
      rfl

/-- C17 (amended): for every bank content that is empty or ends with a byte of at most
`0x1f` and is shorter than `2 ^ 29` bytes, and every buffer of at least one byte,
repeated `LineIter::next` returns, and yields every maximal run of record bytes in
consecutive pieces of `B` bytes (`B` the size of the buffer), the last piece possibly
shorter, each piece of its own as a record with the offset of its first byte, except the
pieces whose first byte is `|`; so a run longer than `B` is not truncated: its bytes
beyond the first `B` are yielded as further records. -/
theorem C17_overlong_records_in_pieces (buffer f out : List Nat) (ptr : Nat)
    (hB : 0 < buffer.length) (hend : ends_ok f) (hlen : f.length < 2 ^ 29) :
    LineIter.drain (f.length + 1) (LineIter.init { data := f, ptr := ptr } buffer).1
        (LineIter.init { data := f, ptr := ptr } buffer).2 out
      = some (((pieces buffer.length 0 f).filter live).map line_id) := by
  obtain ⟨hI, hdata, hpos⟩ := LineIter.init_spec { data := f, ptr := ptr } buffer
    (by show f.length < 2 ^ 32; omega)
  have := LineIter.drain_pieces buffer.length hB (f.length + 1) _ _ out hI
    (by rw [hdata, hpos]; exact hend) (by rw [hdata]; exact hlen)
    (by rw [hdata, hpos]; show f.length - 0 < f.length + 1; omega)
  rw [hdata, hpos] at this
  exact this

/-- C17 (amended) on the bank `abcdef\n` read through a buffer of 4 bytes: the pieces are
`abcd` at offset 0 and `ef` at offset 4. -/
theorem C17_overlong_records_in_pieces_witness :
    LineIter.drain ([97, 98, 99, 100, 101, 102, 10].length + 1)
        (LineIter.init { data := [97, 98, 99, 100, 101, 102, 10], ptr := 0 } [0, 0, 0, 0]).1
        (LineIter.init { data := [97, 98, 99, 100, 101, 102, 10], ptr := 0 } [0, 0, 0, 0]).2 []
      = some (((pieces [0, 0, 0, 0].length 0 [97, 98, 99, 100, 101, 102, 10]).filter live).map
          line_id) :=
  C17_overlong_records_in_pieces [0, 0, 0, 0] [97, 98, 99, 100, 101, 102, 10] [] 0
    (by decide) (by intro b hb; simp at hb; omega) (by norm_num)

/-- C17 as stated fails: on the bank `abcdef\n`, whose record `abcdef` is longer than the
buffer of 4 bytes, the line iterator yields two records, `abcd` with offset 0 and then
`ef` with offset 4; the bytes beyond the first 4 are yielded as a further record. -/
theorem C17_counterexample :
    LineIter.drain 8
        (LineIter.init { data := [97, 98, 99, 100, 101, 102, 10], ptr := 0 } [0, 0, 0, 0]).1
        (LineIter.init { data := [97, 98, 99, 100, 101, 102, 10], ptr := 0 } [0, 0, 0, 0]).2 []
      = some [({ offset := 0, bank_index := 0, active := 1 }, [97, 98, 99, 100]),
              ({ offset := 4, bank_index := 0, active := 1 }, [101, 102])] := by
  decide

/-! ## A record one byte longer than `max_line_length` -/

theorem replicate_rec (n : Nat) : ∀ c ∈ List.replicate n 97, is_rec c = true := by
  intro c hc
  rw [List.eq_of_mem_replicate hc]
  decide

theorem live_replicate (q n : Nat) : live (q, List.replicate (n + 1) 97) = true := by
  unfold live
  rw [List.replicate_succ]
  rfl

theorem ends_ok_append_newline (r : List Nat) : ends_ok (r ++ [0x0A]) := by
  intro b hb
  rw [List.getLast?_append_of_ne_nil _ (List.cons_ne_nil _ _)] at hb
  simp only [List.getLast?_singleton, Option.some.injEq] at hb
  omega

/-- The bank that holds one record of `n + 1` letters `a`: it is well formed for scan
buffers of at least `n + 1` bytes, and the record is its only line. -/
theorem bank_replicate (n B : Nat) (hB : n + 1 ≤ B) (hn : n + 2 < 2 ^ 29) :
    bank_ok B (List.replicate (n + 1) 97 ++ [0x0A]) ∧
      records (List.replicate (n + 1) 97 ++ [0x0A]) = [(0, List.replicate (n + 1) 97)] := by
  have hruns : runs 0 (List.replicate (n + 1) 97 ++ [0x0A])
      = [(0, List.replicate (n + 1) 97)] :=
    runs_line 0 _ (by rw [List.replicate_succ]; exact List.cons_ne_nil _ _)
      (replicate_rec (n + 1))
  refine ⟨⟨ends_ok_append_newline _, ?_, ?_⟩, ?_⟩
  · intro x hx
    rw [hruns] at hx
    simp only [List.mem_singleton] at hx
    subst hx
    dsimp only
    rw [List.length_replicate]
    exact hB
  · rw [List.length_append, List.length_replicate, List.length_singleton]
    exact hn
  · unfold records
    rw [hruns, List.filter_cons, if_pos (live_replicate 0 n)]
    rfl

/-- On the bank that holds one record of `B + 1` letters `a`, `ReadLock::find` with a
buffer of `B` bytes does not find the record: the line iterator hands it over in two
pieces, of `B` bytes and of one byte. -/
theorem ReadLock.find_overlong (B ptr : Nat) (hB : 0 < B) (hlen : B + 2 < 2 ^ 29) :
    ∃ h1, ReadLock.find B { data := List.replicate (B + 1) 97 ++ [0x0A], ptr := ptr }
        (List.replicate (B + 1) 97) = some (LineIdImpl.null, h1) ∧
      h1.data = List.replicate (B + 1) 97 ++ [0x0A] := by
  obtain ⟨f, hf⟩ : ∃ f, f = List.replicate (B + 1) 97 ++ [0x0A] := ⟨_, rfl⟩
  obtain ⟨line, hline⟩ : ∃ line, line = List.replicate (B + 1) 97 := ⟨_, rfl⟩
  rw [← hf, ← hline]
  have hflen : f.length = B + 2 := by
    rw [hf, List.length_append, List.length_replicate, List.length_singleton]
  have hfsplit : f = List.replicate B 97 ++ 97 :: [0x0A] := by
    rw [hf, List.replicate_succ', List.append_assoc]
    rfl
  have hl : ∀ c ∈ line, c ≠ 0 := by
    intro c hc
    rw [hline] at hc
    exact is_rec_ne_zero c (replicate_rec _ c hc)
  -- the pieces of the bank
  have hp2 : pieces B B (97 :: [0x0A]) = [(B, [97])] := by
    have := pieces_run_append B [97] [0x0A] B (by simp) (by intro c hc; simp at hc; subst hc; decide)
      (by simpa using hB) (by intro c hc; simp at hc; subst hc; decide)
    rw [show ([97] : List Nat) ++ [0x0A] = 97 :: [0x0A] from rfl] at this
    rw [this]
    rfl
  have hp : pieces B 0 f = [(0, List.replicate B 97), (B, [97])] := by
    rw [hfsplit, pieces_chunk B (List.replicate B 97) 97 [0x0A] 0 (List.length_replicate _ _)
      hB (replicate_rec B) (by decide), Nat.zero_add, hp2]
  have hlive1 : live (0, List.replicate B 97) = true := by
    obtain ⟨k, hk⟩ : ∃ k, B = k + 1 := ⟨B - 1, by omega⟩
    rw [hk]
    exact live_replicate 0 k
  -- the first call of `LineIter::next`
  obtain ⟨hI, hdata, hpos⟩ := LineIter.init_spec { data := f, ptr := ptr }
    (List.replicate B 0) (by show f.length < 2 ^ 32; omega)
  rw [List.length_replicate] at hI
  have hdata' : (LineIter.init { data := f, ptr := ptr } (List.replicate B 0)).2.data = f :=
    hdata
  obtain ⟨res, hres, hpost⟩ := LineIter.next_pieces B hB _ _ [] hI
    (by rw [hdata', hpos, List.drop_zero, hf]; exact ends_ok_append_newline _)
  obtain ⟨hrd, -, hcase⟩ := LineIter.pieces_post_cases hB
    (by rw [hdata', hpos, List.drop_zero, hf]; exact ends_ok_append_newline _) hpost
  rw [hdata', hpos, List.drop_zero, hp] at hcase
  have hfl : [(0, List.replicate B 97), (B, [97])].filter live
      = [(0, List.replicate B 97), (B, [97])] := by
    rw [List.filter_cons, if_pos hlive1, List.filter_cons, if_pos (by rfl)]
    rfl
  rw [hfl] at hcase
  rcases hcase with ⟨-, -, hnone⟩ | ⟨q, r, hsplit, hid, hout, hI1, -, hpos1, -, -, -, -, -⟩
  · exact absurd hnone (List.cons_ne_nil _ _)
  have hqr : (0, List.replicate B 97) = (q, r) := (List.cons.inj hsplit).1
  have hq : q = 0 := (Prod.mk.inj hqr).1.symm
  have hr : r = List.replicate B 97 := (Prod.mk.inj hqr).2.symm
  obtain ⟨id, read, it1, h1⟩ := res
  dsimp only at hrd hid hout hI1 hpos1
  rw [hq] at hid
  rw [hq, hr, Nat.zero_add, List.length_replicate] at hpos1
  rw [hr] at hout
  rw [hdata'] at hrd
  -- the rest of the scan
  have hdrop : f.drop B = 97 :: [0x0A] := by
    rw [hfsplit]
    have := List.drop_left (List.replicate B 97) (97 :: [0x0A])
    rw [List.length_replicate] at this
    exact this
  have hwf1 : wf_from B h1.data (it1.pos h1) := by
    rw [hrd, hpos1]
    unfold wf_from
    rw [hdrop]
    refine ⟨by intro b hb; simp at hb; omega, ?_⟩
    intro x hx
    have e : runs B (97 :: [0x0A]) = [(B, [97])] := runs_line B [97] (by simp)
      (by intro c hc; simp at hc; subst hc; decide)
    rw [e] at hx
    simp only [List.mem_singleton] at hx
    subst hx
    exact hB
  obtain ⟨h2, hloop, hd2⟩ := ReadLock.find_loop_spec B line
    (fun inner_id _ h => (false, inner_id, h)) (fun _ _ => false)
    (fun q _ => ({ offset := q, bank_index := 0, active := 1 } : LineIdImpl))
    (fun _ d => d) hl (fun q s h _ _ => ⟨rfl, rfl, rfl⟩) (fun _ _ _ => rfl) (fun _ _ _ => rfl)
    (f.length) it1 h1 LineIdImpl.null read hI1 hwf1 (by rw [hrd]; omega)
    (by rw [hrd, hpos1]; omega)
  rw [find_fold_first, hrd, hpos1, hdrop] at hloop hd2
  have e : runs B (97 :: [0x0A]) = [(B, [97])] := runs_line B [97] (by simp)
    (by intro c hc; simp at hc; subst hc; decide)
  have hnomatch : ([(B, [97])].filter live).find? (fun x => decide (x.2 = line)) = none := by
    rw [List.find?_eq_none]
    intro x hx
    have hx1 := (List.mem_filter.1 hx).1
    simp only [List.mem_singleton] at hx1
    subst hx1
    simp only [decide_eq_true_eq]
    intro h97
    have := congrArg List.length h97
    rw [hline, List.length_replicate] at this
    simp at this
    omega
  rw [e, hnomatch] at hloop hd2
  dsimp only at hloop hd2
  refine ⟨h2, ?_, hd2⟩
  -- one turn of the loop of `ReadLock::find`
  unfold ReadLock.find ReadLock.find_cb
  show ReadLock.find_loop line _
      ((LineIter.init { data := f, ptr := ptr } (List.replicate B 0)).2.data.length + 1)
      (LineIter.init { data := f, ptr := ptr } (List.replicate B 0)).1 LineIdImpl.null
      (LineIter.init { data := f, ptr := ptr } (List.replicate B 0)).2 [] = _
  rw [hdata', ReadLock.find_loop, hres]
  dsimp only
  have hcmp : strncmp_ne line read read.length = false := by
    rw [hout]
    rw [strncmp_ne_eq_false_iff (List.replicate B 97)
      (fun c hc => is_rec_ne_zero c (replicate_rec B c hc)) line, hline,
      List.length_replicate, List.take_replicate, Nat.min_eq_left (by omega)]
  have hnul : cstr_at line read.length ≠ 0 := by
    rw [hout, List.length_replicate]
    intro h0
    have := (cstr_at_eq_zero_iff line hl B).1 h0
    rw [hline, List.length_replicate] at this
    omega
  rw [hid, to_bool_of_offset, if_neg (by simp), hcmp, if_neg (by simp), if_pos hnul]
  exact hloop

/-- The method `HistoryDb::find` on a store with the master bank only, when
`ReadLock::find` finds nothing in it. -/
theorem HistoryDb.find_master_none (max_line_length : Nat) (m m1 : File) (line : List Nat)
    (hf : ReadLock.find max_line_length m line = some (LineIdImpl.null, m1)) :
    HistoryDb.find max_line_length { bank_master := some m, bank_session := none } line
      = some (0, { bank_master := some m1, bank_session := none }) := by
  unfold HistoryDb.find HistoryDb.for_each_bank
  rw [HistoryDb.get_bank_count_one, HistoryDb.for_each_bank_loop, HistoryDb.get_bank_master]
  dsimp only
  rw [hf]
  dsimp only
  rw [to_bool_null]
  simp only [Bool.false_eq_true, if_false, HistoryDb.for_each_bank_loop, Option.map_some']
  rfl

theorem bank_replicate_pos (N B : Nat) (hN : 0 < N) (hB : N ≤ B) (hn : N + 1 < 2 ^ 29) :
    bank_ok B (List.replicate N 97 ++ [0x0A]) ∧
      records (List.replicate N 97 ++ [0x0A]) = [(0, List.replicate N 97)] := by
  obtain ⟨n, rfl⟩ : ∃ n, N = n + 1 := ⟨N - 1, by omega⟩
  exact bank_replicate n B hB (by omega)

theorem ReadLock.find_overlong_eq (B N ptr : Nat) (hN : N = B + 1) (hB : 0 < B)
    (hlen : B + 2 < 2 ^ 29) :
    ∃ h1, ReadLock.find B { data := List.replicate N 97 ++ [0x0A], ptr := ptr }
        (List.replicate N 97) = some (LineIdImpl.null, h1) ∧
      h1.data = List.replicate N 97 ++ [0x0A] := by
  subst hN
  exact ReadLock.find_overlong B ptr hB hlen

theorem first_id_singleton (line : List Nat) (v : Nat) : first_id line [(v, line)] = v := by
  simp [first_id]

/-- C5 as stated fails on a store whose master bank holds a record one byte longer than
`max_line_length` = 8192 (`add` stores such a line, it never checks the length):
`read_lines` with a scan buffer of `max_line_length + 1` bytes yields the record whole,
with the id of offset 0 in bank 0, and `find` of these very bytes returns the null id,
because its own buffer of `max_line_length` bytes cuts the record in two pieces. -/
theorem C5_counterexample :
    ∃ db1,
      Iter.drain 2
          (HistoryDb.read_lines
            { bank_master := some { data := List.replicate 8193 97 ++ [0x0A], ptr := 0 },
              bank_session := none } 64 (List.replicate 8257 0)).1
          (HistoryDb.read_lines
            { bank_master := some { data := List.replicate 8193 97 ++ [0x0A], ptr := 0 },
              bank_session := none } 64 (List.replicate 8257 0)).2 []
        = some [(2147483648, List.replicate 8193 97)] ∧
      first_id (List.replicate 8193 97) [(2147483648, List.replicate 8193 97)]
        = 2147483648 ∧
      HistoryDb.find 8192
          { bank_master := some { data := List.replicate 8193 97 ++ [0x0A], ptr := 0 },
            bank_session := none } (List.replicate 8193 97) = some (0, db1) := by
  obtain ⟨hok, hrec⟩ := bank_replicate_pos 8193 8193 (by norm_num) (by norm_num) (by norm_num)
  obtain ⟨h1, hfind, -⟩ := ReadLock.find_overlong_eq 8192 8193 0 (by norm_num) (by norm_num)
    (by norm_num)
  have hB : (List.replicate 8257 0).length - 64 = 8193 := by
    rw [List.length_replicate]
  have hlines : store_lines
      { bank_master := some { data := List.replicate 8193 97 ++ [0x0A], ptr := 0 },
        bank_session := none } = [(2147483648, List.replicate 8193 97)] := by
    unfold store_lines
    dsimp only
    rw [hrec]
    rfl
  refine ⟨_, ?_, ?_, HistoryDb.find_master_none 8192 _ h1 _ hfind⟩
  · rw [← hlines]
    exact HistoryDb.read_lines_drain 64 (List.replicate 8257 0) _ [] 2
      (by rw [List.length_replicate]; norm_num)
      (by rw [hB]; exact store_ok_one _ _ hok)
      (by rw [hlines]; decide)
  · exact first_id_singleton _ _

/-- With no double quote before offset `n`, the scan of `history_expand_control` ends in
single quotes exactly when the number of single quotes seen, counting the one that
opened the starting region, is odd. -/
theorem history_expand_control_loop_parity : ∀ (line : List Nat) (n : Nat),
    c_string line → (∀ c ∈ line.take n, c ≠ 0x22) →
    history_expand_control_loop line n 0
        = (if (line.take n).count 0x27 % 2 = 1 then 0x27 else 0) ∧
      history_expand_control_loop line n 0x27
        = (if (line.take n).count 0x27 % 2 = 1 then 0 else 0x27) := by
  intro line
  induction line with
  | nil =>
    intro n _ _
    rw [history_expand_control_loop, history_expand_control_loop]
    simp
  | cons c rest ih =>
    intro n hc hd
    cases n with
    | zero =>
      rw [history_expand_control_loop, history_expand_control_loop]
      simp
    | succ n =>
      have hc0 : c ≠ 0 := hc c (List.mem_cons_self _ _)
      have hcr : c_string rest := fun x hx => hc x (List.mem_cons_of_mem _ hx)
      have hc22 : c ≠ 0x22 := hd c (by simp)
      have hdr : ∀ x ∈ rest.take n, x ≠ 0x22 := fun x hx => hd x (by simp [hx])
      obtain ⟨ih0, ih1⟩ := ih n hcr hdr
      have hstep : ∀ q, history_expand_control_loop (c :: rest) (n + 1) q
          = if c = 0x27 ∨ c = 0x22 then
              history_expand_control_loop rest n (if c = q then 0 else c)
            else history_expand_control_loop rest n q := by
        intro q
        rw [history_expand_control_loop, if_neg hc0]
      rw [hstep, hstep, List.take_succ_cons]
      by_cases h27 : c = 0x27
      · subst h27
        rw [if_pos (Or.inl rfl), if_pos (Or.inl rfl), List.count_cons_self,
          if_neg (by decide), if_pos rfl, ih0, ih1]
        by_cases hp : List.count 0x27 (List.take n rest) % 2 = 1
        · rw [if_pos hp, if_pos hp, if_neg (by omega), if_neg (by omega)]
          exact ⟨rfl, rfl⟩
        · rw [if_neg hp, if_neg hp, if_pos (by omega), if_pos (by omega)]
          exact ⟨rfl, rfl⟩
      · have hno : ¬ (c = 0x27 ∨ c = 0x22) := by rintro (h | h); exact h27 h; exact hc22 h
        rw [if_neg hno, if_neg hno, List.count_cons_of_ne (fun h => h27 h.symm), ih0, ih1]
        exact ⟨rfl, rfl⟩

/-- Claim C21: in a line whose only quote characters before offset `M` are single quotes,
`not_squoted` and `not_quoted` inhibit expansion at `M` exactly when the number of `'`
before `M` is odd, and `not_dquoted` never inhibits; `off` inhibits and `on` expands
everywhere. -/
theorem C21_single_quotes_parity (line : List Nat) (M : Nat)
    (hc : c_string line) (hq : ∀ c ∈ line.take M, c ≠ 0x22) :
    (history_expand_control 2 line M ≠ 0 ↔ Odd ((line.take M).count 0x27)) ∧
    (history_expand_control 4 line M ≠ 0 ↔ Odd ((line.take M).count 0x27)) ∧
    history_expand_control 3 line M = 0 ∧
    history_expand_control 0 line M ≠ 0 ∧ history_expand_control 1 line M = 0 := by
  have hl := (history_expand_control_loop_parity line M hc hq).1
  have h2 : history_expand_control 2 line M
      = if history_expand_control_loop line M 0 = 0x27 then 1 else 0 := by
    simp [history_expand_control]
  have h3 : history_expand_control 3 line M
      = if history_expand_control_loop line M 0 = 0x22 then 1 else 0 := by
    simp [history_expand_control]
  have h4 : history_expand_control 4 line M
      = if history_expand_control_loop line M 0 = 0x22
          ∨ history_expand_control_loop line M 0 = 0x27 then 1 else 0 := by
    simp [history_expand_control]
  rw [h2, h3, h4, hl, Nat.odd_iff]
  by_cases hp : (List.count 0x27 (List.take M line)) % 2 = 1
  · simp [hp, history_expand_control]
  · simp [hp, history_expand_control]

/-- The witness of claim C21: on `echo 'hi !x'` with `M` at the `!` (offset 9) one single
quote precedes `M`, so `not_squoted` and `not_quoted` inhibit, `not_dquoted` expands,
`off` inhibits and `on` expands. -/
theorem C21_single_quotes_parity_witness :
    c_string [101, 99, 104, 111, 32, 39, 104, 105, 32, 33, 120, 39] ∧
    (List.take 9 [101, 99, 104, 111, 32, 39, 104, 105, 32, 33, 120, 39]).count 0x27 = 1 ∧
    history_expand_control 0 [101, 99, 104, 111, 32, 39, 104, 105, 32, 33, 120, 39] 9 = 1 ∧
    history_expand_control 1 [101, 99, 104, 111, 32, 39, 104, 105, 32, 33, 120, 39] 9 = 0 ∧
    history_expand_control 2 [101, 99, 104, 111, 32, 39, 104, 105, 32, 33, 120, 39] 9 = 1 ∧
    history_expand_control 3 [101, 99, 104, 111, 32, 39, 104, 105, 32, 33, 120, 39] 9 = 0 ∧
    history_expand_control 4 [101, 99, 104, 111, 32, 39, 104, 105, 32, 33, 120, 39] 9 = 1 ∧
    ((history_expand_control 2 [101, 99, 104, 111, 32, 39, 104, 105, 32, 33, 120, 39]
        ((9 : Nat) : Int) ≠ 0 ↔
      Odd ((List.take 9 [101, 99, 104, 111, 32, 39, 104, 105, 32, 33, 120, 39]).count 0x27)) ∧
    (history_expand_control 4 [101, 99, 104, 111, 32, 39, 104, 105, 32, 33, 120, 39]
        ((9 : Nat) : Int) ≠ 0 ↔
      Odd ((List.take 9 [101, 99, 104, 111, 32, 39, 104, 105, 32, 33, 120, 39]).count 0x27)) ∧
    history_expand_control 3 [101, 99, 104, 111, 32, 39, 104, 105, 32, 33, 120, 39]
        ((9 : Nat) : Int) = 0 ∧
    history_expand_control 0 [101, 99, 104, 111, 32, 39, 104, 105, 32, 33, 120, 39]
        ((9 : Nat) : Int) ≠ 0 ∧
    history_expand_control 1 [101, 99, 104, 111, 32, 39, 104, 105, 32, 33, 120, 39]
        ((9 : Nat) : Int) = 0) :=
  ⟨by intro c hc; simp at hc; omega, by decide, by decide, by decide, by decide, by decide,
    by decide,
    C21_single_quotes_parity [101, 99, 104, 111, 32, 39, 104, 105, 32, 33, 120, 39] 9
      (by intro c hc; simp at hc; omega) (by decide)⟩

/-- With the master bank not opened the append of `add` finds no bank and returns false. -/
theorem HistoryDb.add_line_null (db : HistoryDb) (line : List Nat)
    (hm : db.bank_master = none) : db.add_line line = (false, db) := by
  unfold HistoryDb.add_line
  dsimp only
  rw [HistoryDb.get_bank_null db hm]

/-- With the master bank not opened `remove(line)` visits no bank. -/
theorem HistoryDb.remove_line_null (max_line_length : Nat) (db : HistoryDb) (line : List Nat)
    (hm : db.bank_master = none) : db.remove_line max_line_length line = some (0, db) := by
  unfold HistoryDb.remove_line
  rw [HistoryDb.for_each_bank_null db _ _ hm]

/-- With the master bank not opened `add` returns false and leaves the store as it is,
for every line and configuration. -/
theorem HistoryDb.add_null (max_line_length : Nat) (cfg : Settings) (db : HistoryDb)
    (line : List Nat) (hm : db.bank_master = none) :
    db.add max_line_length cfg line = some (false, db) := by
  unfold HistoryDb.add
  split
  · rfl
  · split
    · rw [HistoryDb.find_null max_line_length db line hm]
      dsimp only
      rw [if_neg (by decide), HistoryDb.add_line_null db line hm]
    · split
      · rw [HistoryDb.remove_line_null max_line_length db line hm]
        dsimp only
        rw [HistoryDb.add_line_null db line hm]
      · rw [HistoryDb.add_line_null db line hm]

/-- C6 as stated fails on the store whose master slot is null and whose session bank is
open and empty: in dupe mode `add` the accepted line `ls` is not appended to the session
bank, which is the bank that is present, and `add` returns false. -/
theorem C6_counterexample :
    accepted { g_shared := false, g_ignore_space := true, g_dupe_mode := 0 } [108, 115] ∧
    HistoryDb.m_bank_handles
        { bank_master := none, bank_session := some { data := [], ptr := 0 } } 1
      = some { data := [], ptr := 0 } ∧
    HistoryDb.add 8192 { g_shared := false, g_ignore_space := true, g_dupe_mode := 0 }
        { bank_master := none, bank_session := some { data := [], ptr := 0 } } [108, 115]
      = some (false, { bank_master := none, bank_session := some { data := [], ptr := 0 } }) :=
  ⟨⟨by decide, fun _ => by decide⟩, rfl, HistoryDb.add_null 8192 _ _ _ rfl⟩

/-- Claim C25: when bank slot 0 is null, whether or not a session bank was opened, `add`
returns false, `find` returns the null id, `remove(id)` returns false for every id,
`remove(line)` returns, and `add`, `remove(line)`, `remove(id)` and `clear` leave every
handle and every bank of the store as it was. -/
theorem C25_null_master_no_ops (max_line_length : Nat) (cfg : Settings) (db : HistoryDb)
    (line : List Nat) (id : Nat) (hm : db.bank_master = none) :
    db.add max_line_length cfg line = some (false, db) ∧
    db.find max_line_length line = some (0, db) ∧
    db.remove_id id = (false, db) ∧
    db.remove_line max_line_length line = some (0, db) ∧
    db.clear = some db :=
  ⟨HistoryDb.add_null max_line_length cfg db line hm,
    HistoryDb.find_null max_line_length db line hm,
    HistoryDb.remove_id_none db id (HistoryDb.get_bank_null db hm _),
    HistoryDb.remove_line_null max_line_length db line hm,
    HistoryDb.clear_null db hm⟩

/-- The witness of claim C25: a store whose master bank is null and whose session bank
holds `ls\n`, asked to add, find and remove `ls` under `erase_prev`, and to remove the
id of the session record. -/
theorem C25_null_master_no_ops_witness :
    HistoryDb.bank_master
        { bank_master := none, bank_session := some { data := [108, 115, 10], ptr := 0 } }
      = none ∧
    (HistoryDb.add 8192 { g_shared := false, g_ignore_space := false, g_dupe_mode := 2 }
        { bank_master := none, bank_session := some { data := [108, 115, 10], ptr := 0 } }
        [108, 115]
      = some (false,
          { bank_master := none, bank_session := some { data := [108, 115, 10], ptr := 0 } }) ∧
    HistoryDb.find 8192
        { bank_master := none, bank_session := some { data := [108, 115, 10], ptr := 0 } }
        [108, 115]
      = some (0,
          { bank_master := none, bank_session := some { data := [108, 115, 10], ptr := 0 } }) ∧
    HistoryDb.remove_id
        { bank_master := none, bank_session := some { data := [108, 115, 10], ptr := 0 } }
        (2 ^ 31 + 2 ^ 29)
      = (false,
          { bank_master := none, bank_session := some { data := [108, 115, 10], ptr := 0 } }) ∧
    HistoryDb.remove_line 8192
        { bank_master := none, bank_session := some { data := [108, 115, 10], ptr := 0 } }
        [108, 115]
      = some (0,
          { bank_master := none, bank_session := some { data := [108, 115, 10], ptr := 0 } }) ∧
    HistoryDb.clear
        { bank_master := none, bank_session := some { data := [108, 115, 10], ptr := 0 } }
      = some
          { bank_master := none, bank_session := some { data := [108, 115, 10], ptr := 0 } }) :=
  ⟨rfl, C25_null_master_no_ops 8192
    { g_shared := false, g_ignore_space := false, g_dupe_mode := 2 }
    { bank_master := none, bank_session := some { data := [108, 115, 10], ptr := 0 } }
    [108, 115] (2 ^ 31 + 2 ^ 29) rfl⟩

/-- The method `HistoryDb::remove(LineId)` reads the offset and the bank index of the
id, never its active bit: two non-zero ids that agree in both are handled alike. -/
theorem HistoryDb.remove_id_congr (db : HistoryDb) (id id1 : Nat) (h0 : id ≠ 0) (h1 : id1 ≠ 0)
    (ho : (LineIdImpl.of_outer id).offset = (LineIdImpl.of_outer id1).offset)
    (hb : (LineIdImpl.of_outer id).bank_index = (LineIdImpl.of_outer id1).bank_index) :
    db.remove_id id = db.remove_id id1 := by
  unfold HistoryDb.remove_id
  rw [if_neg h0, if_neg h1]
  dsimp only
  rw [hb]
  cases db.get_bank (LineIdImpl.of_outer id1).bank_index with
  | none => rfl
  | some lock =>
    dsimp only
    unfold WriteLock.remove
    rw [ho]

/-- Claim C27, amended: of the 32-bit ids whose active bit is 0 only the value 0 is
treated as the null id - `remove(0)` returns false and leaves the store as it is -,
while a non-zero id with active bit 0 is handled exactly as the id with the same offset
and bank index bits and the active bit set. -/
theorem C27_only_zero_is_null (db : HistoryDb) (id : Nat) (hid : id < 2 ^ 32)
    (ha : (LineIdImpl.of_outer id).active = 0) :
    (id = 0 → db.remove_id id = (false, db)) ∧
    (id ≠ 0 → (LineIdImpl.of_outer (id + 2 ^ 31)).active = 1 ∧
      (LineIdImpl.of_outer (id + 2 ^ 31)).offset = (LineIdImpl.of_outer id).offset ∧
      (LineIdImpl.of_outer (id + 2 ^ 31)).bank_index = (LineIdImpl.of_outer id).bank_index ∧
      db.remove_id id = db.remove_id (id + 2 ^ 31)) := by
  have hlt : id < 2 ^ 31 := by
    unfold LineIdImpl.of_outer at ha
    dsimp only at ha
    omega
  have ho : (LineIdImpl.of_outer (id + 2 ^ 31)).offset = (LineIdImpl.of_outer id).offset := by
    unfold LineIdImpl.of_outer
    dsimp only
    omega
  have hb : (LineIdImpl.of_outer (id + 2 ^ 31)).bank_index
      = (LineIdImpl.of_outer id).bank_index := by
    unfold LineIdImpl.of_outer
    dsimp only
    omega
  refine ⟨?_, ?_⟩
  · intro h
    unfold HistoryDb.remove_id
    rw [if_pos h]
  · intro h
    refine ⟨?_, ho, hb, HistoryDb.remove_id_congr db id (id + 2 ^ 31) h (by omega) ho.symm hb.symm⟩
    unfold LineIdImpl.of_outer
    dsimp only
    omega

/-- The witness of claim C27: the id 5 on a store whose master bank holds `abc\ndef\n`. -/
theorem C27_only_zero_is_null_witness :
    (5 : Nat) < 2 ^ 32 ∧ (LineIdImpl.of_outer 5).active = 0 ∧
    ((5 = 0 → HistoryDb.remove_id
        { bank_master := some { data := [97, 98, 99, 10, 100, 101, 102, 10], ptr := 0 },
          bank_session := none } 5
      = (false,
          { bank_master := some { data := [97, 98, 99, 10, 100, 101, 102, 10], ptr := 0 },
            bank_session := none })) ∧
    (5 ≠ 0 → (LineIdImpl.of_outer (5 + 2 ^ 31)).active = 1 ∧
      (LineIdImpl.of_outer (5 + 2 ^ 31)).offset = (LineIdImpl.of_outer 5).offset ∧
      (LineIdImpl.of_outer (5 + 2 ^ 31)).bank_index = (LineIdImpl.of_outer 5).bank_index ∧
      HistoryDb.remove_id
        { bank_master := some { data := [97, 98, 99, 10, 100, 101, 102, 10], ptr := 0 },
          bank_session := none } 5
      = HistoryDb.remove_id
        { bank_master := some { data := [97, 98, 99, 10, 100, 101, 102, 10], ptr := 0 },
          bank_session := none } (5 + 2 ^ 31))) :=
  ⟨by decide, by decide, C27_only_zero_is_null
    { bank_master := some { data := [97, 98, 99, 10, 100, 101, 102, 10], ptr := 0 },
      bank_session := none } 5 (by decide) (by decide)⟩

/-- C27 as stated fails for the id 5, whose active bit is 0 (offset 5, bank index 0): on
a store whose master bank holds `abc\ndef\n`, `remove(5)` returns true and writes the
mark at byte 5 of the master bank, which then holds `abc\nd|f\n`. -/
theorem C27_counterexample :
    (5 : Nat) < 2 ^ 32 ∧ (LineIdImpl.of_outer 5).active = 0 ∧
    HistoryDb.remove_id
        { bank_master := some { data := [97, 98, 99, 10, 100, 101, 102, 10], ptr := 0 },
          bank_session := none } 5
      = (true,
          { bank_master := some { data := [97, 98, 99, 10, 100, 124, 102, 10], ptr := 6 },
            bank_session := none }) := by
  refine ⟨by decide, by decide, ?_⟩
  decide

theorem HistoryDb.set_bank_isSome (db : HistoryDb) (i : Nat) (h : File) :
    (db.set_bank i h).bank_master.isSome = db.bank_master.isSome ∧
    (db.set_bank i h).bank_session.isSome = db.bank_session.isSome := by
  obtain ⟨m, s⟩ := db
  match i with
  | 0 => cases m <;> exact ⟨rfl, rfl⟩
  | 1 => cases s <;> exact ⟨rfl, rfl⟩
  | _ + 2 => exact ⟨rfl, rfl⟩

/-- No traversal of the banks opens or closes a handle, whatever its callback does. -/
theorem HistoryDb.for_each_bank_loop_isSome {σ : Type}
    (callback : Nat → File → σ → Option (Bool × σ × File)) :
    ∀ (k i : Nat) (db : HistoryDb) (s : σ) (r : σ × HistoryDb),
      HistoryDb.for_each_bank_loop callback k i db s = some r →
      r.2.bank_master.isSome = db.bank_master.isSome ∧
      r.2.bank_session.isSome = db.bank_session.isSome := by
  intro k
  induction k with
  | zero =>
    intro i db s r hr
    rw [HistoryDb.for_each_bank_loop, Option.some.injEq] at hr
    subst hr
    exact ⟨rfl, rfl⟩
  | succ k ih =>
    intro i db s r hr
    rw [HistoryDb.for_each_bank_loop] at hr
    cases hb : db.get_bank i with
    | none =>
      rw [hb] at hr
      exact ih _ _ _ _ hr
    | some h =>
      rw [hb] at hr
      dsimp only at hr
      cases hc : callback i h s with
      | none => rw [hc] at hr; exact absurd hr (by simp)
      | some res =>
        obtain ⟨go, s1, h1⟩ := res
        rw [hc] at hr
        dsimp only at hr
        have hs := HistoryDb.set_bank_isSome db i h1
        by_cases hgo : go = false
        · rw [if_pos hgo, Option.some.injEq] at hr
          subst hr
          exact hs
        · rw [if_neg hgo] at hr
          have := ih _ _ _ _ hr
          exact ⟨this.1.trans hs.1, this.2.trans hs.2⟩

/-- With the master bank open the append of `add` finds its bank and returns true. -/
theorem HistoryDb.add_line_true (db : HistoryDb) (line : List Nat)
    (hm : db.bank_master.isSome = true) : (db.add_line line).1 = true := by
  obtain ⟨h, hh⟩ := HistoryDb.write_handle db hm
  rw [HistoryDb.add_line_eq db line hm, hh]

/-- The method `add` returns false only where it has changed nothing: on a rejected line,
or on a store whose master bank is not open, where no bank is visited. -/
theorem HistoryDb.add_false (max_line_length : Nat) (cfg : Settings) (db db1 : HistoryDb)
    (line : List Nat) (h : db.add max_line_length cfg line = some (false, db1)) :
    db1 = db := by
  cases hm : db.bank_master with
  | none =>
    rw [HistoryDb.add_null max_line_length cfg db line hm] at h
    simp only [Option.some.injEq, Prod.mk.injEq, true_and] at h
    exact h.symm
  | some m =>
    have hms : db.bank_master.isSome = true := by rw [hm]; rfl
    unfold HistoryDb.add at h
    split at h
    · simp only [Option.some.injEq, Prod.mk.injEq, true_and] at h
      exact h.symm
    · split at h
      · cases hf : db.find max_line_length line with
        | none => rw [hf] at h; exact absurd h (by simp)
        | some r =>
          obtain ⟨fr, db2⟩ := r
          rw [hf] at h
          dsimp only at h
          unfold HistoryDb.find at hf
          obtain ⟨r2, hfe, hr2⟩ := Option.map_eq_some'.mp hf
          clear hf
          simp only [Prod.mk.injEq] at hr2
          have hf := hr2
          · have hk := (HistoryDb.for_each_bank_loop_isSome _ _ _ _ _ _ hfe).1
            rw [hf.2, hms] at hk
            have ht := HistoryDb.add_line_true db2 line hk
            by_cases hz : fr ≠ 0
            · rw [if_pos hz] at h
              simp at h
            · rw [if_neg hz, Option.some.injEq] at h
              rw [h] at ht
              exact absurd ht (by simp)
      · split at h
        · cases hf : db.remove_line max_line_length line with
          | none => rw [hf] at h; exact absurd h (by simp)
          | some r =>
            rw [hf] at h
            dsimp only at h
            unfold HistoryDb.remove_line at hf
            have hk := (HistoryDb.for_each_bank_loop_isSome _ _ _ _ _ _ hf).1
            rw [hms] at hk
            have ht := HistoryDb.add_line_true r.2 line hk
            rw [Option.some.injEq] at h
            rw [h] at ht
            exact absurd ht (by simp)
        · have ht := HistoryDb.add_line_true db line hms
          rw [Option.some.injEq] at h
          rw [h] at ht
          exact absurd ht (by simp)

/-- Claim C30: for every store, configuration and line, if `add` returns false then the
store is as it was before the call - no bank has a byte changed and no handle has
moved -, so that `erase_prev` has tombstoned nothing before a failed append. -/
theorem C30_add_atomic_on_failure (max_line_length : Nat) (cfg : Settings)
    (db db1 : HistoryDb) (line : List Nat)
    (h : db.add max_line_length cfg line = some (false, db1)) :
    db1 = db ∧ db1.contents = db.contents := by
  have := HistoryDb.add_false max_line_length cfg db db1 line h
  exact ⟨this, by rw [this]⟩

/-- The witness of claim C30: under `erase_prev`, `add("ls")` on a store whose master
bank is null and whose session bank holds `ls\n` returns false. -/
theorem C30_add_atomic_on_failure_witness :
    HistoryDb.add 8192 { g_shared := false, g_ignore_space := false, g_dupe_mode := 2 }
        { bank_master := none, bank_session := some { data := [108, 115, 10], ptr := 0 } }
        [108, 115]
      = some (false,
          { bank_master := none, bank_session := some { data := [108, 115, 10], ptr := 0 } }) ∧
    ({ bank_master := none, bank_session := some { data := [108, 115, 10], ptr := 0 } }
        : HistoryDb)
      = { bank_master := none, bank_session := some { data := [108, 115, 10], ptr := 0 } } ∧
    HistoryDb.contents
        { bank_master := none, bank_session := some { data := [108, 115, 10], ptr := 0 } }
      = HistoryDb.contents
        { bank_master := none, bank_session := some { data := [108, 115, 10], ptr := 0 } } :=
  ⟨rfl, C30_add_atomic_on_failure 8192
    { g_shared := false, g_ignore_space := false, g_dupe_mode := 2 }
    { bank_master := none, bank_session := some { data := [108, 115, 10], ptr := 0 } }
    { bank_master := none, bank_session := some { data := [108, 115, 10], ptr := 0 } }
    [108, 115] rfl⟩

/-- One call `next(r)` of a `FileIter` that has bytes left to read, in a state where the
last `r` bytes of the buffer are the `r` file bytes before the file pointer: it returns
the new fill, the whole buffer up to the fill is the file bytes before the new file
pointer, and the buffer offset has advanced by the previous fill minus `r`. -/
theorem FileIter.next_window {B : Nat} {fi : FileIter} {h : File} (r : Nat)
    (hI : LineIter.Inv B { m_file_iter := fi, m_remaining := r } h)
    (hf : fi.m_remaining ≠ 0) :
    (fi.next h r).1 = min fi.m_remaining (fi.m_buffer_size - r) + r ∧
    (fi.next h r).2.1.m_buffer_size = (fi.next h r).1 ∧
    (fi.next h r).2.1.m_remaining
      = fi.m_remaining - min fi.m_remaining (fi.m_buffer_size - r) ∧
    (fi.next h r).2.1.m_buffer_offset
      = (fi.m_buffer_offset + (fi.m_buffer_size - r)) % 2 ^ 32 ∧
    (fi.next h r).2.2.data = h.data ∧
    (fi.next h r).2.2.ptr = h.ptr + min fi.m_remaining (fi.m_buffer_size - r) ∧
    LineIter.Inv B
      { m_file_iter := (fi.next h r).2.1, m_remaining := (fi.next h r).2.1.m_buffer_size }
      (fi.next h r).2.2 := by
  have hp := LineIter.provision_read hI hf
  have hr : r ≤ fi.m_buffer_size := hI.rem_le
  have hsz : (fi.next h r).2.1.m_buffer_size = (fi.next h r).1 := by
    unfold FileIter.next
    rw [if_neg hf]
  have hoff : (fi.next h r).2.1.m_buffer_offset
      = (fi.m_buffer_offset + (fi.m_buffer_size - r)) % 2 ^ 32 := by
    unfold FileIter.next
    rw [if_neg hf]
    dsimp only
    rw [Nat.min_eq_left hr]
  obtain ⟨_, h2, h3, h4, h5, h6⟩ := hp
  have h2a : (fi.next h r).1 = min fi.m_remaining (fi.m_buffer_size - r) + r := h2
  refine ⟨h2a, hsz, h3, hoff, h4, h5, ?_⟩
  rw [hsz]
  exact h6

/-- The loop of `WriteLock::append` from a state in which the destination pointer is at
the end of the destination: it ends, with the unread bytes of the source appended. -/
theorem WriteLock.append_loop_spec (B : Nat) (hB : 0 < B) :
    ∀ (fuel : Nat) (fi : FileIter) (h src : File),
      LineIter.Inv B { m_file_iter := fi, m_remaining := 0 } src →
      h.ptr = h.data.length → src.data.length - src.ptr < fuel →
      ∃ d s, WriteLock.append_loop fuel fi h src = some (d, s) ∧
        d.data = h.data ++ src.data.drop src.ptr ∧ s.data = src.data := by
  intro fuel
  induction fuel with
  | zero => intro fi h src _ _ hf; omega
  | succ fuel ih =>
    intro fi h src hI hp hfuel
    rw [WriteLock.append_loop]
    by_cases hf : fi.m_remaining = 0
    · have hn : fi.next src 0 = (0, { fi with m_buffer := fi.m_buffer.set 0 0 }, src) := by
        unfold FileIter.next
        rw [if_pos hf]
      rw [hn]
      dsimp only
      rw [if_pos rfl]
      refine ⟨h, src, rfl, ?_, rfl⟩
      have := hI.frem
      have hle := hI.ptr_le
      dsimp only at this
      rw [List.drop_eq_nil_of_le (by omega), List.append_nil]
    · obtain ⟨h1, h2, h3, _, h5, h6, h7⟩ := FileIter.next_window 0 hI hf
      have hsize : fi.m_buffer_size = B := by
        rcases hI.cap with hc | hc
        · exact absurd hc hf
        · exact hc
      have hfr : fi.m_remaining = src.data.length - src.ptr := hI.frem
      have hple := hI.ptr_le
      have hn0 : (fi.next src 0).1 ≠ 0 := by rw [h1]; omega
      rw [if_neg hn0]
      have hw := h7.window
      dsimp only at hw
      rw [Nat.sub_self, List.drop_zero, h2, h6, h5] at hw
      have hread : src.ptr + min fi.m_remaining (fi.m_buffer_size - 0) - (fi.next src 0).1
          = src.ptr := by rw [h1]; omega
      rw [hread] at hw
      rw [hw, WriteFile_at_end h _ hp]
      have hI2 : LineIter.Inv B { m_file_iter := (fi.next src 0).2.1, m_remaining := 0 }
          (fi.next src 0).2.2 := by
        have := h7.advance (fi.next src 0).2.1.m_buffer_size (le_refl _)
        dsimp only at this
        rw [Nat.sub_self] at this
        exact this
      obtain ⟨d, s, hd, hdd, hsd⟩ := ih (fi.next src 0).2.1
        { data := h.data ++ (src.data.drop src.ptr).take (fi.next src 0).1,
          ptr := h.data.length + ((src.data.drop src.ptr).take (fi.next src 0).1).length }
        (fi.next src 0).2.2 hI2
        (by dsimp only; rw [List.length_append])
        (by rw [h5, h6]; omega)
      refine ⟨d, s, hd, ?_, by rw [hsd, h5]⟩
      rw [hdd, h5, h6]
      dsimp only
      have hmin : min fi.m_remaining (fi.m_buffer_size - 0) = (fi.next src 0).1 := by
        rw [h1]; omega
      rw [hmin, List.append_assoc, ← List.drop_drop, List.take_append_drop]

/-- The method `WriteLock::append(src)` returns for every destination and every source
shorter than 2^32 bytes, read through a buffer of at least one byte: the destination is
its old content followed by the content of the source, which is unchanged. -/
theorem WriteLock.append_spec (max_line_length : Nat) (h src : File)
    (hB : 0 < max_line_length) (hlen : src.data.length < 2 ^ 32) :
    ∃ d s, WriteLock.append max_line_length h src = some (d, s) ∧
      d.data = h.data ++ src.data ∧ s.data = src.data := by
  obtain ⟨hI, hd, hpos⟩ := LineIter.init_spec src (List.replicate max_line_length 0) hlen
  rw [List.length_replicate] at hI
  have hfi : FileIter.init src (List.replicate max_line_length 0)
      = ((LineIter.init src (List.replicate max_line_length 0)).1.m_file_iter,
         (LineIter.init src (List.replicate max_line_length 0)).2) := rfl
  have hrem : (LineIter.init src (List.replicate max_line_length 0)).1.m_remaining = 0 := rfl
  have hptr : (LineIter.init src (List.replicate max_line_length 0)).2.ptr = 0 := by
    have := hpos
    unfold LineIter.pos at this
    rw [hrem, Nat.sub_zero] at this
    exact this
  unfold WriteLock.append
  dsimp only
  rw [hfi]
  dsimp only
  obtain ⟨d, s, he, hdd, hsd⟩ := WriteLock.append_loop_spec max_line_length hB
    ((LineIter.init src (List.replicate max_line_length 0)).2.data.length + 1)
    (LineIter.init src (List.replicate max_line_length 0)).1.m_file_iter
    (SetFilePointerEnd h) (LineIter.init src (List.replicate max_line_length 0)).2
    hI rfl (by omega)
  refine ⟨d, s, he, ?_, by rw [hsd, hd]⟩
  rw [hdd, hptr, List.drop_zero, hd]
  rfl

/-- Claim C22: for every destination content and every source content shorter than 2^32
bytes - shorter than, equal to, a multiple of or longer than the copy buffer of
`max_line_length` >= 1 bytes -, `WriteLock::append(src)` returns and leaves the
destination equal to its previous content followed by all bytes of `src` in order, and
`src` unchanged. -/
theorem C22_append_copies_every_byte (max_line_length : Nat) (h src : File)
    (hB : 0 < max_line_length) (hlen : src.data.length < 2 ^ 32) :
    ∃ d s, WriteLock.append max_line_length h src = some (d, s) ∧
      d.data = h.data ++ src.data ∧ s.data = src.data :=
  WriteLock.append_spec max_line_length h src hB hlen

/-- The witness of claim C22: the source `|bc\ndef\n\ng`, nine bytes with a tombstone and
an empty line, appended through a buffer of four bytes to the destination `xy`. -/
theorem C22_append_copies_every_byte_witness :
    0 < 4 ∧ (File.data { data := [124, 98, 99, 10, 100, 101, 102, 10, 10, 103], ptr := 5 }).length
      < 2 ^ 32 ∧
    WriteLock.append 4 { data := [120, 121], ptr := 1 }
        { data := [124, 98, 99, 10, 100, 101, 102, 10, 10, 103], ptr := 5 }
      = some ({ data := [120, 121, 124, 98, 99, 10, 100, 101, 102, 10, 10, 103], ptr := 12 },
          { data := [124, 98, 99, 10, 100, 101, 102, 10, 10, 103], ptr := 10 }) ∧
    ∃ d s, WriteLock.append 4 { data := [120, 121], ptr := 1 }
        { data := [124, 98, 99, 10, 100, 101, 102, 10, 10, 103], ptr := 5 } = some (d, s) ∧
      d.data = File.data { data := [120, 121], ptr := 1 }
        ++ File.data { data := [124, 98, 99, 10, 100, 101, 102, 10, 10, 103], ptr := 5 } ∧
      s.data = File.data { data := [124, 98, 99, 10, 100, 101, 102, 10, 10, 103], ptr := 5 } :=
  ⟨by decide, by decide, by decide,
    C22_append_copies_every_byte 4 { data := [120, 121], ptr := 1 }
      { data := [124, 98, 99, 10, 100, 101, 102, 10, 10, 103], ptr := 5 }
      (by decide) (by decide)⟩

/-- The loop of `WriteLock::append` ends whenever the source has at least the bytes its
iterator counts as remaining, whatever the buffer size. -/
theorem WriteLock.append_loop_total :
    ∀ (fuel : Nat) (fi : FileIter) (h src : File),
      fi.m_remaining ≤ src.data.length - src.ptr → fi.m_remaining < fuel →
      ∃ r, WriteLock.append_loop fuel fi h src = some r := by
  intro fuel
  induction fuel with
  | zero => intro fi h src _ hf; omega
  | succ fuel ih =>
    intro fi h src hle hfuel
    rw [WriteLock.append_loop]
    by_cases hz : (fi.next src 0).1 = 0
    · rw [if_pos hz]
      exact ⟨_, rfl⟩
    · rw [if_neg hz]
      by_cases hf : fi.m_remaining = 0
      · exfalso
        apply hz
        unfold FileIter.next
        rw [if_pos hf]
      · have hlen : ((src.data.drop src.ptr).take (min fi.m_remaining (fi.m_buffer_size - 0))).length
            = min fi.m_remaining (fi.m_buffer_size - 0) := by
          rw [List.length_take, List.length_drop]
          omega
        have h1 : (fi.next src 0).1 = min fi.m_remaining (fi.m_buffer_size - 0) + 0 := by
          unfold FileIter.next
          rw [if_neg hf]
          simp only [ReadFile, Nat.zero_min]
          rw [hlen]
        have h2 : (fi.next src 0).2.1.m_remaining
            = fi.m_remaining - min fi.m_remaining (fi.m_buffer_size - 0) := by
          unfold FileIter.next
          rw [if_neg hf]
          simp only [ReadFile, Nat.zero_min]
          rw [hlen]
        have h3 : (fi.next src 0).2.2.data = src.data ∧
            (fi.next src 0).2.2.ptr = src.ptr + min fi.m_remaining (fi.m_buffer_size - 0) := by
          unfold FileIter.next
          rw [if_neg hf]
          simp only [ReadFile, Nat.zero_min]
          rw [hlen]
          exact ⟨trivial, rfl⟩
        apply ih
        · rw [h2, h3.1, h3.2]; omega
        · rw [h2]; rw [h1] at hz; omega

/-- The method `WriteLock::append` returns for every destination, source and buffer
size. -/
theorem WriteLock.append_total (max_line_length : Nat) (h src : File) :
    ∃ r, WriteLock.append max_line_length h src = some r := by
  unfold WriteLock.append
  have hinit : FileIter.init src (List.replicate max_line_length 0) =
      ({ m_buffer := (List.replicate max_line_length 0).set 0 0
         m_buffer_size := (List.replicate max_line_length 0).length
         m_buffer_offset := (2 ^ 32 - (List.replicate max_line_length 0).length % 2 ^ 32) % 2 ^ 32
         m_remaining := src.data.length % 2 ^ 32 }, { data := src.data, ptr := 0 }) := by
    simp [FileIter.init, GetFileSize, SetFilePointerBegin]
  rw [hinit]
  dsimp only
  apply WriteLock.append_loop_total
  · dsimp only
    have := Nat.mod_le src.data.length (2 ^ 32)
    omega
  · dsimp only
    have := Nat.mod_le src.data.length (2 ^ 32)
    omega

theorem PeerFile.live_marker (p : PeerFile) :
    p.live = true ↔ (p.marker = true ∧ p.marker_unlinks = false) := by
  unfold PeerFile.live
  cases p.marker <;> cases p.marker_unlinks <;> simp

/-- The body of the loop of `reap` returns for every store and file; it leaves of the
file what `PeerFile.left` says, opens or closes no handle, touches the session bank
never, and the master bank neither when the peer is live or the master slot is null. -/
theorem HistoryDb.reap_body_spec (max_line_length : Nat) (db : HistoryDb) (p : PeerFile) :
    ∃ db1, db.reap_body max_line_length p = some (db1, p.left) ∧
      db1.bank_session = db.bank_session ∧
      db1.bank_master.isSome = db.bank_master.isSome ∧
      (p.live = true → db1 = db) ∧ (db.bank_master = none → db1 = db) := by
  unfold HistoryDb.reap_body PeerFile.left
  by_cases hl : p.live = true
  · rw [if_pos ((PeerFile.live_marker p).mp hl), if_pos hl]
    exact ⟨db, rfl, rfl, rfl, fun _ => rfl, fun _ => rfl⟩
  · rw [if_neg (fun h => hl ((PeerFile.live_marker p).mpr h)), if_neg hl]
    dsimp only
    have hleft : (if p.unlinks = true then none
        else some ({ p with marker := false } : PeerFile))
        = (if p.unlinks = true then none else some { p with marker := false }) := rfl
    by_cases hs : 0 < p.file_size
    · rw [if_pos hs]
      by_cases ho : p.opens = true
      · rw [if_pos ho]
        cases hm : db.m_bank_handles 0 with
        | none =>
          exact ⟨db, rfl, rfl, rfl, fun h => absurd h hl, fun _ => rfl⟩
        | some dest =>
          obtain ⟨r, hr⟩ := WriteLock.append_total max_line_length dest
            { data := p.data, ptr := 0 }
          dsimp only
          rw [hr]
          refine ⟨db.set_bank 0 r.1, rfl, rfl, (HistoryDb.set_bank_isSome db 0 r.1).1,
            fun h => absurd h hl, ?_⟩
          intro hn
          have : db.m_bank_handles 0 = db.bank_master := rfl
          rw [this, hn] at hm
          exact absurd hm (by simp)
      · rw [if_neg ho]
        exact ⟨db, rfl, rfl, rfl, fun h => absurd h hl, fun _ => rfl⟩
    · rw [if_neg hs]
      exact ⟨db, rfl, rfl, rfl, fun h => absurd h hl, fun _ => rfl⟩

/-- The method `reap` returns for every store and every list of files; it leaves of each
file what `PeerFile.left` says and opens or closes no handle. -/
theorem HistoryDb.reap_total (max_line_length : Nat) :
    ∀ (peers : List PeerFile) (db : HistoryDb),
      ∃ db1, db.reap max_line_length peers = some (db1, peers.map PeerFile.left) ∧
        db1.bank_session = db.bank_session ∧
        db1.bank_master.isSome = db.bank_master.isSome := by
  intro peers
  induction peers with
  | nil => intro db; exact ⟨db, rfl, rfl, rfl⟩
  | cons p ps ih =>
    intro db
    obtain ⟨db1, h1, hs1, hm1, _, _⟩ := HistoryDb.reap_body_spec max_line_length db p
    obtain ⟨db2, h2, hs2, hm2⟩ := ih db1
    refine ⟨db2, ?_, hs2.trans hs1, hm2.trans hm1⟩
    rw [HistoryDb.reap, h1]
    dsimp only
    rw [h2]
    rfl

/-- With the master slot null `reap` appends nowhere: the store is as it was, and yet
every file that is not skipped as live is unlinked. -/
theorem HistoryDb.reap_null (max_line_length : Nat) :
    ∀ (peers : List PeerFile) (db : HistoryDb), db.bank_master = none →
      db.reap max_line_length peers = some (db, peers.map PeerFile.left) := by
  intro peers
  induction peers with
  | nil => intro db _; rfl
  | cons p ps ih =>
    intro db hm
    obtain ⟨db1, h1, _, _, _, hn⟩ := HistoryDb.reap_body_spec max_line_length db p
    have := hn hm
    subst this
    rw [HistoryDb.reap, h1]
    dsimp only
    rw [ih db1 hm]
    rfl

/-- A live peer among the files of the glob makes no difference to what `reap` does to
the store and to the other files. -/
theorem HistoryDb.reap_skip (max_line_length : Nat) (p : PeerFile) (post : List PeerFile)
    (hl : p.live = true) :
    ∀ (pre : List PeerFile) (db : HistoryDb),
      ∃ db1 fs, db.reap max_line_length (pre ++ post) = some (db1, fs) ∧
        db.reap max_line_length (pre ++ p :: post)
          = some (db1, fs.take pre.length ++ some p :: fs.drop pre.length) := by
  intro pre
  induction pre with
  | nil =>
    intro db
    obtain ⟨db1, h1, _, _⟩ := HistoryDb.reap_total max_line_length post db
    refine ⟨db1, _, h1, ?_⟩
    obtain ⟨db2, h2, _, _, hsame, _⟩ := HistoryDb.reap_body_spec max_line_length db p
    have := hsame hl
    subst this
    have hleft : p.left = some p := by unfold PeerFile.left; rw [if_pos hl]
    rw [List.nil_append, HistoryDb.reap, h2]
    dsimp only
    rw [h1, hleft]
    rfl
  | cons q qs ih =>
    intro db
    obtain ⟨db1, h1, _⟩ := HistoryDb.reap_body_spec max_line_length db q
    obtain ⟨db2, fs, h2, h3⟩ := ih db1
    refine ⟨db2, q.left :: fs, ?_, ?_⟩
    · rw [List.cons_append, HistoryDb.reap, h1]
      dsimp only
      rw [h2]
      rfl
    · rw [List.cons_append, HistoryDb.reap, h1]
      dsimp only
      rw [h3]
      rfl

/-- The body of the loop of `reap` on a store whose master bank is open, for a file that
is not skipped as live and that, when it has content, is reported non-empty and can be
opened: the content is appended to the master bank. -/
theorem HistoryDb.reap_body_fold (max_line_length : Nat) (db : HistoryDb) (m : File)
    (p : PeerFile) (hB : 0 < max_line_length) (hm : db.bank_master = some m)
    (hl : p.live = false)
    (hp : p.data ≠ [] → p.opens = true ∧ 0 < p.file_size ∧ p.data.length < 2 ^ 32) :
    ∃ m1, db.reap_body max_line_length p
        = some ({ db with bank_master := some m1 }, p.left) ∧
      m1.data = m.data ++ p.data := by
  have hlen : p.data.length < 2 ^ 32 := by
    by_cases he : p.data = []
    · rw [he]; simp
    · exact (hp he).2.2
  have hkeep : ({ db with bank_master := some m } : HistoryDb) = db := by
    obtain ⟨a, b⟩ := db
    dsimp only at hm
    rw [hm]
  have hnot : ¬ (p.marker = true ∧ p.marker_unlinks = false) := by
    intro h
    rw [(PeerFile.live_marker p).mpr h] at hl
    exact absurd hl (by simp)
  have hkept : ∀ (hd : p.data = []),
      ∃ m1, (some (db, p.left) : Option (HistoryDb × Option PeerFile))
          = some ({ db with bank_master := some m1 }, p.left) ∧
        m1.data = m.data ++ p.data := by
    intro hd
    exact ⟨m, by rw [hkeep], by rw [hd, List.append_nil]⟩
  unfold HistoryDb.reap_body
  rw [if_neg hnot]
  have hleft : (if p.unlinks = true then none
      else some ({ p with marker := false } : PeerFile)) = p.left := by
    unfold PeerFile.left
    rw [hl]
    simp
  dsimp only
  rw [hleft]
  by_cases hs : 0 < p.file_size
  · rw [if_pos hs]
    by_cases ho : p.opens = true
    · rw [if_pos ho]
      have hmh : db.m_bank_handles 0 = some m := hm
      rw [hmh]
      dsimp only
      obtain ⟨d, s1, hr, hd, _⟩ := WriteLock.append_spec max_line_length m
        { data := p.data, ptr := 0 } hB hlen
      rw [hr]
      refine ⟨d, ?_, hd⟩
      obtain ⟨a, b⟩ := db
      dsimp only at hm
      subst hm
      rfl
    · rw [if_neg ho]
      by_cases hd : p.data = []
      · exact hkept hd
      · exact absurd (hp hd).1 ho
  · rw [if_neg hs]
    by_cases hd : p.data = []
    · exact hkept hd
    · exact absurd (hp hd).2.1 hs

/-- The method `reap` on a store whose master bank is open: the master bank ends as its
old content followed by the contents, in the order of the glob, of the files that are
not skipped as live. -/
theorem HistoryDb.reap_fold (max_line_length : Nat) (hB : 0 < max_line_length) :
    ∀ (peers : List PeerFile) (db : HistoryDb) (m : File), db.bank_master = some m →
      (∀ p ∈ peers, p.live = false → p.data ≠ [] →
        p.opens = true ∧ 0 < p.file_size ∧ p.data.length < 2 ^ 32) →
      ∃ m1, db.reap max_line_length peers
          = some ({ db with bank_master := some m1 }, peers.map PeerFile.left) ∧
        m1.data = m.data ++ (peers.filter (fun p => !p.live)).flatMap PeerFile.data := by
  intro peers
  induction peers with
  | nil =>
    intro db m hm _
    refine ⟨m, ?_, by simp⟩
    obtain ⟨a, b⟩ := db
    dsimp only at hm
    subst hm
    rfl
  | cons p ps ih =>
    intro db m hm hp
    have hps : ∀ q ∈ ps, q.live = false → q.data ≠ [] →
        q.opens = true ∧ 0 < q.file_size ∧ q.data.length < 2 ^ 32 :=
      fun q hq => hp q (List.mem_cons_of_mem _ hq)
    by_cases hl : p.live = true
    · obtain ⟨db1, h1, _, _, hsame, _⟩ := HistoryDb.reap_body_spec max_line_length db p
      have := hsame hl
      subst this
      obtain ⟨m1, h2, hd⟩ := ih db1 m hm hps
      refine ⟨m1, ?_, ?_⟩
      · rw [HistoryDb.reap, h1]
        dsimp only
        rw [h2]
        rfl
      · rw [hd, List.filter_cons_of_neg (by rw [hl]; simp)]
    · have hl2 : p.live = false := by
        cases h : p.live
        · rfl
        · exact absurd h hl
      obtain ⟨m1, h1, hd1⟩ := HistoryDb.reap_body_fold max_line_length db m p hB hm hl2
        (hp p (List.mem_cons_self _ _) hl2)
      obtain ⟨m2, h2, hd2⟩ := ih { db with bank_master := some m1 } m1 rfl hps
      refine ⟨m2, ?_, ?_⟩
      · rw [HistoryDb.reap, h1]
        dsimp only
        rw [h2]
        rfl
      · rw [hd2, hd1, List.filter_cons_of_pos (by rw [hl2]; rfl), List.flatMap_cons,
          List.append_assoc]

/-- When the master handle is open, `reap` returns and the master
bank ends as its old content followed by the full contents, in the order of the glob,
of the peer files that are not skipped as live - among them every file that `reap`
deletes -, each peer with content being one that `os::get_file_size` reports non-empty
and `open_file` opens; the session slot is as it was. -/
theorem HistoryDb.reap_open_master (max_line_length : Nat) (db : HistoryDb) (m : File)
    (peers : List PeerFile) (hB : 0 < max_line_length) (hm : db.bank_master = some m)
    (hp : ∀ p ∈ peers, p.live = false → p.data ≠ [] →
      p.opens = true ∧ 0 < p.file_size ∧ p.data.length < 2 ^ 32) :
    ∃ db1 m1, db.reap max_line_length peers = some (db1, peers.map PeerFile.left) ∧
      db1.bank_master = some m1 ∧ db1.bank_session = db.bank_session ∧
      m1.data = m.data ++ (peers.filter (fun p => !p.live)).flatMap PeerFile.data ∧
      ∀ p ∈ peers, p.left = none → p ∈ peers.filter (fun p => !p.live) := by
  obtain ⟨m1, h1, hd⟩ := HistoryDb.reap_fold max_line_length hB peers db m hm hp
  refine ⟨_, m1, h1, rfl, rfl, hd, ?_⟩
  intro p hpm hleft
  rw [List.mem_filter]
  refine ⟨hpm, ?_⟩
  unfold PeerFile.left at hleft
  cases hl : p.live
  · rfl
  · rw [hl, if_pos rfl] at hleft
    exact absurd hleft (by simp)

/-- The method `reap` on a master bank `a\n` and four files of the glob - an orphan
`b\n` without marker, a live peer `c\n`, an orphan `defgh\n` whose stale marker unlinks,
and an empty orphan -, read through a buffer of four bytes. -/
theorem HistoryDb.reap_open_master_example :
    ∃ db1 m1,
      HistoryDb.reap 4
          { bank_master := some { data := [97, 10], ptr := 0 }, bank_session := none }
          [{ data := [98, 10], marker := false, marker_unlinks := false, file_size := 2,
             opens := true, unlinks := true },
           { data := [99, 10], marker := true, marker_unlinks := false, file_size := 2,
             opens := true, unlinks := true },
           { data := [100, 101, 102, 103, 104, 10], marker := true, marker_unlinks := true,
             file_size := 6, opens := true, unlinks := true },
           { data := [], marker := false, marker_unlinks := true, file_size := 0,
             opens := true, unlinks := true }]
        = some (db1, [none,
            some { data := [99, 10], marker := true, marker_unlinks := false, file_size := 2,
                   opens := true, unlinks := true },
            none, none]) ∧
      db1.bank_master = some m1 ∧ db1.bank_session = none ∧
      m1.data = [97, 10, 98, 10, 100, 101, 102, 103, 104, 10] := by
  obtain ⟨db1, m1, h1, h2, h3, h4, _⟩ := HistoryDb.reap_open_master 4
    { bank_master := some { data := [97, 10], ptr := 0 }, bank_session := none }
    { data := [97, 10], ptr := 0 }
    [{ data := [98, 10], marker := false, marker_unlinks := false, file_size := 2,
       opens := true, unlinks := true },
     { data := [99, 10], marker := true, marker_unlinks := false, file_size := 2,
       opens := true, unlinks := true },
     { data := [100, 101, 102, 103, 104, 10], marker := true, marker_unlinks := true,
       file_size := 6, opens := true, unlinks := true },
     { data := [], marker := false, marker_unlinks := true, file_size := 0,
       opens := true, unlinks := true }]
    (by decide) rfl (by decide)
  exact ⟨db1, m1, h1, h2, h3, h4⟩

/-- Claim C23 on the code: `reap` unlinks an orphaned peer file that is not empty without
its content reaching the master bank, when the master handle is null - the store that
`initialise` builds when `open_file` fails for the master path - and when `open_file`
fails for the peer file under an open master bank `a\n`; the guarded `dest.append(src)`
is skipped and `os::unlink(path)` runs all the same. -/
theorem C23_reap_unlinks_without_folding :
    HistoryDb.initialise 8192 { g_shared := false, g_ignore_space := false, g_dupe_mode := 0 }
        HistoryDb.ctor none (some { data := [], ptr := 0 })
        [{ data := [108, 115, 10], marker := false, marker_unlinks := false, file_size := 3,
           opens := true, unlinks := true }]
      = some ({ bank_master := none, bank_session := some { data := [], ptr := 0 } },
          [none]) ∧
    HistoryDb.reap 8192
        { bank_master := none, bank_session := some { data := [], ptr := 0 } }
        [{ data := [108, 115, 10], marker := false, marker_unlinks := false, file_size := 3,
           opens := true, unlinks := true }]
      = some ({ bank_master := none, bank_session := some { data := [], ptr := 0 } },
          [none]) ∧
    HistoryDb.reap 8192
        { bank_master := some { data := [97, 10], ptr := 0 }, bank_session := none }
        [{ data := [108, 115, 10], marker := false, marker_unlinks := false, file_size := 3,
           opens := false, unlinks := true }]
      = some ({ bank_master := some { data := [97, 10], ptr := 0 }, bank_session := none },
          [none]) := by
  decide

/-- Claim C24: for every store, whatever the state of its master handle, and every peer
file whose aliveness marker exists and cannot be unlinked, `reap` returns and does to
the store and to the other files exactly what it does when the glob does not yield that
peer - none of its bytes reaches the master bank -, and leaves the peer file and its
marker as they are; when the glob yields no file, `reap` changes neither the store nor
the filesystem. -/
theorem C24_reap_skips_live_peers (max_line_length : Nat) (db : HistoryDb)
    (pre post : List PeerFile) (p : PeerFile)
    (hl : p.marker = true ∧ p.marker_unlinks = false) :
    (∃ db1 fs, db.reap max_line_length (pre ++ post) = some (db1, fs) ∧
      db.reap max_line_length (pre ++ p :: post)
        = some (db1, fs.take pre.length ++ some p :: fs.drop pre.length)) ∧
    db.reap max_line_length [] = some (db, []) :=
  ⟨HistoryDb.reap_skip max_line_length p post ((PeerFile.live_marker p).mpr hl) pre db, rfl⟩

/-- The witness of claim C24: a master bank `a\n`, an orphan `b\n` and after it the live
peer `c\n`, whose marker cannot be unlinked. -/
theorem C24_reap_skips_live_peers_witness :
    HistoryDb.reap 4
        { bank_master := some { data := [97, 10], ptr := 0 }, bank_session := none }
        [{ data := [98, 10], marker := false, marker_unlinks := false, file_size := 2,
           opens := true, unlinks := true },
         { data := [99, 10], marker := true, marker_unlinks := false, file_size := 2,
           opens := true, unlinks := true }]
      = some ({ bank_master := some { data := [97, 10, 98, 10], ptr := 4 },
                bank_session := none },
          [none,
           some { data := [99, 10], marker := true, marker_unlinks := false, file_size := 2,
                  opens := true, unlinks := true }]) ∧
    ((∃ db1 fs,
      HistoryDb.reap 4
          { bank_master := some { data := [97, 10], ptr := 0 }, bank_session := none }
          ([{ data := [98, 10], marker := false, marker_unlinks := false, file_size := 2,
              opens := true, unlinks := true }] ++ []) = some (db1, fs) ∧
      HistoryDb.reap 4
          { bank_master := some { data := [97, 10], ptr := 0 }, bank_session := none }
          ([{ data := [98, 10], marker := false, marker_unlinks := false, file_size := 2,
              opens := true, unlinks := true }] ++
            { data := [99, 10], marker := true, marker_unlinks := false, file_size := 2,
              opens := true, unlinks := true } :: [])
        = some (db1,
            fs.take 1
              ++ some { data := [99, 10], marker := true, marker_unlinks := false,
                        file_size := 2, opens := true, unlinks := true }
              :: fs.drop 1)) ∧
    HistoryDb.reap 4
        { bank_master := some { data := [97, 10], ptr := 0 }, bank_session := none } []
      = some ({ bank_master := some { data := [97, 10], ptr := 0 }, bank_session := none },
          [])) :=
  ⟨by decide,
    C24_reap_skips_live_peers 4
      { bank_master := some { data := [97, 10], ptr := 0 }, bank_session := none }
      [{ data := [98, 10], marker := false, marker_unlinks := false, file_size := 2,
         opens := true, unlinks := true }] []
      { data := [99, 10], marker := true, marker_unlinks := false, file_size := 2,
        opens := true, unlinks := true } ⟨rfl, rfl⟩⟩

/-- The method `initialise` on the freshly constructed store when `open_file` returns null
for the master path: it returns, the master slot stays null, the session slot is null in
shared mode and is what `open_file` returned for the session path otherwise, and
`get_bank` reports no bank. -/
theorem HistoryDb.initialise_master_fails (max_line_length : Nat) (cfg : Settings)
    (open_session : Option File) (peers : List PeerFile) :
    ∃ db1 fs, HistoryDb.initialise max_line_length cfg HistoryDb.ctor none open_session peers
        = some (db1, fs) ∧
      db1.bank_master = none ∧
      db1.bank_session = (if cfg.g_shared = true then none else open_session) ∧
      db1.get_bank_count
        = (if cfg.g_shared = true then 0 else if open_session.isSome = true then 1 else 0) ∧
      ∀ i, db1.get_bank i = none := by
  unfold HistoryDb.initialise
  rw [if_neg (by decide)]
  dsimp only
  by_cases hs : cfg.g_shared = true
  · rw [if_pos hs, if_pos hs, if_pos hs]
    exact ⟨_, _, rfl, rfl, rfl, rfl, fun i => HistoryDb.get_bank_null _ rfl i⟩
  · rw [if_neg hs, if_neg hs, if_neg hs]
    rw [HistoryDb.reap_null max_line_length peers _ rfl]
    refine ⟨_, _, rfl, rfl, rfl, ?_, fun i => HistoryDb.get_bank_null _ rfl i⟩
    cases open_session <;> rfl

/-- Claim C26, amended: when `initialise` fails to open the master bank, `get_bank_count()`
returns 0 after `initialise` in shared mode, and in non-shared mode it returns 1 when
the session bank was opened and 0 when it was not; in every case `get_bank` returns
null for each index, so the store reports no bank. -/
theorem C26_bank_count_after_failed_master (max_line_length : Nat) (cfg : Settings)
    (open_session : Option File) (peers : List PeerFile) :
    ∃ db1 fs, HistoryDb.initialise max_line_length cfg HistoryDb.ctor none open_session peers
        = some (db1, fs) ∧
      db1.get_bank_count
        = (if cfg.g_shared = true then 0 else if open_session.isSome = true then 1 else 0) ∧
      ∀ i, db1.get_bank i = none := by
  obtain ⟨db1, fs, h1, _, _, h4, h5⟩ :=
    HistoryDb.initialise_master_fails max_line_length cfg open_session peers
  exact ⟨db1, fs, h1, h4, h5⟩

/-- C26 as stated fails in non-shared mode: when `open_file` returns null for the master
path and a handle for the session path, `initialise` stores the session handle and
`get_bank_count()` returns 1. -/
theorem C26_counterexample :
    HistoryDb.initialise 8192 { g_shared := false, g_ignore_space := false, g_dupe_mode := 0 }
        HistoryDb.ctor none (some { data := [], ptr := 0 }) []
      = some ({ bank_master := none, bank_session := some { data := [], ptr := 0 } }, []) ∧
    HistoryDb.get_bank_count
        { bank_master := none, bank_session := some { data := [], ptr := 0 } } = 1 := by
  decide

/-- One call `next(r)` from a state that counts the unread bytes of the file right and in
which, unless the file is read up, the last `r` bytes of the buffer are the file bytes
before the file pointer: the call meets `FileIter.call_ok`, and the state after it
counts right again and has its whole fill as window. -/
theorem FileIter.call_step (B : Nat) (file : List Nat) (hB : 0 < B)
    (hlen : file.length < 2 ^ 32) (fi : FileIter) (h : File) (r : Nat)
    (hd : h.data = file) (hrem : fi.m_remaining = file.length - h.ptr)
    (hptr : h.ptr ≤ file.length)
    (hI : fi.m_remaining ≠ 0 → LineIter.Inv B { m_file_iter := fi, m_remaining := r } h) :
    FileIter.call_ok B file (fi, h, r, fi.next h r) ∧
    (fi.next h r).2.2.data = file ∧
    (fi.next h r).2.1.m_remaining = file.length - (fi.next h r).2.2.ptr ∧
    (fi.next h r).2.2.ptr ≤ file.length ∧
    ((fi.next h r).2.1.m_remaining ≠ 0 →
      LineIter.Inv B
        { m_file_iter := (fi.next h r).2.1, m_remaining := (fi.next h r).2.1.m_buffer_size }
        (fi.next h r).2.2) := by
  by_cases hf : fi.m_remaining = 0
  · have hn : fi.next h r = (0, { fi with m_buffer := fi.m_buffer.set 0 0 }, h) := by
      unfold FileIter.next
      rw [if_pos hf]
    rw [hn]
    refine ⟨⟨?_, ?_⟩, hd, hrem, hptr, ?_⟩
    · dsimp only
      constructor
      · intro _; omega
      · intro _; rfl
    · intro h0
      exact absurd rfl h0
    · intro h0
      exact absurd hf h0
  · have hInv := hI hf
    obtain ⟨h1, h2, h3, h4, h5, h6, h7⟩ := FileIter.next_window r hInv hf
    have hsize : fi.m_buffer_size = B := by
      rcases hInv.cap with hc | hc
      · exact absurd hc hf
      · exact hc
    have hr : r ≤ fi.m_buffer_size := hInv.rem_le
    have hn0 : (fi.next h r).1 ≠ 0 := by rw [h1]; omega
    refine ⟨⟨?_, ?_⟩, by rw [h5, hd], ?_, ?_, fun _ => h7⟩
    · dsimp only
      constructor
      · intro h0; exact absurd h0 hn0
      · intro hle; omega
    · intro _
      dsimp only
      refine ⟨by rw [h1]; omega, h2, ?_, h4⟩
      intro i hi
      have hw := h7.window
      have hoff := h7.off
      have hrp := h7.rem_le_ptr
      have hpl := h7.ptr_le
      dsimp only at hw hoff hrp hpl
      rw [Nat.sub_self, List.drop_zero, h2, h5, hd] at hw
      rw [h2] at hoff hrp
      rw [h5, hd] at hpl
      have holt : (fi.next h r).2.1.m_buffer_offset < 2 ^ 32 := by
        rw [h4]; exact Nat.mod_lt _ (by norm_num)
      have hoeq : (fi.next h r).2.1.m_buffer_offset
          = (fi.next h r).2.2.ptr - (fi.next h r).1 := by omega
      have e1 : (fi.next h r).2.1.m_buffer.getD i 0
          = ((fi.next h r).2.1.m_buffer.take (fi.next h r).1).getD i 0 := by
        rw [List.getD_eq_getElem?_getD, List.getD_eq_getElem?_getD,
          List.getElem?_take_of_lt hi]
      rw [e1, hw, hoeq, List.getD_eq_getElem?_getD, List.getD_eq_getElem?_getD,
        List.getElem?_take_of_lt hi, List.getElem?_drop]
    · rw [h3, h6, hrem]; omega
    · rw [h6]; omega

/-- Every call of a sequence of calls `next(r)` with rollbacks within the fill meets
`FileIter.call_ok`, from a state that counts the unread bytes right and has its whole
fill as window. -/
theorem FileIter.calls_window (B : Nat) (file : List Nat) (hB : 0 < B)
    (hlen : file.length < 2 ^ 32) :
    ∀ (rs : List Nat) (fi : FileIter) (h : File),
      h.data = file → fi.m_remaining = file.length - h.ptr → h.ptr ≤ file.length →
      (fi.m_remaining ≠ 0 →
        LineIter.Inv B { m_file_iter := fi, m_remaining := fi.m_buffer_size } h) →
      FileIter.rollbacks_ok rs fi h →
      ∀ c ∈ FileIter.calls rs fi h, FileIter.call_ok B file c := by
  intro rs
  induction rs with
  | nil =>
    intro fi h _ _ _ _ _ c hc
    rw [FileIter.calls] at hc
    exact absurd hc (List.not_mem_nil _)
  | cons r rs ih =>
    intro fi h hd hrem hptr hI hok c hc
    rw [FileIter.rollbacks_ok] at hok
    obtain ⟨hr, hok2⟩ := hok
    have hIr : fi.m_remaining ≠ 0 →
        LineIter.Inv B { m_file_iter := fi, m_remaining := r } h := by
      intro hf
      have := (hI hf).advance (fi.m_buffer_size - r) (by dsimp only; omega)
      dsimp only at this
      have e : fi.m_buffer_size - (fi.m_buffer_size - r) = r := by omega
      rw [e] at this
      exact this
    obtain ⟨s1, s2, s3, s4, s5⟩ := FileIter.call_step B file hB hlen fi h r hd hrem hptr hIr
    rw [FileIter.calls, List.mem_cons] at hc
    rcases hc with hc | hc
    · rw [hc]; exact s1
    · exact ih _ _ s2 s3 s4 s5 hok2 c hc

/-- Claim C29: for every file content shorter than 2^32 bytes and every buffer of
`B >= 1` bytes, if the first call on the new iterator is `next(0)` and every later call
is `next(r)` with `r` at most the fill at that time, then each call returns 0 exactly
when no unread byte remains in the file, and each call that returns a non-zero fill `n`
has `n <= B`, `buffer[i] = file[get_buffer_offset() + i]` for all `i < n`, and the buffer
offset advanced by the previous fill minus `r`; after a first call that returns
non-zero the buffer offset is 0. -/
theorem C29_file_iter_window (h0 : File) (buffer : List Nat) (rs : List Nat)
    (hB : 1 ≤ buffer.length) (hlen : h0.data.length < 2 ^ 32)
    (hrs : FileIter.rollbacks_ok (0 :: rs) (FileIter.init h0 buffer).1
      (FileIter.init h0 buffer).2) :
    (∀ c ∈ FileIter.calls (0 :: rs) (FileIter.init h0 buffer).1 (FileIter.init h0 buffer).2,
      FileIter.call_ok buffer.length h0.data c) ∧
    (((FileIter.init h0 buffer).1.next (FileIter.init h0 buffer).2 0).1 ≠ 0 →
      ((FileIter.init h0 buffer).1.next (FileIter.init h0 buffer).2 0).2.1.m_buffer_offset
        = 0) := by
  obtain ⟨hI, hd, hpos⟩ := LineIter.init_spec h0 buffer hlen
  have hfi : FileIter.init h0 buffer
      = ((LineIter.init h0 buffer).1.m_file_iter, (LineIter.init h0 buffer).2) := rfl
  have hptr : (LineIter.init h0 buffer).2.ptr = 0 := by
    have := hpos
    unfold LineIter.pos at this
    have hrem : (LineIter.init h0 buffer).1.m_remaining = 0 := rfl
    rw [hrem, Nat.sub_zero] at this
    exact this
  rw [hfi] at hrs ⊢
  dsimp only at hrs ⊢
  have hfr := hI.frem
  rw [hd, hptr] at hfr
  obtain ⟨s1, s2, s3, s4, s5⟩ := FileIter.call_step buffer.length h0.data hB hlen
    (LineIter.init h0 buffer).1.m_file_iter (LineIter.init h0 buffer).2 0 hd
    (by rw [hfr, hptr]) (by rw [hptr]; omega) (fun _ => hI)
  rw [FileIter.rollbacks_ok] at hrs
  refine ⟨?_, ?_⟩
  · intro c hc
    rw [FileIter.calls, List.mem_cons] at hc
    rcases hc with hc | hc
    · rw [hc]; exact s1
    · exact FileIter.calls_window buffer.length h0.data hB hlen rs _ _ s2 s3 s4 s5 hrs.2 c hc
  · intro hn
    have := (s1.2 hn).2.2.2
    dsimp only at this
    rw [this]
    have e1 : (LineIter.init h0 buffer).1.m_file_iter.m_buffer_offset
        = (2 ^ 32 - buffer.length % 2 ^ 32) % 2 ^ 32 := rfl
    have e2 : (LineIter.init h0 buffer).1.m_file_iter.m_buffer_size = buffer.length := rfl
    rw [e1, e2]
    omega

/-- The witness of claim C29: a file of nine bytes read through a buffer of four bytes by
the calls `next(0)`, `next(1)`, `next(2)`, `next(4)`, `next(0)`, which return 4, 4, 4, 0
and 0. -/
theorem C29_file_iter_window_witness :
    FileIter.rollbacks_ok [0, 1, 2, 4, 0]
      (FileIter.init { data := [1, 2, 3, 4, 5, 6, 7, 8, 9], ptr := 3 } [0, 0, 0, 0]).1
      (FileIter.init { data := [1, 2, 3, 4, 5, 6, 7, 8, 9], ptr := 3 } [0, 0, 0, 0]).2 ∧
    (FileIter.calls [0, 1, 2, 4, 0]
      (FileIter.init { data := [1, 2, 3, 4, 5, 6, 7, 8, 9], ptr := 3 } [0, 0, 0, 0]).1
      (FileIter.init { data := [1, 2, 3, 4, 5, 6, 7, 8, 9], ptr := 3 } [0, 0, 0, 0]).2).map (fun c => c.2.2.2.1) = [4, 4, 4, 0, 0] ∧
    ((∀ c ∈ FileIter.calls (0 :: [1, 2, 4, 0])
        (FileIter.init { data := [1, 2, 3, 4, 5, 6, 7, 8, 9], ptr := 3 } [0, 0, 0, 0]).1
        (FileIter.init { data := [1, 2, 3, 4, 5, 6, 7, 8, 9], ptr := 3 } [0, 0, 0, 0]).2,
      FileIter.call_ok (List.length [0, 0, 0, 0])
        (File.data { data := [1, 2, 3, 4, 5, 6, 7, 8, 9], ptr := 3 }) c) ∧
    (((FileIter.init { data := [1, 2, 3, 4, 5, 6, 7, 8, 9], ptr := 3 } [0, 0, 0, 0]).1.next
        (FileIter.init { data := [1, 2, 3, 4, 5, 6, 7, 8, 9], ptr := 3 } [0, 0, 0, 0]).2 0).1 ≠ 0 →
      ((FileIter.init { data := [1, 2, 3, 4, 5, 6, 7, 8, 9], ptr := 3 } [0, 0, 0, 0]).1.next
        (FileIter.init { data := [1, 2, 3, 4, 5, 6, 7, 8, 9], ptr := 3 } [0, 0, 0, 0]).2 0).2.1.m_buffer_offset = 0)) :=
  ⟨⟨by decide, by decide, by decide, by decide, by decide, trivial⟩, by decide,
    C29_file_iter_window { data := [1, 2, 3, 4, 5, 6, 7, 8, 9], ptr := 3 } [0, 0, 0, 0]
      [1, 2, 4, 0] (by decide) (by decide)
      ⟨by decide, by decide, by decide, by decide, by decide, trivial⟩⟩

theorem LineIter.Weak.eof {it : LineIter} {h : File} (hW : LineIter.Weak it h)
    (hf : it.m_file_iter.m_remaining = 0) :
    it.provision h =
      (false,
       { m_file_iter := { it.m_file_iter with m_buffer := it.m_file_iter.m_buffer.set 0 0 }
         m_remaining := 0 }, h) ∧
    LineIter.Weak
      { m_file_iter := { it.m_file_iter with m_buffer := it.m_file_iter.m_buffer.set 0 0 }
        m_remaining := 0 } h := by
  refine ⟨LineIter.provision_eof it h hf, ?_, ?_, ?_⟩
  · dsimp only; rw [List.length_set]; exact hW.size_le
  · dsimp only; omega
  · dsimp only; rw [hf]; omega

/-- A refill on any file that has the bytes the iterator counts as unread: what
`provision` returns and how the counters move. -/
theorem LineIter.Weak.read {it : LineIter} {h : File} (hW : LineIter.Weak it h)
    (hf : it.m_file_iter.m_remaining ≠ 0) :
    (it.provision h).1
        = (min it.m_file_iter.m_remaining
            (it.m_file_iter.m_buffer_size - it.m_remaining) + it.m_remaining != 0) ∧
      (it.provision h).2.1.m_remaining
        = min it.m_file_iter.m_remaining (it.m_file_iter.m_buffer_size - it.m_remaining)
            + it.m_remaining ∧
      (it.provision h).2.1.m_file_iter.m_remaining
        = it.m_file_iter.m_remaining
            - min it.m_file_iter.m_remaining (it.m_file_iter.m_buffer_size - it.m_remaining) ∧
      (it.provision h).2.2.data = h.data ∧
      LineIter.Weak (it.provision h).2.1 (it.provision h).2.2 := by
  obtain ⟨h1, h2, h3⟩ := hW
  set fi := it.m_file_iter with hfi
  set r := it.m_remaining with hr
  set size := fi.m_buffer_size with hsize
  set needed := min fi.m_remaining (size - r) with hneeded
  have hmin : min r size = r := Nat.min_eq_left h2
  have hbytes : ((h.data.drop h.ptr).take needed).length = needed := by
    rw [List.length_take, List.length_drop]; omega
  have hprov : it.provision h =
      ((needed + r != 0),
       { m_file_iter :=
          { m_buffer := store_at
              (if r ≠ 0 then memmove_front fi.m_buffer (size - r) r else fi.m_buffer) r
              ((h.data.drop h.ptr).take needed)
            m_buffer_size := needed + r
            m_buffer_offset := (fi.m_buffer_offset + (size - r)) % 2 ^ 32
            m_remaining := fi.m_remaining - needed }
         m_remaining := needed + r },
       { data := h.data, ptr := h.ptr + needed }) := by
    simp only [LineIter.provision, FileIter.next, ← hfi, ← hr, ← hsize, hf, if_false, ReadFile,
      hmin, ← hneeded, hbytes]
  rw [hprov]
  refine ⟨rfl, rfl, rfl, rfl, ?_⟩
  have hmlen := length_memmove_front fi.m_buffer size r h1 h2
  refine ⟨?_, ?_, ?_⟩
  · dsimp only
    rw [length_store_at _ _ _ (by rw [hbytes]; omega), hmlen]
    omega
  · dsimp only
    exact Nat.le_refl _
  · dsimp only
    omega

theorem LineIter.weak_post_trans {it it1 : LineIter}
    {res : LineIdImpl × List Nat × LineIter × File}
    (hp : LineIter.weak_post it1 res)
    (hle : it1.m_file_iter.m_remaining + it1.m_remaining
      ≤ it.m_file_iter.m_remaining + it.m_remaining) :
    LineIter.weak_post it res := by
  obtain ⟨h1, h2, h3⟩ := hp
  refine ⟨h1, by omega, ?_⟩
  rcases h3 with h3 | ⟨h3, h4⟩
  · exact Or.inl h3
  · exact Or.inr ⟨h3, by omega⟩

/-- One iteration of the loop of `LineIter::next` with bytes left in the buffer, on any
file: given that the loop returns from every state of smaller measure. -/
theorem LineIter.next_loop_body_weak (fuel : Nat)
    (ih : ∀ (it : LineIter) (h : File) (out : List Nat), LineIter.Weak it h →
        2 * it.m_file_iter.m_remaining + it.m_remaining < fuel →
        ∃ res, LineIter.next_loop fuel it h out = some res ∧ LineIter.weak_post it res)
    (it : LineIter) (h : File) (out : List Nat) (hW : LineIter.Weak it h)
    (hrem : it.m_remaining ≠ 0)
    (hfuel : 2 * it.m_file_iter.m_remaining + it.m_remaining < fuel + 1) :
    ∃ res, LineIter.next_loop (fuel + 1) it h out = some res ∧
      LineIter.weak_post it res := by
  obtain ⟨cs, r, W2, hWeq, hcs, hr, _, _, _, hne⟩ := window_split
    ((it.m_file_iter.m_buffer.take it.m_file_iter.m_buffer_size).drop
      (it.m_file_iter.m_buffer_size - it.m_remaining))
  have hsl := hW.size_le
  have hrl := hW.rem_le
  have hWlen : ((it.m_file_iter.m_buffer.take it.m_file_iter.m_buffer_size).drop
      (it.m_file_iter.m_buffer_size - it.m_remaining)).length = it.m_remaining := by
    rw [List.length_drop, List.length_take]; omega
  have hsum : cs.length + r.length ≤ it.m_remaining := by
    have := congrArg List.length hWeq
    rw [hWlen, List.length_append, List.length_append] at this
    omega
  have hpos : 1 ≤ cs.length + r.length := by
    by_cases hk : cs.length < it.m_remaining
    · have : r ≠ [] := hne (by rw [hWlen]; exact hk)
      have := List.length_pos.mpr this
      omega
    · omega
  rw [LineIter.next_loop_body_eq fuel it h out hrem _ cs.length r.length rfl
    (by rw [← hcs]) (by rw [← hr])]
  by_cases hA : it.m_file_iter.m_buffer_size - it.m_remaining + cs.length + r.length
      = it.m_file_iter.m_buffer_size ∧
      it.m_file_iter.m_buffer_size - it.m_remaining + cs.length ≠ 0
  · rw [if_pos hA]
    have hWk : LineIter.Weak { it with m_remaining := it.m_remaining - cs.length } h :=
      ⟨hW.size_le, by dsimp only; omega, hW.frem_le⟩
    by_cases hf : it.m_file_iter.m_remaining = 0
    · obtain ⟨he, hWe⟩ := hWk.eof hf
      rw [he]
      dsimp only
      obtain ⟨res, hres, hpost⟩ := ih _ h out hWe (by dsimp only; omega)
      exact ⟨res, hres, LineIter.weak_post_trans hpost (by dsimp only; omega)⟩
    · obtain ⟨_, p2, p3, _, p5⟩ := hWk.read hf
      dsimp only at p2 p3
      obtain ⟨res, hres, hpost⟩ := ih _ _ out p5 (by rw [p2, p3]; omega)
      exact ⟨res, hres, LineIter.weak_post_trans hpost (by rw [p2, p3]; omega)⟩
  · rw [if_neg hA]
    have hW1 : LineIter.Weak { it with m_remaining := it.m_remaining - cs.length - r.length } h :=
      ⟨hW.size_le, by dsimp only; omega, hW.frem_le⟩
    by_cases hT : it.m_file_iter.m_buffer.getD
        (it.m_file_iter.m_buffer_size - it.m_remaining + cs.length) 0 = 0x7C
    · rw [if_pos hT]
      obtain ⟨res, hres, hpost⟩ := ih _ h out hW1 (by dsimp only; omega)
      exact ⟨res, hres, LineIter.weak_post_trans hpost (by dsimp only; omega)⟩
    · rw [if_neg hT]
      refine ⟨_, rfl, hW1, by dsimp only; omega, Or.inr ⟨⟨_, rfl⟩, by dsimp only; omega⟩⟩

/-- The loop of `LineIter::next` returns on every file, within the fuel that
`LineIter.next` gives it. -/
theorem LineIter.next_loop_weak : ∀ (fuel : Nat) (it : LineIter) (h : File) (out : List Nat),
    LineIter.Weak it h → 2 * it.m_file_iter.m_remaining + it.m_remaining < fuel →
    ∃ res, LineIter.next_loop fuel it h out = some res ∧ LineIter.weak_post it res := by
  intro fuel
  induction fuel with
  | zero => intro it h out _ hf; omega
  | succ fuel ih =>
    intro it h out hW hfuel
    by_cases hrem : it.m_remaining = 0
    · by_cases hf : it.m_file_iter.m_remaining = 0
      · obtain ⟨he, hWe⟩ := hW.eof hf
        rw [LineIter.next_loop_stop fuel it h out hrem (by rw [he]), he]
        exact ⟨_, rfl, hWe, by dsimp only; omega, Or.inl rfl⟩
      · obtain ⟨p1, p2, p3, _, p5⟩ := hW.read hf
        by_cases hz : min it.m_file_iter.m_remaining
            (it.m_file_iter.m_buffer_size - it.m_remaining) + it.m_remaining = 0
        · have hgo : (it.provision h).1 = false := by rw [p1, hz]; rfl
          rw [LineIter.next_loop_stop fuel it h out hrem hgo]
          exact ⟨_, rfl, p5, by dsimp only; rw [p2, p3]; omega, Or.inl rfl⟩
        · have hgo : (it.provision h).1 = true := by
            rw [p1]; simpa using hz
          rw [LineIter.next_loop_refill fuel it h out hrem hgo (by rw [p2]; exact hz)]
          obtain ⟨res, hres, hpost⟩ := LineIter.next_loop_body_weak fuel ih _ _ out p5
            (by rw [p2]; exact hz) (by rw [p2, p3]; omega)
          exact ⟨res, hres, LineIter.weak_post_trans hpost (by rw [p2, p3]; omega)⟩
    · exact LineIter.next_loop_body_weak fuel ih it h out hW hrem hfuel

/-- The method `LineIter::next` returns on every file. -/
theorem LineIter.next_weak (it : LineIter) (h : File) (out : List Nat)
    (hW : LineIter.Weak it h) :
    ∃ res, it.next h out = some res ∧ LineIter.weak_post it res :=
  LineIter.next_loop_weak _ it h out hW (by omega)

/-- The loop of `ReadLock::find` returns on every file, for every callback after which
the file has at least as many bytes behind the restored file pointer as before. -/
theorem ReadLock.find_loop_total {σ : Type} (line : List Nat)
    (callback : LineIdImpl → σ → File → Bool × σ × File)
    (hcb : ∀ (q : Nat) (s : σ) (h : File),
      h.data.length - h.ptr
        ≤ (SetFilePointerBegin (callback (LineIdImpl.of_offset q) s h).2.2
            (SetFilePointerCurrent h)).data.length
          - (SetFilePointerBegin (callback (LineIdImpl.of_offset q) s h).2.2
            (SetFilePointerCurrent h)).ptr) :
    ∀ (fuel : Nat) (it : LineIter) (s : σ) (h : File) (read : List Nat),
      LineIter.Weak it h → it.m_file_iter.m_remaining + it.m_remaining < fuel →
      ∃ r, ReadLock.find_loop line callback fuel it s h read = some r := by
  intro fuel
  induction fuel with
  | zero => intro it s h read _ hf; omega
  | succ fuel ih =>
    intro it s h read hW hfuel
    obtain ⟨res, hres, hW1, hle, hcase⟩ := LineIter.next_weak it h read hW
    obtain ⟨id, read1, it1, h1⟩ := res
    dsimp only at hW1 hle hcase
    rw [ReadLock.find_loop, hres]
    dsimp only
    rcases hcase with hnull | ⟨⟨q, hid⟩, hlt⟩
    · rw [hnull, to_bool_null, if_pos rfl]
      exact ⟨_, rfl⟩
    · rw [hid, to_bool_of_offset, if_neg (by simp)]
      have hnext := ih it1 s h1 read1 hW1 (by omega)
      by_cases hs : strncmp_ne line read1 read1.length = true
      · rw [if_pos hs]
        exact hnext
      · rw [if_neg hs]
        by_cases hz : cstr_at line read1.length ≠ 0
        · rw [if_pos hz]
          exact hnext
        · rw [if_neg hz]
          by_cases ha : (callback (LineIdImpl.of_offset q) s h1).1 = false
          · rw [if_pos ha]
            exact ⟨_, rfl⟩
          · rw [if_neg ha]
            apply ih
            · exact ⟨hW1.size_le, hW1.rem_le, le_trans hW1.frem_le (hcb q s h1)⟩
            · omega

/-- The method `ReadLock::find(line, callback)` returns on every file, for every buffer
size and every such callback. -/
theorem ReadLock.find_cb_total {σ : Type} (max_line_length : Nat) (h : File)
    (line : List Nat) (callback : LineIdImpl → σ → File → Bool × σ × File) (s : σ)
    (hcb : ∀ (q : Nat) (s : σ) (h : File),
      h.data.length - h.ptr
        ≤ (SetFilePointerBegin (callback (LineIdImpl.of_offset q) s h).2.2
            (SetFilePointerCurrent h)).data.length
          - (SetFilePointerBegin (callback (LineIdImpl.of_offset q) s h).2.2
            (SetFilePointerCurrent h)).ptr) :
    ∃ r, ReadLock.find_cb max_line_length h line callback s = some r := by
  have hinit : LineIter.init h (List.replicate max_line_length 0) =
      ({ m_file_iter :=
          { m_buffer := (List.replicate max_line_length 0).set 0 0
            m_buffer_size := (List.replicate max_line_length 0).length
            m_buffer_offset :=
              (2 ^ 32 - (List.replicate max_line_length 0).length % 2 ^ 32) % 2 ^ 32
            m_remaining := h.data.length % 2 ^ 32 }
         m_remaining := 0 }, { data := h.data, ptr := 0 }) := by
    simp [LineIter.init, FileIter.init, GetFileSize, SetFilePointerBegin]
  unfold ReadLock.find_cb
  rw [hinit]
  dsimp only
  have hmod := Nat.mod_le h.data.length (2 ^ 32)
  apply ReadLock.find_loop_total line callback hcb
  · refine ⟨?_, ?_, ?_⟩
    · dsimp only; rw [List.length_set]
    · dsimp only; omega
    · dsimp only; omega
  · dsimp only; omega

/-- After the callback of `remove(line)`, which writes one byte at an offset below 2^29,
and the restoring of the file pointer, the file has at least as many bytes behind the
pointer as before. -/
theorem WriteLock.remove_restore (q : Nat) (h : File) :
    h.data.length - h.ptr
      ≤ (SetFilePointerBegin (WriteLock.remove h (LineIdImpl.of_offset q))
          (SetFilePointerCurrent h)).data.length
        - (SetFilePointerBegin (WriteLock.remove h (LineIdImpl.of_offset q))
          (SetFilePointerCurrent h)).ptr := by
  have ho : (LineIdImpl.of_offset q).offset = q % 2 ^ 29 := rfl
  have hlt : q % 2 ^ 29 < 2 ^ 29 := Nat.mod_lt _ (by norm_num)
  have hw : WriteLock.remove h (LineIdImpl.of_offset q)
      = WriteFile { h with ptr := q % 2 ^ 29 } [0x7C] := by
    unfold WriteLock.remove SetFilePointerBegin
    rw [ho, if_pos (by omega)]
    have : q % 2 ^ 29 % 2 ^ 32 = q % 2 ^ 29 := Nat.mod_eq_of_lt (by omega)
    rw [this]
  have hlen : (WriteFile { h with ptr := q % 2 ^ 29 } [0x7C]).data.length ≥ h.data.length := by
    unfold WriteFile
    simp only [List.length_append, List.length_take, List.length_replicate, List.length_drop,
      List.length_singleton]
    omega
  have hptr : (WriteFile { h with ptr := q % 2 ^ 29 } [0x7C]).ptr = q % 2 ^ 29 + 1 := rfl
  rw [hw]
  unfold SetFilePointerBegin SetFilePointerCurrent
  have hm := Nat.mod_le h.ptr (2 ^ 32)
  split
  · dsimp only
    rw [Nat.mod_mod]
    omega
  · rename_i hbig
    rw [Nat.mod_mod] at hbig
    rw [hptr]
    omega

/-- The scan of `remove(line)` over one bank returns, whatever the bank holds. -/
theorem ReadLock.find_cb_remove_total (max_line_length : Nat) (h : File) (line : List Nat) :
    ∃ r, ReadLock.find_cb max_line_length h line
      (fun id (_ : Unit) h => (true, (), WriteLock.remove h id)) () = some r :=
  ReadLock.find_cb_total max_line_length h line _ ()
    (fun q _ h => WriteLock.remove_restore q h)

/-- The method `remove(line)` returns on every store, and what it returns is 0. -/
theorem HistoryDb.remove_line_total (max_line_length : Nat) (db : HistoryDb)
    (line : List Nat) :
    ∃ db1, db.remove_line max_line_length line = some (0, db1) := by
  cases hm : db.bank_master with
  | none => exact ⟨db, HistoryDb.remove_line_null max_line_length db line hm⟩
  | some m =>
    unfold HistoryDb.remove_line
    obtain ⟨db1, h1, _⟩ := HistoryDb.for_each_bank_all db
      (fun _ lock (count : Nat) =>
        match ReadLock.find_cb max_line_length lock line
                (fun id (_ : Unit) h => (true, (), WriteLock.remove h id)) () with
        | none => none
        | some (_, lock) => some (true, count, lock))
      0 (fun _ _ _ => True) (by rw [hm]; rfl)
      (by
        intro i h _
        obtain ⟨r, hr⟩ := ReadLock.find_cb_remove_total max_line_length h line
        exact ⟨r.2, by simp only [hr], trivial⟩)
    exact ⟨db1, h1⟩

/-- Claim C28: for every line, every store state and every scan buffer size,
`remove(line)` returns, and the count it returns is 0, however many records the scan
has tombstoned. -/
theorem C28_remove_line_returns_zero (max_line_length : Nat) (db : HistoryDb)
    (line : List Nat) :
    ∃ db1, db.remove_line max_line_length line = some (0, db1) :=
  HistoryDb.remove_line_total max_line_length db line

/-- On the master bank `ls\nls\n`, scanned through a buffer of four bytes, `remove("ls")`
tombstones both records and returns 0. -/
theorem HistoryDb.remove_line_zero_example :
    HistoryDb.remove_line 4
        { bank_master := some { data := [108, 115, 10, 108, 115, 10], ptr := 0 },
          bank_session := none } [108, 115]
      = some (0,
          { bank_master := some { data := [124, 115, 10, 124, 115, 10], ptr := 6 },
            bank_session := none }) := by
  decide

theorem to_int_of_range (x : Int) (h1 : -2 ^ 31 ≤ x) (h2 : x < 2 ^ 31) : to_int x = x := by
  unfold to_int
  omega

/-- One call `alloc(size)` with a size that is not negative, without overflow, from a
state with `0 <= m_used <= m_max`. -/
theorem LinearAllocator.alloc_step (a : LinearAllocator) (size : Int)
    (hinv : 0 ≤ a.m_used ∧ a.m_used ≤ a.m_max) (hs : 0 ≤ size)
    (hov : a.m_used + size < 2 ^ 31) :
    (a.alloc size).2.m_max = a.m_max ∧
    0 ≤ (a.alloc size).2.m_used ∧ (a.alloc size).2.m_used ≤ a.m_max ∧
    ((a.alloc size).1 = none ↔ (size = 0 ∨ a.m_used + size > a.m_max)) ∧
    ((a.alloc size).1 = none → (a.alloc size).2.m_used = a.m_used) ∧
    (∀ p, (a.alloc size).1 = some p →
      p = a.m_used ∧ (a.alloc size).2.m_used = p + size ∧ 0 < size ∧ 0 ≤ p ∧
      p + size ≤ a.m_max) := by
  have hw : to_int (a.m_used + size) = a.m_used + size :=
    to_int_of_range _ (by omega) hov
  unfold LinearAllocator.alloc
  dsimp only
  rw [hw]
  by_cases h0 : size = 0
  · rw [if_pos h0]
    exact ⟨rfl, hinv.1, hinv.2, ⟨fun _ => Or.inl h0, fun _ => rfl⟩, fun _ => rfl,
      fun p hp => by simp at hp⟩
  · rw [if_neg h0]
    by_cases h1 : a.m_used + size > a.m_max
    · rw [if_pos h1]
      exact ⟨rfl, hinv.1, hinv.2, ⟨fun _ => Or.inr h1, fun _ => rfl⟩, fun _ => rfl,
        fun p hp => by simp at hp⟩
    · rw [if_neg h1]
      refine ⟨rfl, by dsimp only; omega, by dsimp only; omega, ⟨fun h => by simp at h, ?_⟩,
        fun h => by simp at h, ?_⟩
      · rintro (h | h)
        · exact absurd h h0
        · exact absurd h h1
      · intro p hp
        simp only [Option.some.injEq] at hp
        subst hp
        dsimp only
        omega

/-- Every call of a sequence of calls of `alloc` keeps `0 <= m_used <= m_max`, returns
null exactly when the size is 0 or does not fit, leaves `m_used` unchanged then, and
returns the range that starts at the old `m_used` otherwise. -/
theorem LinearAllocator.calls_spec : ∀ (sizes : List Int) (a : LinearAllocator),
    0 ≤ a.m_used ∧ a.m_used ≤ a.m_max → LinearAllocator.sizes_ok sizes a →
    ∀ c ∈ LinearAllocator.calls sizes a,
      c.2.2.2.m_max = a.m_max ∧ c.1.m_max = a.m_max ∧
      0 ≤ c.2.2.2.m_used ∧ c.2.2.2.m_used ≤ a.m_max ∧
      (c.2.2.1 = none ↔ (c.2.1 = 0 ∨ c.1.m_used + c.2.1 > a.m_max)) ∧
      (c.2.2.1 = none → c.2.2.2.m_used = c.1.m_used) ∧
      (∀ p, c.2.2.1 = some p →
        p = c.1.m_used ∧ c.2.2.2.m_used = p + c.2.1 ∧ 0 < c.2.1 ∧ 0 ≤ p ∧
        p + c.2.1 ≤ a.m_max) := by
  intro sizes
  induction sizes with
  | nil => intro a _ _ c hc; simp [LinearAllocator.calls] at hc
  | cons size rest ih =>
    intro a hinv hok c hc
    rw [LinearAllocator.sizes_ok] at hok
    obtain ⟨hs, hov, hrest⟩ := hok
    obtain ⟨s1, s2, s3, s4, s5, s6⟩ := LinearAllocator.alloc_step a size hinv hs hov
    rw [LinearAllocator.calls, List.mem_cons] at hc
    rcases hc with hc | hc
    · subst hc
      exact ⟨s1, rfl, s2, s3, s4, s5, s6⟩
    · have := ih (a.alloc size).2 ⟨s2, by rw [s1]; exact s3⟩ hrest c hc
      rw [s1] at this
      exact this

/-- The ranges that the successful calls of a sequence return lie at or behind the
`m_used` the sequence started from and inside the buffer, and each lies behind the ones
returned before it. -/
theorem LinearAllocator.ranges_spec : ∀ (sizes : List Int) (a : LinearAllocator),
    0 ≤ a.m_used ∧ a.m_used ≤ a.m_max → LinearAllocator.sizes_ok sizes a →
    (∀ x ∈ LinearAllocator.ranges (LinearAllocator.calls sizes a),
      a.m_used ≤ x.1 ∧ 0 < x.2 ∧ x.1 + x.2 ≤ a.m_max) ∧
    (LinearAllocator.ranges (LinearAllocator.calls sizes a)).Pairwise
      (fun x y => x.1 + x.2 ≤ y.1) := by
  intro sizes
  induction sizes with
  | nil =>
    intro a _ _
    exact ⟨fun x hx => by simp [LinearAllocator.calls, LinearAllocator.ranges] at hx,
      by simp [LinearAllocator.calls, LinearAllocator.ranges]⟩
  | cons size rest ih =>
    intro a hinv hok
    rw [LinearAllocator.sizes_ok] at hok
    obtain ⟨hs, hov, hrest⟩ := hok
    obtain ⟨s1, s2, s3, s4, s5, s6⟩ := LinearAllocator.alloc_step a size hinv hs hov
    obtain ⟨ih1, ih2⟩ := ih (a.alloc size).2 ⟨s2, by rw [s1]; exact s3⟩ hrest
    rw [s1] at ih1
    rw [LinearAllocator.calls]
    unfold LinearAllocator.ranges at ih1 ih2 ⊢
    rw [List.filterMap_cons]
    cases hp : (a.alloc size).1 with
    | none =>
      dsimp only [Option.map]
      have hu := s5 hp
      refine ⟨?_, ih2⟩
      intro x hx
      have := ih1 x hx
      rw [hu] at this
      exact this
    | some p =>
      dsimp only [Option.map]
      obtain ⟨e1, e2, e3, e4, e5⟩ := s6 p hp
      refine ⟨?_, ?_⟩
      · intro x hx
        rw [List.mem_cons] at hx
        rcases hx with hx | hx
        · subst hx
          dsimp only
          omega
        · have := ih1 x hx
          omega
      · rw [List.pairwise_cons]
        refine ⟨?_, ih2⟩
        intro y hy
        have := ih1 y hy
        dsimp only
        omega

/-- Claim C32: for every sequence of `alloc` calls with sizes that are not negative and
without `int` overflow, from a state with `0 <= m_used <= m_max` (as after construction
with a size that is not negative): `0 <= m_used <= m_max` holds after every call; a call
returns null exactly when its size is 0 or `m_used + size > m_max`, and then leaves
`m_used` unchanged; a successful call returns the range that starts at the old `m_used`
and advances `m_used` by the size, inside the buffer; and each range returned lies
behind all ranges returned before it, so that the ranges are pairwise disjoint. -/
theorem C32_linear_allocator_bump (a : LinearAllocator) (sizes : List Int)
    (hinv : 0 ≤ a.m_used ∧ a.m_used ≤ a.m_max)
    (hok : LinearAllocator.sizes_ok sizes a) :
    (∀ c ∈ LinearAllocator.calls sizes a,
      c.2.2.2.m_max = a.m_max ∧ c.1.m_max = a.m_max ∧
      0 ≤ c.2.2.2.m_used ∧ c.2.2.2.m_used ≤ a.m_max ∧
      (c.2.2.1 = none ↔ (c.2.1 = 0 ∨ c.1.m_used + c.2.1 > a.m_max)) ∧
      (c.2.2.1 = none → c.2.2.2.m_used = c.1.m_used) ∧
      (∀ p, c.2.2.1 = some p →
        p = c.1.m_used ∧ c.2.2.2.m_used = p + c.2.1 ∧ 0 < c.2.1 ∧ 0 ≤ p ∧
        p + c.2.1 ≤ a.m_max)) ∧
    (∀ x ∈ LinearAllocator.ranges (LinearAllocator.calls sizes a),
      0 ≤ x.1 ∧ 0 < x.2 ∧ x.1 + x.2 ≤ a.m_max) ∧
    (LinearAllocator.ranges (LinearAllocator.calls sizes a)).Pairwise
      (fun x y => x.1 + x.2 ≤ y.1) := by
  obtain ⟨r1, r2⟩ := LinearAllocator.ranges_spec sizes a hinv hok
  refine ⟨LinearAllocator.calls_spec sizes a hinv hok, ?_, r2⟩
  intro x hx
  have := r1 x hx
  omega

/-- The witness of claim C32: an allocator of 8 bytes and the calls `alloc(4)`,
`alloc(0)`, `alloc(5)`, `alloc(2)`, `alloc(1)`, `alloc(2)`, which return the offsets 0,
null, null, 4, 6 and null. -/
theorem C32_linear_allocator_bump_witness :
    (LinearAllocator.calls [4, 0, 5, 2, 1, 2] (LinearAllocator.ctor 8)).map
        (fun c => (c.2.2.1, c.2.2.2.m_used))
      = [(some 0, 4), (none, 4), (none, 4), (some 4, 6), (some 6, 7), (none, 7)] ∧
    LinearAllocator.ranges (LinearAllocator.calls [4, 0, 5, 2, 1, 2] (LinearAllocator.ctor 8))
      = [(0, 4), (4, 2), (6, 1)] ∧
    (LinearAllocator.ranges
      (LinearAllocator.calls [4, 0, 5, 2, 1, 2] (LinearAllocator.ctor 8))).Pairwise
      (fun x y => x.1 + x.2 ≤ y.1) :=
  ⟨by decide, by decide,
    (C32_linear_allocator_bump (LinearAllocator.ctor 8) [4, 0, 5, 2, 1, 2]
      ⟨by decide, by decide⟩
      ⟨by decide, by decide, by decide, by decide, by decide, by decide, by decide, by decide,
        by decide, by decide, by decide, by decide, trivial⟩).2.2⟩

theorem set_attributes_body_fg_low {α : Type} (ops : AttributesOps α) (attr : α) (p : Nat)
    (h1 : 30 ≤ p) (h2 : p ≤ 37) :
    set_attributes_body ops attr p = ops.set_fg attr (p - 30) := by
  interval_cases p <;> simp [set_attributes_body] <;> rfl

theorem set_attributes_body_fg_high {α : Type} (ops : AttributesOps α) (attr : α) (p : Nat)
    (h1 : 90 ≤ p) (h2 : p ≤ 97) :
    set_attributes_body ops attr p = ops.set_fg attr (p - 90 + 8) := by
  interval_cases p <;> simp [set_attributes_body] <;> rfl

theorem set_attributes_body_bg_low {α : Type} (ops : AttributesOps α) (attr : α) (p : Nat)
    (h1 : 40 ≤ p) (h2 : p ≤ 47) :
    set_attributes_body ops attr p = ops.set_bg attr (p - 40) := by
  interval_cases p <;> simp [set_attributes_body] <;> rfl

theorem set_attributes_body_bg_high {α : Type} (ops : AttributesOps α) (attr : α) (p : Nat)
    (h1 : 100 ≤ p) (h2 : p ≤ 107) :
    set_attributes_body ops attr p = ops.set_bg attr (p - 100 + 8) := by
  interval_cases p <;> simp [set_attributes_body] <;> rfl

/-- Outside the four ranges the loop body calls neither `set_fg` nor `set_bg`: it assigns
the defaults, resets a colour, sets bold or underline, or leaves `attr` as it is. -/
theorem set_attributes_body_other {α : Type} (ops : AttributesOps α) (attr : α) (p : Nat)
    (hp : p < 2 ^ 32)
    (hout : ¬ (30 ≤ p ∧ p ≤ 37) ∧ ¬ (90 ≤ p ∧ p ≤ 97) ∧ ¬ (40 ≤ p ∧ p ≤ 47) ∧
      ¬ (100 ≤ p ∧ p ≤ 107)) :
    set_attributes_body ops attr p = ops.defaults ∨
    set_attributes_body ops attr p = ops.reset_bg attr ∨
    set_attributes_body ops attr p = ops.reset_fg attr ∨
    (∃ b, set_attributes_body ops attr p = ops.set_bold attr b) ∨
    (∃ b, set_attributes_body ops attr p = ops.set_underline attr b) ∨
    set_attributes_body ops attr p = attr := by
  have hmod : p % 2 ^ 32 = p := Nat.mod_eq_of_lt hp
  unfold set_attributes_body
  dsimp only
  rw [hmod]
  by_cases c1 : p = 0
  · rw [if_pos c1]; exact Or.inl rfl
  rw [if_neg c1]
  by_cases c2 : p = 49
  · rw [if_pos c2]; exact Or.inr (Or.inl rfl)
  rw [if_neg c2]
  by_cases c3 : p = 39
  · rw [if_pos c3]; exact Or.inr (Or.inr (Or.inl rfl))
  rw [if_neg c3]
  by_cases c4 : p = 1 ∨ p = 2 ∨ p = 22
  · rw [if_pos c4]; exact Or.inr (Or.inr (Or.inr (Or.inl ⟨_, rfl⟩)))
  rw [if_neg c4]
  by_cases c5 : p = 4 ∨ p = 24
  · rw [if_pos c5]; exact Or.inr (Or.inr (Or.inr (Or.inr (Or.inl ⟨_, rfl⟩))))
  rw [if_neg c5, if_neg (by omega), if_neg (by omega)]
  exact Or.inr (Or.inr (Or.inr (Or.inr (Or.inr rfl))))

/-- The method `set_attributes` on a parameter list that is not empty: the parameters
before `p` have built `attr`, the loop body is applied to `attr` and `p`, and the
parameters behind `p` are processed on the result. -/
theorem set_attributes_at {α : Type} (ops : AttributesOps α) (init : α)
    (front back : List Nat) (p : Nat) :
    set_attributes ops init (front ++ p :: back)
      = back.foldl (set_attributes_body ops)
          (set_attributes_body ops (front.foldl (set_attributes_body ops) init) p) := by
  unfold set_attributes
  rw [if_neg (by simp), List.foldl_append, List.foldl_cons]

/-- Claim C33: take a call of `set_attributes` whose parameters are `front`, then the
32-bit parameter `p`, then `back`, and let `attr` be the attributes that the loop has
built from `front`. At `p` the method calls `set_fg(p - 30)` on `attr` when
30 <= p <= 37, `set_fg(p - 90 + 8)` when 90 <= p <= 97, `set_bg(p - 40)` when
40 <= p <= 47 and `set_bg(p - 100 + 8)` when 100 <= p <= 107, each index lying in 0..15,
and goes on with `back`; for `p` outside these four ranges it calls neither `set_fg` nor
`set_bg` at `p`: it assigns the defaults, resets a colour, sets bold or underline, or
leaves `attr` as it is. In particular `set_attributes` with the single parameter `p`
passes on `set_fg` or `set_bg` of the index on the default-constructed attributes, and
with the recording attributes it passes on a colour call exactly in the four ranges. -/
theorem C33_sgr_colour_arithmetic {α : Type} (ops : AttributesOps α) (init : α)
    (front back : List Nat) (p : Nat) (hp : p < 2 ^ 32) :
    (30 ≤ p ∧ p ≤ 37 →
      set_attributes ops init (front ++ p :: back)
        = back.foldl (set_attributes_body ops)
            (ops.set_fg (front.foldl (set_attributes_body ops) init) (p - 30)) ∧
      set_attributes ops init [p] = ops.set_fg init (p - 30) ∧ p - 30 ≤ 15) ∧
    (90 ≤ p ∧ p ≤ 97 →
      set_attributes ops init (front ++ p :: back)
        = back.foldl (set_attributes_body ops)
            (ops.set_fg (front.foldl (set_attributes_body ops) init) (p - 90 + 8)) ∧
      set_attributes ops init [p] = ops.set_fg init (p - 90 + 8) ∧ p - 90 + 8 ≤ 15) ∧
    (40 ≤ p ∧ p ≤ 47 →
      set_attributes ops init (front ++ p :: back)
        = back.foldl (set_attributes_body ops)
            (ops.set_bg (front.foldl (set_attributes_body ops) init) (p - 40)) ∧
      set_attributes ops init [p] = ops.set_bg init (p - 40) ∧ p - 40 ≤ 15) ∧
    (100 ≤ p ∧ p ≤ 107 →
      set_attributes ops init (front ++ p :: back)
        = back.foldl (set_attributes_body ops)
            (ops.set_bg (front.foldl (set_attributes_body ops) init) (p - 100 + 8)) ∧
      set_attributes ops init [p] = ops.set_bg init (p - 100 + 8) ∧ p - 100 + 8 ≤ 15) ∧
    (¬ (30 ≤ p ∧ p ≤ 37) ∧ ¬ (90 ≤ p ∧ p ≤ 97) ∧ ¬ (40 ≤ p ∧ p ≤ 47) ∧
        ¬ (100 ≤ p ∧ p ≤ 107) →
      (∃ a, set_attributes ops init (front ++ p :: back)
            = back.foldl (set_attributes_body ops) a ∧
          (a = ops.defaults ∨
            a = ops.reset_bg (front.foldl (set_attributes_body ops) init) ∨
            a = ops.reset_fg (front.foldl (set_attributes_body ops) init) ∨
            (∃ b, a = ops.set_bold (front.foldl (set_attributes_body ops) init) b) ∨
            (∃ b, a = ops.set_underline (front.foldl (set_attributes_body ops) init) b) ∨
            a = front.foldl (set_attributes_body ops) init)) ∧
      ∀ v, set_attributes AttrCall.ops AttrCall.untouched [p] ≠ AttrCall.set_fg v ∧
        set_attributes AttrCall.ops AttrCall.untouched [p] ≠ AttrCall.set_bg v) := by
  have hone : ∀ (β : Type) (o : AttributesOps β) (i : β),
      set_attributes o i [p] = set_attributes_body o i p :=
    fun β o i => set_attributes_at o i [] [] p
  refine ⟨fun h => ?_, fun h => ?_, fun h => ?_, fun h => ?_, fun hout => ?_⟩
  · refine ⟨?_, ?_, by omega⟩
    · rw [set_attributes_at, set_attributes_body_fg_low ops _ p h.1 h.2]
    · rw [hone, set_attributes_body_fg_low ops _ p h.1 h.2]
  · refine ⟨?_, ?_, by omega⟩
    · rw [set_attributes_at, set_attributes_body_fg_high ops _ p h.1 h.2]
    · rw [hone, set_attributes_body_fg_high ops _ p h.1 h.2]
  · refine ⟨?_, ?_, by omega⟩
    · rw [set_attributes_at, set_attributes_body_bg_low ops _ p h.1 h.2]
    · rw [hone, set_attributes_body_bg_low ops _ p h.1 h.2]
  · refine ⟨?_, ?_, by omega⟩
    · rw [set_attributes_at, set_attributes_body_bg_high ops _ p h.1 h.2]
    · rw [hone, set_attributes_body_bg_high ops _ p h.1 h.2]
  · refine ⟨⟨_, set_attributes_at ops init front back p,
      set_attributes_body_other ops _ p hp hout⟩, ?_⟩
    intro v
    rw [hone]
    rcases set_attributes_body_other AttrCall.ops AttrCall.untouched p hp hout with
      h | h | h | ⟨b, h⟩ | ⟨b, h⟩ | h <;> rw [h] <;>
        exact ⟨by simp [AttrCall.ops], by simp [AttrCall.ops]⟩

/-- The witness of claim C33: `set_attributes` with the parameters 1 and 95 passes on
`set_fg(13)` made on the bold attributes, and with a single parameter it passes on the
colour call of the parameter in the four ranges and none outside them. -/
theorem C33_sgr_colour_arithmetic_witness :
    (95 : Nat) < 2 ^ 32 ∧
    set_attributes AttrCall.ops AttrCall.untouched [1, 95] = AttrCall.set_fg 13 ∧
    [30, 37, 90, 97, 40, 47, 100, 107, 38, 48, 98, 108, 29, 4294967295].map
        (fun p => set_attributes AttrCall.ops AttrCall.untouched [p])
      = [AttrCall.set_fg 0, AttrCall.set_fg 7, AttrCall.set_fg 8, AttrCall.set_fg 15,
         AttrCall.set_bg 0, AttrCall.set_bg 7, AttrCall.set_bg 8, AttrCall.set_bg 15,
         AttrCall.untouched, AttrCall.untouched, AttrCall.untouched, AttrCall.untouched,
         AttrCall.untouched, AttrCall.untouched] ∧
    set_attributes AttrCall.ops AttrCall.untouched [] = AttrCall.defaults ∧
    (90 ≤ 95 ∧ 95 ≤ 97 →
      set_attributes AttrCall.ops AttrCall.untouched ([1] ++ 95 :: [])
        = List.foldl (set_attributes_body AttrCall.ops)
            (AttrCall.ops.set_fg
              (List.foldl (set_attributes_body AttrCall.ops) AttrCall.untouched [1])
              (95 - 90 + 8)) [] ∧
      set_attributes AttrCall.ops AttrCall.untouched [95]
        = AttrCall.ops.set_fg AttrCall.untouched (95 - 90 + 8) ∧
      95 - 90 + 8 ≤ 15) :=
  ⟨by decide, by decide, by decide, by decide,
    (C33_sgr_colour_arithmetic AttrCall.ops AttrCall.untouched [1] [] 95 (by decide)).2.1⟩

theorem takeWhile_ctl_append (cs rest : List Nat) (hcs : ∀ c ∈ cs, is_rec c = false)
    (hrest : ∀ c, rest.head? = some c → is_rec c = true) :
    (cs ++ rest).takeWhile (fun c => !is_rec c) = cs := by
  induction cs with
  | nil =>
    cases rest with
    | nil => rfl
    | cons c t => simp [List.takeWhile, hrest c]
  | cons a cs ih =>
    have ha : is_rec a = false := hcs a (List.mem_cons_self _ _)
    simp only [List.cons_append, List.takeWhile_cons, ha, Bool.not_false, if_true]
    rw [ih (fun c hc => hcs c (List.mem_cons_of_mem _ hc))]

/-- Moving the result of `LineIter::next` on the front of a file from a later state of the
same call back to the state the call started in, `dead0` being the dead records passed
in between. -/
theorem LineIter.front_post_transfer {B : Nat} {front : List Nat} {p p1 : Nat} {h h1 : File}
    {res : LineIdImpl × List Nat × LineIter × File}
    (dead0 : List (Nat × List Nat)) (hd : h1.data = h.data)
    (hruns : runs p (front.drop p) = dead0 ++ runs p1 (front.drop p1))
    (hdead : ∀ x ∈ dead0, live x = false)
    (hpost : LineIter.front_post B front p1 h1 res) : LineIter.front_post B front p h res := by
  rcases hpost with ⟨hnull, hall⟩ | ⟨dead, q, r, hr, hpre, hlive, hid, hout, hw, hdata, hpos, hle⟩
  · left
    refine ⟨hnull, ?_⟩
    intro x hx
    rw [hruns] at hx
    rcases List.mem_append.1 hx with hx | hx
    · exact hdead x hx
    · exact hall x hx
  · right
    refine ⟨dead0 ++ dead, q, r, ?_, ?_, hlive, hid, hout, hw, hdata.trans hd, hpos, hle⟩
    · rw [hruns, hr, List.append_assoc]
    · intro x hx
      rcases List.mem_append.1 hx with hx | hx
      · exact hdead x hx
      · exact hpre x hx

/-- The loop of `LineIter::next` on a file `front ++ lr` that is whole in the buffer,
`lr` being a final run that no separator ends and `front` ending with a separator: it
delivers the next live record of `front`, or the null id when there is none; `lr` is
given up at the end of the file, since it does not start the buffer. -/
theorem LineIter.next_loop_front (B : Nat) (front lr : List Nat)
    (hfne : front ≠ []) (hfront : ∀ c, front.getLast? = some c → is_rec c = false)
    (hlne : lr ≠ []) (hlrec : ∀ c ∈ lr, is_rec c = true) :
    ∀ (fuel : Nat) (it : LineIter) (h : File) (out : List Nat),
      LineIter.Whole B it h → h.data = front ++ lr → it.pos h ≤ front.length →
      it.m_remaining < fuel →
      ∃ res, LineIter.next_loop fuel it h out = some res ∧
        LineIter.front_post B front (it.pos h) h res := by
  intro fuel
  induction fuel with
  | zero => intro it h out _ _ _ hf; omega
  | succ fuel ih =>
    intro it h out hWh hdata hposle hfuel
    have hI := hWh.inv
    have hsz := hI.size_le
    have hrl := hI.rem_le
    have hrp := hI.rem_le_ptr
    have hpl := hI.ptr_le
    have hfr := hI.frem
    have heof := hWh.eof
    have hsize := hWh.size_eq
    have hoffz := hWh.off_zero
    have hpos : it.pos h = h.ptr - it.m_remaining := rfl
    have hlen : h.data.length = front.length + lr.length := by
      rw [hdata, List.length_append]
    have hlrlen : 0 < lr.length := List.length_pos.mpr hlne
    have hptr : h.ptr = h.data.length := by omega
    have hrem : it.m_remaining ≠ 0 := by omega
    obtain ⟨W, hWdef⟩ : ∃ W, W = (it.m_file_iter.m_buffer.take it.m_file_iter.m_buffer_size).drop
        (it.m_file_iter.m_buffer_size - it.m_remaining) := ⟨_, rfl⟩
    have hWlen : W.length = it.m_remaining := by rw [hWdef]; exact hI.window_length
    have hWeq : W = front.drop (it.pos h) ++ lr := by
      have hd := hI.drop_pos
      rw [← hWdef, hptr, List.drop_length, List.append_nil, hdata,
        List.drop_append_of_le_length hposle] at hd
      exact hd.symm
    have hPlen : (front.drop (it.pos h)).length = front.length - it.pos h := List.length_drop _ _
    obtain ⟨cs, r, P2, hP, hcs, hr, hcs_ctl, hr_rec, hP2, hrne⟩ :=
      window_split (front.drop (it.pos h))
    have hPlen2 : cs.length + r.length + P2.length = front.length - it.pos h := by
      rw [← hPlen, hP]; simp only [List.length_append]; omega
    have hlr_head : ∀ c, lr.head? = some c → is_rec c = true := by
      intro c hc
      obtain ⟨a, t, rfl⟩ := List.exists_cons_of_ne_nil hlne
      simp only [List.head?_cons, Option.some.injEq] at hc
      subst hc
      exact hlrec _ (List.mem_cons_self _ _)
    by_cases hk : cs.length < (front.drop (it.pos h)).length
    · -- a record of the front comes next
      have hrne1 : r ≠ [] := hrne hk
      obtain ⟨a, r1, har⟩ := List.exists_cons_of_ne_nil hrne1
      have ha : is_rec a = true := hr_rec a (by rw [har]; exact List.mem_cons_self _ _)
      have hP2ne : P2 ≠ [] := by
        intro h0
        rw [h0, List.append_nil] at hP
        have hPne : front.drop (it.pos h) ≠ [] := by
          rw [hP]; simp [hrne1]
        have hlast := getLast?_drop_of_ne_nil front (it.pos h) hPne
        rw [hP, List.getLast?_append_of_ne_nil _ hrne1,
          List.getLast?_eq_getLast _ hrne1] at hlast
        have h1 := hfront _ hlast.symm
        have h2 := hr_rec _ (List.getLast_mem hrne1)
        rw [h1] at h2
        exact Bool.noConfusion h2
      have hP2len : 0 < P2.length := List.length_pos.mpr hP2ne
      have hrest : ∀ c, (P2 ++ lr).head? = some c → is_rec c = false := by
        intro c hc
        obtain ⟨w, P3, hw⟩ := List.exists_cons_of_ne_nil hP2ne
        apply hP2 c
        rw [hw] at hc ⊢
        simpa using hc
      have hW : W = cs ++ (r ++ (P2 ++ lr)) := by
        rw [hWeq, hP]; simp
      have hk1 : cs.length = (W.takeWhile (fun c => !is_rec c)).length := by
        rw [hW, takeWhile_ctl_append cs _ hcs_ctl
          (by intro c hc; rw [har] at hc; simp at hc; rw [← hc]; exact ha)]
      have hn1 : r.length = ((W.drop cs.length).takeWhile is_rec).length := by
        rw [hW, List.drop_left, takeWhile_rec_append r _ hr_rec hrest]
      rw [LineIter.next_loop_body_eq fuel it h out hrem W cs.length r.length hWdef hk1 hn1]
      have hnotA : ¬ (it.m_file_iter.m_buffer_size - it.m_remaining + cs.length + r.length
          = it.m_file_iter.m_buffer_size ∧
          it.m_file_iter.m_buffer_size - it.m_remaining + cs.length ≠ 0) := by
        intro hA
        have : cs.length + (r.length + (P2.length + lr.length)) = it.m_remaining := by
          rw [← hWlen, hW]; simp only [List.length_append]
        omega
      rw [if_neg hnotA]
      have hlenW : cs.length + r.length + (P2.length + lr.length) = it.m_remaining := by
        rw [← hWlen, hW]; simp only [List.length_append]; omega
      have hruns : runs (it.pos h) (front.drop (it.pos h))
          = (it.pos h + cs.length, r)
            :: runs (it.pos h + cs.length + r.length)
                 (front.drop (it.pos h + cs.length + r.length)) := by
        have hd2 : front.drop (it.pos h + cs.length + r.length) = P2 := by
          rw [Nat.add_assoc, ← List.drop_drop, hP]
          have e : cs ++ (r ++ P2) = (cs ++ r) ++ P2 := by simp
          rw [e, ← List.length_append, List.drop_left]
        rw [hd2, hP, runs_ctl_append cs _ _ hcs_ctl, runs_run_append r _ _ hrne1 hr_rec hP2]
      have hI2 : LineIter.Inv B
          { it with m_remaining := it.m_remaining - cs.length - r.length } h := by
        have := hI.advance (cs.length + r.length) (by omega)
        rw [Nat.sub_add_eq] at this
        exact this
      have hW2 : LineIter.Whole B
          { it with m_remaining := it.m_remaining - cs.length - r.length } h :=
        ⟨hI2, heof, hsize, hoffz⟩
      have hpos2 : LineIter.pos
          { it with m_remaining := it.m_remaining - cs.length - r.length } h
          = it.pos h + cs.length + r.length := by
        show h.ptr - (it.m_remaining - cs.length - r.length) = _
        rw [hpos]; omega
      have hWdrop : W.drop cs.length = r ++ (P2 ++ lr) := by
        rw [hW, List.drop_left]
      have hbufdrop : (it.m_file_iter.m_buffer.drop
          (it.m_file_iter.m_buffer_size - it.m_remaining + cs.length)).take
            (it.m_remaining - cs.length) = r ++ (P2 ++ lr) := by
        rw [← hWdrop, hWdef, List.drop_drop, List.drop_take]
        congr 1
        omega
      have hslice : (it.m_file_iter.m_buffer.take
            (it.m_file_iter.m_buffer_size - it.m_remaining + cs.length + r.length)).drop
            (it.m_file_iter.m_buffer_size - it.m_remaining + cs.length) = r := by
        rw [List.drop_take, Nat.add_sub_cancel_left]
        have : (r ++ (P2 ++ lr)).take r.length = r := List.take_left _ _
        rw [← hbufdrop, List.take_take, Nat.min_eq_left (by omega)] at this
        exact this
      have hget : it.m_file_iter.m_buffer.getD
          (it.m_file_iter.m_buffer_size - it.m_remaining + cs.length) 0 = a := by
        have h1 : (it.m_file_iter.m_buffer.drop
            (it.m_file_iter.m_buffer_size - it.m_remaining + cs.length)).head? = some a := by
          have := congrArg List.head? hbufdrop
          rw [har] at this
          simp only [List.cons_append, List.head?_cons] at this
          rw [List.head?_take, if_neg (by omega)] at this
          exact this
        rw [List.head?_drop] at h1
        rw [List.getD_eq_getElem?_getD, h1]; rfl
      rw [hget, hslice]
      have hrlen : 0 < r.length := List.length_pos.mpr hrne1
      by_cases htomb : a = 0x7C
      · rw [if_pos htomb]
        obtain ⟨res, hres, hpost⟩ := ih _ h out hW2 hdata (by rw [hpos2]; omega)
          (by dsimp only; omega)
        refine ⟨res, hres, ?_⟩
        refine LineIter.front_post_transfer [(it.pos h + cs.length, r)] rfl ?_ ?_ hpost
        · rw [hpos2, hruns]; rfl
        · intro x hx
          simp only [List.mem_singleton] at hx
          subst hx
          simp [live, har, htomb]
      · rw [if_neg htomb]
        refine ⟨_, rfl, Or.inr ⟨[], it.pos h + cs.length, r, ?_, by simp, ?_, ?_, rfl, hW2,
          rfl, hpos2, by omega⟩⟩
        · rw [List.nil_append, hruns]
        · simp [live, har, htomb]
        · apply of_offset_congr
          congr 1
          rw [hoffz, hpos, hsize]
          omega
    · -- only separators are left of the front: the final run is given up
      have hcsP : cs = front.drop (it.pos h) := by
        have hl : r.length + P2.length = 0 := by omega
        have hr0 : r = [] := List.eq_nil_of_length_eq_zero (by omega)
        have hP0 : P2 = [] := List.eq_nil_of_length_eq_zero (by omega)
        rw [hP, hr0, hP0]; simp
      have hW : W = cs ++ lr := by rw [hWeq, ← hcsP]
      have hk1 : cs.length = (W.takeWhile (fun c => !is_rec c)).length := by
        rw [hW, takeWhile_ctl_append cs _ hcs_ctl hlr_head]
      have hn1 : lr.length = ((W.drop cs.length).takeWhile is_rec).length := by
        have := takeWhile_rec_append lr [] hlrec (by intro c hc; simp at hc)
        rw [List.append_nil] at this
        rw [hW, List.drop_left, this]
      rw [LineIter.next_loop_body_eq fuel it h out hrem W cs.length lr.length hWdef hk1 hn1]
      have hlenW : cs.length + lr.length = it.m_remaining := by
        rw [← hWlen, hW]; simp only [List.length_append]
      have hcslen : cs.length = front.length - it.pos h := by rw [hcsP]; exact hPlen
      have hflen : 0 < front.length := List.length_pos.mpr hfne
      rw [if_pos ⟨by omega, by rw [hsize, ← hpos]; omega⟩]
      have he := LineIter.provision_eof
        ({ it with m_remaining := it.m_remaining - cs.length } : LineIter) h heof
      have hp1 : (LineIter.provision
          ({ it with m_remaining := it.m_remaining - cs.length } : LineIter) h).2.1
          = { m_file_iter :=
                { it.m_file_iter with m_buffer := it.m_file_iter.m_buffer.set 0 0 }
              m_remaining := 0 } := by rw [he]
      have hp2 : (LineIter.provision
          ({ it with m_remaining := it.m_remaining - cs.length } : LineIter) h).2.2 = h := by
        rw [he]
      rw [hp1, hp2]
      obtain ⟨fuel1, rfl⟩ : ∃ f, fuel = f + 1 := ⟨fuel - 1, by omega⟩
      have hstop : ∀ it1 : LineIter, it1.m_remaining = 0 → it1.m_file_iter.m_remaining = 0 →
          LineIter.next_loop (fuel1 + 1) it1 h out
            = some (LineIdImpl.null, out, (it1.provision h).2.1, (it1.provision h).2.2) :=
        fun it1 h1 h2 => LineIter.next_loop_stop fuel1 it1 h out h1
          (by rw [LineIter.provision_eof it1 h h2])
      refine ⟨_, hstop
        { m_file_iter := { it.m_file_iter with m_buffer := it.m_file_iter.m_buffer.set 0 0 }
          m_remaining := 0 } rfl heof, Or.inl ⟨rfl, ?_⟩⟩
      intro x hx
      rw [← hcsP] at hx
      have := runs_ctl_append cs [] (it.pos h) hcs_ctl
      rw [List.append_nil] at this
      rw [this] at hx
      simp [runs, runs_aux] at hx

/-- The first refill of a new `LineIter` on a file that is not empty and fits the buffer:
the whole file is in the buffer, all of it yet to be parsed. -/
theorem LineIter.init_whole (h : File) (buffer : List Nat) (hne : h.data ≠ [])
    (hfit : h.data.length ≤ buffer.length) (hlen : h.data.length < 2 ^ 32) :
    (LineIter.init h buffer).1.m_remaining = 0 ∧
    ((LineIter.init h buffer).1.provision (LineIter.init h buffer).2).1 = true ∧
    LineIter.Whole buffer.length
      ((LineIter.init h buffer).1.provision (LineIter.init h buffer).2).2.1
      ((LineIter.init h buffer).1.provision (LineIter.init h buffer).2).2.2 ∧
    ((LineIter.init h buffer).1.provision (LineIter.init h buffer).2).2.2.data = h.data ∧
    ((LineIter.init h buffer).1.provision (LineIter.init h buffer).2).2.1.m_remaining
      = h.data.length ∧
    ((LineIter.init h buffer).1.provision (LineIter.init h buffer).2).2.2.ptr
      = h.data.length ∧
    (LineIter.init h buffer).1.m_file_iter.m_remaining = h.data.length := by
  obtain ⟨hI, hd, hpos⟩ := LineIter.init_spec h buffer hlen
  have hl : 0 < h.data.length := List.length_pos.mpr hne
  have hrem0 : (LineIter.init h buffer).1.m_remaining = 0 := rfl
  have hptr0 : (LineIter.init h buffer).2.ptr = 0 := by
    have := hpos
    unfold LineIter.pos at this
    rw [hrem0, Nat.sub_zero] at this
    exact this
  have hfr0 : (LineIter.init h buffer).1.m_file_iter.m_remaining = h.data.length := by
    have := hI.frem
    rw [hd, hptr0] at this
    exact this
  have hsz0 : (LineIter.init h buffer).1.m_file_iter.m_buffer_size = buffer.length := rfl
  have hoff0 : (LineIter.init h buffer).1.m_file_iter.m_buffer_offset
      = (2 ^ 32 - buffer.length % 2 ^ 32) % 2 ^ 32 := rfl
  obtain ⟨n1, n2, n3, n4, n5, n6, n7⟩ :=
    @FileIter.next_window buffer.length (LineIter.init h buffer).1.m_file_iter
      (LineIter.init h buffer).2 0 hI (by rw [hfr0]; omega)
  rw [hfr0, hsz0] at n1 n3 n6
  rw [hsz0, hoff0] at n4
  rw [hptr0] at n6
  have hmin : min h.data.length (buffer.length - 0) = h.data.length := by omega
  rw [hmin] at n1 n3 n6
  have hprov : (LineIter.init h buffer).1.provision (LineIter.init h buffer).2
      = (((LineIter.init h buffer).1.m_file_iter.next (LineIter.init h buffer).2 0).1 != 0,
         { m_file_iter :=
             ((LineIter.init h buffer).1.m_file_iter.next (LineIter.init h buffer).2 0).2.1
           m_remaining :=
             ((LineIter.init h buffer).1.m_file_iter.next (LineIter.init h buffer).2 0).1 },
         ((LineIter.init h buffer).1.m_file_iter.next (LineIter.init h buffer).2 0).2.2) := rfl
  rw [hprov]
  dsimp only
  rw [Nat.sub_zero] at n4
  refine ⟨rfl, ?_, ⟨?_, ?_, ?_, ?_⟩, by rw [n5, hd], by rw [n1]; omega, by rw [n6]; omega,
    hfr0⟩
  · rw [n1]; simpa using hne
  · rw [n2] at n7; exact n7
  · dsimp only; rw [n3]; omega
  · dsimp only; rw [n2, n1, n6]; omega
  · dsimp only; rw [n4]; omega

/-- A call of `LineIter::next` on a file `front ++ lr` that is whole in the buffer. -/
theorem LineIter.next_front (B : Nat) (front lr : List Nat)
    (hfne : front ≠ []) (hfront : ∀ c, front.getLast? = some c → is_rec c = false)
    (hlne : lr ≠ []) (hlrec : ∀ c ∈ lr, is_rec c = true)
    (it : LineIter) (h : File) (out : List Nat)
    (hW : LineIter.Whole B it h) (hdata : h.data = front ++ lr)
    (hpos : it.pos h ≤ front.length) :
    ∃ res, it.next h out = some res ∧ LineIter.front_post B front (it.pos h) h res :=
  LineIter.next_loop_front B front lr hfne hfront hlne hlrec _ it h out hW hdata hpos
    (by omega)

theorem filter_live_of_dead (l : List (Nat × List Nat)) (hl : ∀ x ∈ l, live x = false) :
    l.filter live = [] := by
  rw [List.filter_eq_nil_iff]
  intro x hx
  rw [hl x hx]
  simp

/-- Draining a `LineIter` that holds the file `front ++ lr` whole in its buffer yields the
live records of `front` from the offset reached, and not the final run `lr`. -/
theorem LineIter.drain_front (B : Nat) (front lr : List Nat)
    (hfne : front ≠ []) (hfront : ∀ c, front.getLast? = some c → is_rec c = false)
    (hlne : lr ≠ []) (hlrec : ∀ c ∈ lr, is_rec c = true) :
    ∀ (fuel : Nat) (it : LineIter) (h : File) (out : List Nat),
      LineIter.Whole B it h → h.data = front ++ lr → it.pos h ≤ front.length →
      front.length - it.pos h < fuel →
      LineIter.drain fuel it h out
        = some (((runs (it.pos h) (front.drop (it.pos h))).filter live).map
            (fun x => (LineIdImpl.of_offset x.1, x.2))) := by
  intro fuel
  induction fuel with
  | zero => intro it h out _ _ _ hf; omega
  | succ fuel ih =>
    intro it h out hW hdata hpos hfuel
    obtain ⟨res, hres, hpost⟩ :=
      LineIter.next_front B front lr hfne hfront hlne hlrec it h out hW hdata hpos
    obtain ⟨id, out1, it1, h1⟩ := res
    rw [LineIter.drain, hres]
    dsimp only
    rcases hpost with ⟨hnull, hall⟩ |
      ⟨dead, q, r, hsplit, hdead, hlive, hid, hout, hW1, hd1, hpos1, hle⟩
    · dsimp only at hnull
      rw [hnull, to_bool_null, if_pos rfl, filter_live_of_dead _ hall]
      rfl
    · dsimp only at hid hout hW1 hd1 hpos1
      have hmem : (q, r) ∈ runs (it.pos h) (front.drop (it.pos h)) := by
        rw [hsplit]; simp
      have hb := (runs_bounds _ _ _ hmem).1
      have hne := runs_ne_nil _ _ _ hmem
      have hrl : 0 < r.length := List.length_pos.mpr hne
      dsimp only at hb
      rw [hid, to_bool_of_offset, if_neg (by simp),
        ih it1 h1 out1 hW1 (by rw [hd1]; exact hdata) (by rw [hpos1]; exact hle)
          (by rw [hpos1]; omega)]
      rw [hsplit, hpos1, List.filter_append, filter_live_of_dead _ hdead, List.nil_append,
        List.filter_cons_of_pos hlive, hout]
      rfl

/-- The first call of `LineIter::next` on a file `front ++ lr` that fits the buffer. -/
theorem LineIter.next_init_front (buffer front lr out : List Nat) (ptr : Nat)
    (hfne : front ≠ []) (hfront : ∀ c, front.getLast? = some c → is_rec c = false)
    (hlne : lr ≠ []) (hlrec : ∀ c ∈ lr, is_rec c = true)
    (hfit : (front ++ lr).length ≤ buffer.length) (hlen : (front ++ lr).length < 2 ^ 32) :
    ∃ res, (LineIter.init { data := front ++ lr, ptr := ptr } buffer).1.next
        (LineIter.init { data := front ++ lr, ptr := ptr } buffer).2 out = some res ∧
      LineIter.front_post buffer.length front 0
        ((LineIter.init { data := front ++ lr, ptr := ptr } buffer).1.provision
          (LineIter.init { data := front ++ lr, ptr := ptr } buffer).2).2.2 res := by
  have hne : (File.data { data := front ++ lr, ptr := ptr }) ≠ [] := by
    show front ++ lr ≠ []
    simp [hfne]
  obtain ⟨i1, i2, i3, i4, i5, i6, i7⟩ :=
    LineIter.init_whole { data := front ++ lr, ptr := ptr } buffer hne hfit hlen
  have hD : (File.data { data := front ++ lr, ptr := ptr }) = front ++ lr := rfl
  rw [hD] at i4 i5 i6 i7
  have hpos1 : LineIter.pos
      ((LineIter.init { data := front ++ lr, ptr := ptr } buffer).1.provision
        (LineIter.init { data := front ++ lr, ptr := ptr } buffer).2).2.1
      ((LineIter.init { data := front ++ lr, ptr := ptr } buffer).1.provision
        (LineIter.init { data := front ++ lr, ptr := ptr } buffer).2).2.2 = 0 := by
    unfold LineIter.pos
    rw [i5, i6, Nat.sub_self]
  have hl : 0 < (front ++ lr).length := List.length_pos.mpr (by simp [hfne])
  obtain ⟨res, hres, hpost⟩ := LineIter.next_loop_front buffer.length front lr hfne hfront
    hlne hlrec
    (2 * (LineIter.init { data := front ++ lr, ptr := ptr } buffer).1.m_file_iter.m_remaining
      + 1 + 1) _ _ out i3 i4 (by rw [hpos1]; omega) (by rw [i5, i7]; omega)
  rw [hpos1] at hpost
  refine ⟨res, ?_, hpost⟩
  unfold LineIter.next
  rw [i1, Nat.add_zero,
    LineIter.next_loop_refill _ _ _ out i1 i2 (by rw [i5]; omega)]
  exact hres

/-- A file that is one run of record bytes, whole in the buffer: the call of
`LineIter::next` skips it when its first byte is the tombstone mark and yields it with
offset 0 otherwise, `fuel + 2` being any fuel of at least two. -/
theorem LineIter.next_loop_single (B : Nat) (lr : List Nat)
    (hlne : lr ≠ []) (hlrec : ∀ c ∈ lr, is_rec c = true)
    (fuel : Nat) (it : LineIter) (h : File) (out : List Nat)
    (hW : LineIter.Whole B it h) (hdata : h.data = lr) (hrem : it.m_remaining = lr.length) :
    (lr.head? = some 0x7C →
      ∃ it1, LineIter.next_loop (fuel + 2) it h out = some (LineIdImpl.null, out, it1, h)) ∧
    (lr.head? ≠ some 0x7C →
      LineIter.next_loop (fuel + 2) it h out
        = some (LineIdImpl.of_offset 0, lr, { it with m_remaining := 0 }, h)) := by
  have hI := hW.inv
  have heof := hW.eof
  have hsize := hW.size_eq
  have hoffz := hW.off_zero
  have hfr := hI.frem
  have hpl := hI.ptr_le
  have hlrlen : 0 < lr.length := List.length_pos.mpr hlne
  have hlen : h.data.length = lr.length := by rw [hdata]
  have hptr : h.ptr = lr.length := by omega
  have hsz : it.m_file_iter.m_buffer_size = lr.length := by omega
  have hrem0 : it.m_remaining ≠ 0 := by omega
  have hWeq : (it.m_file_iter.m_buffer.take it.m_file_iter.m_buffer_size).drop
      (it.m_file_iter.m_buffer_size - it.m_remaining) = lr := by
    have hd := hI.drop_pos
    have hp0 : it.pos h = 0 := by unfold LineIter.pos; omega
    rw [hp0, List.drop_zero, hptr, ← hlen, List.drop_length, List.append_nil, hdata] at hd
    exact hd.symm
  obtain ⟨a, t, hat⟩ := List.exists_cons_of_ne_nil hlne
  have ha : is_rec a = true := hlrec a (by rw [hat]; exact List.mem_cons_self _ _)
  have hk1 : 0 = ((lr).takeWhile (fun c => !is_rec c)).length := by
    have := takeWhile_ctl_append [] lr (by intro c hc; simp at hc)
      (by intro c hc; rw [hat] at hc; simp at hc; rw [← hc]; exact ha)
    rw [List.nil_append] at this
    rw [this]; rfl
  have hn1 : lr.length = ((lr.drop 0).takeWhile is_rec).length := by
    have := takeWhile_rec_append lr [] hlrec (by intro c hc; simp at hc)
    rw [List.append_nil] at this
    rw [List.drop_zero, this]
  rw [LineIter.next_loop_body_eq (fuel + 1) it h out hrem0 lr 0 lr.length hWeq.symm hk1 hn1]
  have e0 : it.m_file_iter.m_buffer_size - it.m_remaining = 0 := by omega
  rw [e0] at hWeq
  rw [List.drop_zero, hsz] at hWeq
  simp only [e0, Nat.zero_add, Nat.add_zero, List.drop_zero, Nat.sub_zero]
  rw [if_neg (by intro hc; exact hc.2 rfl)]
  have hget : it.m_file_iter.m_buffer.getD 0 0 = a := by
    have h1 : (it.m_file_iter.m_buffer.take lr.length).head? = some a := by
      rw [hWeq, hat]; rfl
    rw [List.head?_take, if_neg (by omega)] at h1
    rw [List.getD_eq_getElem?_getD, ← List.head?_eq_getElem?, h1]; rfl
  rw [hget, hWeq, hrem, Nat.sub_self, hoffz]
  constructor
  · intro hh
    rw [hat] at hh
    simp only [List.head?_cons, Option.some.injEq] at hh
    rw [if_pos hh]
    have hpe := LineIter.provision_eof ({ it with m_remaining := 0 } : LineIter) h heof
    have hst := LineIter.next_loop_stop fuel { it with m_remaining := 0 } h out rfl
      (by rw [hpe])
    rw [hpe] at hst
    exact ⟨_, hst⟩
  · intro hh
    rw [hat] at hh
    simp only [List.head?_cons, ne_eq, Option.some.injEq] at hh
    rw [if_neg hh]
    rfl

/-- Draining a new `LineIter` on a file `front ++ lr` that fits the buffer, `front` ending
with a separator and `lr` being a final run that no separator ends: the live records of
`front` are yielded, and `lr` is not. -/
theorem LineIter.drain_unterminated (buffer front lr out : List Nat) (ptr : Nat)
    (hfne : front ≠ []) (hfront : ∀ c, front.getLast? = some c → is_rec c = false)
    (hlne : lr ≠ []) (hlrec : ∀ c ∈ lr, is_rec c = true)
    (hfit : (front ++ lr).length ≤ buffer.length) (hlen : (front ++ lr).length < 2 ^ 32) :
    LineIter.drain ((front ++ lr).length + 1)
        (LineIter.init { data := front ++ lr, ptr := ptr } buffer).1
        (LineIter.init { data := front ++ lr, ptr := ptr } buffer).2 out
      = some ((records front).map (fun x => (LineIdImpl.of_offset x.1, x.2))) := by
  obtain ⟨res, hres, hpost⟩ :=
    LineIter.next_init_front buffer front lr out ptr hfne hfront hlne hlrec hfit hlen
  obtain ⟨_, _, _, i4, _, _, _⟩ := LineIter.init_whole { data := front ++ lr, ptr := ptr }
    buffer (by show front ++ lr ≠ []; simp [hfne]) hfit hlen
  have hD : (File.data { data := front ++ lr, ptr := ptr }) = front ++ lr := rfl
  rw [hD] at i4
  obtain ⟨id, out1, it1, h1⟩ := res
  rw [LineIter.drain, hres]
  dsimp only
  unfold records
  rcases hpost with ⟨hnull, hall⟩ |
    ⟨dead, q, r, hsplit, hdead, hlive, hid, hout, hW1, hd1, hpos1, hle⟩
  · dsimp only at hnull
    rw [List.drop_zero] at hall
    rw [hnull, to_bool_null, if_pos rfl, filter_live_of_dead _ hall]
    rfl
  · dsimp only at hid hout hW1 hd1 hpos1
    rw [List.drop_zero] at hsplit
    have hmem : (q, r) ∈ runs 0 front := by rw [hsplit]; simp
    have hne := runs_ne_nil _ _ _ hmem
    have hrl : 0 < r.length := List.length_pos.mpr hne
    rw [hid, to_bool_of_offset, if_neg (by simp),
      LineIter.drain_front buffer.length front lr hfne hfront hlne hlrec _ it1 h1 out1 hW1
        (by rw [hd1]; exact i4) (by rw [hpos1]; exact hle)
        (by rw [hpos1, List.length_append]; omega)]
    rw [hsplit, hpos1, List.filter_append, filter_live_of_dead _ hdead, List.nil_append,
      List.filter_cons_of_pos hlive, hout]
    rfl

/-- Draining a new `LineIter` on a file that is one run of record bytes and fits the
buffer: the run is yielded with offset 0, unless its first byte is the tombstone mark,
in which case nothing is yielded. -/
theorem LineIter.drain_single (buffer lr out : List Nat) (ptr : Nat)
    (hlne : lr ≠ []) (hlrec : ∀ c ∈ lr, is_rec c = true)
    (hfit : lr.length ≤ buffer.length) (hlen : lr.length < 2 ^ 32) :
    LineIter.drain (lr.length + 1)
        (LineIter.init { data := lr, ptr := ptr } buffer).1
        (LineIter.init { data := lr, ptr := ptr } buffer).2 out
      = some (if lr.head? = some 0x7C then [] else [(LineIdImpl.of_offset 0, lr)]) := by
  obtain ⟨i1, i2, i3, i4, i5, i6, i7⟩ := LineIter.init_whole { data := lr, ptr := ptr }
    buffer hlne hfit hlen
  have hD : (File.data { data := lr, ptr := ptr }) = lr := rfl
  rw [hD] at i4 i5 i6 i7
  have hl : 0 < lr.length := List.length_pos.mpr hlne
  obtain ⟨s1, s2⟩ := LineIter.next_loop_single buffer.length lr hlne hlrec
    (2 * (LineIter.init { data := lr, ptr := ptr } buffer).1.m_file_iter.m_remaining)
    _ _ out i3 i4 i5
  have hnext : ∀ res,
      LineIter.next_loop
        (2 * (LineIter.init { data := lr, ptr := ptr } buffer).1.m_file_iter.m_remaining + 2)
        ((LineIter.init { data := lr, ptr := ptr } buffer).1.provision
          (LineIter.init { data := lr, ptr := ptr } buffer).2).2.1
        ((LineIter.init { data := lr, ptr := ptr } buffer).1.provision
          (LineIter.init { data := lr, ptr := ptr } buffer).2).2.2 out = some res →
      (LineIter.init { data := lr, ptr := ptr } buffer).1.next
        (LineIter.init { data := lr, ptr := ptr } buffer).2 out = some res := by
    intro res hres
    unfold LineIter.next
    rw [i1, Nat.add_zero, LineIter.next_loop_refill _ _ _ out i1 i2 (by rw [i5]; omega)]
    exact hres
  rw [LineIter.drain]
  by_cases hh : lr.head? = some 0x7C
  · obtain ⟨it1, e1⟩ := s1 hh
    rw [hnext _ e1, if_pos hh]
    dsimp only
    rw [to_bool_null, if_pos rfl]
  · rw [hnext _ (s2 hh), if_neg hh]
    dsimp only
    rw [to_bool_of_offset, if_neg (by simp)]
    obtain ⟨m, hm⟩ : ∃ m, lr.length = m + 1 := ⟨lr.length - 1, by omega⟩
    rw [hm, LineIter.drain]
    have heof := i3.eof
    have hpe := LineIter.provision_eof
      ({ ((LineIter.init { data := lr, ptr := ptr } buffer).1.provision
          (LineIter.init { data := lr, ptr := ptr } buffer).2).2.1 with
        m_remaining := 0 } : LineIter)
      ((LineIter.init { data := lr, ptr := ptr } buffer).1.provision
          (LineIter.init { data := lr, ptr := ptr } buffer).2).2.2 heof
    have hst := LineIter.next_loop_stop
      (2 * ((LineIter.init { data := lr, ptr := ptr } buffer).1.provision
          (LineIter.init { data := lr, ptr := ptr } buffer).2).2.1.m_file_iter.m_remaining
        + 0 + 1)
      ({ ((LineIter.init { data := lr, ptr := ptr } buffer).1.provision
          (LineIter.init { data := lr, ptr := ptr } buffer).2).2.1 with
        m_remaining := 0 } : LineIter)
      ((LineIter.init { data := lr, ptr := ptr } buffer).1.provision
          (LineIter.init { data := lr, ptr := ptr } buffer).2).2.2 lr rfl (by rw [hpe])
    have hn2 : LineIter.next
        ({ ((LineIter.init { data := lr, ptr := ptr } buffer).1.provision
          (LineIter.init { data := lr, ptr := ptr } buffer).2).2.1 with
          m_remaining := 0 } : LineIter)
        ((LineIter.init { data := lr, ptr := ptr } buffer).1.provision
          (LineIter.init { data := lr, ptr := ptr } buffer).2).2.2 lr = _ := hst
    rw [hn2]
    dsimp only
    rw [to_bool_null, if_pos rfl]
    rfl

/-- Claim C31, amended: take a bank content `front ++ lr` no longer than the buffer (and
shorter than 2^32 bytes) whose final run `lr` of bytes above `0x1f` is not empty. When at
least one byte of at most `0x1f` comes before the final run - `front` is not empty and
ends with such a byte -, repeated `LineIter::next` reaches the null id having yielded
exactly the live records of `front`, each inside `front`, and never the final run. When
the bank is the single run `lr`, the run is yielded, with offset 0, unless its first
byte is the tombstone mark `|`, in which case nothing is yielded. -/
theorem C31_unterminated_final_record (buffer front lr out : List Nat) (ptr : Nat)
    (hfront : ∀ c, front.getLast? = some c → is_rec c = false)
    (hlne : lr ≠ []) (hlrec : ∀ c ∈ lr, is_rec c = true)
    (hfit : (front ++ lr).length ≤ buffer.length) (hlen : (front ++ lr).length < 2 ^ 32) :
    (front ≠ [] →
      LineIter.drain ((front ++ lr).length + 1)
          (LineIter.init { data := front ++ lr, ptr := ptr } buffer).1
          (LineIter.init { data := front ++ lr, ptr := ptr } buffer).2 out
        = some ((records front).map (fun x => (LineIdImpl.of_offset x.1, x.2))) ∧
      ∀ x ∈ records front, x.1 + x.2.length ≤ front.length) ∧
    (front = [] →
      LineIter.drain ((front ++ lr).length + 1)
          (LineIter.init { data := front ++ lr, ptr := ptr } buffer).1
          (LineIter.init { data := front ++ lr, ptr := ptr } buffer).2 out
        = some (if lr.head? = some 0x7C then [] else [(LineIdImpl.of_offset 0, lr)])) := by
  refine ⟨fun hfne => ⟨LineIter.drain_unterminated buffer front lr out ptr hfne hfront hlne
    hlrec hfit hlen, ?_⟩, ?_⟩
  · intro x hx
    unfold records at hx
    have := (runs_bounds 0 front x (List.mem_of_mem_filter hx)).2.1
    omega
  · intro h0
    subst h0
    rw [List.nil_append] at hfit hlen ⊢
    exact LineIter.drain_single buffer lr out ptr hlne hlrec hfit hlen

/-- The witness of claim C31: the bank `ab\ncd` in a buffer of eight bytes yields `ab`
alone. -/
theorem C31_unterminated_final_record_witness :
    LineIter.drain 6
        (LineIter.init { data := [97, 98, 10, 99, 100], ptr := 0 } [0, 0, 0, 0, 0, 0, 0, 0]).1
        (LineIter.init { data := [97, 98, 10, 99, 100], ptr := 0 } [0, 0, 0, 0, 0, 0, 0, 0]).2
        []
      = some [(LineIdImpl.of_offset 0, [97, 98])] ∧
    LineIter.drain 4
        (LineIter.init { data := [97, 98, 99], ptr := 0 } [0, 0, 0, 0, 0, 0, 0, 0]).1
        (LineIter.init { data := [97, 98, 99], ptr := 0 } [0, 0, 0, 0, 0, 0, 0, 0]).2 []
      = some [(LineIdImpl.of_offset 0, [97, 98, 99])] :=
  ⟨((C31_unterminated_final_record [0, 0, 0, 0, 0, 0, 0, 0] [97, 98, 10] [99, 100] [] 0
      (by intro c hc; simp at hc; rw [← hc]; decide) (by decide) (by decide) (by decide)
      (by decide)).1 (by decide)).1,
    (C31_unterminated_final_record [0, 0, 0, 0, 0, 0, 0, 0] [] [97, 98, 99] [] 0
      (by intro c hc; simp at hc) (by decide) (by decide) (by decide) (by decide)).2 rfl⟩

/-- C31 as stated fails for a bank that is a single run starting with `|`: the bank
`|bc`, three bytes above `0x1f` and no separator, in a buffer of eight bytes yields
nothing - the run is skipped as a tombstone. -/
theorem C31_counterexample :
    (∀ c ∈ [124, 98, 99], is_rec c = true) ∧
    LineIter.drain 4
        (LineIter.init { data := [124, 98, 99], ptr := 0 } [0, 0, 0, 0, 0, 0, 0, 0]).1
        (LineIter.init { data := [124, 98, 99], ptr := 0 } [0, 0, 0, 0, 0, 0, 0, 0]).2 []
      = some [] := by
  decide

end Clink
